import Mathlib

/-!
# Red-black tree (`rb_tree.c`): shallow embedding and verified properties

The C program keeps heap nodes `struct Node { value, parent, left, right, color }`
and a tree handle `struct rb_tree { root, comparison_func }`.

Embedding used here:

* a `Node *` is a value of the inductive type `Node V`: `NULL`, or a node with its
  colour, left subtree, value and right subtree;
* the `parent` link of a node is represented by the position of the node: a pointer
  into the tree (the `culprit` of the two fixup loops, `delete_me`, `y`, ...) is a
  pair of the subtree rooted at the node and the list of `Frame`s leading from the
  node's parent up to the root (a zipper).  `culprit == tree->root` is "the list of
  frames is empty"; `culprit == culprit->parent->left` is "the first frame has side
  `L`";
* dereferencing `NULL` is undefined behaviour in C (a crash in practice); every
  function that can do so returns `Option`, with `none` for that failure;
* the comparison function returns a C `int`; it is a function `V → V → Int`;
* the two rotations, the only functions that rewrite `parent`, `left` and `right`
  links of existing nodes, are embedded a second time on memory (`Heap`: the nodes by
  address with their five fields, and `tree->root`), statement by statement
  (`rb_rotate_left_mem`, `rb_rotate_right_mem`).  `Rep` says that memory holds a given
  tree, and `rb_rotate_left_mem_refines`, `rb_rotate_right_mem_refines` show that the
  pointer code implements the rotations on trees used everywhere else;
* for the `parent` links, `rb_insert_value` and `rb_delete_value` are embedded on memory
  as well, as programs in the monad `StateT (Heap V) Option` whose steps are the reads
  and writes of the C statements (`rb_insert_value_mem`, `rb_delete_value_mem`, and one
  definition per function they call).  Loops and recursion take a `fuel` bound; a run
  that reads through `NULL`, reads a freed node or runs out of fuel is `none`.
  `holds_tree` says that memory holds a tree with consistent `parent` links and nothing
  else.
-/

namespace RedBlack

/-! ## Definitions -/

/-- The two values of the `color` field: `#define RED 'r'`, `#define BLACK 'b'`. -/
inductive Color where
  | RED
  | BLACK
  deriving DecidableEq, Repr

open Color

/-- A `Node *`: `NULL`, or a node with `color`, `left`, `value`, `right`. -/
inductive Node (V : Type) where
  | NULL : Node V
  | mk (color : Color) (left : Node V) (value : V) (right : Node V) : Node V
  deriving DecidableEq, Repr

open Node

/-- Which child slot of its parent a node occupies. -/
inductive Side where
  | L
  | R
  deriving DecidableEq, Repr

open Side

/-- One `parent` link seen from below: the parent's colour and value, the parent's
other child, and the side on which the node below hangs. -/
structure Frame (V : Type) where
  side : Side
  color : Color
  value : V
  sibling : Node V
  deriving DecidableEq, Repr

/-- The parent node described by frame `f`, with `t` in the slot the frame leaves
open. -/
def attach {V : Type} (f : Frame V) (t : Node V) : Node V :=
  match f.side with
  | L => mk f.color t f.value f.sibling
  | R => mk f.color f.sibling f.value t

/-- The whole tree (`tree->root`) seen from a pointer: the subtree `t` placed under
the chain of parents `up` (nearest parent first, root last). -/
def plug {V : Type} (t : Node V) : List (Frame V) → Node V
  | [] => t
  | f :: up => plug (attach f t) up

/-- The handle `struct rb_tree`. -/
structure rb_tree (V : Type) where
  root : Node V
  comparison_func : V → V → Int

/-- Model of `rb_new`: an empty tree holding the comparison function. -/
def rb_new {V : Type} (comparison_func : V → V → Int) : rb_tree V :=
  { root := NULL, comparison_func := comparison_func }

/-- Model of `rb_tree_is_empty`. -/
def rb_tree_is_empty {V : Type} (tree : rb_tree V) : Bool :=
  match tree.root with
  | NULL => true
  | mk _ _ _ _ => false

/-- Test `n == NULL`. -/
def Node.isNULL {V : Type} : Node V → Bool
  | NULL => true
  | mk _ _ _ _ => false

/-- Model of `rb_rotate_left(tree, n)` on the subtree rooted at `n`: the result is the subtree
that now hangs in `n`'s former slot.  `right_child->left` is read first, so a missing
right child is a failure. -/
def rb_rotate_left {V : Type} : Node V → Option (Node V)
  | mk c l v (mk rc rl rv rr) => some (mk rc (mk c l v rl) rv rr)
  | _ => none

/-- Model of `rb_rotate_right(tree, n)` on the subtree rooted at `n`. -/
def rb_rotate_right {V : Type} : Node V → Option (Node V)
  | mk c (mk lc ll lv lr) v r => some (mk lc ll lv (mk c lr v r))
  | _ => none

/-- Model of `rb_construct_node`: a red node without children. -/
def rb_construct_node {V : Type} (value : V) : Node V :=
  mk RED NULL value NULL

/-- Model of `private_rb_insert_value(root, new_node, comparison_func)`: the ordered descent
that links `new_node` below a leaf.  The C function returns the (unchanged) root
pointer; here the result is the pointer to `new_node` inside the updated tree: the
new node and its chain of parents.  `up` is the chain above `root`. -/
def private_rb_insert_value {V : Type} (comparison_func : V → V → Int) (value : V) :
    Node V → List (Frame V) → Node V × List (Frame V)
  | NULL, up => (rb_construct_node value, up)
  | mk c l x r, up =>
    if comparison_func value x < 0 then
      private_rb_insert_value comparison_func value l (⟨L, c, x, r⟩ :: up)
    else
      private_rb_insert_value comparison_func value r (⟨R, c, x, l⟩ :: up)

/-- Model of `tree->root->color = BLACK`. -/
def blacken_root {V : Type} : Node V → Option (Node V)
  | NULL => none
  | mk _ l v r => some (mk BLACK l v r)

/-- The three statements `temp = parent_node->color; parent_node->color =
grand_parent_node->color; grand_parent_node->color = temp`, where `parent_node` is
the root of the given subtree and `grand_parent_node` is its right child. -/
def swap_color_with_right {V : Type} : Node V → Option (Node V)
  | mk pc a pv (mk gc b gv c) => some (mk gc a pv (mk pc b gv c))
  | _ => none

/-- The same colour swap when `grand_parent_node` is the left child of
`parent_node`. -/
def swap_color_with_left {V : Type} : Node V → Option (Node V)
  | mk pc (mk gc a gv b) pv c => some (mk gc (mk pc a gv b) pv c)
  | _ => none

/-- The `while` loop of `fix_insertion_violation`, from the pointer `culprit`
(subtree and chain of parents); the result is the pointer held by `culprit` when the
loop is left.  Every iteration that continues does so two parents further up, which
is what the recursion follows. -/
def fix_insertion_loop {V : Type} : Node V → List (Frame V) → Option (Node V × List (Frame V))
  | NULL, _ => none
  | mk BLACK l v r, up => some (mk BLACK l v r, up)
  | mk RED l v r, [] => some (mk RED l v r, [])
  | mk RED l v r, [p] =>
    match p.color with
    | BLACK => some (mk RED l v r, [p])
    | RED => none
  | mk RED l v r, p :: g :: up =>
    match p.color with
    | BLACK => some (mk RED l v r, p :: g :: up)
    | RED =>
      match g.side with
      | L =>
        match g.sibling with
        | mk RED ul uv ur =>
          fix_insertion_loop
            (mk RED (attach { p with color := BLACK } (mk RED l v r)) g.value (mk BLACK ul uv ur)) up
        | uncle =>
          let parent_subtree :=
            match p.side with
            | R => rb_rotate_left (attach p (mk RED l v r))
            | L => some (attach p (mk RED l v r))
          match parent_subtree with
          | none => none
          | some ps =>
            match rb_rotate_right (mk g.color ps g.value uncle) with
            | none => none
            | some top =>
              match swap_color_with_right top with
              | none => none
              | some top2 => fix_insertion_loop top2 up
      | R =>
        match g.sibling with
        | mk RED ul uv ur =>
          fix_insertion_loop
            (mk RED (mk BLACK ul uv ur) g.value (attach { p with color := BLACK } (mk RED l v r))) up
        | uncle =>
          let parent_subtree :=
            match p.side with
            | L => rb_rotate_right (attach p (mk RED l v r))
            | R => some (attach p (mk RED l v r))
          match parent_subtree with
          | none => none
          | some ps =>
            match rb_rotate_left (mk g.color uncle g.value ps) with
            | none => none
            | some top =>
              match swap_color_with_left top with
              | none => none
              | some top2 => fix_insertion_loop top2 up

/-- Model of `fix_insertion_violation(tree, culprit)`: the loop, then the root is coloured
black.  The result is the new `tree->root`. -/
def fix_insertion_violation {V : Type} (culprit : Node V) (up : List (Frame V)) :
    Option (Node V) :=
  match fix_insertion_loop culprit up with
  | none => none
  | some (c, up2) => blacken_root (plug c up2)

/-- Model of `rb_insert_value(tree, value)`. -/
def rb_insert_value {V : Type} (tree : rb_tree V) (value : V) : Option (rb_tree V) :=
  let new_node := private_rb_insert_value tree.comparison_func value tree.root []
  match fix_insertion_violation new_node.1 new_node.2 with
  | none => none
  | some root => some { tree with root := root }

/-- Model of `private_rb_find_in_tree`: the iterative descent by comparison.  The result is the
pointer `curr` at loop exit: the first node whose value compares equal to `value`, or
`NULL`, together with its chain of parents. -/
def private_rb_find_in_tree {V : Type} (comparison_func : V → V → Int) (value : V) :
    Node V → List (Frame V) → Node V × List (Frame V)
  | NULL, up => (NULL, up)
  | mk c l x r, up =>
    if comparison_func value x = 0 then
      (mk c l x r, up)
    else if comparison_func value x < 0 then
      private_rb_find_in_tree comparison_func value l (⟨L, c, x, r⟩ :: up)
    else
      private_rb_find_in_tree comparison_func value r (⟨R, c, x, l⟩ :: up)

/-- Model of `rb_search(tree, value)`: the stored value of the node found, `none` for the C
result `NULL`. -/
def rb_search {V : Type} (tree : rb_tree V) (value : V) : Option V :=
  match (private_rb_find_in_tree tree.comparison_func value tree.root []).1 with
  | NULL => none
  | mk _ _ x _ => some x

/-- Model of `private_subrb_tree_minimum(curr_node)`: follow `left` links while they are not
`NULL`; the result is the pointer reached.  `curr_node->left` is read at once, so a
`NULL` argument is a failure. -/
def private_subrb_tree_minimum {V : Type} :
    Node V → List (Frame V) → Option (Node V × List (Frame V))
  | NULL, _ => none
  | mk c NULL x r, up => some (mk c NULL x r, up)
  | mk c (mk lc ll lx lr) x r, up =>
    private_subrb_tree_minimum (mk lc ll lx lr) (⟨L, c, x, r⟩ :: up)

/-- Model of `private_subrb_tree_maximum(curr_node)`: follow `right` links. -/
def private_subrb_tree_maximum {V : Type} :
    Node V → List (Frame V) → Option (Node V × List (Frame V))
  | NULL, _ => none
  | mk c l x NULL, up => some (mk c l x NULL, up)
  | mk c l x (mk rc rl rx rr), up =>
    private_subrb_tree_maximum (mk rc rl rx rr) (⟨R, c, x, l⟩ :: up)

/-- Model of `private_rb_find_successor(n)`: the minimum of `n->right`, as a pointer relative to
the slot of `n->right`. -/
def private_rb_find_successor {V : Type} : Node V → Option (Node V × List (Frame V))
  | NULL => none
  | mk _ _ _ r => private_subrb_tree_minimum r []

/-- Model of `culprit->color = BLACK`. -/
def set_black {V : Type} : Node V → Option (Node V)
  | NULL => none
  | mk _ l v r => some (mk BLACK l v r)

/-- The part of the loop body of `rb_delete_fixup` that follows the red-sibling test,
for a culprit that is the left child of its parent: `x` is the culprit, `pc`, `pv` the
parent's colour and value, `s` the sibling (`culprit->parent->right`), `up` the chain
above the parent.  Both `sibling->left->color` and `sibling->right->color` are read on
every route through it.  The result is the pointer held by `culprit` at the end of the
iteration. -/
def delete_fixup_left {V : Type} (x : Node V) (pc : Color) (pv : V) (s : Node V)
    (up : List (Frame V)) : Option (Node V × List (Frame V)) :=
  match s with
  | NULL => none
  | mk _ NULL _ _ => none
  | mk _ (mk _ _ _ _) _ NULL => none
  | mk sc (mk slc sll slv slr) sv (mk src srl srv srr) =>
    if slc = BLACK ∧ src = BLACK then
      some (mk pc x pv (mk RED (mk slc sll slv slr) sv (mk src srl srv srr)), up)
    else
      let sibling :=
        if src = BLACK then
          rb_rotate_right (mk RED (mk BLACK sll slv slr) sv (mk src srl srv srr))
        else
          some (mk sc (mk slc sll slv slr) sv (mk src srl srv srr))
      match sibling with
      | some (mk _ a v (mk _ rl rv rr)) =>
        match rb_rotate_left (mk BLACK x pv (mk pc a v (mk BLACK rl rv rr))) with
        | none => none
        | some top => some (plug top up, [])
      | _ => none

/-- The mirror part of the loop body, for a culprit that is the right child of its
parent; `s` is `culprit->parent->left`. -/
def delete_fixup_right {V : Type} (x : Node V) (pc : Color) (pv : V) (s : Node V)
    (up : List (Frame V)) : Option (Node V × List (Frame V)) :=
  match s with
  | NULL => none
  | mk _ _ _ NULL => none
  | mk _ NULL _ (mk _ _ _ _) => none
  | mk sc (mk slc sll slv slr) sv (mk src srl srv srr) =>
    if src = BLACK ∧ slc = BLACK then
      some (mk pc (mk RED (mk slc sll slv slr) sv (mk src srl srv srr)) pv x, up)
    else
      let sibling :=
        if slc = BLACK then
          rb_rotate_left (mk RED (mk slc sll slv slr) sv (mk BLACK srl srv srr))
        else
          some (mk sc (mk slc sll slv slr) sv (mk src srl srv srr))
      match sibling with
      | some (mk _ (mk _ ll lv lr) v b) =>
        match rb_rotate_right (mk BLACK (mk pc (mk BLACK ll lv lr) v b) pv x) with
        | none => none
        | some top => some (plug top up, [])
      | _ => none

/-- One iteration of the `while` loop of `rb_delete_fixup`, entered with a black
culprit `mk BLACK xl xv xr` that is not the root (`p` is its parent's frame).

In the branch for a right child the code answers a red sibling with
`rb_rotate_left(tree, culprit->parent)`: the culprit itself is promoted into its
parent's slot, the parent becomes the culprit's left child, and
`sibling = culprit->parent->left` is then read from the former grandparent `g`.
When the culprit now is `g`'s left child, that sibling is the culprit itself. -/
def rb_delete_fixup_step {V : Type} (xl : Node V) (xv : V) (xr : Node V) (p : Frame V)
    (up : List (Frame V)) : Option (Node V × List (Frame V)) :=
  match p.side with
  | L =>
    match p.sibling with
    | NULL => none
    | mk RED sl sv sr =>
      match rb_rotate_left (mk RED (mk BLACK xl xv xr) p.value (mk BLACK sl sv sr)) with
      | some (mk tc (mk c2 x2 v2 s2) tv tr) =>
        delete_fixup_left x2 c2 v2 s2 (⟨L, tc, tv, tr⟩ :: up)
      | _ => none
    | mk BLACK sl sv sr =>
      delete_fixup_left (mk BLACK xl xv xr) p.color p.value (mk BLACK sl sv sr) up
  | R =>
    match p.sibling with
    | NULL => none
    | mk RED sl sv sr =>
      match rb_rotate_left (mk RED (mk BLACK sl sv sr) p.value (mk BLACK xl xv xr)) with
      | none => none
      | some culprit =>
        match up with
        | [] => none
        | g :: up2 =>
          match g.side with
          | R => delete_fixup_right culprit g.color g.value g.sibling up2
          | L =>
            match culprit with
            | mk _ (mk _ a b c) v (mk rc rl rv rr) =>
              match rb_rotate_right
                  (mk BLACK (mk g.color (mk BLACK a b c) v (mk rc rl rv rr)) g.value g.sibling) with
              | none => none
              | some top => some (plug top up2, [])
            | _ => none
    | mk BLACK sl sv sr =>
      delete_fixup_right (mk BLACK xl xv xr) p.color p.value (mk BLACK sl sv sr) up

/-- The `while (culprit != tree->root && culprit->color == BLACK)` loop of
`rb_delete_fixup`, with a bound on the number of iterations; the result is the
pointer held by `culprit` when the loop is left. -/
def rb_delete_fixup_loop {V : Type} :
    Nat → Node V → List (Frame V) → Option (Node V × List (Frame V))
  | _, NULL, _ => none
  | _, mk c l v r, [] => some (mk c l v r, [])
  | _, mk RED l v r, p :: up => some (mk RED l v r, p :: up)
  | 0, mk BLACK _ _ _, _ :: _ => none
  | fuel + 1, mk BLACK l v r, p :: up =>
    match rb_delete_fixup_step l v r p up with
    | none => none
    | some (c, up2) => rb_delete_fixup_loop fuel c up2

/-- Model of `rb_delete_fixup(tree, culprit)`: nothing is done for a `NULL` culprit; otherwise
the loop runs and the final culprit is coloured black.  The result is the new
`tree->root`.  The loop needs at most one iteration per parent above the culprit, and
one more. -/
def rb_delete_fixup {V : Type} (culprit : Node V) (up : List (Frame V)) : Option (Node V) :=
  match culprit with
  | NULL => some (plug NULL up)
  | mk c l v r =>
    match rb_delete_fixup_loop (up.length + 1) (mk c l v r) up with
    | none => none
    | some (c2, up2) =>
      match set_black c2 with
      | none => none
      | some c3 => some (plug c3 up2)

/-- The end of `rb_delete_value`: `x` (`subtree_of_deleted`) hangs in the vacated
slot; the fixup runs when the colour removed was black. -/
def rb_delete_finish {V : Type} (y_original_color : Color) (x : Node V)
    (up : List (Frame V)) : Option (Node V) :=
  match y_original_color with
  | BLACK => rb_delete_fixup x up
  | RED => some (plug x up)

/-- Model of `rb_delete_value(tree, value)` on the root pointer.  With two children, `y` (the
minimum of the right subtree) takes the place, the left subtree and the colour of
`delete_me`, and `x = y->right` takes the place of `y`. -/
def rb_delete_root {V : Type} (comparison_func : V → V → Int) (value : V) (root : Node V) :
    Option (Node V) :=
  match private_rb_find_in_tree comparison_func value root [] with
  | (NULL, _) => some root
  | (mk dc NULL _ dr, up) => rb_delete_finish dc dr up
  | (mk dc (mk lc ll lv lr) _ NULL, up) => rb_delete_finish dc (mk lc ll lv lr) up
  | (mk dc (mk lc ll lv lr) dv (mk rc rl rv rr), up) =>
    match private_rb_find_successor (mk dc (mk lc ll lv lr) dv (mk rc rl rv rr)) with
    | some (mk yc _ yv yr, yup) =>
      match yup, yr with
      | [], mk xc xl xv xr =>
        rb_delete_finish yc (mk xc xl xv xr) (⟨R, dc, yv, mk lc ll lv lr⟩ :: up)
      | _, _ =>
        rb_delete_finish yc yr (yup ++ ⟨R, dc, yv, mk lc ll lv lr⟩ :: up)
    | _ => none

/-- Model of `rb_delete_value(tree, value)`. -/
def rb_delete_value {V : Type} (tree : rb_tree V) (value : V) : Option (rb_tree V) :=
  match rb_delete_root tree.comparison_func value tree.root with
  | none => none
  | some root => some { tree with root := root }

/-- Model of `rb_private_inorder_map(root, depth, func_to_apply, cl)`: the list of calls
`func_to_apply(value, depth, cl)` made, in order.  `root->left` is read at once, so a
`NULL` root is a failure. -/
def rb_private_inorder_map {V : Type} : Node V → Nat → Option (List (V × Nat))
  | NULL, _ => none
  | mk _ l v r, depth =>
    let before := if l.isNULL then some [] else rb_private_inorder_map l (depth + 1)
    let after := if r.isNULL then some [] else rb_private_inorder_map r (depth + 1)
    match before, after with
    | some a, some b => some (a ++ (v, depth) :: b)
    | _, _ => none

/-- Model of `rb_map_inorder(tree, func_to_apply, cl)`. -/
def rb_map_inorder {V : Type} (tree : rb_tree V) : Option (List (V × Nat)) :=
  rb_private_inorder_map tree.root 0

/-- The comparison function of the test suite, `integer_comparison`. -/
def integer_comparison (val_one val_two : Int) : Int :=
  if val_one = val_two then 0 else if val_one > val_two then 1 else -1

/-- A sequence of `rb_insert_value` calls, in list order. -/
def insert_all {V : Type} : rb_tree V → List V → Option (rb_tree V)
  | tree, [] => some tree
  | tree, v :: vs =>
    match rb_insert_value tree v with
    | none => none
    | some t => insert_all t vs

/-- The values of a subtree in inorder (left subtree, node, right subtree). -/
def values {V : Type} : Node V → List V
  | NULL => []
  | mk _ l x r => values l ++ x :: values r

/-- The node is present and red. -/
def is_red {V : Type} : Node V → Bool
  | mk RED _ _ _ => true
  | _ => false

/-- The root, if any, is black. -/
def root_black {V : Type} : Node V → Bool
  | mk RED _ _ _ => false
  | _ => true

/-- No red node has a red child. -/
def no_red_red {V : Type} : Node V → Bool
  | NULL => true
  | mk BLACK l _ r => no_red_red l && no_red_red r
  | mk RED l _ r => !is_red l && !is_red r && no_red_red l && no_red_red r

/-- The number of black nodes on each path from the root of the subtree to a `NULL`
position, one entry per path, left to right. -/
def black_counts {V : Type} : Node V → List Nat
  | NULL => [0]
  | mk BLACK l _ r => (black_counts l ++ black_counts r).map (· + 1)
  | mk RED l _ r => black_counts l ++ black_counts r

/-- Every path from the root to a `NULL` position has the same number of black
nodes. -/
def same_black_count {V : Type} (t : Node V) : Prop :=
  ∀ a ∈ black_counts t, ∀ b ∈ black_counts t, a = b

instance {V : Type} (t : Node V) : Decidable (same_black_count t) := by
  unfold same_black_count; infer_instance

/-- The colour invariants of a red-black tree: the root is black, no red node has a
red child, and all root-to-`NULL` paths hold the same number of black nodes. -/
def rb_invariants {V : Type} (t : Node V) : Prop :=
  root_black t = true ∧ no_red_red t = true ∧ same_black_count t

instance {V : Type} (t : Node V) : Decidable (rb_invariants t) := by
  unfold rb_invariants; infer_instance

/-- Every path from the root of the subtree to a `NULL` position holds exactly `n`
black nodes. -/
def Bal {V : Type} : Node V → Nat → Prop
  | NULL, n => n = 0
  | mk RED l _ r, n => Bal l n ∧ Bal r n
  | mk BLACK _ _ _, 0 => False
  | mk BLACK l _ r, n + 1 => Bal l n ∧ Bal r n

/-- The number of black nodes a frame adds to the paths through it. -/
def Frame.weight {V : Type} (f : Frame V) : Nat :=
  match f.color with
  | BLACK => 1
  | RED => 0

/-- Balance of a chain of parents: the subtrees hanging off the chain are balanced so
that a subtree with `n` black nodes per path, put in the open slot, gives a whole tree
with `n0` black nodes per path. -/
def PathBal {V : Type} : List (Frame V) → Nat → Nat → Prop
  | [], n, n0 => n = n0
  | f :: up, n, n0 => Bal f.sibling n ∧ PathBal up (n + f.weight) n0

/-- Red-red freedom of a chain of parents around a subtree whose root has colour `c`
(`BLACK` also stands for `NULL`). -/
def PathRR {V : Type} : List (Frame V) → Color → Prop
  | [], _ => True
  | f :: up, c =>
    no_red_red f.sibling = true ∧ (f.color = RED → c = BLACK ∧ is_red f.sibling = false) ∧
      PathRR up f.color

/-- The last frame of the chain, the root, is black. -/
def PathRootBlack {V : Type} : List (Frame V) → Prop
  | [] => True
  | [f] => f.color = BLACK
  | _ :: g :: up => PathRootBlack (g :: up)

/-- The colour of the root of a subtree, `BLACK` for `NULL`. -/
def color_of {V : Type} : Node V → Color
  | mk RED _ _ _ => RED
  | _ => BLACK

/-- The values left of the open slot of a chain of parents, in inorder. -/
def left_of {V : Type} : List (Frame V) → List V
  | [] => []
  | f :: up =>
    match f.side with
    | L => left_of up
    | R => left_of up ++ (values f.sibling ++ [f.value])

/-- The values right of the open slot of a chain of parents, in inorder. -/
def right_of {V : Type} : List (Frame V) → List V
  | [] => []
  | f :: up =>
    match f.side with
    | L => (f.value :: values f.sibling) ++ right_of up
    | R => right_of up

/-- Red-red freedom of a chain of parents around a red node: as `PathRR`, except that
the nearest parent may itself be red. -/
def PathRR1 {V : Type} : List (Frame V) → Prop
  | [] => True
  | f :: up =>
    no_red_red f.sibling = true ∧ (f.color = RED → is_red f.sibling = false) ∧
      PathRR up f.color

/-- The subtree that replaces the grandparent after one iteration of the insertion
loop with a red parent: recolouring when the uncle `u` is red, rotations and the
colour swap otherwise. -/
def insertion_case {V : Type} (x : Node V) (ps : Side) (pv : V) (psib : Node V) (gs : Side)
    (gc : Color) (gv : V) (u : Node V) : Node V :=
  match u, gs, ps, x with
  | mk RED ul uv ur, L, _, x => mk RED (attach ⟨ps, BLACK, pv, psib⟩ x) gv (mk BLACK ul uv ur)
  | mk RED ul uv ur, R, _, x => mk RED (mk BLACK ul uv ur) gv (attach ⟨ps, BLACK, pv, psib⟩ x)
  | u, L, L, x => mk gc x pv (mk RED psib gv u)
  | u, L, R, mk _ xl xv xr => mk gc (mk RED psib pv xl) xv (mk RED xr gv u)
  | u, R, R, x => mk gc (mk RED u gv psib) pv x
  | u, R, L, mk _ xl xv xr => mk gc (mk RED u gv xl) xv (mk RED xr pv psib)
  | _, _, _, NULL => NULL

/-- The contract of the comparison function: it is consistent (the sign of
`cmp a b` is opposite to the sign of `cmp b a`) and "at or before" is transitive. -/
structure TotalOrder {V : Type} (cmp : V → V → Int) : Prop where
  antisymm : ∀ a b, cmp a b < 0 ↔ 0 < cmp b a
  trans : ∀ a b c, cmp a b ≤ 0 → cmp b c ≤ 0 → cmp a c ≤ 0

/-- A sequence of values is in non-decreasing comparator order: every element orders
at or before every later element. -/
def Nondecreasing {V : Type} (cmp : V → V → Int) (xs : List V) : Prop :=
  xs.Pairwise (fun a b => cmp a b ≤ 0)

instance {V : Type} (cmp : V → V → Int) (xs : List V) : Decidable (Nondecreasing cmp xs) := by
  unfold Nondecreasing; infer_instance

/-- The search-tree property as the specification words it: for every node, all
values in its left subtree order strictly before the node's value and all values in
its right subtree order at or after it. -/
def bst_property {V : Type} (cmp : V → V → Int) : Node V → Bool
  | NULL => true
  | mk _ l x r =>
    (values l).all (fun a => decide (cmp a x < 0)) && (values r).all (fun b => decide (0 ≤ cmp b x))
      && bst_property cmp l && bst_property cmp r

/-- The search-tree property with ties allowed on both sides: for every node, all
values in its left subtree order at or before the node's value and all values in its
right subtree order at or after it. -/
def bst_property_weak {V : Type} (cmp : V → V → Int) : Node V → Bool
  | NULL => true
  | mk _ l x r =>
    (values l).all (fun a => decide (cmp a x ≤ 0)) && (values r).all (fun b => decide (0 ≤ cmp b x))
      && bst_property_weak cmp l && bst_property_weak cmp r

/-- One call of the mutating interface. -/
inductive Op (V : Type) where
  | insert (value : V) : Op V
  | delete (value : V) : Op V
  deriving DecidableEq, Repr

/-- A sequence of `rb_insert_value` and `rb_delete_value` calls, in list order; `none`
when one of the calls fails. -/
def run_ops {V : Type} : rb_tree V → List (Op V) → Option (rb_tree V)
  | tree, [] => some tree
  | tree, Op.insert v :: ops =>
    match rb_insert_value tree v with
    | none => none
    | some t => run_ops t ops
  | tree, Op.delete v :: ops =>
    match rb_delete_value tree v with
    | none => none
    | some t => run_ops t ops

/-- Model of the `while` loop of `private_rb_successor_of_value`: `curr_node` walks
down from the root, `successor` is the last node at which the walk turned left; the
result is the pointer `successor` at loop exit. -/
def successor_loop {V : Type} (comparison_func : V → V → Int) (value : V) :
    Node V → Node V → Node V
  | NULL, successor => successor
  | mk c l x r, successor =>
    if comparison_func value x < 0 then
      successor_loop comparison_func value l (mk c l x r)
    else
      successor_loop comparison_func value r successor

/-- Model of `private_rb_successor_of_value(tree, value, comparison_func)`: the value
of the node found, `none` for the C result `NULL`. -/
def private_rb_successor_of_value {V : Type} (tree : rb_tree V) (value : V)
    (comparison_func : V → V → Int) : Option V :=
  match successor_loop comparison_func value tree.root NULL with
  | NULL => none
  | mk _ _ x _ => some x

/-- Model of `rb_successor_of_value(tree, value)`. -/
def rb_successor_of_value {V : Type} (tree : rb_tree V) (value : V) : Option V :=
  private_rb_successor_of_value tree value tree.comparison_func

/-- Model of the `while` loop of `private_rb_predecessor_of_value`: the variable the
code calls `successor` is the last node at which the walk turned right. -/
def predecessor_loop {V : Type} (comparison_func : V → V → Int) (value : V) :
    Node V → Node V → Node V
  | NULL, successor => successor
  | mk c l x r, successor =>
    if comparison_func value x > 0 then
      predecessor_loop comparison_func value r (mk c l x r)
    else
      predecessor_loop comparison_func value l successor

/-- Model of `private_rb_predecessor_of_value(tree, value, comparison_func)`: the
value of the node found, `none` for the C result `NULL`. -/
def private_rb_predecessor_of_value {V : Type} (tree : rb_tree V) (value : V)
    (comparison_func : V → V → Int) : Option V :=
  match predecessor_loop comparison_func value tree.root NULL with
  | NULL => none
  | mk _ _ x _ => some x

/-- Model of `rb_predecessor_of_value(tree, value)`. -/
def rb_predecessor_of_value {V : Type} (tree : rb_tree V) (value : V) : Option V :=
  private_rb_predecessor_of_value tree value tree.comparison_func

/-- Model of `rb_tree_minimum(tree)`: `result->value` for the node returned by
`private_subrb_tree_minimum(tree->root)`.  The function has no route that returns
`NULL`; `none` is the failure of the dereference `curr_node->left` (or of
`result->value`) on a `NULL` pointer. -/
def rb_tree_minimum {V : Type} (tree : rb_tree V) : Option V :=
  match private_subrb_tree_minimum tree.root [] with
  | some (mk _ _ x _, _) => some x
  | _ => none

/-- Model of `rb_tree_maximum(tree)`: `result->value` for the node returned by
`private_subrb_tree_maximum(tree->root)`; `none` is the failure of the dereference
`curr_node->right` (or of `result->value`) on a `NULL` pointer. -/
def rb_tree_maximum {V : Type} (tree : rb_tree V) : Option V :=
  match private_subrb_tree_maximum tree.root [] with
  | some (mk _ _ x _, _) => some x
  | _ => none

/-- Model of `rb_private_preorder_map(root, depth, func_to_apply, cl)`: the list of
calls `func_to_apply(value, depth, cl)` made, in order.  `root->value` is read at
once, so a `NULL` root is a failure. -/
def rb_private_preorder_map {V : Type} : Node V → Nat → Option (List (V × Nat))
  | NULL, _ => none
  | mk _ l v r, depth =>
    let left_calls := if l.isNULL then some [] else rb_private_preorder_map l (depth + 1)
    let right_calls := if r.isNULL then some [] else rb_private_preorder_map r (depth + 1)
    match left_calls, right_calls with
    | some a, some b => some ((v, depth) :: (a ++ b))
    | _, _ => none

/-- Model of `rb_map_preorder(tree, func_to_apply, cl)`. -/
def rb_map_preorder {V : Type} (tree : rb_tree V) : Option (List (V × Nat)) :=
  rb_private_preorder_map tree.root 0

/-- Model of `rb_private_postorder_map(root, depth, func_to_apply, cl)`: the list of
calls `func_to_apply(value, depth, cl)` made, in order.  `root->left` is read at
once, so a `NULL` root is a failure. -/
def rb_private_postorder_map {V : Type} : Node V → Nat → Option (List (V × Nat))
  | NULL, _ => none
  | mk _ l v r, depth =>
    let left_calls := if l.isNULL then some [] else rb_private_postorder_map l (depth + 1)
    let right_calls := if r.isNULL then some [] else rb_private_postorder_map r (depth + 1)
    match left_calls, right_calls with
    | some a, some b => some (a ++ (b ++ [(v, depth)]))
    | _, _ => none

/-- Model of `rb_map_postorder(tree, func_to_apply, cl)`. -/
def rb_map_postorder {V : Type} (tree : rb_tree V) : Option (List (V × Nat)) :=
  rb_private_postorder_map tree.root 0

/-- A sequence of `rb_delete_value` calls, in list order; `none` when one of the calls
fails. -/
def delete_all {V : Type} : rb_tree V → List V → Option (rb_tree V)
  | tree, [] => some tree
  | tree, v :: vs =>
    match rb_delete_value tree v with
    | none => none
    | some t => delete_all t vs

/-- Modelled from the spec: the default comparison function, byte-string order, which
is the C library function `strcmp` that `rb_new` installs when it is given `NULL`.  A
string is the list of its bytes without the terminating zero; the result is the
difference of the first pair of bytes that differ, the end of a string counting as
the byte zero. -/
def strcmp : List Nat → List Nat → Int
  | [], [] => 0
  | [], b :: _ => -(b : Int)
  | a :: _, [] => (a : Int)
  | a :: s1, b :: s2 => if a = b then strcmp s1 s2 else (a : Int) - (b : Int)

/-- Model of `rb_new(NULL)`: an empty tree ordered by `strcmp`. -/
def rb_new_strcmp : rb_tree (List Nat) :=
  rb_new strcmp

/-- The bytes of the string "hello". -/
def word_hello : List Nat := [104, 101, 108, 108, 111]

/-- The bytes of the string "world". -/
def word_world : List Nat := [119, 111, 114, 108, 100]

/-- The bytes of the string "the". -/
def word_the : List Nat := [116, 104, 101]

/-- The bytes of the string "earth". -/
def word_earth : List Nat := [101, 97, 114, 116, 104]

/-- The bytes of the string "says". -/
def word_says : List Nat := [115, 97, 121, 115]

/-- Every node of a subtree once, paired with its depth, where the root of the subtree
has depth `depth` and a child is one deeper than its parent; listed node first, then
its left subtree, then its right subtree. -/
def visit_left_right {V : Type} : Node V → Nat → List (V × Nat)
  | NULL, _ => []
  | mk _ l x r, depth =>
    (x, depth) :: (visit_left_right l (depth + 1) ++ visit_left_right r (depth + 1))

/-- The nodes of a subtree with their depths, listed left subtree first, then the
node, then the right subtree. -/
def left_visit_right {V : Type} : Node V → Nat → List (V × Nat)
  | NULL, _ => []
  | mk _ l x r, depth =>
    left_visit_right l (depth + 1) ++ (x, depth) :: left_visit_right r (depth + 1)

/-- The nodes of a subtree with their depths, listed left subtree first, then the
right subtree, then the node. -/
def left_right_visit {V : Type} : Node V → Nat → List (V × Nat)
  | NULL, _ => []
  | mk _ l x r, depth =>
    left_right_visit l (depth + 1) ++ (left_right_visit r (depth + 1) ++ [(x, depth)])

/-- The number of nodes on the longest path from the root of the subtree down to a
node without children (0 for `NULL`). -/
def height {V : Type} : Node V → Nat
  | NULL => 0
  | mk _ l _ r => max (height l) (height r) + 1

/-- The left-right mirror image of a subtree: at every node the two children change
places. -/
def mirror {V : Type} : Node V → Node V
  | NULL => NULL
  | mk c l x r => mk c (mirror r) x (mirror l)

/-- The other side. -/
def Side.flip : Side → Side
  | L => R
  | R => L

/-- The mirror image of a parent link: the node below hangs on the other side and the
other child is mirrored. -/
def mirror_frame {V : Type} (f : Frame V) : Frame V :=
  ⟨f.side.flip, f.color, f.value, mirror f.sibling⟩

/-- Model of `private_rb_find_predecessor(n)`: the maximum of `n->left`, as a pointer
relative to the slot of `n->left`. -/
def private_rb_find_predecessor {V : Type} : Node V → Option (Node V × List (Frame V))
  | NULL => none
  | mk _ l _ _ => private_subrb_tree_maximum l []

/-- The value stored at a node, `none` for `NULL`. -/
def node_value {V : Type} : Node V → Option V
  | NULL => none
  | mk _ _ x _ => some x

/-- The C `struct Node` as it lies in memory: the `value`, the three pointers `parent`,
`left` and `right` (`none` is the `NULL` pointer, `some a` the node at address `a`) and
the `color`. -/
structure Cell (V : Type) where
  value : V
  parent : Option Nat
  left : Option Nat
  right : Option Nat
  color : Color
  deriving DecidableEq, Repr

/-- Memory as the rotations see it: the `root` field of the `struct rb_tree` and the
allocated nodes by address. -/
structure Heap (V : Type) where
  root : Option Nat
  nodes : Nat → Option (Cell V)

/-- Writing the node at address `a`. -/
def Heap.store {V : Type} (h : Heap V) (a : Nat) (cell : Cell V) : Heap V :=
  { root := h.root, nodes := fun b => if b = a then some cell else h.nodes b }

/-- Model of the statement `if (x != NULL) x->parent = n;` on memory. -/
def set_parent_if_present {V : Type} (h : Heap V) (x : Option Nat) (n : Nat) :
    Option (Heap V) :=
  match x with
  | none => some h
  | some b => do
    let b0 ← h.nodes b
    some (h.store b { b0 with parent := some n })

/-- Model of the three-way statement that puts `child` into the place that `n` held:
`tree->root` when `n->parent == NULL`, else `n->parent->left` when
`n == n->parent->left`, else `n->parent->right`. -/
def replace_in_parent {V : Type} (h : Heap V) (n : Nat) (child : Nat) : Option (Heap V) := do
  let n0 ← h.nodes n
  match n0.parent with
  | none => some { root := some child, nodes := h.nodes }
  | some p => do
    let p0 ← h.nodes p
    if some n = p0.left then some (h.store p { p0 with left := some child })
    else some (h.store p { p0 with right := some child })

/-- Model of `rb_rotate_left(tree, n)` on memory, statement by statement; reading a field
through `NULL` or through an address that holds no node gives `none`. -/
def rb_rotate_left_mem {V : Type} (tree : Heap V) (n : Nat) : Option (Heap V) := do
  -- Node *right_child = n->right;
  let n0 ← tree.nodes n
  let right_child ← n0.right
  -- n->right = right_child->left;
  let r0 ← tree.nodes right_child
  let h1 := tree.store n { n0 with right := r0.left }
  -- if (n->right != NULL) n->right->parent = n;
  let n1 ← h1.nodes n
  let h2 ← set_parent_if_present h1 n1.right n
  -- right_child->parent = n->parent;
  let n2 ← h2.nodes n
  let r2 ← h2.nodes right_child
  let h3 := h2.store right_child { r2 with parent := n2.parent }
  -- if (n->parent == NULL) tree->root = right_child; else if (n == n->parent->left) ...
  let h4 ← replace_in_parent h3 n right_child
  -- right_child->left = n;
  let r4 ← h4.nodes right_child
  let h5 := h4.store right_child { r4 with left := some n }
  -- n->parent = right_child;
  let n5 ← h5.nodes n
  some (h5.store n { n5 with parent := some right_child })

/-- Model of `rb_rotate_right(tree, n)` on memory, statement by statement. -/
def rb_rotate_right_mem {V : Type} (tree : Heap V) (n : Nat) : Option (Heap V) := do
  -- Node *left_child = n->left;
  let n0 ← tree.nodes n
  let left_child ← n0.left
  -- n->left = left_child->right;
  let l0 ← tree.nodes left_child
  let h1 := tree.store n { n0 with left := l0.right }
  -- if (n->left != NULL) n->left->parent = n;
  let n1 ← h1.nodes n
  let h2 ← set_parent_if_present h1 n1.left n
  -- left_child->parent = n->parent;
  let n2 ← h2.nodes n
  let l2 ← h2.nodes left_child
  let h3 := h2.store left_child { l2 with parent := n2.parent }
  -- if (n->parent == NULL) tree->root = left_child; else if (n == n->parent->left) ...
  let h4 ← replace_in_parent h3 n left_child
  -- left_child->right = n;
  let l4 ← h4.nodes left_child
  let h5 := h4.store left_child { l4 with right := some n }
  -- n->parent = left_child;
  let n5 ← h5.nodes n
  some (h5.store n { n5 with parent := some left_child })

/-- The memory below pointer `p` holds the tree `t`, whose values are pairs of the
node's address and the stored value; `par` is what the `parent` field of the node at
`p` holds. -/
def Rep {V : Type} (nodes : Nat → Option (Cell V)) :
    Option Nat → Option Nat → Node (Nat × V) → Prop
  | _, p, NULL => p = none
  | par, p, mk c l x r =>
    p = some x.1 ∧
      match nodes x.1 with
      | none => False
      | some cell =>
        cell.value = x.2 ∧ cell.color = c ∧ cell.parent = par ∧
          Rep nodes (some x.1) cell.left l ∧ Rep nodes (some x.1) cell.right r

/-- The addresses of the nodes of an address-labelled tree, in inorder. -/
def addrs {V : Type} (t : Node (Nat × V)) : List Nat :=
  (values t).map Prod.fst

/-- The pointer to the root of an address-labelled tree. -/
def root_ptr {V : Type} : Node (Nat × V) → Option Nat
  | NULL => none
  | mk _ _ x _ => some x.1

/-- What the `parent` field of a node holds, given its chain of parents: the address of
the nearest one, or `NULL` at the root. -/
def parent_ptr {V : Type} : List (Frame (Nat × V)) → Option Nat
  | [] => none
  | f :: _ => some f.value.1

/-- The node with its two child pointers exchanged. -/
def mirror_cell {V : Type} (cell : Cell V) : Cell V :=
  { cell with left := cell.right, right := cell.left }

/-- Memory in which every node has its two child pointers exchanged: the memory that
holds the left-right mirror image. -/
def mirror_mem {V : Type} (h : Heap V) : Heap V :=
  { root := h.root, nodes := fun a => (h.nodes a).map mirror_cell }

/-- An example memory holding six nodes: the root 10 at address 0, its left child 5 at
address 1 with the children 3 (address 2) and 8 (address 3), and below 8 the nodes 6
(address 4) and 9 (address 5). -/
def example_heap_left : Heap Int :=
  { root := some 0,
    nodes := fun a =>
      if a = 0 then some ⟨10, none, some 1, none, BLACK⟩
      else if a = 1 then some ⟨5, some 0, some 2, some 3, RED⟩
      else if a = 2 then some ⟨3, some 1, none, none, BLACK⟩
      else if a = 3 then some ⟨8, some 1, some 4, some 5, BLACK⟩
      else if a = 4 then some ⟨6, some 3, none, none, RED⟩
      else if a = 5 then some ⟨9, some 3, none, none, RED⟩
      else none }

/-- An example memory holding the same six nodes with 8 (address 3) above 5 (address 1):
the root 10 has the left child 8, whose children are 5 and 9, and 5 has the children 3
and 6. -/
def example_heap_right : Heap Int :=
  { root := some 0,
    nodes := fun a =>
      if a = 0 then some ⟨10, none, some 3, none, BLACK⟩
      else if a = 1 then some ⟨5, some 3, some 2, some 4, RED⟩
      else if a = 2 then some ⟨3, some 1, none, none, BLACK⟩
      else if a = 3 then some ⟨8, some 0, some 1, some 5, BLACK⟩
      else if a = 4 then some ⟨6, some 1, none, none, RED⟩
      else if a = 5 then some ⟨9, some 3, none, none, RED⟩
      else none }

/-- The state of `rb_delete_value` when it reaches
`if (y_original_color == BLACK) rb_delete_fixup(tree, subtree_of_deleted)`: the value of
`y_original_color`, and the pointer `subtree_of_deleted` as the subtree with the chain of
parents above its slot; `none` when the value is not found and the function returns
early. -/
def rb_delete_unlink {V : Type} (comparison_func : V → V → Int) (value : V) (root : Node V) :
    Option (Color × Node V × List (Frame V)) :=
  match private_rb_find_in_tree comparison_func value root [] with
  | (NULL, _) => none
  | (mk dc NULL _ dr, up) => some (dc, dr, up)
  | (mk dc (mk lc ll lv lr) _ NULL, up) => some (dc, mk lc ll lv lr, up)
  | (mk dc (mk lc ll lv lr) dv (mk rc rl rv rr), up) =>
    match private_rb_find_successor (mk dc (mk lc ll lv lr) dv (mk rc rl rv rr)) with
    | some (mk yc _ yv yr, yup) => some (yc, yr, yup ++ ⟨R, dc, yv, mk lc ll lv lr⟩ :: up)
    | _ => none

/-- Reading the node behind a pointer (`p->...`); `NULL` and an address that holds no
node give failure. -/
def deref {V : Type} (p : Option Nat) : StateT (Heap V) Option (Cell V) :=
  fun h => (p.bind h.nodes).map (fun cell => (cell, h))

/-- Model of the statement `p->left = q`. -/
def write_left {V : Type} (p q : Option Nat) : StateT (Heap V) Option Unit :=
  fun h => (p.bind fun a => (h.nodes a).map fun cell => ((), h.store a { cell with left := q }))

/-- Model of the statement `p->right = q`. -/
def write_right {V : Type} (p q : Option Nat) : StateT (Heap V) Option Unit :=
  fun h => (p.bind fun a => (h.nodes a).map fun cell => ((), h.store a { cell with right := q }))

/-- Model of the statement `p->parent = q`. -/
def write_parent {V : Type} (p q : Option Nat) : StateT (Heap V) Option Unit :=
  fun h => (p.bind fun a => (h.nodes a).map fun cell => ((), h.store a { cell with parent := q }))

/-- Model of the statement `p->color = c`. -/
def write_color {V : Type} (p : Option Nat) (c : Color) : StateT (Heap V) Option Unit :=
  fun h => (p.bind fun a => (h.nodes a).map fun cell => ((), h.store a { cell with color := c }))

/-- Reading `tree->root`. -/
def read_root {V : Type} : StateT (Heap V) Option (Option Nat) :=
  fun h => some (h.root, h)

/-- Model of the statement `tree->root = q`. -/
def write_root {V : Type} (q : Option Nat) : StateT (Heap V) Option Unit :=
  fun h => some ((), { root := q, nodes := h.nodes })

/-- Model of the call `rb_rotate_left(tree, n)` as a step of a memory program. -/
def call_rotate_left {V : Type} (n : Option Nat) : StateT (Heap V) Option Unit :=
  fun h => (n.bind fun a => (rb_rotate_left_mem h a).map fun h2 => ((), h2))

/-- Model of the call `rb_rotate_right(tree, n)` as a step of a memory program. -/
def call_rotate_right {V : Type} (n : Option Nat) : StateT (Heap V) Option Unit :=
  fun h => (n.bind fun a => (rb_rotate_right_mem h a).map fun h2 => ((), h2))

/-- Model of `free(p)`: the address holds no node afterwards; `free(NULL)` does
nothing. -/
def free_node {V : Type} (p : Option Nat) : StateT (Heap V) Option Unit :=
  fun h =>
    match p with
    | none => some ((), h)
    | some a => some ((), { root := h.root, nodes := fun b => if b = a then none else h.nodes b })

/-- Model of `rb_construct_node(value)` on memory: `malloc` returns the address
`new_node`, which held no node before, and the fields are set. -/
def rb_construct_node_mem {V : Type} (new_node : Nat) (value : V) :
    StateT (Heap V) Option (Option Nat) :=
  fun h =>
    if (h.nodes new_node).isSome then none
    else some (some new_node, h.store new_node ⟨value, none, none, none, RED⟩)

/-- Model of `private_rb_insert_value(root, new_node, comparison_func)` on memory; `fuel`
bounds the depth of the recursion. -/
def private_rb_insert_value_mem {V : Type} (comparison_func : V → V → Int) (new_node : Option Nat) :
    Nat → Option Nat → StateT (Heap V) Option (Option Nat)
  | 0, _ => failure
  | fuel + 1, root =>
    if root = none then pure new_node
    else do
      let nn ← deref new_node
      let rt ← deref root
      if comparison_func nn.value rt.value < 0 then
        -- root->left = private_rb_insert_value(root->left, new_node, comparison_func);
        let res ← private_rb_insert_value_mem comparison_func new_node fuel rt.left
        write_left root res
        -- root->left->parent = root;
        let rt2 ← deref root
        write_parent rt2.left root
        pure root
      else
        -- root->right = private_rb_insert_value(root->right, new_node, comparison_func);
        let res ← private_rb_insert_value_mem comparison_func new_node fuel rt.right
        write_right root res
        -- root->right->parent = root;
        let rt2 ← deref root
        write_parent rt2.right root
        pure root

/-- The test `uncle != NULL && uncle->color == RED`. -/
def uncle_is_red {V : Type} (uncle : Option Nat) : StateT (Heap V) Option Bool :=
  if uncle = none then pure false
  else do
    let u ← deref uncle
    pure (decide (u.color = RED))

/-- The three statements `temp = parent_node->color; parent_node->color =
grand_parent_node->color; grand_parent_node->color = temp` on memory. -/
def swap_colors {V : Type} (parent_node grand_parent_node : Option Nat) :
    StateT (Heap V) Option Unit := do
  let p ← deref parent_node
  let g ← deref grand_parent_node
  write_color parent_node g.color
  write_color grand_parent_node p.color

/-- The `while` loop of `fix_insertion_violation` on memory; `fuel` bounds the number of
iterations. -/
def fix_insertion_loop_mem {V : Type} : Nat → Option Nat → StateT (Heap V) Option Unit
  | 0, _ => failure
  | fuel + 1, culprit => do
    let root ← read_root
    if culprit = root then pure ()
    else do
      let c ← deref culprit
      if c.color = BLACK then pure ()
      else do
        let p ← deref c.parent
        if p.color ≠ RED then pure ()
        else do
          -- parent_node = culprit->parent; grand_parent_node = culprit->parent->parent;
          let parent_node := c.parent
          let grand_parent_node := p.parent
          let g ← deref grand_parent_node
          if parent_node = g.left then
            let uncle := g.right
            let red ← uncle_is_red uncle
            if red then
              write_color grand_parent_node RED
              write_color parent_node BLACK
              write_color uncle BLACK
              fix_insertion_loop_mem fuel grand_parent_node
            else do
              let p1 ← deref parent_node
              if culprit = p1.right then
                call_rotate_left parent_node
                -- culprit = parent_node; parent_node = culprit->parent;
                let c2 ← deref parent_node
                call_rotate_right grand_parent_node
                swap_colors c2.parent grand_parent_node
                fix_insertion_loop_mem fuel c2.parent
              else
                call_rotate_right grand_parent_node
                swap_colors parent_node grand_parent_node
                fix_insertion_loop_mem fuel parent_node
          else
            let uncle := g.left
            let red ← uncle_is_red uncle
            if red then
              write_color grand_parent_node RED
              write_color parent_node BLACK
              write_color uncle BLACK
              fix_insertion_loop_mem fuel grand_parent_node
            else do
              let p1 ← deref parent_node
              if culprit = p1.left then
                call_rotate_right parent_node
                -- culprit = parent_node; parent_node = culprit->parent;
                let c2 ← deref parent_node
                call_rotate_left grand_parent_node
                swap_colors c2.parent grand_parent_node
                fix_insertion_loop_mem fuel c2.parent
              else
                call_rotate_left grand_parent_node
                swap_colors parent_node grand_parent_node
                fix_insertion_loop_mem fuel parent_node

/-- Model of `fix_insertion_violation(tree, culprit)` on memory: the loop, then
`tree->root->color = BLACK`. -/
def fix_insertion_violation_mem {V : Type} (fuel : Nat) (culprit : Option Nat) :
    StateT (Heap V) Option Unit := do
  fix_insertion_loop_mem fuel culprit
  let root ← read_root
  write_color root BLACK

/-- Model of `rb_insert_value(tree, value)` on memory; `new_node` is the address that
`malloc` returns. -/
def rb_insert_value_mem {V : Type} (comparison_func : V → V → Int) (fuel : Nat) (new_node : Nat)
    (value : V) : StateT (Heap V) Option Unit := do
  let n ← rb_construct_node_mem new_node value
  let root ← read_root
  let res ← private_rb_insert_value_mem comparison_func n fuel root
  write_root res
  fix_insertion_violation_mem fuel n

/-- The tree with the colour `c` at the node stored at address `a`. -/
def recolor {V : Type} (a : Nat) (c : Color) : Node (Nat × V) → Node (Nat × V)
  | NULL => NULL
  | mk c0 l x r => mk (if x.1 = a then c else c0) (recolor a c l) x (recolor a c r)

/-- Memory holds a tree and nothing else: `tree->root` points to the root of a tree of
pairwise distinct nodes, the root has no parent, the `parent` field of every child
points to the node that holds it, and every allocated node belongs to the tree. -/
def holds_tree {V : Type} (h : Heap V) : Prop :=
  ∃ T : Node (Nat × V), Rep h.nodes none h.root T ∧ (addrs T).Nodup ∧
    ∀ a, (h.nodes a).isSome = true → a ∈ addrs T

/-- Parent links are consistent: the root has no parent, and every child's `parent`
field points to the node that holds it. -/
def parent_links_consistent {V : Type} (h : Heap V) : Prop :=
  (∀ a cell, h.root = some a → h.nodes a = some cell → cell.parent = none) ∧
  (∀ a cell b, h.nodes a = some cell → (cell.left = some b ∨ cell.right = some b) →
    ∃ child, h.nodes b = some child ∧ child.parent = some a)

/-- A memory program keeps `holds_tree`: every run that completes from a memory that
holds a tree ends in a memory that holds a tree. -/
def Keeps {V α : Type} (m : StateT (Heap V) Option α) : Prop :=
  ∀ h x h2, m h = some (x, h2) → holds_tree h → holds_tree h2

/-- Model of `private_rb_find_in_tree` on memory: the `while` loop from `curr`; `fuel`
bounds the number of iterations. -/
def private_rb_find_in_tree_loop_mem {V : Type} (comparison_func : V → V → Int) (value : V) :
    Nat → Option Nat → StateT (Heap V) Option (Option Nat)
  | 0, _ => failure
  | fuel + 1, curr =>
    if curr = none then pure curr
    else do
      let c ← deref curr
      if comparison_func value c.value = 0 then pure curr
      else if comparison_func value c.value < 0 then
        private_rb_find_in_tree_loop_mem comparison_func value fuel c.left
      else
        private_rb_find_in_tree_loop_mem comparison_func value fuel c.right

/-- Model of `private_subrb_tree_minimum(curr_node)` on memory. -/
def private_subrb_tree_minimum_mem {V : Type} :
    Nat → Option Nat → StateT (Heap V) Option (Option Nat)
  | 0, _ => failure
  | fuel + 1, curr_node => do
    let c ← deref curr_node
    if c.left = none then pure curr_node
    else private_subrb_tree_minimum_mem fuel c.left

/-- Model of `private_rb_find_successor(n)` on memory. -/
def private_rb_find_successor_mem {V : Type} (fuel : Nat) (n : Option Nat) :
    StateT (Heap V) Option (Option Nat) := do
  let c ← deref n
  private_subrb_tree_minimum_mem fuel c.right

/-- The first statement of `rb_transplant(tree, u, v)`: `v` is put in the place of `u`,
which is `tree->root` when `u->parent == NULL`, else `u->parent->left` when
`u == u->parent->left`, else `u->parent->right`. -/
def transplant_place {V : Type} (u v : Option Nat) : StateT (Heap V) Option Unit := do
  let u0 ← deref u
  if u0.parent = none then write_root v
  else do
    let p ← deref u0.parent
    if u = p.left then write_left u0.parent v
    else write_right u0.parent v

/-- The second statement of `rb_transplant`: `if (v != NULL) v->parent = u->parent;`. -/
def transplant_parent {V : Type} (u v : Option Nat) : StateT (Heap V) Option Unit :=
  if v = none then pure ()
  else do
    let u1 ← deref u
    write_parent v u1.parent

/-- Model of `rb_transplant(tree, u, v)` on memory. -/
def rb_transplant_mem {V : Type} (u v : Option Nat) : StateT (Heap V) Option Unit := do
  transplant_place u v
  transplant_parent u v

/-- The test `sibling->left->color == BLACK && sibling->right->color == BLACK` (and the
same with `right` first), with the short circuit of `&&`. -/
def both_black {V : Type} (first second : Option Nat) : StateT (Heap V) Option Bool := do
  let a ← deref first
  if a.color = BLACK then
    let b ← deref second
    pure (decide (b.color = BLACK))
  else pure false

/-- The statements of `rb_delete_fixup` that answer a red sibling, for a culprit that is
a left child; the result is the new value of `sibling`. -/
def red_sibling_left {V : Type} (culprit sibling : Option Nat) :
    StateT (Heap V) Option (Option Nat) := do
  write_color sibling BLACK
  let c1 ← deref culprit
  write_color c1.parent RED
  let c2 ← deref culprit
  call_rotate_left c2.parent
  let c3 ← deref culprit
  let p3 ← deref c3.parent
  pure p3.right

/-- The same statements for a culprit that is a right child; the code calls
`rb_rotate_left` here too. -/
def red_sibling_right {V : Type} (culprit sibling : Option Nat) :
    StateT (Heap V) Option (Option Nat) := do
  write_color sibling BLACK
  let c1 ← deref culprit
  write_color c1.parent RED
  let c2 ← deref culprit
  call_rotate_left c2.parent
  let c3 ← deref culprit
  let p3 ← deref c3.parent
  pure p3.left

/-- The last `else` branch of the loop body for a left child: the optional right
rotation at the sibling, the recolouring and the left rotation at the parent; the
result is the new culprit `tree->root`. -/
def far_nephew_left {V : Type} (culprit sibling : Option Nat) :
    StateT (Heap V) Option (Option Nat) := do
  let s2 ← deref sibling
  let sr ← deref s2.right
  let sibling2 ←
    if sr.color = BLACK then do
      let s3 ← deref sibling
      write_color s3.left BLACK
      write_color sibling RED
      call_rotate_right sibling
      let c5 ← deref culprit
      let p5 ← deref c5.parent
      pure p5.right
    else pure sibling
  let c6 ← deref culprit
  let p6 ← deref c6.parent
  write_color sibling2 p6.color
  let c7 ← deref culprit
  write_color c7.parent BLACK
  let s4 ← deref sibling2
  write_color s4.right BLACK
  let c8 ← deref culprit
  call_rotate_left c8.parent
  read_root

/-- The last `else` branch of the loop body for a right child. -/
def far_nephew_right {V : Type} (culprit sibling : Option Nat) :
    StateT (Heap V) Option (Option Nat) := do
  let s2 ← deref sibling
  let sl ← deref s2.left
  let sibling2 ←
    if sl.color = BLACK then do
      let s3 ← deref sibling
      write_color s3.right BLACK
      write_color sibling RED
      call_rotate_left sibling
      let c5 ← deref culprit
      let p5 ← deref c5.parent
      pure p5.left
    else pure sibling
  let c6 ← deref culprit
  let p6 ← deref c6.parent
  write_color sibling2 p6.color
  let c7 ← deref culprit
  write_color c7.parent BLACK
  let s4 ← deref sibling2
  write_color s4.left BLACK
  let c8 ← deref culprit
  call_rotate_right c8.parent
  read_root

/-- One iteration of the loop of `rb_delete_fixup` for a culprit that is the left child
of its parent, whose right child is `sibling`; the result is the new culprit. -/
def delete_fixup_left_mem {V : Type} (culprit sibling : Option Nat) :
    StateT (Heap V) Option (Option Nat) := do
  let s ← deref sibling
  let sibling1 ← if s.color = RED then red_sibling_left culprit sibling else pure sibling
  let s1 ← deref sibling1
  let bb ← both_black s1.left s1.right
  if bb then
    write_color sibling1 RED
    let c4 ← deref culprit
    pure c4.parent
  else far_nephew_left culprit sibling1

/-- One iteration of the loop of `rb_delete_fixup` for a culprit that is the right child
of its parent, whose left child is `sibling`. -/
def delete_fixup_right_mem {V : Type} (culprit sibling : Option Nat) :
    StateT (Heap V) Option (Option Nat) := do
  let s ← deref sibling
  let sibling1 ← if s.color = RED then red_sibling_right culprit sibling else pure sibling
  let s1 ← deref sibling1
  let bb ← both_black s1.right s1.left
  if bb then
    write_color sibling1 RED
    let c4 ← deref culprit
    pure c4.parent
  else far_nephew_right culprit sibling1

/-- The `while` loop of `rb_delete_fixup` on memory; the result is the pointer held by
`culprit` when the loop is left, and `fuel` bounds the number of iterations. -/
def rb_delete_fixup_loop_mem {V : Type} :
    Nat → Option Nat → StateT (Heap V) Option (Option Nat)
  | 0, _ => failure
  | fuel + 1, culprit => do
    let root ← read_root
    if culprit = root then pure culprit
    else do
      let c ← deref culprit
      if c.color ≠ BLACK then pure culprit
      else do
        let p ← deref c.parent
        if culprit = p.left then do
          let next ← delete_fixup_left_mem culprit p.right
          rb_delete_fixup_loop_mem fuel next
        else do
          let next ← delete_fixup_right_mem culprit p.left
          rb_delete_fixup_loop_mem fuel next

/-- Model of `rb_delete_fixup(tree, culprit)` on memory. -/
def rb_delete_fixup_mem {V : Type} (fuel : Nat) (culprit : Option Nat) :
    StateT (Heap V) Option Unit :=
  if culprit = none then pure ()
  else do
    let last ← rb_delete_fixup_loop_mem fuel culprit
    write_color last BLACK

/-- The statement `if (y->right != NULL) y->right->parent = y;`. -/
def adopt_right {V : Type} (y : Option Nat) : StateT (Heap V) Option Unit := do
  let y1 ← deref y
  if y1.right = none then pure ()
  else write_parent y1.right y

/-- The statement of `rb_delete_value` that takes `y` out of its place:
`if (y->parent == delete_me && subtree_of_deleted != NULL) subtree_of_deleted->parent = y;`
and its `else` branch with `rb_transplant(tree, y, y->right)`. -/
def detach_successor {V : Type} (delete_me y subtree_of_deleted : Option Nat) :
    StateT (Heap V) Option Unit := do
  let y0 ← deref y
  if y0.parent = delete_me ∧ subtree_of_deleted ≠ none then
    write_parent subtree_of_deleted y
  else do
    rb_transplant_mem y y0.right
    let d1 ← deref delete_me
    write_right y d1.right
    adopt_right y

/-- The statements of `rb_delete_value` that put `y` in the place of `delete_me`:
`rb_transplant(tree, delete_me, y); y->left = delete_me->left; y->left->parent = y;
y->color = delete_me->color;`. -/
def replace_deleted {V : Type} (delete_me y : Option Nat) : StateT (Heap V) Option Unit := do
  rb_transplant_mem delete_me y
  let d2 ← deref delete_me
  write_left y d2.left
  let y2 ← deref y
  write_parent y2.left y
  let d3 ← deref delete_me
  write_color y d3.color

/-- The `else` branch of `rb_delete_value` on memory, for a `delete_me` with two
children: `y` takes the place of `delete_me`.  The result is `y_original_color` and
`subtree_of_deleted`. -/
def rb_delete_two_children_mem {V : Type} (fuel : Nat) (delete_me : Option Nat) :
    StateT (Heap V) Option (Color × Option Nat) := do
  let y ← private_rb_find_successor_mem fuel delete_me
  let y0 ← deref y
  detach_successor delete_me y y0.right
  replace_deleted delete_me y
  pure (y0.color, y0.right)

/-- The three-way `if` of `rb_delete_value` on memory, which takes `delete_me` (whose
fields are `d`) out of the tree.  The result is `y_original_color` and
`subtree_of_deleted`. -/
def rb_delete_splice_mem {V : Type} (fuel : Nat) (delete_me : Option Nat) (d : Cell V) :
    StateT (Heap V) Option (Color × Option Nat) :=
  if d.left = none then do
    rb_transplant_mem delete_me d.right
    pure (d.color, d.right)
  else if d.right = none then do
    rb_transplant_mem delete_me d.left
    pure (d.color, d.left)
  else rb_delete_two_children_mem fuel delete_me

/-- The part of `rb_delete_value` on memory that takes `delete_me` out of the tree and
frees it. -/
def rb_delete_unlink_mem {V : Type} (fuel : Nat) (delete_me : Option Nat) :
    StateT (Heap V) Option (Color × Option Nat) := do
  let d ← deref delete_me
  let res ← rb_delete_splice_mem fuel delete_me d
  free_node delete_me
  pure res

/-- The end of `rb_delete_value`:
`if (y_original_color == BLACK) rb_delete_fixup(tree, subtree_of_deleted);`. -/
def rb_delete_finish_mem {V : Type} (fuel : Nat) (y_original_color : Color)
    (subtree_of_deleted : Option Nat) : StateT (Heap V) Option Unit :=
  if y_original_color = BLACK then rb_delete_fixup_mem fuel subtree_of_deleted
  else pure ()

/-- Model of `rb_delete_value(tree, value)` on memory. -/
def rb_delete_value_mem {V : Type} (comparison_func : V → V → Int) (fuel : Nat) (value : V) :
    StateT (Heap V) Option Unit := do
  let root ← read_root
  let delete_me ← private_rb_find_in_tree_loop_mem comparison_func value fuel root
  if delete_me = none then pure ()
  else do
    let res ← rb_delete_unlink_mem fuel delete_me
    rb_delete_finish_mem fuel res.1 res.2

/-! ## Theorems -/

theorem values_plug {V : Type} (t : Node V) (up : List (Frame V)) :
    values (plug t up) = left_of up ++ (values t ++ right_of up) := by
  induction up generalizing t with
  | nil => simp [plug, left_of, right_of]
  | cons f up ih =>
    obtain ⟨s, c, x, sib⟩ := f
    cases s <;> simp [plug, attach, left_of, right_of, ih, values]

theorem Bal_unique {V : Type} {t : Node V} {n m : Nat} (h1 : Bal t n) (h2 : Bal t m) :
    n = m := by
  induction t generalizing n m with
  | NULL => simp [Bal] at h1 h2; omega
  | mk c l x r ihl _ =>
    cases c with
    | RED => exact ihl h1.1 h2.1
    | BLACK =>
      cases n with
      | zero => exact absurd h1 (by simp [Bal])
      | succ n =>
        cases m with
        | zero => exact absurd h2 (by simp [Bal])
        | succ m => simp [Bal] at h1 h2; have := ihl h1.1 h2.1; omega

theorem black_counts_ne_nil {V : Type} (t : Node V) : black_counts t ≠ [] := by
  induction t with
  | NULL => simp [black_counts]
  | mk c l x r ihl _ =>
    cases c <;> simp [black_counts, ihl]

theorem Bal_iff_counts {V : Type} (t : Node V) (n : Nat) :
    Bal t n ↔ ∀ a ∈ black_counts t, a = n := by
  induction t generalizing n with
  | NULL => simp [Bal, black_counts, eq_comm]
  | mk c l x r ihl ihr =>
    cases c with
    | RED =>
      simp only [Bal, black_counts, List.mem_append, ihl, ihr]
      constructor
      · rintro ⟨h1, h2⟩ a (ha | ha)
        · exact h1 a ha
        · exact h2 a ha
      · intro h
        exact ⟨fun a ha => h a (Or.inl ha), fun a ha => h a (Or.inr ha)⟩
    | BLACK =>
      cases n with
      | zero =>
        simp only [Bal, false_iff]
        intro h
        obtain ⟨a, ha⟩ := List.exists_mem_of_ne_nil _ (black_counts_ne_nil l)
        have := h (a + 1) (by simp [black_counts]; exact Or.inl ha)
        omega
      | succ n =>
        simp only [Bal, black_counts, List.mem_map, List.mem_append, ihl, ihr]
        constructor
        · rintro ⟨h1, h2⟩ a ⟨b, hb | hb, rfl⟩
          · rw [h1 b hb]
          · rw [h2 b hb]
        · intro h
          refine ⟨fun a ha => ?_, fun a ha => ?_⟩
          · have := h (a + 1) ⟨a, Or.inl ha, rfl⟩; omega
          · have := h (a + 1) ⟨a, Or.inr ha, rfl⟩; omega

theorem same_black_count_iff {V : Type} (t : Node V) :
    same_black_count t ↔ ∃ n, Bal t n := by
  constructor
  · intro h
    obtain ⟨a, ha⟩ := List.exists_mem_of_ne_nil _ (black_counts_ne_nil t)
    exact ⟨a, (Bal_iff_counts t a).2 (fun b hb => h b hb a ha)⟩
  · rintro ⟨n, hn⟩ a ha b hb
    rw [Bal_iff_counts] at hn
    rw [hn a ha, hn b hb]

theorem Bal_plug {V : Type} {up : List (Frame V)} {t : Node V} {n n0 : Nat}
    (hp : PathBal up n n0) (ht : Bal t n) : Bal (plug t up) n0 := by
  induction up generalizing t n with
  | nil => simp [PathBal] at hp; subst hp; simpa [plug] using ht
  | cons f up ih =>
    obtain ⟨s, c, x, sib⟩ := f
    simp only [PathBal] at hp
    apply ih hp.2
    cases s <;> cases c <;> simp_all [attach, Bal, Frame.weight]

theorem Bal_of_plug {V : Type} {up : List (Frame V)} {t : Node V} {n0 : Nat}
    (h : Bal (plug t up) n0) : ∃ n, Bal t n ∧ PathBal up n n0 := by
  induction up generalizing t with
  | nil => exact ⟨n0, by simpa [plug] using h, by simp [PathBal]⟩
  | cons f up ih =>
    obtain ⟨s, c, x, sib⟩ := f
    obtain ⟨m, hm, hp⟩ := ih h
    cases s <;> cases c
    all_goals first
      | (cases m with
          | zero => simp [attach, Bal] at hm
          | succ m => exact ⟨m, by simp_all [attach, Bal], by simp_all [attach, Bal, PathBal, Frame.weight]⟩)
      | exact ⟨m, by simp_all [attach, Bal], by simp_all [attach, Bal, PathBal, Frame.weight]⟩

@[simp] theorem is_red_NULL {V : Type} : is_red (NULL : Node V) = false := rfl

@[simp] theorem is_red_RED {V : Type} (l : Node V) (x : V) (r : Node V) :
    is_red (mk RED l x r) = true := rfl

@[simp] theorem is_red_BLACK {V : Type} (l : Node V) (x : V) (r : Node V) :
    is_red (mk BLACK l x r) = false := rfl

@[simp] theorem color_of_NULL {V : Type} : color_of (NULL : Node V) = BLACK := rfl

@[simp] theorem color_of_mk {V : Type} (c : Color) (l : Node V) (x : V) (r : Node V) :
    color_of (mk c l x r) = c := by cases c <;> rfl

@[simp] theorem root_black_NULL {V : Type} : root_black (NULL : Node V) = true := rfl

@[simp] theorem root_black_RED {V : Type} (l : Node V) (x : V) (r : Node V) :
    root_black (mk RED l x r) = false := rfl

@[simp] theorem root_black_BLACK {V : Type} (l : Node V) (x : V) (r : Node V) :
    root_black (mk BLACK l x r) = true := rfl

theorem is_red_eq_false_iff {V : Type} (t : Node V) : is_red t = false ↔ color_of t = BLACK := by
  rcases t with _ | ⟨c, l, x, r⟩
  · simp
  · cases c <;> simp

theorem PathRR1_of_PathRR {V : Type} {up : List (Frame V)} {c : Color} (h : PathRR up c) :
    PathRR1 up := by
  cases up with
  | nil => trivial
  | cons f up => exact ⟨h.1, fun hc => (h.2.1 hc).2, h.2.2⟩

theorem no_red_red_plug {V : Type} {up : List (Frame V)} {t : Node V}
    (ht : no_red_red t = true) (hp : PathRR up (color_of t)) : no_red_red (plug t up) = true := by
  induction up generalizing t with
  | nil => simpa [plug] using ht
  | cons f up ih =>
    obtain ⟨s, c, x, sib⟩ := f
    simp only [PathRR] at hp
    apply ih
    · rcases t with _ | ⟨tc, tl, tv, tr⟩ <;> cases s <;> cases c <;>
        simp_all [attach, no_red_red]
    · cases s <;> cases c <;> simpa [attach] using hp.2.2

theorem PathRR_of_plug {V : Type} {up : List (Frame V)} {t : Node V}
    (h : no_red_red (plug t up) = true) : no_red_red t = true ∧ PathRR up (color_of t) := by
  induction up generalizing t with
  | nil => exact ⟨by simpa [plug] using h, trivial⟩
  | cons f up ih =>
    obtain ⟨s, c, x, sib⟩ := f
    obtain ⟨h1, h2⟩ := ih h
    rcases t with _ | ⟨tc, tl, tv, tr⟩ <;> cases s <;> cases c <;>
      simp_all [attach, no_red_red, PathRR]
    all_goals cases tc <;> simp_all [attach, no_red_red, PathRR]

theorem plug_ne_NULL {V : Type} (c : Color) (a : Node V) (x : V) (b : Node V)
    (up : List (Frame V)) : plug (mk c a x b) up ≠ NULL := by
  induction up generalizing c a x b with
  | nil => simp [plug]
  | cons f up ih => obtain ⟨s, fc, fx, sib⟩ := f; cases s <;> simp [plug, attach, ih]

theorem fix_insertion_loop_black {V : Type} (l : Node V) (v : V) (r : Node V)
    (up : List (Frame V)) :
    fix_insertion_loop (mk BLACK l v r) up = some (mk BLACK l v r, up) := by
  simp [fix_insertion_loop]

theorem fix_insertion_loop_parent_black {V : Type} (l : Node V) (v : V) (r : Node V)
    (ps : Side) (pv : V) (psib : Node V) (up : List (Frame V)) :
    fix_insertion_loop (mk RED l v r) (⟨ps, BLACK, pv, psib⟩ :: up) =
      some (mk RED l v r, ⟨ps, BLACK, pv, psib⟩ :: up) := by
  cases up <;> simp [fix_insertion_loop]

theorem fix_insertion_loop_step {V : Type} (l : Node V) (v : V) (r : Node V)
    (ps : Side) (pv : V) (psib : Node V) (gs : Side) (gc : Color) (gv : V) (u : Node V)
    (up : List (Frame V)) :
    fix_insertion_loop (mk RED l v r) (⟨ps, RED, pv, psib⟩ :: ⟨gs, gc, gv, u⟩ :: up) =
      fix_insertion_loop (insertion_case (mk RED l v r) ps pv psib gs gc gv u) up := by
  rcases u with _ | ⟨uc, ul, uv, ur⟩
  · cases gs <;> cases ps <;>
      simp [fix_insertion_loop, insertion_case, attach, rb_rotate_left, rb_rotate_right,
        swap_color_with_right, swap_color_with_left]
  · cases uc <;> cases gs <;> cases ps <;>
      simp [fix_insertion_loop, insertion_case, attach, rb_rotate_left, rb_rotate_right,
        swap_color_with_right, swap_color_with_left]

theorem fix_insertion_loop_rb {V : Type} (n : Nat) :
    ∀ (l : Node V) (v : V) (r : Node V) (up : List (Frame V)) (k n0 : Nat), up.length ≤ n →
      no_red_red (mk RED l v r) = true → Bal (mk RED l v r) k → PathBal up k n0 →
      PathRootBlack up → PathRR1 up →
      ∃ c up2, fix_insertion_loop (mk RED l v r) up = some (c, up2) ∧
        plug c up2 ≠ NULL ∧ no_red_red (plug c up2) = true ∧ Bal (plug c up2) n0 := by
  induction n with
  | zero =>
    intro l v r up k n0 hlen hrr hb hpb _ _
    have : up = [] := by simpa using hlen
    subst this
    refine ⟨mk RED l v r, [], by simp [fix_insertion_loop], by simp [plug],
      by simpa [plug] using hrr, ?_⟩
    simp only [PathBal] at hpb
    subst hpb
    simpa [plug] using hb
  | succ n ih =>
    intro l v r up k n0 hlen hrr hb hpb hroot hp1
    rcases up with _ | ⟨⟨ps, pc, pv, psib⟩, _ | ⟨⟨gs, gc, gv, u⟩, up⟩⟩
    · refine ⟨mk RED l v r, [], by simp [fix_insertion_loop], by simp [plug],
        by simpa [plug] using hrr, ?_⟩
      simp only [PathBal] at hpb
      subst hpb
      simpa [plug] using hb
    · simp only [PathRootBlack] at hroot
      subst hroot
      refine ⟨_, _, fix_insertion_loop_parent_black _ _ _ _ _ _ _, plug_ne_NULL _ _ _ _ _, ?_,
        Bal_plug hpb hb⟩
      apply no_red_red_plug hrr
      simp_all [PathRR1, PathRR]
    · have hl : up.length ≤ n := by simp at hlen; omega
      cases pc
      swap
      · refine ⟨_, _, fix_insertion_loop_parent_black _ _ _ _ _ _ _, plug_ne_NULL _ _ _ _ _, ?_,
          Bal_plug hpb hb⟩
        apply no_red_red_plug hrr
        simp_all [PathRR1, PathRR]
      have hgc : gc = BLACK := by
        cases gc
        · simp [PathRR1, PathRR] at hp1
        · rfl
      subst hgc
      have hup : PathRootBlack up := by
        rcases up with _ | ⟨f, up⟩
        · trivial
        · simpa [PathRootBlack] using hroot
      have hprr : PathRR up BLACK := by simp_all [PathRR1, PathRR]
      simp only [PathBal, Frame.weight, Nat.add_zero] at hpb
      obtain ⟨hpsib, hu, hpb2⟩ := hpb
      rw [fix_insertion_loop_step]
      rcases u with _ | ⟨uc, ul, uv, ur⟩
      · cases gs <;> cases ps <;> simp only [insertion_case, fix_insertion_loop_black] <;>
          refine ⟨_, _, rfl, plug_ne_NULL _ _ _ _ _,
            no_red_red_plug ?_ (by simpa using hprr), Bal_plug hpb2 ?_⟩ <;>
          clear ih <;>
          simp_all [no_red_red, Bal, PathRR1, PathRR]
      · cases uc
        · cases gs <;> cases ps <;> simp only [insertion_case, attach] <;>
            apply ih _ _ _ _ (k + 1) n0 hl _ _ hpb2 hup (PathRR1_of_PathRR hprr) <;>
            clear ih <;>
            simp_all [no_red_red, Bal, PathRR1, PathRR]
        · cases gs <;> cases ps <;> simp only [insertion_case, fix_insertion_loop_black] <;>
            refine ⟨_, _, rfl, plug_ne_NULL _ _ _ _ _,
              no_red_red_plug ?_ (by simpa using hprr), Bal_plug hpb2 ?_⟩ <;>
            clear ih <;>
            simp_all [no_red_red, Bal, PathRR1, PathRR]

theorem private_rb_insert_value_fst {V : Type} (cmp : V → V → Int) (v : V) (t : Node V)
    (up : List (Frame V)) :
    (private_rb_insert_value cmp v t up).1 = rb_construct_node v := by
  induction t generalizing up with
  | NULL => rfl
  | mk c l x r ihl ihr =>
    simp only [private_rb_insert_value]
    split
    · exact ihl _
    · exact ihr _

/-- The chain of parents found by the insertion descent leads to a `NULL` slot of the
tree it started from. -/
theorem private_rb_insert_value_plug {V : Type} (cmp : V → V → Int) (v : V) (t : Node V)
    (up : List (Frame V)) :
    plug NULL (private_rb_insert_value cmp v t up).2 = plug t up := by
  induction t generalizing up with
  | NULL => rfl
  | mk c l x r ihl ihr =>
    simp only [private_rb_insert_value]
    split
    · rw [ihl]; rfl
    · rw [ihr]; rfl

theorem PathRootBlack_of_plug {V : Type} {up : List (Frame V)} {t : Node V}
    (h : root_black (plug t up) = true) : PathRootBlack up := by
  induction up generalizing t with
  | nil => trivial
  | cons f up ih =>
    obtain ⟨s, c, x, sib⟩ := f
    cases up with
    | nil => cases s <;> cases c <;> simp_all [plug, attach, PathRootBlack]
    | cons g up => exact ih h

theorem blacken_root_rb {V : Type} {t : Node V} {n : Nat} (hne : t ≠ NULL)
    (hrr : no_red_red t = true) (hb : Bal t n) :
    ∃ t2, blacken_root t = some t2 ∧ rb_invariants t2 := by
  rcases t with _ | ⟨c, l, x, r⟩
  · exact absurd rfl hne
  · refine ⟨mk BLACK l x r, rfl, rfl, ?_, ?_⟩
    · cases c <;> simp_all [no_red_red]
    · rw [same_black_count_iff]
      cases c
      · exact ⟨n + 1, by simpa [Bal] using hb⟩
      · exact ⟨n, hb⟩

theorem rb_invariants_NULL {V : Type} : rb_invariants (NULL : Node V) := by
  refine ⟨rfl, rfl, ?_⟩
  intro a ha b hb
  simp [black_counts] at ha hb
  omega

theorem fix_insertion_violation_rb {V : Type} (cmp : V → V → Int) (v : V) (t : Node V)
    (h : rb_invariants t) :
    ∃ t2, fix_insertion_violation (private_rb_insert_value cmp v t []).1
        (private_rb_insert_value cmp v t []).2 = some t2 ∧ rb_invariants t2 := by
  obtain ⟨hroot, hrr, hbal⟩ := h
  rw [same_black_count_iff] at hbal
  obtain ⟨n0, hn0⟩ := hbal
  have hplug := private_rb_insert_value_plug cmp v t []
  simp only [plug] at hplug
  rw [← hplug] at hroot hrr hn0
  obtain ⟨k, hk, hpb⟩ := Bal_of_plug hn0
  simp only [Bal] at hk
  subst hk
  have hp := (PathRR_of_plug hrr).2
  rw [private_rb_insert_value_fst]
  obtain ⟨c, up2, hloop, hne, hrr2, hb2⟩ :=
    fix_insertion_loop_rb _ NULL v NULL _ 0 n0 (Nat.le_refl _) (by simp [no_red_red])
      (by simp [Bal]) hpb (PathRootBlack_of_plug hroot) (PathRR1_of_PathRR hp)
  simp only [fix_insertion_violation, rb_construct_node, hloop]
  exact blacken_root_rb hne hrr2 hb2

theorem rb_insert_value_rb {V : Type} (tree : rb_tree V) (v : V) (h : rb_invariants tree.root) :
    ∃ t2, rb_insert_value tree v = some t2 ∧ rb_invariants t2.root ∧
      t2.comparison_func = tree.comparison_func := by
  obtain ⟨r2, h1, h2⟩ := fix_insertion_violation_rb tree.comparison_func v tree.root h
  exact ⟨{ tree with root := r2 }, by simp [rb_insert_value, h1], h2, rfl⟩

theorem insert_all_rb {V : Type} (vs : List V) :
    ∀ tree : rb_tree V, rb_invariants tree.root →
      ∃ t2, insert_all tree vs = some t2 ∧ rb_invariants t2.root ∧
        t2.comparison_func = tree.comparison_func := by
  induction vs with
  | nil => intro tree h; exact ⟨tree, rfl, h, rfl⟩
  | cons v vs ih =>
    intro tree h
    obtain ⟨t1, h1, h2, h3⟩ := rb_insert_value_rb tree v h
    obtain ⟨t2, h4, h5, h6⟩ := ih t1 h2
    exact ⟨t2, by simp [insert_all, h1, h4], h5, h6.trans h3⟩

/-- C1: for every tree that satisfies the colour invariants (root black, no red node
with a red child, equal number of black nodes on every root-to-`NULL` path) and every
value, `rb_insert_value` completes and its result satisfies them again; hence they
hold after any sequence of inserts into an empty tree. -/
theorem C1_insert_preserves_colour_invariants {V : Type} :
    (∀ (tree : rb_tree V) (value : V), rb_invariants tree.root →
      ∃ t2, rb_insert_value tree value = some t2 ∧ rb_invariants t2.root) ∧
    (∀ (comparison_func : V → V → Int) (vs : List V),
      ∃ t2, insert_all (rb_new comparison_func) vs = some t2 ∧ rb_invariants t2.root) := by
  constructor
  · intro tree value h
    obtain ⟨t2, h1, h2, _⟩ := rb_insert_value_rb tree value h
    exact ⟨t2, h1, h2⟩
  · intro cmp vs
    obtain ⟨t2, h1, h2, _⟩ := insert_all_rb vs (rb_new cmp) rb_invariants_NULL
    exact ⟨t2, h1, h2⟩

/-- Witness for C1 at the one-node tree holding 2 and the value 1. -/
theorem C1_insert_preserves_colour_invariants_witness :
    rb_invariants (mk BLACK NULL (2 : Int) NULL) ∧
      ∃ t2, rb_insert_value ⟨mk BLACK NULL (2 : Int) NULL, integer_comparison⟩ 1 = some t2 ∧
        rb_invariants t2.root :=
  ⟨by decide, C1_insert_preserves_colour_invariants.1 ⟨mk BLACK NULL (2 : Int) NULL, integer_comparison⟩ 1
    (by decide)⟩

theorem TotalOrder.le_of_not_lt {V : Type} {cmp : V → V → Int} (h : TotalOrder cmp) {a b : V}
    (hab : ¬ cmp a b < 0) : cmp b a ≤ 0 := by
  have := (h.antisymm b a).not
  by_contra hc
  have h1 : 0 < cmp b a := by omega
  exact hab ((h.antisymm a b).2 h1)

theorem TotalOrder.not_lt_of_le {V : Type} {cmp : V → V → Int} (h : TotalOrder cmp) {a b : V}
    (hab : cmp a b ≤ 0) : ¬ cmp b a < 0 := by
  intro hc
  have := (h.antisymm b a).1 hc
  omega

theorem TotalOrder.lt_of_lt_of_le {V : Type} {cmp : V → V → Int} (h : TotalOrder cmp)
    {a b c : V} (hab : cmp a b < 0) (hbc : cmp b c ≤ 0) : cmp a c < 0 := by
  by_contra hc
  have h1 : cmp c a ≤ 0 := h.le_of_not_lt hc
  have h2 : cmp b a ≤ 0 := h.trans b c a hbc h1
  exact h.not_lt_of_le h2 hab

theorem TotalOrder.lt_of_le_of_lt {V : Type} {cmp : V → V → Int} (h : TotalOrder cmp)
    {a b c : V} (hab : cmp a b ≤ 0) (hbc : cmp b c < 0) : cmp a c < 0 := by
  by_contra hc
  have h1 : cmp c a ≤ 0 := h.le_of_not_lt hc
  have h2 : cmp c b ≤ 0 := h.trans c a b h1 hab
  exact h.not_lt_of_le h2 hbc

theorem TotalOrder.refl {V : Type} {cmp : V → V → Int} (h : TotalOrder cmp) (a : V) :
    cmp a a = 0 := by
  have h1 := h.antisymm a a
  omega

theorem TotalOrder.eq_zero_symm {V : Type} {cmp : V → V → Int} (h : TotalOrder cmp) {a b : V}
    (hab : cmp a b = 0) : cmp b a = 0 := by
  have h1 := h.antisymm a b
  have h2 := h.antisymm b a
  omega

theorem integer_comparison_total : TotalOrder integer_comparison := by
  constructor
  · intro a b
    unfold integer_comparison
    split_ifs <;> omega
  · intro a b c
    unfold integer_comparison
    split_ifs <;> omega

theorem insertion_case_values {V : Type} (l : Node V) (v : V) (r : Node V) (ps : Side) (pv : V)
    (psib : Node V) (gs : Side) (gc : Color) (gv : V) (u : Node V) :
    values (insertion_case (mk RED l v r) ps pv psib gs gc gv u) =
      values (attach ⟨gs, gc, gv, u⟩ (attach ⟨ps, RED, pv, psib⟩ (mk RED l v r))) := by
  rcases u with _ | ⟨uc, ul, uv, ur⟩
  · cases gs <;> cases ps <;> simp [insertion_case, attach, values]
  · cases uc <;> cases gs <;> cases ps <;> simp [insertion_case, attach, values]

theorem fix_insertion_loop_values {V : Type} (n : Nat) :
    ∀ (culprit : Node V) (up : List (Frame V)), up.length ≤ n →
      ∀ r, fix_insertion_loop culprit up = some r →
        values (plug r.1 r.2) = values (plug culprit up) := by
  induction n with
  | zero =>
    intro culprit up hlen r h
    have : up = [] := by simpa using hlen
    subst this
    rcases culprit with _ | ⟨c, l, v, rt⟩
    · simp [fix_insertion_loop] at h
    · cases c <;> simp [fix_insertion_loop] at h <;> subst h <;> rfl
  | succ n ih =>
    intro culprit up hlen r h
    rcases culprit with _ | ⟨c, l, v, rt⟩
    · simp [fix_insertion_loop] at h
    cases c
    swap
    · simp [fix_insertion_loop] at h; subst h; rfl
    rcases up with _ | ⟨⟨ps, pc, pv, psib⟩, _ | ⟨⟨gs, gc, gv, u⟩, up⟩⟩
    · simp [fix_insertion_loop] at h; subst h; rfl
    · cases pc <;> simp [fix_insertion_loop] at h
      subst h; rfl
    · have hl : up.length ≤ n := by simp at hlen; omega
      cases pc
      swap
      · rw [fix_insertion_loop_parent_black] at h
        simp only [Option.some.injEq] at h
        subst h; rfl
      rw [fix_insertion_loop_step] at h
      rw [ih _ _ hl _ h]
      simp only [plug, values_plug, insertion_case_values]

theorem blacken_root_values {V : Type} {t t2 : Node V} (h : blacken_root t = some t2) :
    values t2 = values t := by
  rcases t with _ | ⟨c, l, x, r⟩
  · simp [blacken_root] at h
  · simp [blacken_root] at h; subst h; rfl

theorem fix_insertion_violation_values {V : Type} {c : Node V} {up : List (Frame V)}
    {t2 : Node V} (h : fix_insertion_violation c up = some t2) :
    values t2 = values (plug c up) := by
  unfold fix_insertion_violation at h
  split at h
  · simp at h
  · rename_i c2 up2 hloop
    rw [blacken_root_values h]
    exact fix_insertion_loop_values _ c up (Nat.le_refl _) (c2, up2) hloop

theorem rb_insert_value_values {V : Type} {tree t2 : rb_tree V} {v : V}
    (h : rb_insert_value tree v = some t2) :
    values t2.root =
        left_of (private_rb_insert_value tree.comparison_func v tree.root []).2 ++
          v :: right_of (private_rb_insert_value tree.comparison_func v tree.root []).2 ∧
      values tree.root =
        left_of (private_rb_insert_value tree.comparison_func v tree.root []).2 ++
          right_of (private_rb_insert_value tree.comparison_func v tree.root []).2 ∧
      t2.comparison_func = tree.comparison_func := by
  unfold rb_insert_value at h
  simp only at h
  split at h
  · simp at h
  · rename_i root hfix
    simp only [Option.some.injEq] at h
    subst h
    refine ⟨?_, ?_, rfl⟩
    · rw [fix_insertion_violation_values hfix, values_plug, private_rb_insert_value_fst]
      simp [rb_construct_node, values]
    · have := private_rb_insert_value_plug tree.comparison_func v tree.root []
      have h2 := congrArg values this
      simp only [values_plug, plug, values, List.nil_append] at h2
      exact h2.symm

theorem Nondecreasing_plug {V : Type} {cmp : V → V → Int} {t : Node V} {up : List (Frame V)}
    (h : Nondecreasing cmp (values (plug t up))) : Nondecreasing cmp (values t) := by
  rw [values_plug] at h
  unfold Nondecreasing at h ⊢
  exact (List.pairwise_append.1 (List.pairwise_append.1 h).2.1).1

/-- The descent of the insertion keeps everything at or before the new value on the
left of the slot it reaches, and everything strictly after it on the right. -/
theorem private_rb_insert_value_bounds {V : Type} {cmp : V → V → Int} (hc : TotalOrder cmp)
    (v : V) (t : Node V) (up : List (Frame V))
    (hs : Nondecreasing cmp (values t))
    (hl : ∀ a ∈ left_of up, cmp a v ≤ 0) (hr : ∀ b ∈ right_of up, cmp v b < 0) :
    (∀ a ∈ left_of (private_rb_insert_value cmp v t up).2, cmp a v ≤ 0) ∧
      (∀ b ∈ right_of (private_rb_insert_value cmp v t up).2, cmp v b < 0) := by
  induction t generalizing up with
  | NULL => exact ⟨hl, hr⟩
  | mk c l x r ihl ihr =>
    unfold Nondecreasing at hs
    simp only [values, List.pairwise_append, List.pairwise_cons, List.mem_cons,
      forall_eq_or_imp] at hs
    obtain ⟨hsl, ⟨hxr, hsr⟩, hlx⟩ := hs
    simp only [private_rb_insert_value]
    split
    · rename_i hlt
      apply ihl _ hsl
      · simpa [left_of] using hl
      · intro b hb
        simp only [right_of, List.cons_append, List.mem_cons, List.mem_append] at hb
        rcases hb with rfl | hb | hb
        · exact hlt
        · exact hc.lt_of_lt_of_le hlt (hxr b hb)
        · exact hr b hb
    · rename_i hge
      apply ihr _ hsr
      · intro a ha
        simp only [left_of, List.mem_append, List.mem_singleton] at ha
        rcases ha with ha | ha | rfl
        · exact hl a ha
        · exact hc.trans _ _ _ (hlx a ha).1 (hc.le_of_not_lt hge)
        · exact hc.le_of_not_lt hge
      · simpa [right_of] using hr

theorem rb_insert_value_spec {V : Type} {tree t2 : rb_tree V} {v : V}
    (hc : TotalOrder tree.comparison_func)
    (hs : Nondecreasing tree.comparison_func (values tree.root))
    (h : rb_insert_value tree v = some t2) :
    ∃ l1 l2, values tree.root = l1 ++ l2 ∧ values t2.root = l1 ++ v :: l2 ∧
      (∀ a ∈ l1, tree.comparison_func a v ≤ 0) ∧ (∀ b ∈ l2, tree.comparison_func v b < 0) ∧
      t2.comparison_func = tree.comparison_func := by
  obtain ⟨h1, h2, h3⟩ := rb_insert_value_values h
  obtain ⟨h4, h5⟩ := private_rb_insert_value_bounds hc v tree.root [] hs
    (by simp [left_of]) (by simp [right_of])
  exact ⟨_, _, h2, h1, h4, h5, h3⟩

theorem Nondecreasing_insert {V : Type} {cmp : V → V → Int}
    {l1 l2 : List V} {v : V} (hs : Nondecreasing cmp (l1 ++ l2))
    (h1 : ∀ a ∈ l1, cmp a v ≤ 0) (h2 : ∀ b ∈ l2, cmp v b < 0) :
    Nondecreasing cmp (l1 ++ v :: l2) := by
  unfold Nondecreasing at hs ⊢
  rw [List.pairwise_append] at hs ⊢
  refine ⟨hs.1, List.pairwise_cons.2 ⟨fun b hb => le_of_lt (h2 b hb), hs.2.1⟩, ?_⟩
  intro a ha b hb
  rcases List.mem_cons.1 hb with rfl | hb
  · exact h1 a ha
  · exact hs.2.2 a ha b hb

theorem PathRootBlack_tail2 {V : Type} {p g : Frame V} {up : List (Frame V)}
    (h : PathRootBlack (p :: g :: up)) : PathRootBlack up := by
  rcases up with _ | ⟨f, up⟩
  · trivial
  · simpa [PathRootBlack] using h

theorem insertion_case_ne_NULL {V : Type} (l : Node V) (v : V) (r : Node V) (ps : Side) (pv : V)
    (psib : Node V) (gs : Side) (gc : Color) (gv : V) (u : Node V) :
    ∃ c a x b, insertion_case (mk RED l v r) ps pv psib gs gc gv u = mk c a x b := by
  rcases u with _ | ⟨uc, ul, uv, ur⟩
  · cases gs <;> cases ps <;> simp [insertion_case]
  · cases uc <;> cases gs <;> cases ps <;> simp [insertion_case]

theorem fix_insertion_loop_root {V : Type} (c : Color) (l : Node V) (v : V) (r : Node V) :
    fix_insertion_loop (mk c l v r) [] = some (mk c l v r, []) := by
  cases c <;> simp [fix_insertion_loop]

/-- The insertion loop completes whenever the root of the tree is black: a red parent
then always has a parent of its own. -/
theorem fix_insertion_loop_total {V : Type} (n : Nat) :
    ∀ (c : Color) (l : Node V) (v : V) (r : Node V) (up : List (Frame V)), up.length ≤ n →
      PathRootBlack up →
      ∃ c2 l2 v2 r2 up2, fix_insertion_loop (mk c l v r) up = some (mk c2 l2 v2 r2, up2) := by
  induction n with
  | zero =>
    intro c l v r up hlen _
    have : up = [] := by simpa using hlen
    subst this
    exact ⟨_, _, _, _, _, fix_insertion_loop_root _ _ _ _⟩
  | succ n ih =>
    intro c l v r up hlen hroot
    cases c
    swap
    · exact ⟨_, _, _, _, _, fix_insertion_loop_black _ _ _ _⟩
    rcases up with _ | ⟨⟨ps, pc, pv, psib⟩, _ | ⟨⟨gs, gc, gv, u⟩, up⟩⟩
    · exact ⟨_, _, _, _, _, fix_insertion_loop_root _ _ _ _⟩
    · simp only [PathRootBlack] at hroot
      subst hroot
      exact ⟨_, _, _, _, _, fix_insertion_loop_parent_black _ _ _ _ _ _ _⟩
    · cases pc
      swap
      · exact ⟨_, _, _, _, _, fix_insertion_loop_parent_black _ _ _ _ _ _ _⟩
      rw [fix_insertion_loop_step]
      obtain ⟨c3, a3, x3, b3, h3⟩ := insertion_case_ne_NULL l v r ps pv psib gs gc gv u
      rw [h3]
      exact ih _ _ _ _ _ (by simp at hlen; omega) (PathRootBlack_tail2 hroot)

theorem rb_insert_value_total {V : Type} (tree : rb_tree V) (v : V)
    (h : root_black tree.root = true) : ∃ t2, rb_insert_value tree v = some t2 := by
  have hplug := private_rb_insert_value_plug tree.comparison_func v tree.root []
  simp only [plug] at hplug
  rw [← hplug] at h
  obtain ⟨c2, l2, v2, r2, up2, hloop⟩ :=
    fix_insertion_loop_total _ RED NULL v NULL _ (Nat.le_refl _) (PathRootBlack_of_plug h)
  have hfst := private_rb_insert_value_fst tree.comparison_func v tree.root []
  simp only [rb_construct_node] at hfst
  have hne := plug_ne_NULL c2 l2 v2 r2 up2
  cases hp : plug (mk c2 l2 v2 r2) up2 with
  | NULL => exact absurd hp hne
  | mk c3 l3 v3 r3 =>
    exact ⟨{ tree with root := mk BLACK l3 v3 r3 }, by
      simp [rb_insert_value, fix_insertion_violation, hfst, hloop, hp, blacken_root]⟩

/-- C10: for every tree whose inorder sequence is non-decreasing and every value `v`,
the inorder sequence after `rb_insert_value` is the old sequence `l1 ++ l2` with `v`
put between `l1` and `l2`, where every element of `l1` orders at or before `v` and
every element of `l2` orders strictly after `v`: `v` comes immediately after the last
element at or before it (so after every equal value already stored) and no other
element moves.  The call completes whenever the root is black. -/
theorem C10_insert_position {V : Type} (tree : rb_tree V) (v : V)
    (hc : TotalOrder tree.comparison_func)
    (hs : Nondecreasing tree.comparison_func (values tree.root)) :
    (∀ t2, rb_insert_value tree v = some t2 →
      ∃ l1 l2, values tree.root = l1 ++ l2 ∧ values t2.root = l1 ++ v :: l2 ∧
        (∀ a ∈ l1, tree.comparison_func a v ≤ 0) ∧
        (∀ b ∈ l2, tree.comparison_func v b < 0)) ∧
    (root_black tree.root = true → ∃ t2, rb_insert_value tree v = some t2) := by
  constructor
  · intro t2 h
    obtain ⟨l1, l2, h1, h2, h3, h4, _⟩ := rb_insert_value_spec hc hs h
    exact ⟨l1, l2, h1, h2, h3, h4⟩
  · exact rb_insert_value_total tree v

/-- Witness for C10: inserting a second 2 into the tree holding 1, 2, 3. -/
theorem C10_insert_position_witness :
    (∀ t2, rb_insert_value
        ⟨mk BLACK (mk RED NULL (1 : Int) NULL) 2 (mk RED NULL 3 NULL), integer_comparison⟩ 2 =
          some t2 →
      ∃ l1 l2, values (mk BLACK (mk RED NULL (1 : Int) NULL) 2 (mk RED NULL 3 NULL)) = l1 ++ l2 ∧
        values t2.root = l1 ++ 2 :: l2 ∧
        (∀ a ∈ l1, integer_comparison a 2 ≤ 0) ∧
        (∀ b ∈ l2, integer_comparison 2 b < 0)) ∧
    (root_black (mk BLACK (mk RED NULL (1 : Int) NULL) 2 (mk RED NULL 3 NULL)) = true →
      ∃ t2, rb_insert_value
        ⟨mk BLACK (mk RED NULL (1 : Int) NULL) 2 (mk RED NULL 3 NULL), integer_comparison⟩ 2 =
          some t2) :=
  C10_insert_position
    ⟨mk BLACK (mk RED NULL (1 : Int) NULL) 2 (mk RED NULL 3 NULL), integer_comparison⟩ 2
    integer_comparison_total (by decide)

theorem bst_property_weak_of_nondecreasing {V : Type} {cmp : V → V → Int} (hc : TotalOrder cmp)
    (t : Node V) (h : Nondecreasing cmp (values t)) : bst_property_weak cmp t = true := by
  induction t with
  | NULL => rfl
  | mk c l x r ihl ihr =>
    unfold Nondecreasing at h
    simp only [values, List.pairwise_append, List.pairwise_cons, List.mem_cons,
      forall_eq_or_imp] at h
    obtain ⟨hsl, ⟨hxr, hsr⟩, hlx⟩ := h
    simp only [bst_property_weak, Bool.and_eq_true, List.all_eq_true, decide_eq_true_eq]
    refine ⟨⟨⟨fun a ha => (hlx a ha).1, fun b hb => ?_⟩, ihl hsl⟩, ihr hsr⟩
    have := hc.not_lt_of_le (hxr b hb)
    omega

theorem insert_all_spec {V : Type} {cmp : V → V → Int} (hc : TotalOrder cmp) (vs : List V) :
    ∀ tree : rb_tree V, tree.comparison_func = cmp → rb_invariants tree.root →
      Nondecreasing cmp (values tree.root) →
      ∃ t2, insert_all tree vs = some t2 ∧ t2.comparison_func = cmp ∧ rb_invariants t2.root ∧
        Nondecreasing cmp (values t2.root) ∧ (values t2.root).Perm (values tree.root ++ vs) := by
  induction vs with
  | nil => intro tree h1 h2 h3; exact ⟨tree, rfl, h1, h2, h3, by simp⟩
  | cons v vs ih =>
    intro tree h1 h2 h3
    obtain ⟨t1, ht1, hinv, hcmp⟩ := rb_insert_value_rb tree v h2
    subst h1
    obtain ⟨l1, l2, e1, e2, b1, b2, _⟩ := rb_insert_value_spec hc h3 ht1
    have hs1 : Nondecreasing tree.comparison_func (values t1.root) := by
      rw [e2]; exact Nondecreasing_insert (by rw [← e1]; exact h3) b1 b2
    obtain ⟨t2, ht2, hcmp2, hinv2, hs2, hperm⟩ := ih t1 hcmp hinv hs1
    refine ⟨t2, by simp [insert_all, ht1, ht2], hcmp2, hinv2, hs2, hperm.trans ?_⟩
    rw [e2, e1]
    simp only [List.append_assoc]
    refine List.Perm.append_left l1 ?_
    simpa using (@List.perm_middle _ v l2 vs).symm

theorem insert_all_new_spec {V : Type} {cmp : V → V → Int} (hc : TotalOrder cmp) (vs : List V) :
    ∃ t2, insert_all (rb_new cmp) vs = some t2 ∧ t2.comparison_func = cmp ∧
      rb_invariants t2.root ∧ Nondecreasing cmp (values t2.root) ∧ (values t2.root).Perm vs := by
  obtain ⟨t2, h1, h2, h3, h4, h5⟩ :=
    insert_all_spec hc vs (rb_new cmp) rfl rb_invariants_NULL (by simp [rb_new, values, Nondecreasing])
  exact ⟨t2, h1, h2, h3, h4, by simpa [rb_new, values] using h5⟩

/-- C5, as stated, fails: inserting 1, 1, 1 rotates the second 1 to the root and leaves
an equal value in its left subtree, which therefore does not order strictly before
the root. -/
theorem C5_counterexample :
    (insert_all (rb_new integer_comparison) [1, 1, 1]).map rb_tree.root =
        some (mk BLACK (mk RED NULL 1 NULL) 1 (mk RED NULL 1 NULL)) ∧
      bst_property integer_comparison (mk BLACK (mk RED NULL 1 NULL) 1 (mk RED NULL 1 NULL)) =
        false := by
  decide

/-- C5, amended: after any sequence of inserts (duplicates allowed) into an empty tree,
for every node all values in its left subtree order at or before the node's value and
all values in its right subtree order at or after it. -/
theorem C5_bst_property_after_inserts {V : Type} (cmp : V → V → Int) (hc : TotalOrder cmp)
    (vs : List V) :
    ∃ t, insert_all (rb_new cmp) vs = some t ∧ bst_property_weak cmp t.root = true := by
  obtain ⟨t, h1, _, _, h4, _⟩ := insert_all_new_spec hc vs
  exact ⟨t, h1, bst_property_weak_of_nondecreasing hc _ h4⟩

/-- Witness for the amended C5 on the inserts 1, 1, 1. -/
theorem C5_bst_property_after_inserts_witness :
    ∃ t, insert_all (rb_new integer_comparison) [1, 1, 1] = some t ∧
      bst_property_weak integer_comparison t.root = true :=
  C5_bst_property_after_inserts integer_comparison integer_comparison_total [1, 1, 1]

theorem delete_fixup_left_values {V : Type} {x : Node V} {pc : Color} {pv : V} {s : Node V}
    {up : List (Frame V)} {r : Node V × List (Frame V)}
    (h : delete_fixup_left x pc pv s up = some r) :
    values (plug r.1 r.2) = values (plug (mk pc x pv s) up) := by
  rcases s with _ | ⟨sc, _ | ⟨slc, sll, slv, slr⟩, sv, _ | ⟨src, srl, srv, srr⟩⟩
  · simp [delete_fixup_left] at h
  · simp [delete_fixup_left] at h
  · simp [delete_fixup_left] at h
  · simp [delete_fixup_left] at h
  · cases slc <;> cases src <;>
      simp [delete_fixup_left, rb_rotate_left, rb_rotate_right] at h <;>
      subst h <;> simp [plug, values_plug, values]

theorem delete_fixup_right_values {V : Type} {x : Node V} {pc : Color} {pv : V} {s : Node V}
    {up : List (Frame V)} {r : Node V × List (Frame V)}
    (h : delete_fixup_right x pc pv s up = some r) :
    values (plug r.1 r.2) = values (plug (mk pc s pv x) up) := by
  rcases s with _ | ⟨sc, _ | ⟨slc, sll, slv, slr⟩, sv, _ | ⟨src, srl, srv, srr⟩⟩
  · simp [delete_fixup_right] at h
  · simp [delete_fixup_right] at h
  · simp [delete_fixup_right] at h
  · simp [delete_fixup_right] at h
  · cases slc <;> cases src <;>
      simp [delete_fixup_right, rb_rotate_left, rb_rotate_right] at h <;>
      subst h <;> simp [plug, values_plug, values]

theorem rb_delete_fixup_step_values {V : Type} {xl : Node V} {xv : V} {xr : Node V}
    {p : Frame V} {up : List (Frame V)} {r : Node V × List (Frame V)}
    (h : rb_delete_fixup_step xl xv xr p up = some r) :
    values (plug r.1 r.2) = values (plug (mk BLACK xl xv xr) (p :: up)) := by
  obtain ⟨ps, pc, pv, s⟩ := p
  cases ps
  · rcases s with _ | ⟨sc, sl, sv, sr⟩
    · simp [rb_delete_fixup_step] at h
    · cases sc
      · simp only [rb_delete_fixup_step, rb_rotate_left] at h
        rw [delete_fixup_left_values h]
        simp [plug, attach, values_plug, values]
      · simp only [rb_delete_fixup_step] at h
        rw [delete_fixup_left_values h]
        simp [plug, attach]
  · rcases s with _ | ⟨sc, sl, sv, sr⟩
    · simp [rb_delete_fixup_step] at h
    · cases sc
      · rcases up with _ | ⟨⟨gs, gc, gv, gsib⟩, up⟩
        · simp [rb_delete_fixup_step, rb_rotate_left] at h
        · cases gs
          · rcases xr with _ | ⟨rc, rl, rv, rr⟩
            · simp [rb_delete_fixup_step, rb_rotate_left] at h
            · simp [rb_delete_fixup_step, rb_rotate_left, rb_rotate_right] at h
              subst h
              simp [plug, attach, values_plug, values]
          · simp only [rb_delete_fixup_step, rb_rotate_left] at h
            rw [delete_fixup_right_values h]
            simp [plug, attach, values_plug, values]
      · simp only [rb_delete_fixup_step] at h
        rw [delete_fixup_right_values h]
        simp [plug, attach]

theorem rb_delete_fixup_loop_values {V : Type} (fuel : Nat) :
    ∀ (c : Node V) (up : List (Frame V)) (r : Node V × List (Frame V)),
      rb_delete_fixup_loop fuel c up = some r →
        values (plug r.1 r.2) = values (plug c up) := by
  induction fuel with
  | zero =>
    intro c up r h
    rcases c with _ | ⟨cc, l, v, rt⟩
    · simp [rb_delete_fixup_loop] at h
    · rcases up with _ | ⟨p, up⟩
      · simp [rb_delete_fixup_loop] at h; subst h; rfl
      · cases cc <;> simp [rb_delete_fixup_loop] at h
        subst h; rfl
  | succ fuel ih =>
    intro c up r h
    rcases c with _ | ⟨cc, l, v, rt⟩
    · simp [rb_delete_fixup_loop] at h
    · rcases up with _ | ⟨p, up⟩
      · simp [rb_delete_fixup_loop] at h; subst h; rfl
      · cases cc
        · simp [rb_delete_fixup_loop] at h; subst h; rfl
        · simp only [rb_delete_fixup_loop] at h
          split at h
          · simp at h
          · rename_i c2 up2 hstep
            rw [ih _ _ _ h]
            exact rb_delete_fixup_step_values hstep

theorem set_black_values {V : Type} {t t2 : Node V} (h : set_black t = some t2) :
    values t2 = values t := by
  rcases t with _ | ⟨c, l, x, r⟩
  · simp [set_black] at h
  · simp [set_black] at h; subst h; rfl

theorem rb_delete_fixup_values {V : Type} {x : Node V} {up : List (Frame V)} {t2 : Node V}
    (h : rb_delete_fixup x up = some t2) : values t2 = values (plug x up) := by
  rcases x with _ | ⟨c, l, v, r⟩
  · simp [rb_delete_fixup] at h; subst h; rfl
  · simp only [rb_delete_fixup] at h
    split at h
    · simp at h
    · rename_i c2 up2 hloop
      split at h
      · simp at h
      · rename_i c3 hset
        simp only [Option.some.injEq] at h
        subst h
        have h1 := rb_delete_fixup_loop_values _ _ _ _ hloop
        simp only at h1
        rw [← h1]
        simp only [values_plug, set_black_values hset]

theorem rb_delete_finish_values {V : Type} {yc : Color} {x : Node V} {up : List (Frame V)}
    {t2 : Node V} (h : rb_delete_finish yc x up = some t2) : values t2 = values (plug x up) := by
  cases yc
  · simp [rb_delete_finish] at h; subst h; rfl
  · exact rb_delete_fixup_values h

theorem plug_append {V : Type} (t : Node V) (a b : List (Frame V)) :
    plug t (a ++ b) = plug (plug t a) b := by
  induction a generalizing t with
  | nil => rfl
  | cons f a ih => simp [plug, ih]

theorem private_rb_find_in_tree_plug {V : Type} (cmp : V → V → Int) (v : V) (t : Node V)
    (up : List (Frame V)) :
    plug (private_rb_find_in_tree cmp v t up).1 (private_rb_find_in_tree cmp v t up).2 =
      plug t up := by
  induction t generalizing up with
  | NULL => rfl
  | mk c l x r ihl ihr =>
    simp only [private_rb_find_in_tree]
    split
    · rfl
    · split
      · rw [ihl]; rfl
      · rw [ihr]; rfl

theorem private_rb_find_in_tree_eq {V : Type} (cmp : V → V → Int) (v : V) (t : Node V)
    (up : List (Frame V)) {c : Color} {l : Node V} {x : V} {r : Node V}
    (h : (private_rb_find_in_tree cmp v t up).1 = mk c l x r) : cmp v x = 0 := by
  induction t generalizing up with
  | NULL => simp [private_rb_find_in_tree] at h
  | mk tc tl tx tr ihl ihr =>
    simp only [private_rb_find_in_tree] at h
    split at h
    · rename_i h0
      simp only [Node.mk.injEq] at h
      obtain ⟨_, _, rfl, _⟩ := h
      exact h0
    · split at h
      · exact ihl _ h
      · exact ihr _ h

theorem private_rb_find_in_tree_fst {V : Type} (cmp : V → V → Int) (v : V) (t : Node V)
    (up : List (Frame V)) :
    (private_rb_find_in_tree cmp v t up).1 = (private_rb_find_in_tree cmp v t []).1 := by
  induction t generalizing up with
  | NULL => rfl
  | mk c l x r ihl ihr =>
    simp only [private_rb_find_in_tree]
    split
    · rfl
    · split
      · rw [ihl, ihl [_]]
      · rw [ihr, ihr [_]]

/-- The minimum descent ends at a node without left child, inside the subtree it
started from, and nothing lies left of that node. -/
theorem private_subrb_tree_minimum_spec {V : Type} (t : Node V) (up : List (Frame V))
    {y : Node V} {yup : List (Frame V)} (h : private_subrb_tree_minimum t up = some (y, yup)) :
    (∃ yc yv yr, y = mk yc NULL yv yr) ∧ plug y yup = plug t up ∧
      (left_of up = [] → left_of yup = []) := by
  induction t generalizing up with
  | NULL => simp [private_subrb_tree_minimum] at h
  | mk c l x r ihl _ =>
    rcases l with _ | ⟨lc, ll, lx, lr⟩
    · simp only [private_subrb_tree_minimum, Option.some.injEq, Prod.mk.injEq] at h
      obtain ⟨rfl, rfl⟩ := h
      exact ⟨⟨_, _, _, rfl⟩, rfl, id⟩
    · simp only [private_subrb_tree_minimum] at h
      obtain ⟨h1, h2, h3⟩ := ihl _ h
      exact ⟨h1, h2, fun h0 => h3 (by simpa [left_of] using h0)⟩

theorem private_subrb_tree_minimum_some {V : Type} (c : Color) (l : Node V) (x : V) (r : Node V)
    (up : List (Frame V)) : ∃ res, private_subrb_tree_minimum (mk c l x r) up = some res := by
  induction l generalizing c x r up with
  | NULL => exact ⟨_, rfl⟩
  | mk lc ll lx lr ihl _ =>
    simp only [private_subrb_tree_minimum]
    exact ihl _ _ _ _

/-- What `rb_delete_value` does to the inorder sequence when it completes: nothing if
the search finds no node, else exactly the value of the node found is taken out. -/
theorem rb_delete_root_spec {V : Type} {cmp : V → V → Int} {v : V} {t t2 : Node V}
    (h : rb_delete_root cmp v t = some t2) :
    ((private_rb_find_in_tree cmp v t []).1 = NULL ∧ t2 = t) ∨
    ∃ dc dl dv dr l1 l2, (private_rb_find_in_tree cmp v t []).1 = mk dc dl dv dr ∧
      cmp v dv = 0 ∧ values t = l1 ++ dv :: l2 ∧ values t2 = l1 ++ l2 := by
  have hplug := private_rb_find_in_tree_plug cmp v t []
  have heq := @private_rb_find_in_tree_eq V cmp v t []
  unfold rb_delete_root at h
  rcases hf : private_rb_find_in_tree cmp v t [] with ⟨d, up⟩
  rw [hf] at h hplug heq
  simp only [plug] at hplug
  rcases d with _ | ⟨dc, dl, dv, dr⟩
  · left
    simp only [Option.some.injEq] at h
    exact ⟨rfl, h.symm⟩
  right
  have hv : values t = left_of up ++ values dl ++ dv :: (values dr ++ right_of up) := by
    rw [← hplug, values_plug]; simp [values]
  refine ⟨dc, dl, dv, dr, left_of up ++ values dl, _, rfl, heq rfl, hv, ?_⟩
  rcases dl with _ | ⟨lc, ll, lv, lr⟩
  · simp only at h
    rw [rb_delete_finish_values h, values_plug]; simp [values]
  rcases dr with _ | ⟨rc, rl, rv, rr⟩
  · simp only at h
    rw [rb_delete_finish_values h, values_plug]; simp [values]
  simp only [private_rb_find_successor] at h
  obtain ⟨⟨y, yup⟩, hmin⟩ := private_subrb_tree_minimum_some rc rl rv rr []
  rw [hmin] at h
  obtain ⟨⟨yc, yv, yr, rfl⟩, hy, hleft⟩ := private_subrb_tree_minimum_spec _ _ hmin
  have hleft := hleft rfl
  have hr : values (mk rc rl rv rr) = yv :: (values yr ++ right_of yup) := by
    have := congrArg values hy
    simp only [plug, values_plug, hleft] at this
    rw [← this]; simp [values]
  rw [hr]
  simp only at h
  have key : ∀ t2, rb_delete_finish yc yr (yup ++ ⟨R, dc, yv, mk lc ll lv lr⟩ :: up) = some t2 →
      values t2 = left_of up ++ values (mk lc ll lv lr) ++ (yv :: (values yr ++ right_of yup) ++ right_of up) := by
    intro t2 h2
    rw [rb_delete_finish_values h2, plug_append]
    simp [plug, attach, values_plug, values, hleft]
  split at h
  · exact key _ (by simpa using h)
  · exact key _ h

theorem delete_fixup_left_result {V : Type} {x : Node V} {pc : Color} {pv : V} {s : Node V}
    {up : List (Frame V)} {c : Node V} {up2 : List (Frame V)}
    (h : delete_fixup_left x pc pv s up = some (c, up2)) :
    (up2 = up ∧ ∃ a b, c = mk pc a pv b) ∨ up2 = [] := by
  rcases s with _ | ⟨sc, _ | ⟨slc, sll, slv, slr⟩, sv, _ | ⟨src, srl, srv, srr⟩⟩
  · simp [delete_fixup_left] at h
  · simp [delete_fixup_left] at h
  · simp [delete_fixup_left] at h
  · simp [delete_fixup_left] at h
  · cases slc <;> cases src <;>
      simp [delete_fixup_left, rb_rotate_left, rb_rotate_right] at h <;>
      simp [← h.1, ← h.2]

theorem delete_fixup_right_result {V : Type} {x : Node V} {pc : Color} {pv : V} {s : Node V}
    {up : List (Frame V)} {c : Node V} {up2 : List (Frame V)}
    (h : delete_fixup_right x pc pv s up = some (c, up2)) :
    (up2 = up ∧ ∃ a b, c = mk pc a pv b) ∨ up2 = [] := by
  rcases s with _ | ⟨sc, _ | ⟨slc, sll, slv, slr⟩, sv, _ | ⟨src, srl, srv, srr⟩⟩
  · simp [delete_fixup_right] at h
  · simp [delete_fixup_right] at h
  · simp [delete_fixup_right] at h
  · simp [delete_fixup_right] at h
  · cases slc <;> cases src <;>
      simp [delete_fixup_right, rb_rotate_left, rb_rotate_right] at h <;>
      simp [← h.1, ← h.2]

/-- Each iteration of the deletion loop either leaves a red culprit (which ends the
loop) or leaves the culprit with fewer parents above it than before. -/
theorem rb_delete_fixup_step_progress {V : Type} {xl : Node V} {xv : V} {xr : Node V}
    {p : Frame V} {up : List (Frame V)} {c : Node V} {up2 : List (Frame V)}
    (h : rb_delete_fixup_step xl xv xr p up = some (c, up2)) :
    is_red c = true ∨ up2.length ≤ up.length := by
  obtain ⟨ps, pc, pv, s⟩ := p
  cases ps
  · rcases s with _ | ⟨sc, sl, sv, sr⟩
    · simp [rb_delete_fixup_step] at h
    · cases sc
      · simp only [rb_delete_fixup_step, rb_rotate_left] at h
        rcases delete_fixup_left_result h with ⟨_, a, b, rfl⟩ | rfl
        · left; rfl
        · right; simp
      · simp only [rb_delete_fixup_step] at h
        rcases delete_fixup_left_result h with ⟨rfl, _⟩ | rfl
        · right; exact Nat.le_refl _
        · right; simp
  · rcases s with _ | ⟨sc, sl, sv, sr⟩
    · simp [rb_delete_fixup_step] at h
    · cases sc
      · rcases up with _ | ⟨⟨gs, gc, gv, gsib⟩, up⟩
        · simp [rb_delete_fixup_step, rb_rotate_left] at h
        · cases gs
          · rcases xr with _ | ⟨rc, rl, rv, rr⟩
            · simp [rb_delete_fixup_step, rb_rotate_left] at h
            · simp [rb_delete_fixup_step, rb_rotate_left, rb_rotate_right] at h
              right; simp [h.2]
          · simp only [rb_delete_fixup_step, rb_rotate_left] at h
            rcases delete_fixup_right_result h with ⟨rfl, _⟩ | rfl
            · right; simp
            · right; simp
      · simp only [rb_delete_fixup_step] at h
        rcases delete_fixup_right_result h with ⟨rfl, _⟩ | rfl
        · right; exact Nat.le_refl _
        · right; simp

/-- The iteration bound of the deletion loop is never what ends it: with at least one
unit of fuel per parent above the culprit, the result does not depend on the fuel. -/
theorem rb_delete_fixup_loop_fuel {V : Type} (fuel : Nat) :
    ∀ (fuel2 : Nat) (c : Node V) (up : List (Frame V)),
      (is_red c = true ∨ up.length ≤ fuel) → (is_red c = true ∨ up.length ≤ fuel2) →
      rb_delete_fixup_loop fuel c up = rb_delete_fixup_loop fuel2 c up := by
  induction fuel with
  | zero =>
    intro fuel2 c up h1 h2
    rcases c with _ | ⟨cc, l, v, r⟩
    · cases fuel2 <;> simp [rb_delete_fixup_loop]
    rcases up with _ | ⟨p, up⟩
    · cases fuel2 <;> simp [rb_delete_fixup_loop]
    cases cc
    · cases fuel2 <;> simp [rb_delete_fixup_loop]
    · simp at h1
  | succ fuel ih =>
    intro fuel2 c up h1 h2
    rcases c with _ | ⟨cc, l, v, r⟩
    · cases fuel2 <;> simp [rb_delete_fixup_loop]
    rcases up with _ | ⟨p, up⟩
    · cases fuel2 <;> simp [rb_delete_fixup_loop]
    cases cc
    · cases fuel2 <;> simp [rb_delete_fixup_loop]
    · simp only [is_red_BLACK, Bool.false_eq_true, false_or, List.length_cons] at h1 h2
      cases fuel2 with
      | zero => omega
      | succ fuel2 =>
        simp only [rb_delete_fixup_loop]
        cases hs : rb_delete_fixup_step l v r p up with
        | none => rfl
        | some res =>
          obtain ⟨c2, up2⟩ := res
          simp only
          have := rb_delete_fixup_step_progress hs
          apply ih
          · rcases this with h | h
            · exact Or.inl h
            · right; omega
          · rcases this with h | h
            · exact Or.inl h
            · right; omega

theorem root_black_plug_mk {V : Type} (up : List (Frame V)) (c : Color) (l : Node V) (v : V)
    (r l2 : Node V) (v2 : V) (r2 : Node V) :
    root_black (plug (mk c l v r) up) = root_black (plug (mk c l2 v2 r2) up) := by
  induction up generalizing c l v r l2 v2 r2 with
  | nil => cases c <;> rfl
  | cons f up ih =>
    obtain ⟨s, fc, fx, sib⟩ := f
    cases s <;> simp only [plug, attach] <;> exact ih _ _ _ _ _ _ _

theorem root_black_plug_cons {V : Type} (f : Frame V) (up : List (Frame V)) (t t2 : Node V) :
    root_black (plug t (f :: up)) = root_black (plug t2 (f :: up)) := by
  obtain ⟨s, fc, fx, sib⟩ := f
  cases s <;> simp only [plug, attach] <;> exact root_black_plug_mk _ _ _ _ _ _ _ _

theorem PathRR_black {V : Type} {up : List (Frame V)} {c : Color} (h : PathRR up c) :
    PathRR up BLACK := by
  cases up with
  | nil => trivial
  | cons f up => exact ⟨h.1, fun hc => ⟨rfl, (h.2.1 hc).2⟩, h.2.2⟩

theorem rb_delete_fixup_loop_red {V : Type} (fuel : Nat) (l : Node V) (v : V) (r : Node V)
    (up : List (Frame V)) :
    rb_delete_fixup_loop fuel (mk RED l v r) up = some (mk RED l v r, up) := by
  cases fuel <;> cases up <;> simp [rb_delete_fixup_loop]

/-- Splicing out a node `mk yc a yv b` that has a `NULL` child, with `x` its other
child, in a tree that satisfies the colour invariants: the call completes, the root
stays black and no red node gets a red child. -/
theorem rb_delete_finish_rb {V : Type} {yc : Color} {a : Node V} {yv : V} {b x : Node V}
    {up : List (Frame V)} {n0 : Nat}
    (h1 : root_black (plug (mk yc a yv b) up) = true)
    (h2 : no_red_red (plug (mk yc a yv b) up) = true)
    (h3 : Bal (plug (mk yc a yv b) up) n0)
    (hx : (a = NULL ∧ x = b) ∨ (b = NULL ∧ x = a)) :
    ∃ t2, rb_delete_finish yc x up = some t2 ∧ root_black t2 = true ∧ no_red_red t2 = true := by
  obtain ⟨hy, hp⟩ := PathRR_of_plug h2
  obtain ⟨k, hk, _⟩ := Bal_of_plug h3
  simp only [color_of_mk] at hp
  have hpb := PathRR_black hp
  have hroot : ∀ t : Node V, (up = [] → root_black t = true) → root_black (plug t up) = true := by
    intro t ht
    cases up with
    | nil => exact ht rfl
    | cons f up => rw [root_black_plug_cons f up t (mk yc a yv b)]; exact h1
  cases yc
  · -- a red node is spliced out: no fixup
    have hup : up ≠ [] := by
      rintro rfl
      simp [plug] at h1
    have hxb : no_red_red x = true ∧ color_of x = BLACK := by
      rcases hx with ⟨rfl, rfl⟩ | ⟨rfl, rfl⟩ <;>
        simp_all [no_red_red, is_red_eq_false_iff]
    refine ⟨plug x up, rfl, hroot x (fun h => absurd h hup), ?_⟩
    exact no_red_red_plug hxb.1 (by rw [hxb.2]; exact hpb)
  · -- a black node is spliced out
    rcases x with _ | ⟨xc, xl, xv, xr⟩
    · refine ⟨plug NULL up, rfl, hroot NULL (fun _ => rfl), ?_⟩
      exact no_red_red_plug rfl (by simpa using hpb)
    · have hxc : xc = RED ∧ no_red_red (mk BLACK xl xv xr) = true := by
        cases k with
        | zero => simp [Bal] at hk
        | succ k =>
          simp only [Bal] at hk
          obtain ⟨hk1, hk2⟩ := hk
          rcases hx with ⟨rfl, rfl⟩ | ⟨rfl, rfl⟩
          · simp only [Bal] at hk1
            subst hk1
            cases xc
            · refine ⟨rfl, ?_⟩
              simp [no_red_red] at hy ⊢
              tauto
            · simp [Bal] at hk2
          · simp only [Bal] at hk2
            subst hk2
            cases xc
            · refine ⟨rfl, ?_⟩
              simp [no_red_red] at hy ⊢
              tauto
            · simp [Bal] at hk1
      obtain ⟨rfl, hxn⟩ := hxc
      refine ⟨plug (mk BLACK xl xv xr) up, ?_, hroot _ (fun _ => rfl), ?_⟩
      · simp [rb_delete_finish, rb_delete_fixup, rb_delete_fixup_loop_red, set_black]
      · exact no_red_red_plug hxn (by simpa using hpb)

theorem rb_delete_root_rb {V : Type} (cmp : V → V → Int) (v : V) {t : Node V}
    (h : rb_invariants t) :
    ∃ t2, rb_delete_root cmp v t = some t2 ∧ root_black t2 = true ∧ no_red_red t2 = true := by
  obtain ⟨hroot, hrr, hbal⟩ := h
  rw [same_black_count_iff] at hbal
  obtain ⟨n0, hn0⟩ := hbal
  have hplug := private_rb_find_in_tree_plug cmp v t []
  unfold rb_delete_root
  rcases hf : private_rb_find_in_tree cmp v t [] with ⟨d, up⟩
  rw [hf] at hplug
  simp only [plug] at hplug
  rcases d with _ | ⟨dc, dl, dv, dr⟩
  · exact ⟨t, rfl, hroot, hrr⟩
  rw [← hplug] at hroot hrr hn0
  rcases dl with _ | ⟨lc, ll, lv, lr⟩
  · exact rb_delete_finish_rb hroot hrr hn0 (Or.inl ⟨rfl, rfl⟩)
  rcases dr with _ | ⟨rc, rl, rv, rr⟩
  · exact rb_delete_finish_rb hroot hrr hn0 (Or.inr ⟨rfl, rfl⟩)
  simp only [private_rb_find_successor]
  obtain ⟨⟨y, yup⟩, hmin⟩ := private_subrb_tree_minimum_some rc rl rv rr []
  rw [hmin]
  obtain ⟨⟨yc, yv, yr, rfl⟩, hy, _⟩ := private_subrb_tree_minimum_spec _ _ hmin
  simp only [plug] at hy
  -- the tree with the value of `y` in the place of `delete_me`
  have e : plug (mk yc NULL yv yr) (yup ++ ⟨R, dc, yv, mk lc ll lv lr⟩ :: up) =
      plug (mk dc (mk lc ll lv lr) yv (mk rc rl rv rr)) up := by
    rw [plug_append, hy]; rfl
  have g1 : root_black (plug (mk yc NULL yv yr) (yup ++ ⟨R, dc, yv, mk lc ll lv lr⟩ :: up)) = true := by
    rw [e, root_black_plug_mk up dc _ yv _ (mk lc ll lv lr) dv (mk rc rl rv rr)]; exact hroot
  have g2 : no_red_red (plug (mk yc NULL yv yr) (yup ++ ⟨R, dc, yv, mk lc ll lv lr⟩ :: up)) = true := by
    rw [e]
    obtain ⟨q1, q2⟩ := PathRR_of_plug hrr
    exact no_red_red_plug (t := mk dc (mk lc ll lv lr) yv (mk rc rl rv rr))
      (by cases dc <;> simpa [no_red_red] using q1) (by simpa using q2)
  have g3 : Bal (plug (mk yc NULL yv yr) (yup ++ ⟨R, dc, yv, mk lc ll lv lr⟩ :: up)) n0 := by
    rw [e]
    obtain ⟨k, q1, q2⟩ := Bal_of_plug hn0
    refine Bal_plug q2 ?_
    cases dc
    · simpa [Bal] using q1
    · cases k with
      | zero => simp [Bal] at q1
      | succ k => simpa [Bal] using q1
  have key := rb_delete_finish_rb (x := yr) g1 g2 g3 (Or.inl ⟨rfl, rfl⟩)
  simp only
  split
  · simpa using key
  · exact key

theorem rb_delete_value_rb {V : Type} (tree : rb_tree V) (value : V)
    (h : rb_invariants tree.root) :
    ∃ t2, rb_delete_value tree value = some t2 ∧ root_black t2.root = true ∧
      no_red_red t2.root = true := by
  obtain ⟨r2, h1, h2, h3⟩ := rb_delete_root_rb tree.comparison_func value h
  exact ⟨{ tree with root := r2 }, by simp [rb_delete_value, h1], h2, h3⟩

/-- C3: for every tree that satisfies the red-black colour invariants and every value,
`rb_delete_value` completes, and afterwards the root (if any) is black and no red node
has a red child. -/
theorem C3_delete_keeps_root_black_and_no_red_red {V : Type} (tree : rb_tree V) (value : V)
    (h : rb_invariants tree.root) :
    ∃ t2, rb_delete_value tree value = some t2 ∧ root_black t2.root = true ∧
      no_red_red t2.root = true :=
  rb_delete_value_rb tree value h

/-- Witness for C3: deleting 2 from the tree holding 1, 2, 3. -/
theorem C3_delete_keeps_root_black_and_no_red_red_witness :
    rb_invariants (mk BLACK (mk RED NULL (1 : Int) NULL) 2 (mk RED NULL 3 NULL)) ∧
      ∃ t2, rb_delete_value
          ⟨mk BLACK (mk RED NULL (1 : Int) NULL) 2 (mk RED NULL 3 NULL), integer_comparison⟩ 2 =
            some t2 ∧ root_black t2.root = true ∧ no_red_red t2.root = true :=
  ⟨by decide, C3_delete_keeps_root_black_and_no_red_red
    ⟨mk BLACK (mk RED NULL (1 : Int) NULL) 2 (mk RED NULL 3 NULL), integer_comparison⟩ 2
    (by decide)⟩

/-- C2 fails on the code: the tree built by inserting 2, 1, 3, 4 and deleting 4 has a
black root 2 with black leaves 1 and 3 and satisfies the colour invariants; deleting
the stored value 1 removes a black node whose replacement is `NULL`, the fixup returns
at once, and the result has one black node on the path to the left `NULL` of the root
but two on the paths through 3. -/
theorem C2_delete_black_leaf_breaks_black_count :
    ((insert_all (rb_new integer_comparison) [2, 1, 3, 4]).bind
        (fun t => rb_delete_value t 4)).map rb_tree.root =
      some (mk BLACK (mk BLACK NULL 1 NULL) 2 (mk BLACK NULL 3 NULL)) ∧
    rb_invariants (mk BLACK (mk BLACK NULL (1 : Int) NULL) 2 (mk BLACK NULL 3 NULL)) ∧
    rb_search ⟨mk BLACK (mk BLACK NULL 1 NULL) 2 (mk BLACK NULL 3 NULL), integer_comparison⟩ 1 =
      some 1 ∧
    (rb_delete_value
        ⟨mk BLACK (mk BLACK NULL 1 NULL) 2 (mk BLACK NULL 3 NULL), integer_comparison⟩ 1).map
        rb_tree.root =
      some (mk BLACK NULL 2 (mk BLACK NULL 3 NULL)) ∧
    black_counts (mk BLACK NULL (2 : Int) (mk BLACK NULL 3 NULL)) = [1, 2, 2] ∧
    ¬ same_black_count (mk BLACK NULL (2 : Int) (mk BLACK NULL 3 NULL)) := by
  decide

theorem private_rb_find_in_tree_absent {V : Type} (cmp : V → V → Int) (v : V) (t : Node V)
    (up : List (Frame V)) (h : ∀ w ∈ values t, cmp v w ≠ 0) :
    private_rb_find_in_tree cmp v t up = (NULL, (private_rb_find_in_tree cmp v t up).2) := by
  induction t generalizing up with
  | NULL => rfl
  | mk c l x r ihl ihr =>
    have hx : cmp v x ≠ 0 := h x (by simp [values])
    simp only [private_rb_find_in_tree, hx, if_false]
    split
    · exact ihl _ (fun w hw => h w (by simp [values, hw]))
    · exact ihr _ (fun w hw => h w (by simp [values, hw]))

theorem private_rb_find_in_tree_mem {V : Type} (cmp : V → V → Int) (v : V) (t : Node V)
    (up : List (Frame V)) {c : Color} {l : Node V} {x : V} {r : Node V}
    (h : (private_rb_find_in_tree cmp v t up).1 = mk c l x r) : x ∈ values t := by
  induction t generalizing up with
  | NULL => simp [private_rb_find_in_tree] at h
  | mk tc tl tx tr ihl ihr =>
    simp only [private_rb_find_in_tree] at h
    split at h
    · simp only [Node.mk.injEq] at h
      obtain ⟨_, _, rfl, _⟩ := h
      simp [values]
    · split at h
      · simp [values, ihl _ h]
      · simp [values, ihr _ h]

/-- In a tree whose inorder sequence is non-decreasing, the search descent reaches a
node whenever some stored value compares equal to the value searched. -/
theorem private_rb_find_in_tree_present {V : Type} {cmp : V → V → Int} (hc : TotalOrder cmp)
    (v : V) (t : Node V) (up : List (Frame V)) (hs : Nondecreasing cmp (values t))
    {w : V} (hw : w ∈ values t) (hvw : cmp v w = 0) :
    (private_rb_find_in_tree cmp v t up).1 ≠ NULL := by
  induction t generalizing up with
  | NULL => simp [values] at hw
  | mk c l x r ihl ihr =>
    unfold Nondecreasing at hs
    simp only [values, List.pairwise_append, List.pairwise_cons, List.mem_cons,
      forall_eq_or_imp] at hs
    obtain ⟨hsl, ⟨hxr, hsr⟩, hlx⟩ := hs
    simp only [private_rb_find_in_tree]
    split
    · simp
    rename_i hne
    simp only [values, List.mem_append, List.mem_cons] at hw
    have hwv : cmp w v = 0 := hc.eq_zero_symm hvw
    split
    · rename_i hlt
      apply ihl _ hsl
      rcases hw with hw | rfl | hw
      · exact hw
      · exact absurd hvw hne
      · have := hc.lt_of_lt_of_le hlt (hxr w hw)
        omega
    · rename_i hge
      apply ihr _ hsr
      rcases hw with hw | rfl | hw
      · have h1 : cmp x v < 0 := by
          have := hc.antisymm x v
          by_contra hcon
          have h2 : cmp v x ≤ 0 := hc.le_of_not_lt hcon
          omega
        have := hc.lt_of_le_of_lt (hlx w hw).1 h1
        omega
      · exact absurd hvw hne
      · exact hw

theorem rb_search_eq_none {V : Type} (tree : rb_tree V) (v : V)
    (h : ∀ w ∈ values tree.root, tree.comparison_func v w ≠ 0) : rb_search tree v = none := by
  unfold rb_search
  rw [private_rb_find_in_tree_absent _ _ _ _ h]

/-- In a tree whose inorder sequence is non-decreasing and whose stored values are
pairwise unequal under the comparison, searching a stored value returns it. -/
theorem rb_search_eq_some {V : Type} (tree : rb_tree V) (hc : TotalOrder tree.comparison_func)
    (hs : Nondecreasing tree.comparison_func (values tree.root))
    (hd : ∀ a ∈ values tree.root, ∀ b ∈ values tree.root, tree.comparison_func a b = 0 → a = b)
    {v : V} (hv : v ∈ values tree.root) : rb_search tree v = some v := by
  have hne := private_rb_find_in_tree_present hc v tree.root [] hs hv (hc.refl v)
  unfold rb_search
  rcases hf : (private_rb_find_in_tree tree.comparison_func v tree.root []).1 with
    _ | ⟨c, l, x, r⟩
  · exact absurd hf hne
  · have h1 := private_rb_find_in_tree_mem _ _ _ _ hf
    have h2 := private_rb_find_in_tree_eq _ _ _ _ hf
    simp only [Option.some.injEq]
    exact (hd v hv x h1 h2).symm

theorem distinct_of_pairwise {V : Type} {cmp : V → V → Int} (hc : TotalOrder cmp) {xs : List V}
    (hd : xs.Pairwise (fun a b => cmp a b ≠ 0)) :
    ∀ a ∈ xs, ∀ b ∈ xs, cmp a b = 0 → a = b := by
  intro a ha b hb hab
  by_contra hne
  have hsymm : Symmetric (fun a b : V => cmp a b ≠ 0) :=
    fun x y hxy hyx => hxy (hc.eq_zero_symm hyx)
  exact hd.forall hsymm ha hb hne hab

/-- C6: for every list of distinct values inserted into an empty tree in any order, the
inserts complete, `rb_search` returns the stored value for every inserted value, and
returns `NULL` (no value) for every value that compares unequal to all inserted
values. -/
theorem C6_search_after_inserts {V : Type} (cmp : V → V → Int) (hc : TotalOrder cmp)
    (vs : List V) (hd : vs.Pairwise (fun a b => cmp a b ≠ 0)) :
    ∃ t, insert_all (rb_new cmp) vs = some t ∧ (∀ v ∈ vs, rb_search t v = some v) ∧
      (∀ v, (∀ w ∈ vs, cmp v w ≠ 0) → rb_search t v = none) := by
  obtain ⟨t, h1, h2, _, h4, h5⟩ := insert_all_new_spec hc vs
  subst h2
  have hdist := distinct_of_pairwise hc hd
  refine ⟨t, h1, ?_, ?_⟩
  · intro v hv
    apply rb_search_eq_some t hc h4
    · intro a ha b hb
      exact hdist a (h5.mem_iff.1 ha) b (h5.mem_iff.1 hb)
    · exact h5.mem_iff.2 hv
  · intro v hv
    exact rb_search_eq_none t v (fun w hw => hv w (h5.mem_iff.1 hw))

/-- Witness for C6 on the values of `test_rb_search_for_ints`. -/
theorem C6_search_after_inserts_witness :
    ∃ t, insert_all (rb_new integer_comparison) [214, 25, 64, 4, 7, 729, 34, 28, 9, 11] = some t ∧
      (∀ v ∈ [214, 25, 64, 4, 7, 729, 34, 28, 9, 11], rb_search t v = some v) ∧
      (∀ v, (∀ w ∈ [214, 25, 64, 4, 7, 729, 34, 28, 9, 11], integer_comparison v w ≠ 0) →
        rb_search t v = none) :=
  C6_search_after_inserts integer_comparison integer_comparison_total
    [214, 25, 64, 4, 7, 729, 34, 28, 9, 11] (by decide)

/-- C9: for every tree and every value that compares unequal to all stored values,
`rb_delete_value` returns the tree exactly as it was: same shape, same colours, same
stored values. -/
theorem C9_delete_absent_is_noop {V : Type} (tree : rb_tree V) (value : V)
    (h : ∀ w ∈ values tree.root, tree.comparison_func value w ≠ 0) :
    rb_delete_value tree value = some tree := by
  unfold rb_delete_value rb_delete_root
  rw [private_rb_find_in_tree_absent _ _ _ _ h]

/-- Witness for C9: deleting 5 from the tree holding 1, 2, 3. -/
theorem C9_delete_absent_is_noop_witness :
    rb_delete_value
        ⟨mk BLACK (mk RED NULL (1 : Int) NULL) 2 (mk RED NULL 3 NULL), integer_comparison⟩ 5 =
      some ⟨mk BLACK (mk RED NULL (1 : Int) NULL) 2 (mk RED NULL 3 NULL), integer_comparison⟩ :=
  C9_delete_absent_is_noop
    ⟨mk BLACK (mk RED NULL (1 : Int) NULL) 2 (mk RED NULL 3 NULL), integer_comparison⟩ 5
    (by decide)

theorem rb_delete_value_spec {V : Type} {tree t2 : rb_tree V} {v : V}
    (h : rb_delete_value tree v = some t2) :
    t2.comparison_func = tree.comparison_func ∧
    (((private_rb_find_in_tree tree.comparison_func v tree.root []).1 = NULL ∧ t2 = tree) ∨
      ∃ dc dl dv dr l1 l2,
        (private_rb_find_in_tree tree.comparison_func v tree.root []).1 = mk dc dl dv dr ∧
        tree.comparison_func v dv = 0 ∧ values tree.root = l1 ++ dv :: l2 ∧
        values t2.root = l1 ++ l2) := by
  unfold rb_delete_value at h
  split at h
  · simp at h
  · rename_i root hroot
    simp only [Option.some.injEq] at h
    subst h
    refine ⟨rfl, ?_⟩
    rcases rb_delete_root_spec hroot with ⟨h1, h2⟩ | ⟨dc, dl, dv, dr, l1, l2, h1, h2, h3, h4⟩
    · left
      subst h2
      exact ⟨h1, rfl⟩
    · right
      exact ⟨dc, dl, dv, dr, l1, l2, h1, h2, h3, h4⟩

theorem rb_delete_value_nondecreasing {V : Type} {tree t2 : rb_tree V} {v : V}
    (hs : Nondecreasing tree.comparison_func (values tree.root))
    (h : rb_delete_value tree v = some t2) :
    Nondecreasing tree.comparison_func (values t2.root) := by
  rcases (rb_delete_value_spec h).2 with ⟨_, rfl⟩ | ⟨dc, dl, dv, dr, l1, l2, _, _, h3, h4⟩
  · exact hs
  · unfold Nondecreasing at hs ⊢
    rw [h3] at hs
    rw [h4]
    exact hs.sublist (List.Sublist.append_left (List.sublist_cons_self dv l2) l1)

theorem run_ops_nondecreasing {V : Type} (ops : List (Op V)) :
    ∀ (tree t : rb_tree V), TotalOrder tree.comparison_func →
      Nondecreasing tree.comparison_func (values tree.root) → run_ops tree ops = some t →
      t.comparison_func = tree.comparison_func ∧
        Nondecreasing tree.comparison_func (values t.root) := by
  induction ops with
  | nil =>
    intro tree t _ hs h
    simp only [run_ops, Option.some.injEq] at h
    subst h
    exact ⟨rfl, hs⟩
  | cons op ops ih =>
    intro tree t hc hs h
    cases op with
    | insert v =>
      simp only [run_ops] at h
      split at h
      · simp at h
      · rename_i t1 h1
        obtain ⟨l1, l2, e1, e2, b1, b2, hcmp⟩ := rb_insert_value_spec hc hs h1
        have hs1 : Nondecreasing tree.comparison_func (values t1.root) := by
          rw [e2]; exact Nondecreasing_insert (by rw [← e1]; exact hs) b1 b2
        have := ih t1 t (by rw [hcmp]; exact hc) (by rw [hcmp]; exact hs1) h
        rw [hcmp] at this
        exact this
    | delete v =>
      simp only [run_ops] at h
      split at h
      · simp at h
      · rename_i t1 h1
        have hcmp := (rb_delete_value_spec h1).1
        have hs1 := rb_delete_value_nondecreasing hs h1
        have := ih t1 t (by rw [hcmp]; exact hc) (by rw [hcmp]; exact hs1) h
        rw [hcmp] at this
        exact this

/-- The inorder walk of a non-empty subtree completes and visits the values of the
subtree in inorder. -/
theorem rb_private_inorder_map_values {V : Type} (t : Node V) :
    ∀ depth : Nat, t ≠ NULL →
      ∃ visits, rb_private_inorder_map t depth = some visits ∧
        visits.map Prod.fst = values t := by
  induction t with
  | NULL => intro _ h; exact absurd rfl h
  | mk c l x r ihl ihr =>
    intro depth _
    have guarded : ∀ (s : Node V),
        (∀ d : Nat, s ≠ NULL → ∃ visits, rb_private_inorder_map s d = some visits ∧
          visits.map Prod.fst = values s) →
        ∃ visits, (if s.isNULL then some [] else rb_private_inorder_map s (depth + 1)) =
          some visits ∧ visits.map Prod.fst = values s := by
      intro s hs
      rcases s with _ | ⟨sc, sl, sx, sr⟩
      · exact ⟨[], by simp [Node.isNULL], by simp [values]⟩
      · obtain ⟨vs, h1, h2⟩ := hs (depth + 1) (by simp)
        exact ⟨vs, by simp [Node.isNULL, h1], h2⟩
    obtain ⟨vl, hl1, hl2⟩ := guarded l ihl
    obtain ⟨vr, hr1, hr2⟩ := guarded r ihr
    refine ⟨vl ++ (x, depth) :: vr, ?_, by simp [values, hl2, hr2]⟩
    simp only [rb_private_inorder_map]
    rw [hl1, hr1]

/-- C4: for every tree state reached from the empty tree by any sequence of
`rb_insert_value` and `rb_delete_value` calls, with a comparison function that is a
total order, the values visited by `rb_map_inorder` are in non-decreasing comparator
order; the walk completes on every such state that is not empty. -/
theorem C4_inorder_nondecreasing {V : Type} (cmp : V → V → Int) (hc : TotalOrder cmp)
    (ops : List (Op V)) (t : rb_tree V) (h : run_ops (rb_new cmp) ops = some t) :
    (∀ visits, rb_map_inorder t = some visits → Nondecreasing cmp (visits.map Prod.fst)) ∧
      (rb_tree_is_empty t = false → ∃ visits, rb_map_inorder t = some visits) := by
  have hs := (run_ops_nondecreasing ops (rb_new cmp) t hc
    (by simp [rb_new, values, Nondecreasing]) h).2
  simp only [rb_new] at hs
  constructor
  · intro visits hv
    rcases hr : t.root with _ | ⟨c, l, x, r⟩
    · simp [rb_map_inorder, hr, rb_private_inorder_map] at hv
    · obtain ⟨vs, h1, h2⟩ := rb_private_inorder_map_values t.root 0 (by simp [hr])
      simp only [rb_map_inorder, h1, Option.some.injEq] at hv
      subst hv
      rw [h2]
      exact hs
  · intro he
    rcases hr : t.root with _ | ⟨c, l, x, r⟩
    · simp [rb_tree_is_empty, hr] at he
    · obtain ⟨vs, h1, _⟩ := rb_private_inorder_map_values t.root 0 (by simp [hr])
      exact ⟨vs, by simpa [rb_map_inorder, hr] using h1⟩

/-- Witness for C4: insert 2, 1, 3, 4, delete 4, delete 1. -/
theorem C4_inorder_nondecreasing_witness :
    (∀ visits,
      rb_map_inorder ⟨mk BLACK NULL (2 : Int) (mk BLACK NULL 3 NULL), integer_comparison⟩ =
          some visits →
        Nondecreasing integer_comparison (visits.map Prod.fst)) ∧
      (rb_tree_is_empty ⟨mk BLACK NULL (2 : Int) (mk BLACK NULL 3 NULL), integer_comparison⟩ =
          false →
        ∃ visits,
          rb_map_inorder ⟨mk BLACK NULL (2 : Int) (mk BLACK NULL 3 NULL), integer_comparison⟩ =
            some visits) :=
  C4_inorder_nondecreasing integer_comparison integer_comparison_total
    [Op.insert 2, Op.insert 1, Op.insert 3, Op.insert 4, Op.delete 4, Op.delete 1]
    ⟨mk BLACK NULL (2 : Int) (mk BLACK NULL 3 NULL), integer_comparison⟩ (by rfl)

/-- C8: for every tree that satisfies the red-black invariants (the colour invariants,
and an inorder sequence in non-decreasing order) and every value `v` equal to a stored
value, `rb_delete_value` completes and removes exactly one node: the inorder sequence
before is `l1 ++ w :: l2` with `w` comparing equal to `v`, and the inorder sequence
afterwards is `l1 ++ l2`. -/
theorem C8_delete_removes_one {V : Type} (tree : rb_tree V) (v : V)
    (hc : TotalOrder tree.comparison_func) (hinv : rb_invariants tree.root)
    (hs : Nondecreasing tree.comparison_func (values tree.root))
    (hv : ∃ w ∈ values tree.root, tree.comparison_func v w = 0) :
    ∃ t2, rb_delete_value tree v = some t2 ∧
      ∃ l1 w l2, values tree.root = l1 ++ w :: l2 ∧ tree.comparison_func v w = 0 ∧
        values t2.root = l1 ++ l2 := by
  obtain ⟨t2, h1, _, _⟩ := rb_delete_value_rb tree v hinv
  refine ⟨t2, h1, ?_⟩
  obtain ⟨w, hw, hvw⟩ := hv
  have hne := private_rb_find_in_tree_present hc v tree.root [] hs hw hvw
  rcases (rb_delete_value_spec h1).2 with ⟨h2, _⟩ | ⟨dc, dl, dv, dr, l1, l2, _, h3, h4, h5⟩
  · exact absurd h2 hne
  · exact ⟨l1, dv, l2, h4, h3, h5⟩

/-- Witness for C8: deleting 2 from the tree holding 1, 2, 2, 3. -/
theorem C8_delete_removes_one_witness :
    ∃ t2, rb_delete_value
        ⟨mk BLACK (mk BLACK NULL (1 : Int) NULL) 2 (mk BLACK (mk RED NULL 2 NULL) 3 NULL),
          integer_comparison⟩ 2 = some t2 ∧
      ∃ l1 w l2,
        values (mk BLACK (mk BLACK NULL (1 : Int) NULL) 2 (mk BLACK (mk RED NULL 2 NULL) 3 NULL)) =
          l1 ++ w :: l2 ∧
        integer_comparison 2 w = 0 ∧ values t2.root = l1 ++ l2 :=
  C8_delete_removes_one
    ⟨mk BLACK (mk BLACK NULL (1 : Int) NULL) 2 (mk BLACK (mk RED NULL 2 NULL) 3 NULL),
      integer_comparison⟩ 2 integer_comparison_total (by decide) (by decide) (by decide)

/-- C7: for every tree built by inserting distinct values and every stored value `v`,
`rb_delete_value` completes, afterwards `rb_search` finds no value for `v`, and still
returns `w` for every other stored value `w`. -/
theorem C7_search_after_delete {V : Type} (cmp : V → V → Int) (hc : TotalOrder cmp)
    (vs : List V) (hd : vs.Pairwise (fun a b => cmp a b ≠ 0)) (v : V) (hv : v ∈ vs) :
    ∃ t t2, insert_all (rb_new cmp) vs = some t ∧ rb_delete_value t v = some t2 ∧
      rb_search t2 v = none ∧ (∀ w ∈ vs, w ≠ v → rb_search t2 w = some w) := by
  obtain ⟨t, h1, h2, h3, h4, h5⟩ := insert_all_new_spec hc vs
  subst h2
  obtain ⟨t2, hdel, _, _⟩ := rb_delete_value_rb t v h3
  have hdist := distinct_of_pairwise hc hd
  have hvt : v ∈ values t.root := h5.mem_iff.2 hv
  have hne := private_rb_find_in_tree_present hc v t.root [] h4 hvt (hc.refl v)
  obtain ⟨hcmp, hspec⟩ := rb_delete_value_spec hdel
  rcases hspec with ⟨h6, _⟩ | ⟨dc, dl, dv, dr, l1, l2, _, h7, h8, h9⟩
  · exact absurd h6 hne
  have hdv : dv ∈ vs := h5.mem_iff.1 (by rw [h8]; simp)
  have hvd : v = dv := hdist v hv dv hdv h7
  subst hvd
  have hnd : (values t.root).Nodup := h5.nodup_iff.2 (by
    refine hd.imp ?_
    intro a b hab heq
    subst heq
    exact hab (hc.refl a))
  rw [h8] at hnd
  have hnot : v ∉ l1 ++ l2 := by
    have := List.nodup_middle.1 hnd
    exact (List.nodup_cons.1 this).1
  have hsub : ∀ w ∈ values t2.root, w ∈ vs := by
    intro w hw
    apply h5.mem_iff.1
    rw [h8]
    rw [h9] at hw
    rcases List.mem_append.1 hw with hw | hw
    · exact List.mem_append_left _ hw
    · exact List.mem_append_right _ (List.mem_cons_of_mem _ hw)
  have hs2 : Nondecreasing t2.comparison_func (values t2.root) := by
    rw [hcmp]; exact rb_delete_value_nondecreasing h4 hdel
  refine ⟨t, t2, h1, hdel, ?_, ?_⟩
  · apply rb_search_eq_none
    intro w hw heq
    rw [hcmp] at heq
    have : v = w := hdist v hv w (hsub w hw) heq
    subst this
    rw [h9] at hw
    exact hnot hw
  · intro w hw hwv
    apply rb_search_eq_some t2 (by rw [hcmp]; exact hc) hs2
    · intro a ha b hb hab
      rw [hcmp] at hab
      exact hdist a (hsub a ha) b (hsub b hb) hab
    · rw [h9]
      have hwt : w ∈ values t.root := h5.mem_iff.2 hw
      rw [h8] at hwt
      rcases List.mem_append.1 hwt with hwt | hwt
      · exact List.mem_append_left _ hwt
      · rcases List.mem_cons.1 hwt with rfl | hwt
        · exact absurd rfl hwv
        · exact List.mem_append_right _ hwt

/-- Witness for C7 on the inserts and the first delete of `test_rb_delete_value`
(hello = 2, world = 5, the = 4, earth = 1, says = 3). -/
theorem C7_search_after_delete_witness :
    ∃ t t2, insert_all (rb_new integer_comparison) [2, 5, 4, 1, 3] = some t ∧
      rb_delete_value t 2 = some t2 ∧ rb_search t2 2 = none ∧
      (∀ w ∈ [2, 5, 4, 1, 3], w ≠ 2 → rb_search t2 w = some w) :=
  C7_search_after_delete integer_comparison integer_comparison_total [2, 5, 4, 1, 3]
    (by decide) 2 (by decide)

/-- In a tree whose inorder sequence is non-decreasing, the successor walk keeps the
incoming candidate when no value of the subtree orders strictly after `v`, and else
ends at a node of the subtree whose value is the least one strictly after `v`. -/
theorem successor_loop_spec {V : Type} {cmp : V → V → Int} (hc : TotalOrder cmp) (v : V)
    (t : Node V) (s : Node V) (hs : Nondecreasing cmp (values t)) :
    ((∀ u ∈ values t, ¬ cmp v u < 0) → successor_loop cmp v t s = s) ∧
    ((∃ u ∈ values t, cmp v u < 0) →
      ∃ c l w r, successor_loop cmp v t s = mk c l w r ∧ w ∈ values t ∧ cmp v w < 0 ∧
        ∀ u ∈ values t, cmp v u < 0 → cmp w u ≤ 0) := by
  induction t generalizing s with
  | NULL => exact ⟨fun _ => rfl, fun ⟨u, hu, _⟩ => by simp [values] at hu⟩
  | mk c l x r ihl ihr =>
    unfold Nondecreasing at hs
    simp only [values, List.pairwise_append, List.pairwise_cons, List.mem_cons,
      forall_eq_or_imp] at hs
    obtain ⟨hsl, ⟨hxr, hsr⟩, hlx⟩ := hs
    simp only [successor_loop]
    split
    · rename_i hlt
      constructor
      · intro hnone
        exact absurd hlt (hnone x (by simp [values]))
      · intro _
        by_cases hex : ∃ u ∈ values l, cmp v u < 0
        · obtain ⟨c2, l2, w, r2, h1, h2, h3, h4⟩ := (ihl (mk c l x r) hsl).2 hex
          refine ⟨c2, l2, w, r2, h1, by simp [values, h2], h3, ?_⟩
          intro u hu huv
          simp only [values, List.mem_append, List.mem_cons] at hu
          rcases hu with hu | rfl | hu
          · exact h4 u hu huv
          · exact (hlx w h2).1
          · exact hc.trans _ _ _ (hlx w h2).1 (hxr u hu)
        · have hno : ∀ u ∈ values l, ¬ cmp v u < 0 := fun u hu hlt2 => hex ⟨u, hu, hlt2⟩
          rw [(ihl (mk c l x r) hsl).1 hno]
          refine ⟨c, l, x, r, rfl, by simp [values], hlt, ?_⟩
          intro u hu huv
          simp only [values, List.mem_append, List.mem_cons] at hu
          rcases hu with hu | rfl | hu
          · exact absurd huv (hno u hu)
          · exact le_of_eq (hc.refl _)
          · exact hxr u hu
    · rename_i hge
      have hxv : cmp x v ≤ 0 := hc.le_of_not_lt hge
      have hleft : ∀ u ∈ values l, ¬ cmp v u < 0 := fun u hu =>
        hc.not_lt_of_le (hc.trans _ _ _ (hlx u hu).1 hxv)
      constructor
      · intro hnone
        exact (ihr s hsr).1 (fun u hu => hnone u (by simp [values, hu]))
      · rintro ⟨u0, hu0, hu0v⟩
        simp only [values, List.mem_append, List.mem_cons] at hu0
        have hex : ∃ u ∈ values r, cmp v u < 0 := by
          rcases hu0 with hu0 | rfl | hu0
          · exact absurd hu0v (hleft u0 hu0)
          · exact absurd hu0v hge
          · exact ⟨u0, hu0, hu0v⟩
        obtain ⟨c2, l2, w, r2, h1, h2, h3, h4⟩ := (ihr s hsr).2 hex
        refine ⟨c2, l2, w, r2, h1, by simp [values, h2], h3, ?_⟩
        intro u hu huv
        simp only [values, List.mem_append, List.mem_cons] at hu
        rcases hu with hu | rfl | hu
        · exact absurd huv (hleft u hu)
        · exact absurd huv hge
        · exact h4 u hu huv

/-- The mirror fact for the predecessor walk: the greatest value strictly before
`v`. -/
theorem predecessor_loop_spec {V : Type} {cmp : V → V → Int} (hc : TotalOrder cmp) (v : V)
    (t : Node V) (s : Node V) (hs : Nondecreasing cmp (values t)) :
    ((∀ u ∈ values t, ¬ cmp v u > 0) → predecessor_loop cmp v t s = s) ∧
    ((∃ u ∈ values t, cmp v u > 0) →
      ∃ c l w r, predecessor_loop cmp v t s = mk c l w r ∧ w ∈ values t ∧ cmp v w > 0 ∧
        ∀ u ∈ values t, cmp v u > 0 → cmp u w ≤ 0) := by
  induction t generalizing s with
  | NULL => exact ⟨fun _ => rfl, fun ⟨u, hu, _⟩ => by simp [values] at hu⟩
  | mk c l x r ihl ihr =>
    unfold Nondecreasing at hs
    simp only [values, List.pairwise_append, List.pairwise_cons, List.mem_cons,
      forall_eq_or_imp] at hs
    obtain ⟨hsl, ⟨hxr, hsr⟩, hlx⟩ := hs
    simp only [predecessor_loop]
    split
    · rename_i hgt
      constructor
      · intro hnone
        exact absurd hgt (hnone x (by simp [values]))
      · intro _
        by_cases hex : ∃ u ∈ values r, cmp v u > 0
        · obtain ⟨c2, l2, w, r2, h1, h2, h3, h4⟩ := (ihr (mk c l x r) hsr).2 hex
          refine ⟨c2, l2, w, r2, h1, by simp [values, h2], h3, ?_⟩
          intro u hu huv
          simp only [values, List.mem_append, List.mem_cons] at hu
          rcases hu with hu | rfl | hu
          · exact hc.trans _ _ _ (hlx u hu).1 (hxr w h2)
          · exact hxr w h2
          · exact h4 u hu huv
        · have hno : ∀ u ∈ values r, ¬ cmp v u > 0 := fun u hu hgt2 => hex ⟨u, hu, hgt2⟩
          rw [(ihr (mk c l x r) hsr).1 hno]
          refine ⟨c, l, x, r, rfl, by simp [values], hgt, ?_⟩
          intro u hu huv
          simp only [values, List.mem_append, List.mem_cons] at hu
          rcases hu with hu | rfl | hu
          · exact (hlx u hu).1
          · exact le_of_eq (hc.refl _)
          · exact absurd huv (hno u hu)
    · rename_i hle
      -- `v` orders at or before `x`, hence at or before everything right of `x`
      have hvx : cmp v x ≤ 0 := by omega
      have hright : ∀ u ∈ values r, ¬ cmp v u > 0 := fun u hu hgt => by
        have := hc.trans _ _ _ hvx (hxr u hu)
        omega
      constructor
      · intro hnone
        exact (ihl s hsl).1 (fun u hu => hnone u (by simp [values, hu]))
      · rintro ⟨u0, hu0, hu0v⟩
        simp only [values, List.mem_append, List.mem_cons] at hu0
        have hex : ∃ u ∈ values l, cmp v u > 0 := by
          rcases hu0 with hu0 | rfl | hu0
          · exact ⟨u0, hu0, hu0v⟩
          · exact absurd hu0v hle
          · exact absurd hu0v (hright u0 hu0)
        obtain ⟨c2, l2, w, r2, h1, h2, h3, h4⟩ := (ihl s hsl).2 hex
        refine ⟨c2, l2, w, r2, h1, by simp [values, h2], h3, ?_⟩
        intro u hu huv
        simp only [values, List.mem_append, List.mem_cons] at hu
        rcases hu with hu | rfl | hu
        · exact h4 u hu huv
        · exact absurd huv hle
        · exact absurd huv (hright u hu)

theorem rb_successor_of_value_spec {V : Type} (tree : rb_tree V)
    (hc : TotalOrder tree.comparison_func)
    (hs : Nondecreasing tree.comparison_func (values tree.root)) (v : V) :
    (rb_successor_of_value tree v = none ↔
      ∀ u ∈ values tree.root, ¬ tree.comparison_func v u < 0) ∧
    (∀ w, rb_successor_of_value tree v = some w →
      w ∈ values tree.root ∧ tree.comparison_func v w < 0 ∧
        ∀ u ∈ values tree.root, tree.comparison_func v u < 0 → tree.comparison_func w u ≤ 0) := by
  obtain ⟨h1, h2⟩ := successor_loop_spec hc v tree.root NULL hs
  unfold rb_successor_of_value private_rb_successor_of_value
  by_cases hex : ∃ u ∈ values tree.root, tree.comparison_func v u < 0
  · obtain ⟨c, l, w, r, e1, e2, e3, e4⟩ := h2 hex
    rw [e1]
    constructor
    · constructor
      · intro h; simp at h
      · intro h
        obtain ⟨u, hu, huv⟩ := hex
        exact absurd huv (h u hu)
    · intro w2 hw2
      simp only [Option.some.injEq] at hw2
      subst hw2
      exact ⟨e2, e3, e4⟩
  · have hno : ∀ u ∈ values tree.root, ¬ tree.comparison_func v u < 0 :=
      fun u hu hlt => hex ⟨u, hu, hlt⟩
    rw [h1 hno]
    exact ⟨⟨fun _ => hno, fun _ => rfl⟩, fun w hw => by simp at hw⟩

theorem rb_predecessor_of_value_spec {V : Type} (tree : rb_tree V)
    (hc : TotalOrder tree.comparison_func)
    (hs : Nondecreasing tree.comparison_func (values tree.root)) (v : V) :
    (rb_predecessor_of_value tree v = none ↔
      ∀ u ∈ values tree.root, ¬ tree.comparison_func v u > 0) ∧
    (∀ w, rb_predecessor_of_value tree v = some w →
      w ∈ values tree.root ∧ tree.comparison_func v w > 0 ∧
        ∀ u ∈ values tree.root, tree.comparison_func v u > 0 → tree.comparison_func u w ≤ 0) := by
  obtain ⟨h1, h2⟩ := predecessor_loop_spec hc v tree.root NULL hs
  unfold rb_predecessor_of_value private_rb_predecessor_of_value
  by_cases hex : ∃ u ∈ values tree.root, tree.comparison_func v u > 0
  · obtain ⟨c, l, w, r, e1, e2, e3, e4⟩ := h2 hex
    rw [e1]
    constructor
    · constructor
      · intro h; simp at h
      · intro h
        obtain ⟨u, hu, huv⟩ := hex
        exact absurd huv (h u hu)
    · intro w2 hw2
      simp only [Option.some.injEq] at hw2
      subst hw2
      exact ⟨e2, e3, e4⟩
  · have hno : ∀ u ∈ values tree.root, ¬ tree.comparison_func v u > 0 :=
      fun u hu hlt => hex ⟨u, hu, hlt⟩
    rw [h1 hno]
    exact ⟨⟨fun _ => hno, fun _ => rfl⟩, fun w hw => by simp at hw⟩

/-- C11: for every tree built by inserts and every value `v` (stored or not),
`rb_successor_of_value` returns `NULL` exactly when no stored value orders strictly
after `v`, and otherwise returns a stored value strictly after `v` that orders at or
before every stored value strictly after `v`; the result never compares equal to
`v`. -/
theorem C11_successor_of_value {V : Type} (cmp : V → V → Int) (hc : TotalOrder cmp)
    (vs : List V) (v : V) :
    ∃ t, insert_all (rb_new cmp) vs = some t ∧
      (rb_successor_of_value t v = none ↔ ∀ u ∈ vs, ¬ cmp v u < 0) ∧
      (∀ w, rb_successor_of_value t v = some w →
        w ∈ vs ∧ cmp v w < 0 ∧ (∀ u ∈ vs, cmp v u < 0 → cmp w u ≤ 0) ∧ cmp v w ≠ 0) := by
  obtain ⟨t, h1, h2, _, h4, h5⟩ := insert_all_new_spec hc vs
  subst h2
  obtain ⟨s1, s2⟩ := rb_successor_of_value_spec t hc h4 v
  refine ⟨t, h1, ?_, ?_⟩
  · rw [s1]
    exact ⟨fun h u hu => h u (h5.mem_iff.2 hu), fun h u hu => h u (h5.mem_iff.1 hu)⟩
  · intro w hw
    obtain ⟨a, b, c⟩ := s2 w hw
    exact ⟨h5.mem_iff.1 a, b, fun u hu => c u (h5.mem_iff.2 hu), by omega⟩

/-- Witness for C11 on the tree of `test_rb_successor_of_value`
(hello = 2, world = 5, the = 4, earth = 1, says = 3), for the value 4. -/
theorem C11_successor_of_value_witness :
    ∃ t, insert_all (rb_new integer_comparison) [2, 5, 4, 1, 3] = some t ∧
      (rb_successor_of_value t 4 = none ↔
        ∀ u ∈ [2, 5, 4, 1, 3], ¬ integer_comparison 4 u < 0) ∧
      (∀ w, rb_successor_of_value t 4 = some w →
        w ∈ [2, 5, 4, 1, 3] ∧ integer_comparison 4 w < 0 ∧
          (∀ u ∈ [2, 5, 4, 1, 3], integer_comparison 4 u < 0 → integer_comparison w u ≤ 0) ∧
          integer_comparison 4 w ≠ 0) :=
  C11_successor_of_value integer_comparison integer_comparison_total [2, 5, 4, 1, 3] 4

/-- C12: for every tree built by inserts and every value `v` (stored or not),
`rb_predecessor_of_value` returns `NULL` exactly when no stored value orders strictly
before `v`, and otherwise returns a stored value strictly before `v` that orders at or
after every stored value strictly before `v`; the result never compares equal to
`v`. -/
theorem C12_predecessor_of_value {V : Type} (cmp : V → V → Int) (hc : TotalOrder cmp)
    (vs : List V) (v : V) :
    ∃ t, insert_all (rb_new cmp) vs = some t ∧
      (rb_predecessor_of_value t v = none ↔ ∀ u ∈ vs, ¬ cmp v u > 0) ∧
      (∀ w, rb_predecessor_of_value t v = some w →
        w ∈ vs ∧ cmp v w > 0 ∧ (∀ u ∈ vs, cmp v u > 0 → cmp u w ≤ 0) ∧ cmp v w ≠ 0) := by
  obtain ⟨t, h1, h2, _, h4, h5⟩ := insert_all_new_spec hc vs
  subst h2
  obtain ⟨s1, s2⟩ := rb_predecessor_of_value_spec t hc h4 v
  refine ⟨t, h1, ?_, ?_⟩
  · rw [s1]
    exact ⟨fun h u hu => h u (h5.mem_iff.2 hu), fun h u hu => h u (h5.mem_iff.1 hu)⟩
  · intro w hw
    obtain ⟨a, b, c⟩ := s2 w hw
    exact ⟨h5.mem_iff.1 a, b, fun u hu => c u (h5.mem_iff.2 hu), by omega⟩

/-- Witness for C12 on the tree of `test_rb_predecessor_of_value`, for the value 4. -/
theorem C12_predecessor_of_value_witness :
    ∃ t, insert_all (rb_new integer_comparison) [2, 5, 4, 1, 3] = some t ∧
      (rb_predecessor_of_value t 4 = none ↔
        ∀ u ∈ [2, 5, 4, 1, 3], ¬ integer_comparison 4 u > 0) ∧
      (∀ w, rb_predecessor_of_value t 4 = some w →
        w ∈ [2, 5, 4, 1, 3] ∧ integer_comparison 4 w > 0 ∧
          (∀ u ∈ [2, 5, 4, 1, 3], integer_comparison 4 u > 0 → integer_comparison u w ≤ 0) ∧
          integer_comparison 4 w ≠ 0) :=
  C12_predecessor_of_value integer_comparison integer_comparison_total [2, 5, 4, 1, 3] 4

/-- The maximum descent ends at a node without right child, inside the subtree it
started from, and nothing lies right of that node. -/
theorem private_subrb_tree_maximum_spec {V : Type} (t : Node V) (up : List (Frame V))
    {y : Node V} {yup : List (Frame V)} (h : private_subrb_tree_maximum t up = some (y, yup)) :
    (∃ yc yl yv, y = mk yc yl yv NULL) ∧ plug y yup = plug t up ∧
      (right_of up = [] → right_of yup = []) := by
  induction t generalizing up with
  | NULL => simp [private_subrb_tree_maximum] at h
  | mk c l x r _ ihr =>
    rcases r with _ | ⟨rc, rl, rx, rr⟩
    · simp only [private_subrb_tree_maximum, Option.some.injEq, Prod.mk.injEq] at h
      obtain ⟨rfl, rfl⟩ := h
      exact ⟨⟨_, _, _, rfl⟩, rfl, id⟩
    · simp only [private_subrb_tree_maximum] at h
      obtain ⟨h1, h2, h3⟩ := ihr _ h
      exact ⟨h1, h2, fun h0 => h3 (by simpa [right_of] using h0)⟩

theorem private_subrb_tree_maximum_some {V : Type} (c : Color) (l : Node V) (x : V) (r : Node V)
    (up : List (Frame V)) : ∃ res, private_subrb_tree_maximum (mk c l x r) up = some res := by
  induction r generalizing c x l up with
  | NULL => exact ⟨_, rfl⟩
  | mk rc rl rx rr _ ihr =>
    simp only [private_subrb_tree_maximum]
    exact ihr _ _ _ _

/-- On a non-empty tree `rb_tree_minimum` completes and returns the first value of the
inorder sequence. -/
theorem rb_tree_minimum_spec {V : Type} (tree : rb_tree V) (h : tree.root ≠ NULL) :
    ∃ m rest, rb_tree_minimum tree = some m ∧ values tree.root = m :: rest := by
  rcases hr : tree.root with _ | ⟨c, l, x, r⟩
  · exact absurd hr h
  obtain ⟨⟨y, yup⟩, hmin⟩ := private_subrb_tree_minimum_some c l x r []
  obtain ⟨⟨yc, yv, yr, rfl⟩, hy, hleft⟩ := private_subrb_tree_minimum_spec _ _ hmin
  refine ⟨yv, values yr ++ right_of yup, by simp [rb_tree_minimum, hr, hmin], ?_⟩
  have := congrArg values hy
  simp only [plug, values_plug, hleft rfl] at this
  rw [← this]
  simp [values]

/-- On a non-empty tree `rb_tree_maximum` completes and returns the last value of the
inorder sequence. -/
theorem rb_tree_maximum_spec {V : Type} (tree : rb_tree V) (h : tree.root ≠ NULL) :
    ∃ m rest, rb_tree_maximum tree = some m ∧ values tree.root = rest ++ [m] := by
  rcases hr : tree.root with _ | ⟨c, l, x, r⟩
  · exact absurd hr h
  obtain ⟨⟨y, yup⟩, hmax⟩ := private_subrb_tree_maximum_some c l x r []
  obtain ⟨⟨yc, yl, yv, rfl⟩, hy, hright⟩ := private_subrb_tree_maximum_spec _ _ hmax
  refine ⟨yv, left_of yup ++ values yl, by simp [rb_tree_maximum, hr, hmax], ?_⟩
  have := congrArg values hy
  simp only [plug, values_plug, hright rfl] at this
  rw [← this]
  simp [values]

theorem root_ne_NULL_of_perm {V : Type} {t : Node V} {vs : List V} (hp : (values t).Perm vs)
    (hne : vs ≠ []) : t ≠ NULL := by
  rintro rfl
  simp only [values] at hp
  exact hne (List.nil_perm.1 hp)

theorem Nondecreasing_head {V : Type} {cmp : V → V → Int} (hc : TotalOrder cmp) {m : V}
    {rest : List V} (h : Nondecreasing cmp (m :: rest)) : ∀ u ∈ m :: rest, cmp m u ≤ 0 := by
  intro u hu
  rcases List.mem_cons.1 hu with rfl | hu
  · exact le_of_eq (hc.refl _)
  · exact (List.pairwise_cons.1 h).1 u hu

theorem Nondecreasing_last {V : Type} {cmp : V → V → Int} (hc : TotalOrder cmp) {m : V}
    {rest : List V} (h : Nondecreasing cmp (rest ++ [m])) : ∀ u ∈ rest ++ [m], cmp u m ≤ 0 := by
  intro u hu
  rcases List.mem_append.1 hu with hu | hu
  · exact (List.pairwise_append.1 h).2.2 u hu m (by simp)
  · simp only [List.mem_singleton] at hu
    subst hu
    exact le_of_eq (hc.refl _)

/-- C13: for every non-empty tree built by inserts, `rb_tree_minimum` returns a stored
value that no stored value orders strictly before, and `rb_tree_maximum` returns a
stored value that no stored value orders strictly after. -/
theorem C13_minimum_maximum {V : Type} (cmp : V → V → Int) (hc : TotalOrder cmp)
    (vs : List V) (hne : vs ≠ []) :
    ∃ t lo hi, insert_all (rb_new cmp) vs = some t ∧
      rb_tree_minimum t = some lo ∧ lo ∈ vs ∧ (∀ u ∈ vs, ¬ cmp u lo < 0) ∧
      rb_tree_maximum t = some hi ∧ hi ∈ vs ∧ (∀ u ∈ vs, ¬ cmp hi u < 0) := by
  obtain ⟨t, h1, h2, _, h4, h5⟩ := insert_all_new_spec hc vs
  subst h2
  have hroot := root_ne_NULL_of_perm h5 hne
  obtain ⟨lo, rest1, e1, e2⟩ := rb_tree_minimum_spec t hroot
  obtain ⟨hi, rest2, e3, e4⟩ := rb_tree_maximum_spec t hroot
  refine ⟨t, lo, hi, h1, e1, h5.mem_iff.1 (by simp [e2]), ?_, e3, h5.mem_iff.1 (by simp [e4]), ?_⟩
  · intro u hu
    have hu2 : u ∈ lo :: rest1 := by rw [← e2]; exact h5.mem_iff.2 hu
    exact hc.not_lt_of_le (Nondecreasing_head hc (by rw [← e2]; exact h4) u hu2)
  · intro u hu
    have hu2 : u ∈ rest2 ++ [hi] := by rw [← e4]; exact h5.mem_iff.2 hu
    exact hc.not_lt_of_le (Nondecreasing_last hc (by rw [← e4]; exact h4) u hu2)

/-- Witness for C13 on the tree of `test_rb_tree_minimum`. -/
theorem C13_minimum_maximum_witness :
    ∃ t lo hi, insert_all (rb_new integer_comparison) [2, 5, 4, 1, 3] = some t ∧
      rb_tree_minimum t = some lo ∧ lo ∈ [2, 5, 4, 1, 3] ∧
      (∀ u ∈ [2, 5, 4, 1, 3], ¬ integer_comparison u lo < 0) ∧
      rb_tree_maximum t = some hi ∧ hi ∈ [2, 5, 4, 1, 3] ∧
      (∀ u ∈ [2, 5, 4, 1, 3], ¬ integer_comparison hi u < 0) :=
  C13_minimum_maximum integer_comparison integer_comparison_total [2, 5, 4, 1, 3] (by decide)

/-- C14 fails on the code: on an empty tree `rb_tree_minimum` passes the `NULL` root to
`private_subrb_tree_minimum`, which reads `curr_node->left` at once, and
`rb_tree_maximum` does the same with `curr_node->right`; neither call returns a "no
value" result. -/
theorem C14_minimum_maximum_on_empty_tree_dereference_NULL :
    rb_tree_is_empty (rb_new integer_comparison) = true ∧
    private_subrb_tree_minimum (rb_new integer_comparison).root [] = none ∧
    private_subrb_tree_maximum (rb_new integer_comparison).root [] = none ∧
    rb_tree_minimum (rb_new integer_comparison) = none ∧
    rb_tree_maximum (rb_new integer_comparison) = none := by
  decide

/-- C15: for every non-empty tree built by inserts, `rb_successor_of_value` applied to
the result of `rb_tree_maximum` returns `NULL`, and `rb_predecessor_of_value` applied
to the result of `rb_tree_minimum` returns `NULL`. -/
theorem C15_successor_of_maximum {V : Type} (cmp : V → V → Int) (hc : TotalOrder cmp)
    (vs : List V) (hne : vs ≠ []) :
    ∃ t lo hi, insert_all (rb_new cmp) vs = some t ∧
      rb_tree_maximum t = some hi ∧ rb_successor_of_value t hi = none ∧
      rb_tree_minimum t = some lo ∧ rb_predecessor_of_value t lo = none := by
  obtain ⟨t, h1, h2, _, h4, h5⟩ := insert_all_new_spec hc vs
  subst h2
  have hroot := root_ne_NULL_of_perm h5 hne
  obtain ⟨lo, rest1, e1, e2⟩ := rb_tree_minimum_spec t hroot
  obtain ⟨hi, rest2, e3, e4⟩ := rb_tree_maximum_spec t hroot
  refine ⟨t, lo, hi, h1, e3, ?_, e1, ?_⟩
  · rw [(rb_successor_of_value_spec t hc h4 hi).1]
    intro u hu
    rw [e4] at hu
    exact hc.not_lt_of_le (Nondecreasing_last hc (by rw [← e4]; exact h4) u hu)
  · rw [(rb_predecessor_of_value_spec t hc h4 lo).1]
    intro u hu
    rw [e2] at hu
    have := Nondecreasing_head hc (by rw [← e2]; exact h4) u hu
    omega

/-- Witness for C15 on the tree of `test_rb_successor_of_value`. -/
theorem C15_successor_of_maximum_witness :
    ∃ t lo hi, insert_all (rb_new integer_comparison) [2, 5, 4, 1, 3] = some t ∧
      rb_tree_maximum t = some hi ∧ rb_successor_of_value t hi = none ∧
      rb_tree_minimum t = some lo ∧ rb_predecessor_of_value t lo = none :=
  C15_successor_of_maximum integer_comparison integer_comparison_total [2, 5, 4, 1, 3]
    (by decide)

/-- C16 fails on the code: after inserting the distinct values 9, 2, 8, 0, 1, 3, 4, 7,
6, 5, the deletes of 8 and 1 complete (each removes a black node whose replacement is
`NULL`, with no rebalancing), and the delete of the stored value 2 then runs the fixup
on the black node 0, whose sibling 9 has no right child: `sibling->right->color`
dereferences `NULL`. -/
theorem C16_delete_sequence_fails :
    [9, 2, 8, 0, 1, 3, 4, 7, 6, 5].Pairwise (fun a b => integer_comparison a b ≠ 0) ∧
    (insert_all (rb_new integer_comparison) [9, 2, 8, 0, 1, 3, 4, 7, 6, 5]).map rb_tree.root =
      some (mk BLACK (mk BLACK (mk BLACK NULL 0 NULL) 1 (mk BLACK NULL 2 NULL)) 3
        (mk BLACK (mk RED (mk BLACK NULL 4 (mk RED NULL 5 NULL)) 6 (mk BLACK NULL 7 NULL)) 8
          (mk BLACK NULL 9 NULL))) ∧
    ((insert_all (rb_new integer_comparison) [9, 2, 8, 0, 1, 3, 4, 7, 6, 5]).bind
        (fun t => delete_all t [8, 1])).map rb_tree.root =
      some (mk BLACK (mk BLACK (mk BLACK NULL 0 NULL) 2 NULL) 3
        (mk BLACK (mk RED (mk BLACK NULL 4 (mk RED NULL 5 NULL)) 6 (mk BLACK NULL 7 NULL)) 9
          NULL)) ∧
    ((insert_all (rb_new integer_comparison) [9, 2, 8, 0, 1, 3, 4, 7, 6, 5]).bind
        (fun t => delete_all t [8, 1])).bind (fun t => rb_search t 2) = some 2 ∧
    (((insert_all (rb_new integer_comparison) [9, 2, 8, 0, 1, 3, 4, 7, 6, 5]).bind
        (fun t => delete_all t [8, 1])).bind (fun t => rb_delete_value t 2)).map rb_tree.root =
      none := by
  decide

/-- C17: inserting hello, world, the, earth, says, hello in that order into an empty
tree ordered by byte-string comparison and then running `rb_map_inorder` visits
exactly earth at depth 2, hello at depth 1, hello at depth 3, says at depth 2, the at
depth 0, world at depth 1, in that order. -/
theorem C17_inorder_scenario :
    (insert_all rb_new_strcmp
        [word_hello, word_world, word_the, word_earth, word_says, word_hello]).bind
        rb_map_inorder =
      some [(word_earth, 2), (word_hello, 1), (word_hello, 3), (word_says, 2), (word_the, 0),
        (word_world, 1)] := by
  decide

theorem rb_private_inorder_map_eq {V : Type} (t : Node V) :
    ∀ depth : Nat, t ≠ NULL → rb_private_inorder_map t depth = some (left_visit_right t depth) := by
  induction t with
  | NULL => intro _ h; exact absurd rfl h
  | mk c l x r ihl ihr =>
    intro depth _
    have hl : (if l.isNULL then some [] else rb_private_inorder_map l (depth + 1)) =
        some (left_visit_right l (depth + 1)) := by
      rcases l with _ | ⟨lc, ll, lx, lr⟩
      · simp [Node.isNULL, left_visit_right]
      · simpa [Node.isNULL] using ihl (depth + 1) (by simp)
    have hr : (if r.isNULL then some [] else rb_private_inorder_map r (depth + 1)) =
        some (left_visit_right r (depth + 1)) := by
      rcases r with _ | ⟨rc, rl, rx, rr⟩
      · simp [Node.isNULL, left_visit_right]
      · simpa [Node.isNULL] using ihr (depth + 1) (by simp)
    simp only [rb_private_inorder_map]
    rw [hl, hr]
    rfl

theorem rb_private_preorder_map_eq {V : Type} (t : Node V) :
    ∀ depth : Nat, t ≠ NULL → rb_private_preorder_map t depth = some (visit_left_right t depth) := by
  induction t with
  | NULL => intro _ h; exact absurd rfl h
  | mk c l x r ihl ihr =>
    intro depth _
    have hl : (if l.isNULL then some [] else rb_private_preorder_map l (depth + 1)) =
        some (visit_left_right l (depth + 1)) := by
      rcases l with _ | ⟨lc, ll, lx, lr⟩
      · simp [Node.isNULL, visit_left_right]
      · simpa [Node.isNULL] using ihl (depth + 1) (by simp)
    have hr : (if r.isNULL then some [] else rb_private_preorder_map r (depth + 1)) =
        some (visit_left_right r (depth + 1)) := by
      rcases r with _ | ⟨rc, rl, rx, rr⟩
      · simp [Node.isNULL, visit_left_right]
      · simpa [Node.isNULL] using ihr (depth + 1) (by simp)
    simp only [rb_private_preorder_map]
    rw [hl, hr]
    rfl

theorem rb_private_postorder_map_eq {V : Type} (t : Node V) :
    ∀ depth : Nat, t ≠ NULL → rb_private_postorder_map t depth = some (left_right_visit t depth) := by
  induction t with
  | NULL => intro _ h; exact absurd rfl h
  | mk c l x r ihl ihr =>
    intro depth _
    have hl : (if l.isNULL then some [] else rb_private_postorder_map l (depth + 1)) =
        some (left_right_visit l (depth + 1)) := by
      rcases l with _ | ⟨lc, ll, lx, lr⟩
      · simp [Node.isNULL, left_right_visit]
      · simpa [Node.isNULL] using ihl (depth + 1) (by simp)
    have hr : (if r.isNULL then some [] else rb_private_postorder_map r (depth + 1)) =
        some (left_right_visit r (depth + 1)) := by
      rcases r with _ | ⟨rc, rl, rx, rr⟩
      · simp [Node.isNULL, left_right_visit]
      · simpa [Node.isNULL] using ihr (depth + 1) (by simp)
    simp only [rb_private_postorder_map]
    rw [hl, hr]
    rfl

theorem left_visit_right_perm {V : Type} (t : Node V) :
    ∀ depth : Nat, (left_visit_right t depth).Perm (visit_left_right t depth) := by
  induction t with
  | NULL => intro _; exact List.Perm.refl _
  | mk c l x r ihl ihr =>
    intro depth
    simp only [left_visit_right, visit_left_right]
    exact List.perm_middle.trans (List.Perm.cons _ ((ihl _).append (ihr _)))

theorem left_right_visit_perm {V : Type} (t : Node V) :
    ∀ depth : Nat, (left_right_visit t depth).Perm (visit_left_right t depth) := by
  induction t with
  | NULL => intro _; exact List.Perm.refl _
  | mk c l x r ihl ihr =>
    intro depth
    simp only [left_right_visit, visit_left_right]
    rw [← List.append_assoc]
    exact (List.perm_append_singleton _ _).trans (List.Perm.cons _ ((ihl _).append (ihr _)))

theorem visit_left_right_length {V : Type} (t : Node V) :
    ∀ depth : Nat, (visit_left_right t depth).length = (values t).length := by
  induction t with
  | NULL => intro _; rfl
  | mk c l x r ihl ihr =>
    intro depth
    simp only [visit_left_right, values, List.length_cons, List.length_append, ihl, ihr]
    omega

theorem root_ne_NULL_of_not_empty {V : Type} {tree : rb_tree V}
    (h : rb_tree_is_empty tree = false) : tree.root ≠ NULL := by
  intro hr
  simp [rb_tree_is_empty, hr] at h

/-- C18: for every non-empty tree holding `n` values, each of `rb_map_inorder`,
`rb_map_preorder` and `rb_map_postorder` completes and makes exactly `n` visitor
calls, which are, up to order, one call per node with depth 0 for the root and a depth
one greater than its parent's for every other node; so the three walks report the
same multiset of (value, depth) pairs. -/
theorem C18_walks_visit_every_node_once {V : Type} (tree : rb_tree V)
    (h : rb_tree_is_empty tree = false) :
    ∃ a b c, rb_map_inorder tree = some a ∧ rb_map_preorder tree = some b ∧
      rb_map_postorder tree = some c ∧
      a.length = (values tree.root).length ∧ b.length = (values tree.root).length ∧
      c.length = (values tree.root).length ∧
      a.Perm (visit_left_right tree.root 0) ∧ b.Perm (visit_left_right tree.root 0) ∧
      c.Perm (visit_left_right tree.root 0) ∧ a.Perm b ∧ a.Perm c := by
  have hne := root_ne_NULL_of_not_empty h
  have pa := left_visit_right_perm tree.root 0
  have pc := left_right_visit_perm tree.root 0
  refine ⟨_, _, _, rb_private_inorder_map_eq _ 0 hne, rb_private_preorder_map_eq _ 0 hne,
    rb_private_postorder_map_eq _ 0 hne, ?_, visit_left_right_length _ _, ?_, pa,
    List.Perm.refl _, pc, pa, pa.trans pc.symm⟩
  · rw [pa.length_eq, visit_left_right_length]
  · rw [pc.length_eq, visit_left_right_length]

/-- Witness for C18 on the tree holding 1, 2, 3. -/
theorem C18_walks_visit_every_node_once_witness :
    ∃ a b c,
      rb_map_inorder ⟨mk BLACK (mk RED NULL (1 : Int) NULL) 2 (mk RED NULL 3 NULL),
        integer_comparison⟩ = some a ∧
      rb_map_preorder ⟨mk BLACK (mk RED NULL (1 : Int) NULL) 2 (mk RED NULL 3 NULL),
        integer_comparison⟩ = some b ∧
      rb_map_postorder ⟨mk BLACK (mk RED NULL (1 : Int) NULL) 2 (mk RED NULL 3 NULL),
        integer_comparison⟩ = some c ∧
      a.length = (values (mk BLACK (mk RED NULL (1 : Int) NULL) 2 (mk RED NULL 3 NULL))).length ∧
      b.length = (values (mk BLACK (mk RED NULL (1 : Int) NULL) 2 (mk RED NULL 3 NULL))).length ∧
      c.length = (values (mk BLACK (mk RED NULL (1 : Int) NULL) 2 (mk RED NULL 3 NULL))).length ∧
      a.Perm (visit_left_right (mk BLACK (mk RED NULL (1 : Int) NULL) 2 (mk RED NULL 3 NULL)) 0) ∧
      b.Perm (visit_left_right (mk BLACK (mk RED NULL (1 : Int) NULL) 2 (mk RED NULL 3 NULL)) 0) ∧
      c.Perm (visit_left_right (mk BLACK (mk RED NULL (1 : Int) NULL) 2 (mk RED NULL 3 NULL)) 0) ∧
      a.Perm b ∧ a.Perm c :=
  C18_walks_visit_every_node_once
    ⟨mk BLACK (mk RED NULL (1 : Int) NULL) 2 (mk RED NULL 3 NULL), integer_comparison⟩ rfl

/-- C19: for every non-empty tree, `rb_map_preorder` completes and makes its calls in
the order node, left subtree, right subtree at every node; the first call is for the
root, at depth 0. -/
theorem C19_preorder_is_visit_left_right {V : Type} (tree : rb_tree V)
    (h : rb_tree_is_empty tree = false) :
    rb_map_preorder tree = some (visit_left_right tree.root 0) ∧
      ∃ c l x r, tree.root = mk c l x r ∧
        (visit_left_right tree.root 0).head? = some (x, 0) := by
  have hne := root_ne_NULL_of_not_empty h
  refine ⟨rb_private_preorder_map_eq _ 0 hne, ?_⟩
  rcases hr : tree.root with _ | ⟨c, l, x, r⟩
  · exact absurd hr hne
  · exact ⟨c, l, x, r, rfl, rfl⟩

/-- Witness for C19 on the tree holding 1, 2, 3. -/
theorem C19_preorder_is_visit_left_right_witness :
    rb_map_preorder ⟨mk BLACK (mk RED NULL (1 : Int) NULL) 2 (mk RED NULL 3 NULL),
        integer_comparison⟩ =
      some (visit_left_right (mk BLACK (mk RED NULL (1 : Int) NULL) 2 (mk RED NULL 3 NULL)) 0) ∧
    ∃ c l x r, mk BLACK (mk RED NULL (1 : Int) NULL) 2 (mk RED NULL 3 NULL) = mk c l x r ∧
      (visit_left_right (mk BLACK (mk RED NULL (1 : Int) NULL) 2 (mk RED NULL 3 NULL)) 0).head? =
        some (x, 0) :=
  C19_preorder_is_visit_left_right
    ⟨mk BLACK (mk RED NULL (1 : Int) NULL) 2 (mk RED NULL 3 NULL), integer_comparison⟩ rfl

/-- C20: for every non-empty tree, `rb_map_postorder` completes and makes its calls in
the order left subtree, right subtree, node at every node; the last call is for the
root, at depth 0. -/
theorem C20_postorder_is_left_right_visit {V : Type} (tree : rb_tree V)
    (h : rb_tree_is_empty tree = false) :
    rb_map_postorder tree = some (left_right_visit tree.root 0) ∧
      ∃ c l x r, tree.root = mk c l x r ∧
        (left_right_visit tree.root 0).getLast? = some (x, 0) := by
  have hne := root_ne_NULL_of_not_empty h
  refine ⟨rb_private_postorder_map_eq _ 0 hne, ?_⟩
  rcases hr : tree.root with _ | ⟨c, l, x, r⟩
  · exact absurd hr hne
  · refine ⟨c, l, x, r, rfl, ?_⟩
    simp only [left_right_visit]
    rw [← List.append_assoc, List.getLast?_append]
    simp

/-- Witness for C20 on the tree holding 1, 2, 3. -/
theorem C20_postorder_is_left_right_visit_witness :
    rb_map_postorder ⟨mk BLACK (mk RED NULL (1 : Int) NULL) 2 (mk RED NULL 3 NULL),
        integer_comparison⟩ =
      some (left_right_visit (mk BLACK (mk RED NULL (1 : Int) NULL) 2 (mk RED NULL 3 NULL)) 0) ∧
    ∃ c l x r, mk BLACK (mk RED NULL (1 : Int) NULL) 2 (mk RED NULL 3 NULL) = mk c l x r ∧
      (left_right_visit (mk BLACK (mk RED NULL (1 : Int) NULL) 2 (mk RED NULL 3 NULL)) 0).getLast? =
        some (x, 0) :=
  C20_postorder_is_left_right_visit
    ⟨mk BLACK (mk RED NULL (1 : Int) NULL) 2 (mk RED NULL 3 NULL), integer_comparison⟩ rfl

theorem rb_insert_value_not_empty {V : Type} {tree t2 : rb_tree V} {v : V}
    (h : rb_insert_value tree v = some t2) : rb_tree_is_empty t2 = false := by
  unfold rb_insert_value at h
  simp only at h
  split at h
  · simp at h
  · rename_i root hfix
    simp only [Option.some.injEq] at h
    subst h
    unfold fix_insertion_violation at hfix
    split at hfix
    · simp at hfix
    · rename_i c up hloop
      rcases hp : plug c up with _ | ⟨pc, pl, pv, pr⟩
      · simp [hp, blacken_root] at hfix
      · simp only [hp, blacken_root, Option.some.injEq] at hfix
        subst hfix
        rfl

/-- C21: `rb_tree_is_empty` returns true for a newly created tree and false for the
tree that results from `rb_insert_value` on any tree with any value (and the insert
does give a tree whenever the root is black). -/
theorem C21_is_empty {V : Type} :
    (∀ comparison_func : V → V → Int, rb_tree_is_empty (rb_new comparison_func) = true) ∧
    (∀ (tree t2 : rb_tree V) (value : V),
      rb_insert_value tree value = some t2 → rb_tree_is_empty t2 = false) ∧
    (∀ (tree : rb_tree V) (value : V), root_black tree.root = true →
      ∃ t2, rb_insert_value tree value = some t2 ∧ rb_tree_is_empty t2 = false) := by
  refine ⟨fun _ => rfl, fun tree t2 value h => rb_insert_value_not_empty h, ?_⟩
  intro tree value h
  obtain ⟨t2, h2⟩ := rb_insert_value_total tree value h
  exact ⟨t2, h2, rb_insert_value_not_empty h2⟩

/-- Witness for C21 on the calls of `test_rb_is_empty_one_item_tree`. -/
theorem C21_is_empty_witness :
    rb_tree_is_empty (rb_new integer_comparison) = true ∧
    (rb_insert_value (rb_new integer_comparison) 7 =
        some ⟨mk BLACK NULL 7 NULL, integer_comparison⟩ →
      rb_tree_is_empty ⟨mk BLACK NULL (7 : Int) NULL, integer_comparison⟩ = false) ∧
    (root_black (rb_new integer_comparison).root = true →
      ∃ t2, rb_insert_value (rb_new integer_comparison) 7 = some t2 ∧
        rb_tree_is_empty t2 = false) :=
  ⟨C21_is_empty.1 integer_comparison,
    C21_is_empty.2.1 (rb_new integer_comparison) ⟨mk BLACK NULL 7 NULL, integer_comparison⟩ 7,
    C21_is_empty.2.2 (rb_new integer_comparison) 7⟩

/-- C23: for every tree whose root is black (or that is empty) and every value,
`rb_insert_value` completes: the fixup never reads a grandparent that does not exist
and never rotates at a node that lacks the required child. -/
theorem C23_insert_completes {V : Type} (tree : rb_tree V) (value : V)
    (h : root_black tree.root = true) : ∃ t2, rb_insert_value tree value = some t2 :=
  rb_insert_value_total tree value h

/-- Witness for C23: inserting 1 below the red node 2 of the tree holding 2, 3. -/
theorem C23_insert_completes_witness :
    ∃ t2, rb_insert_value ⟨mk BLACK (mk RED NULL (2 : Int) NULL) 3 NULL, integer_comparison⟩ 1 =
      some t2 :=
  C23_insert_completes ⟨mk BLACK (mk RED NULL (2 : Int) NULL) 3 NULL, integer_comparison⟩ 1 rfl

theorem height_le_of_Bal {V : Type} (t : Node V) :
    ∀ b : Nat, no_red_red t = true → Bal t b →
      height t ≤ 2 * b + (if is_red t = true then 1 else 0) := by
  induction t with
  | NULL => intro b _ _; simp [height]
  | mk c l x r ihl ihr =>
    intro b hrr hb
    cases c with
    | RED =>
      simp only [no_red_red, Bool.and_eq_true, Bool.not_eq_true'] at hrr
      obtain ⟨⟨⟨hl, hr⟩, hrl⟩, hrrr⟩ := hrr
      have h1 := ihl b hrl hb.1
      have h2 := ihr b hrrr hb.2
      simp only [hl, hr, Bool.false_eq_true, if_false] at h1 h2
      simp only [height, is_red_RED, if_true]
      omega
    | BLACK =>
      cases b with
      | zero => simp [Bal] at hb
      | succ k =>
        simp only [no_red_red, Bool.and_eq_true] at hrr
        simp only [Bal] at hb
        have h1 := ihl k hrr.1 hb.1
        have h2 := ihr k hrr.2 hb.2
        simp only [height, is_red_BLACK, Bool.false_eq_true, if_false]
        split at h1 <;> split at h2 <;> omega

theorem size_ge_of_Bal {V : Type} (t : Node V) :
    ∀ b : Nat, Bal t b → 2 ^ b ≤ (values t).length + 1 := by
  induction t with
  | NULL => intro b hb; simp only [Bal] at hb; subst hb; simp [values]
  | mk c l x r ihl ihr =>
    intro b hb
    cases c with
    | RED =>
      have h1 := ihl b hb.1
      simp only [values, List.length_append, List.length_cons]
      omega
    | BLACK =>
      cases b with
      | zero => simp [Bal] at hb
      | succ k =>
        simp only [Bal] at hb
        have h1 := ihl k hb.1
        have h2 := ihr k hb.2
        simp only [values, List.length_append, List.length_cons, pow_succ]
        omega

/-- A tree that satisfies the colour invariants and holds `n` values has height `h`
with `2 ^ h ≤ (n + 1) ^ 2`. -/
theorem height_bound {V : Type} (t : Node V) (h : rb_invariants t) :
    2 ^ height t ≤ ((values t).length + 1) ^ 2 := by
  obtain ⟨hroot, hrr, hbal⟩ := h
  rw [same_black_count_iff] at hbal
  obtain ⟨b, hb⟩ := hbal
  have h1 := height_le_of_Bal t b hrr hb
  have hnr : is_red t = false := by
    rcases t with _ | ⟨c, l, x, r⟩
    · rfl
    · cases c
      · simp at hroot
      · rfl
  simp only [hnr, Bool.false_eq_true, if_false, Nat.add_zero] at h1
  have h2 := size_ge_of_Bal t b hb
  calc 2 ^ height t ≤ 2 ^ (2 * b) := Nat.pow_le_pow_right (by decide) h1
    _ = (2 ^ b) ^ 2 := by rw [Nat.mul_comm, Nat.pow_mul]
    _ ≤ ((values t).length + 1) ^ 2 := Nat.pow_le_pow_left h2 2

theorem insert_all_length {V : Type} (vs : List V) :
    ∀ tree t : rb_tree V, insert_all tree vs = some t →
      (values t.root).length = (values tree.root).length + vs.length := by
  induction vs with
  | nil =>
    intro tree t h
    simp only [insert_all, Option.some.injEq] at h
    subst h
    simp
  | cons v vs ih =>
    intro tree t h
    simp only [insert_all] at h
    split at h
    · simp at h
    · rename_i t1 h1
      obtain ⟨e1, e2, _⟩ := rb_insert_value_values h1
      rw [ih t1 t h, e1, e2]
      simp only [List.length_append, List.length_cons]
      omega

theorem visit_left_right_depth {V : Type} (t : Node V) :
    ∀ (depth : Nat) (p : V × Nat), p ∈ visit_left_right t depth → p.2 < depth + height t := by
  induction t with
  | NULL => intro depth p hp; simp [visit_left_right] at hp
  | mk c l x r ihl ihr =>
    intro depth p hp
    simp only [visit_left_right, List.mem_cons, List.mem_append] at hp
    simp only [height]
    rcases hp with rfl | hp | hp
    · simp
    · have := ihl _ _ hp; omega
    · have := ihr _ _ hp; omega

/-- C22: for every tree built by `n` inserts into an empty tree, the number `h` of
nodes on the longest root-to-leaf path satisfies `2 ^ h ≤ (n + 1) ^ 2`, and every
depth `d` reported by one of the three traversals satisfies `2 ^ d < (n + 1) ^ 2`. -/
theorem C22_height_bound {V : Type} (comparison_func : V → V → Int) (vs : List V) :
    ∃ t, insert_all (rb_new comparison_func) vs = some t ∧
      2 ^ height t.root ≤ (vs.length + 1) ^ 2 ∧
      ∀ visits, (rb_map_inorder t = some visits ∨ rb_map_preorder t = some visits ∨
          rb_map_postorder t = some visits) →
        ∀ p ∈ visits, 2 ^ p.2 < (vs.length + 1) ^ 2 := by
  obtain ⟨t, h1, h2, _⟩ := insert_all_rb vs (rb_new comparison_func) rb_invariants_NULL
  have hlen := insert_all_length vs _ t h1
  simp only [rb_new, values, List.length_nil, Nat.zero_add] at hlen
  have hb := height_bound t.root h2
  rw [hlen] at hb
  refine ⟨t, h1, hb, ?_⟩
  intro visits hv p hp
  have hmem : p ∈ visit_left_right t.root 0 := by
    rcases hr : t.root with _ | ⟨c, l, x, r⟩
    · rcases hv with hv | hv | hv <;>
        simp [rb_map_inorder, rb_map_preorder, rb_map_postorder, hr, rb_private_inorder_map,
          rb_private_preorder_map, rb_private_postorder_map] at hv
    · have hne : t.root ≠ NULL := by simp [hr]
      rw [← hr]
      rcases hv with hv | hv | hv
      · rw [rb_map_inorder, rb_private_inorder_map_eq _ 0 hne] at hv
        simp only [Option.some.injEq] at hv
        subst hv
        exact (left_visit_right_perm _ _).mem_iff.1 hp
      · rw [rb_map_preorder, rb_private_preorder_map_eq _ 0 hne] at hv
        simp only [Option.some.injEq] at hv
        subst hv
        exact hp
      · rw [rb_map_postorder, rb_private_postorder_map_eq _ 0 hne] at hv
        simp only [Option.some.injEq] at hv
        subst hv
        exact (left_right_visit_perm _ _).mem_iff.1 hp
  have hd := visit_left_right_depth t.root 0 p hmem
  have : 2 ^ p.2 < 2 ^ height t.root := Nat.pow_lt_pow_right (by decide) (by omega)
  omega

/-- C24 fails on the code.  (1) After insert 1, 2, 4, 0, delete 4, insert 5, 3, 4 the
tree is 3b{2b{1b{0r,-},-},5b{4r,-}}; deleting 2 runs the fixup on the black node 1,
whose sibling 5 has a red left child and no right child, and `sibling->right->color`
dereferences `NULL`.  (2) After insert 2, 1, 4, 0, delete 4, insert 3, 5, 4, delete 3,
delete 5 the tree is 4b{2b{1b{0r,-},-},-}; deleting 2 runs the fixup on the black node
1, which has no sibling, and `sibling->color` dereferences `NULL`. -/
theorem C24_delete_fixup_dereferences_absent_nodes :
    (run_ops (rb_new integer_comparison)
        [Op.insert 1, Op.insert 2, Op.insert 4, Op.insert 0, Op.delete 4, Op.insert 5,
          Op.insert 3, Op.insert 4]).map rb_tree.root =
      some (mk BLACK (mk BLACK (mk BLACK (mk RED NULL 0 NULL) 1 NULL) 2 NULL) 3
        (mk BLACK (mk RED NULL 4 NULL) 5 NULL)) ∧
    rb_delete_fixup_step (mk RED NULL (0 : Int) NULL) 1 NULL
        ⟨L, BLACK, 3, mk BLACK (mk RED NULL 4 NULL) 5 NULL⟩ [] = none ∧
    (rb_delete_value
        ⟨mk BLACK (mk BLACK (mk BLACK (mk RED NULL 0 NULL) 1 NULL) 2 NULL) 3
          (mk BLACK (mk RED NULL 4 NULL) 5 NULL), integer_comparison⟩ 2).map rb_tree.root =
      none ∧
    (run_ops (rb_new integer_comparison)
        [Op.insert 2, Op.insert 1, Op.insert 4, Op.insert 0, Op.delete 4, Op.insert 3,
          Op.insert 5, Op.insert 4, Op.delete 3, Op.delete 5]).map rb_tree.root =
      some (mk BLACK (mk BLACK (mk BLACK (mk RED NULL 0 NULL) 1 NULL) 2 NULL) 4 NULL) ∧
    rb_delete_fixup_step (mk RED NULL (0 : Int) NULL) 1 NULL ⟨L, BLACK, 4, NULL⟩ [] = none ∧
    (rb_delete_value
        ⟨mk BLACK (mk BLACK (mk BLACK (mk RED NULL 0 NULL) 1 NULL) 2 NULL) 4 NULL,
          integer_comparison⟩ 2).map rb_tree.root =
      none := by
  decide

/-- C25 fails on the code.  After insert 9, 8, 11, 4, delete 8, delete 4, insert 1, 8,
4, 2, 5, 3 the tree is 8b{2r{1b,4b{3r,5r}},9b{-,11b}}, and deleting 9 runs the fixup
on the black node 11, the right child of 8, with the red sibling 2 on the left.  The
code rotates left at 8, which promotes 11 itself to the root, and then reads
`culprit->parent->left` with `culprit->parent == NULL`.  On the mirrored tree (cursor
a left child, red sibling on the right) the fixup rotates left at the parent and
completes. -/
theorem C25_delete_fixup_right_branch_is_not_the_mirror :
    (run_ops (rb_new integer_comparison)
        [Op.insert 9, Op.insert 8, Op.insert 11, Op.insert 4, Op.delete 8, Op.delete 4,
          Op.insert 1, Op.insert 8, Op.insert 4, Op.insert 2, Op.insert 5,
          Op.insert 3]).map rb_tree.root =
      some (mk BLACK
        (mk RED (mk BLACK NULL 1 NULL) 2 (mk BLACK (mk RED NULL 3 NULL) 4 (mk RED NULL 5 NULL)))
        8 (mk BLACK NULL 9 (mk BLACK NULL 11 NULL))) ∧
    (rb_delete_value
        ⟨mk BLACK
          (mk RED (mk BLACK NULL 1 NULL) 2 (mk BLACK (mk RED NULL 3 NULL) 4 (mk RED NULL 5 NULL)))
          8 (mk BLACK NULL 9 (mk BLACK NULL 11 NULL)), integer_comparison⟩ 9).map rb_tree.root =
      none ∧
    rb_delete_fixup (mk BLACK NULL (11 : Int) NULL)
        [⟨R, BLACK, 8,
          mk RED (mk BLACK NULL 1 NULL) 2
            (mk BLACK (mk RED NULL 3 NULL) 4 (mk RED NULL 5 NULL))⟩] = none ∧
    rb_delete_fixup (mirror (mk BLACK NULL (11 : Int) NULL))
        ([⟨R, BLACK, 8,
          mk RED (mk BLACK NULL 1 NULL) 2
            (mk BLACK (mk RED NULL 3 NULL) 4 (mk RED NULL 5 NULL))⟩].map mirror_frame) =
      some (mirror (mk BLACK (mk BLACK NULL 1 NULL) 2
        (mk RED (mk BLACK NULL 3 NULL) 4 (mk BLACK (mk RED NULL 5 NULL) 8 (mk BLACK NULL 11 NULL))))) ∧
    rb_delete_fixup (mirror (mk BLACK NULL (11 : Int) NULL))
        ([⟨R, BLACK, 8,
          mk RED (mk BLACK NULL 1 NULL) 2
            (mk BLACK (mk RED NULL 3 NULL) 4 (mk RED NULL 5 NULL))⟩].map mirror_frame) ≠
      (rb_delete_fixup (mk BLACK NULL (11 : Int) NULL)
        [⟨R, BLACK, 8,
          mk RED (mk BLACK NULL 1 NULL) 2
            (mk BLACK (mk RED NULL 3 NULL) 4 (mk RED NULL 5 NULL))⟩]).map mirror := by
  decide

theorem mirror_attach {V : Type} (f : Frame V) (t : Node V) :
    mirror (attach f t) = attach (mirror_frame f) (mirror t) := by
  obtain ⟨s, c, x, sib⟩ := f
  cases s <;> rfl

theorem mirror_plug {V : Type} (t : Node V) (up : List (Frame V)) :
    mirror (plug t up) = plug (mirror t) (up.map mirror_frame) := by
  induction up generalizing t with
  | nil => rfl
  | cons f up ih => simp only [plug, List.map_cons, ih, mirror_attach]

theorem insertion_case_mirror {V : Type} (l : Node V) (v : V) (r : Node V) (ps : Side) (pv : V)
    (psib : Node V) (gs : Side) (gc : Color) (gv : V) (u : Node V) :
    insertion_case (mirror (mk RED l v r)) ps.flip pv (mirror psib) gs.flip gc gv (mirror u) =
      mirror (insertion_case (mk RED l v r) ps pv psib gs gc gv u) := by
  rcases u with _ | ⟨uc, ul, uv, ur⟩
  · cases gs <;> cases ps <;> simp [insertion_case, mirror, Side.flip]
  · cases uc <;> cases gs <;> cases ps <;> simp [insertion_case, mirror, attach, Side.flip]

theorem fix_insertion_loop_mirror {V : Type} (n : Nat) :
    ∀ (c : Node V) (up : List (Frame V)), up.length ≤ n →
      fix_insertion_loop (mirror c) (up.map mirror_frame) =
        (fix_insertion_loop c up).map (fun res => (mirror res.1, res.2.map mirror_frame)) := by
  induction n with
  | zero =>
    intro c up hlen
    have : up = [] := by simpa using hlen
    subst this
    rcases c with _ | ⟨cc, l, v, r⟩
    · simp [mirror, fix_insertion_loop]
    · simp [mirror, fix_insertion_loop_root]
  | succ n ih =>
    intro c up hlen
    rcases c with _ | ⟨cc, l, v, r⟩
    · simp [mirror, fix_insertion_loop]
    cases cc
    swap
    · simp [mirror, fix_insertion_loop_black]
    rcases up with _ | ⟨⟨ps, pc, pv, psib⟩, _ | ⟨⟨gs, gc, gv, u⟩, up⟩⟩
    · simp [mirror, fix_insertion_loop_root]
    · cases pc
      · simp [mirror, mirror_frame, fix_insertion_loop]
      · simp [mirror, mirror_frame, fix_insertion_loop_parent_black]
    · cases pc
      swap
      · simp [mirror, mirror_frame, fix_insertion_loop_parent_black]
      have hl : up.length ≤ n := by simp at hlen; omega
      have e := insertion_case_mirror l v r ps pv psib gs gc gv u
      simp only [mirror] at e
      simp only [List.map_cons, mirror_frame, mirror, fix_insertion_loop_step, e]
      exact ih _ _ hl

theorem blacken_root_mirror {V : Type} (t : Node V) :
    blacken_root (mirror t) = (blacken_root t).map mirror := by
  rcases t with _ | ⟨c, l, x, r⟩ <;> rfl

/-- C26: `fix_insertion_violation` treats a parent that is the grandparent's right
child as the exact mirror image of a parent that is the grandparent's left child: for
every tree and inserted node, running the fixup on the left-right mirrored tree gives
the mirror of running it on the tree (a failure on one side being a failure on the
other). -/
theorem C26_fix_insertion_violation_mirror {V : Type} (culprit : Node V)
    (up : List (Frame V)) :
    fix_insertion_violation (mirror culprit) (up.map mirror_frame) =
      (fix_insertion_violation culprit up).map mirror := by
  unfold fix_insertion_violation
  rw [fix_insertion_loop_mirror _ culprit up (Nat.le_refl _)]
  cases fix_insertion_loop culprit up with
  | none => rfl
  | some res =>
    obtain ⟨c, up2⟩ := res
    simp only [Option.map_some']
    rw [← mirror_plug, blacken_root_mirror]

/-- When "strictly after `v`" is upward closed along the inorder sequence, the successor
walk ends at the first value strictly after `v`, and keeps the incoming candidate if
there is none. -/
theorem successor_loop_find {V : Type} (cmp : V → V → Int) (v : V) (t : Node V) :
    ∀ s : Node V,
      (values t).Pairwise (fun a b => cmp v a < 0 → cmp v b < 0) →
      (∀ w, (values t).find? (fun u => decide (cmp v u < 0)) = some w →
        node_value (successor_loop cmp v t s) = some w) ∧
      ((values t).find? (fun u => decide (cmp v u < 0)) = none →
        successor_loop cmp v t s = s) := by
  induction t with
  | NULL => intro s _; simp [values, successor_loop]
  | mk c l x r ihl ihr =>
    intro s hp
    simp only [values, List.pairwise_append, List.pairwise_cons, List.mem_cons,
      forall_eq_or_imp] at hp
    obtain ⟨hpl, ⟨hxr, hpr⟩, hlx⟩ := hp
    simp only [values, successor_loop, List.find?_append]
    split
    · rename_i hlt
      obtain ⟨i1, i2⟩ := ihl (mk c l x r) hpl
      constructor
      · intro w hw
        cases hf : (values l).find? (fun u => decide (cmp v u < 0)) with
        | some w2 =>
          rw [hf] at hw
          simp only [Option.or_some, Option.some.injEq] at hw
          subst hw
          exact i1 w2 hf
        | none =>
          rw [hf, Option.none_or, List.find?_cons_of_pos _ (by simpa using hlt)] at hw
          simp only [Option.some.injEq] at hw
          subst hw
          rw [i2 hf]
          rfl
      · intro hnone
        simp only [Option.or_eq_none] at hnone
        rw [List.find?_cons_of_pos _ (by simpa using hlt)] at hnone
        simp at hnone
    · rename_i hge
      have hleft : (values l).find? (fun u => decide (cmp v u < 0)) = none := by
        rw [List.find?_eq_none]
        intro u hu hpu
        exact hge ((hlx u hu).1 (by simpa using hpu))
      obtain ⟨i1, i2⟩ := ihr s hpr
      rw [hleft, Option.none_or, List.find?_cons_of_neg _ (by simpa using hge)]
      exact ⟨i1, i2⟩

/-- The mirror fact for the predecessor walk: it ends at the last value strictly before
`v`. -/
theorem predecessor_loop_find {V : Type} (cmp : V → V → Int) (v : V) (t : Node V) :
    ∀ s : Node V,
      (values t).Pairwise (fun a b => cmp v b > 0 → cmp v a > 0) →
      (∀ w, (values t).reverse.find? (fun u => decide (cmp v u > 0)) = some w →
        node_value (predecessor_loop cmp v t s) = some w) ∧
      ((values t).reverse.find? (fun u => decide (cmp v u > 0)) = none →
        predecessor_loop cmp v t s = s) := by
  induction t with
  | NULL => intro s _; simp [values, predecessor_loop]
  | mk c l x r ihl ihr =>
    intro s hp
    simp only [values, List.pairwise_append, List.pairwise_cons, List.mem_cons,
      forall_eq_or_imp] at hp
    obtain ⟨hpl, ⟨hxr, hpr⟩, hlx⟩ := hp
    simp only [values, predecessor_loop, List.reverse_append, List.reverse_cons,
      List.append_assoc, List.singleton_append, List.find?_append]
    split
    · rename_i hgt
      obtain ⟨i1, i2⟩ := ihr (mk c l x r) hpr
      constructor
      · intro w hw
        cases hf : (values r).reverse.find? (fun u => decide (cmp v u > 0)) with
        | some w2 =>
          rw [hf] at hw
          simp only [Option.or_some, Option.some.injEq] at hw
          subst hw
          exact i1 w2 hf
        | none =>
          rw [hf, Option.none_or, List.find?_cons_of_pos _ (by simpa using hgt)] at hw
          simp only [Option.some.injEq] at hw
          subst hw
          rw [i2 hf]
          rfl
      · intro hnone
        simp only [Option.or_eq_none] at hnone
        rw [List.find?_cons_of_pos _ (by simpa using hgt)] at hnone
        simp at hnone
    · rename_i hle
      have hright : (values r).reverse.find? (fun u => decide (cmp v u > 0)) = none := by
        rw [List.find?_eq_none]
        intro u hu hpu
        exact hle (hxr u (List.mem_reverse.1 hu) (by simpa using hpu))
      obtain ⟨i1, i2⟩ := ihl s hpl
      rw [hright, Option.none_or, List.find?_cons_of_neg _ (by simpa using hle)]
      exact ⟨i1, i2⟩

theorem find?_after_prefix {V : Type} (p : V → Bool) (pre : List V) (m : V) (rest : List V)
    (h1 : ∀ u ∈ pre, p u = false) (h2 : p m = true) :
    (pre ++ m :: rest).find? p = some m := by
  have : pre.find? p = none := by
    rw [List.find?_eq_none]
    intro u hu
    simp [h1 u hu]
  rw [List.find?_append, this, Option.none_or, List.find?_cons_of_pos _ h2]

/-- In a tree with non-decreasing inorder sequence, when the search descent for `v`
reaches a node whose right subtree is not empty and has a minimum that does not compare
equal to `v`, `rb_successor_of_value` returns that minimum. -/
theorem rb_successor_of_value_right_subtree {V : Type} (tree : rb_tree V)
    (hc : TotalOrder tree.comparison_func)
    (hs : Nondecreasing tree.comparison_func (values tree.root)) (v : V)
    {c : Color} {l : Node V} {x : V} {r : Node V} {up : List (Frame V)}
    (hfind : private_rb_find_in_tree tree.comparison_func v tree.root [] = (mk c l x r, up))
    {yc : Color} {yl : Node V} {m : V} {yr : Node V} {yup : List (Frame V)}
    (hmin : private_rb_find_successor (mk c l x r) = some (mk yc yl m yr, yup))
    (hne : tree.comparison_func v m ≠ 0) :
    rb_successor_of_value tree v = some m := by
  have hplug := private_rb_find_in_tree_plug tree.comparison_func v tree.root []
  have hvx : tree.comparison_func v x = 0 :=
    private_rb_find_in_tree_eq tree.comparison_func v tree.root [] (by rw [hfind])
  rw [hfind] at hplug
  simp only [plug] at hplug
  simp only [private_rb_find_successor] at hmin
  obtain ⟨⟨yc2, yv2, yr2, hy⟩, hyp, hleft⟩ := private_subrb_tree_minimum_spec _ _ hmin
  simp only [Node.mk.injEq] at hy
  obtain ⟨_, rfl, _, _⟩ := hy
  have hr : values r = m :: (values yr ++ right_of yup) := by
    have := congrArg values hyp
    simp only [plug, values_plug, hleft rfl] at this
    rw [← this]; simp [values]
  have hv : values tree.root =
      (left_of up ++ (values l ++ [x])) ++ m :: (values yr ++ right_of yup ++ right_of up) := by
    rw [← hplug, values_plug, values, hr]; simp
  have hmono : (values tree.root).Pairwise
      (fun a b => tree.comparison_func v a < 0 → tree.comparison_func v b < 0) :=
    List.Pairwise.imp (fun hab hva => hc.lt_of_lt_of_le hva hab) hs
  have hs2 := hs
  unfold Nondecreasing at hs2
  rw [hv] at hs2
  have hxm : tree.comparison_func x m ≤ 0 :=
    (List.pairwise_append.1 hs2).2.2 x (by simp) m (by simp)
  have hvm : tree.comparison_func v m < 0 := by
    have h1 : tree.comparison_func v x ≤ 0 := le_of_eq hvx
    have h2 := hc.trans _ _ _ h1 hxm
    omega
  have hpre : ∀ u ∈ left_of up ++ (values l ++ [x]),
      decide (tree.comparison_func v u < 0) = false := by
    intro u hu
    have hux : tree.comparison_func u x ≤ 0 := by
      rcases List.mem_append.1 hu with h | h
      · exact (List.pairwise_append.1 (List.pairwise_append.1 hs2).1).2.2 u h x (by simp)
      · rcases List.mem_append.1 h with h | h
        · exact (List.pairwise_append.1
            (List.pairwise_append.1 (List.pairwise_append.1 hs2).1).2.1).2.2 u h x (by simp)
        · simp only [List.mem_singleton] at h
          subst h
          exact le_of_eq (hc.refl _)
    have hxv : tree.comparison_func x v ≤ 0 := le_of_eq (hc.eq_zero_symm hvx)
    have := hc.not_lt_of_le (hc.trans _ _ _ hux hxv)
    simpa using this
  have hfound := find?_after_prefix (fun u => decide (tree.comparison_func v u < 0)) _ m
    (values yr ++ right_of yup ++ right_of up) hpre (by simpa using hvm)
  rw [← hv] at hfound
  have := (successor_loop_find tree.comparison_func v tree.root NULL hmono).1 m hfound
  unfold rb_successor_of_value private_rb_successor_of_value
  cases hl : successor_loop tree.comparison_func v tree.root NULL with
  | NULL => rw [hl] at this; simp [node_value] at this
  | mk c2 l2 x2 r2 => rw [hl] at this; simpa [node_value] using this

/-- The mirror fact: when the left subtree of the node found is not empty and has a
maximum that does not compare equal to `v`, `rb_predecessor_of_value` returns that
maximum. -/
theorem rb_predecessor_of_value_left_subtree {V : Type} (tree : rb_tree V)
    (hc : TotalOrder tree.comparison_func)
    (hs : Nondecreasing tree.comparison_func (values tree.root)) (v : V)
    {c : Color} {l : Node V} {x : V} {r : Node V} {up : List (Frame V)}
    (hfind : private_rb_find_in_tree tree.comparison_func v tree.root [] = (mk c l x r, up))
    {yc : Color} {yl : Node V} {m : V} {yr : Node V} {yup : List (Frame V)}
    (hmax : private_rb_find_predecessor (mk c l x r) = some (mk yc yl m yr, yup))
    (hne : tree.comparison_func v m ≠ 0) :
    rb_predecessor_of_value tree v = some m := by
  have hplug := private_rb_find_in_tree_plug tree.comparison_func v tree.root []
  have hvx : tree.comparison_func v x = 0 :=
    private_rb_find_in_tree_eq tree.comparison_func v tree.root [] (by rw [hfind])
  rw [hfind] at hplug
  simp only [plug] at hplug
  simp only [private_rb_find_predecessor] at hmax
  obtain ⟨⟨yc2, yl2, yv2, hy⟩, hyp, hright⟩ := private_subrb_tree_maximum_spec _ _ hmax
  simp only [Node.mk.injEq] at hy
  obtain ⟨_, _, rfl, rfl⟩ := hy
  have hl : values l = (left_of yup ++ values yl) ++ [m] := by
    have := congrArg values hyp
    simp only [plug, values_plug, hright rfl] at this
    rw [← this]; simp [values]
  have hv : values tree.root =
      (left_of up ++ (left_of yup ++ values yl)) ++ m :: (x :: (values r ++ right_of up)) := by
    rw [← hplug, values_plug, values, hl]; simp
  have hmono : (values tree.root).Pairwise
      (fun a b => tree.comparison_func v b > 0 → tree.comparison_func v a > 0) := by
    refine List.Pairwise.imp ?_ hs
    intro a b hab hvb
    have h1 : tree.comparison_func b v < 0 := (hc.antisymm b v).2 hvb
    have h2 := hc.lt_of_le_of_lt hab h1
    exact (hc.antisymm a v).1 h2
  have hs2 := hs
  unfold Nondecreasing at hs2
  rw [hv] at hs2
  have hmx : tree.comparison_func m x ≤ 0 :=
    (List.pairwise_cons.1 (List.pairwise_append.1 hs2).2.1).1 x (by simp)
  have hxv : tree.comparison_func x v ≤ 0 := le_of_eq (hc.eq_zero_symm hvx)
  have hvm : tree.comparison_func v m > 0 := by
    have h2 := hc.not_lt_of_le (hc.trans _ _ _ hmx hxv)
    omega
  have hpost : ∀ u ∈ (x :: (values r ++ right_of up)).reverse,
      decide (tree.comparison_func v u > 0) = false := by
    intro u hu
    have hu2 := List.mem_reverse.1 hu
    have hxu : tree.comparison_func x u ≤ 0 := by
      rcases List.mem_cons.1 hu2 with h | h
      · subst h; exact le_of_eq (hc.refl _)
      · exact (List.pairwise_cons.1
          (List.pairwise_cons.1 (List.pairwise_append.1 hs2).2.1).2).1 u h
    have h1 : tree.comparison_func v x ≤ 0 := le_of_eq hvx
    have := hc.trans _ _ _ h1 hxu
    simp only [gt_iff_lt, decide_eq_false_iff_not, not_lt]
    exact this
  have hfound := find?_after_prefix (fun u => decide (tree.comparison_func v u > 0)) _ m
    (left_of up ++ (left_of yup ++ values yl)).reverse hpost (by simpa using hvm)
  have hrev : (values tree.root).reverse =
      (x :: (values r ++ right_of up)).reverse ++
        m :: (left_of up ++ (left_of yup ++ values yl)).reverse := by
    rw [hv, List.reverse_append, List.reverse_cons (a := m)]
    simp
  rw [← hrev] at hfound
  have := (predecessor_loop_find tree.comparison_func v tree.root NULL hmono).1 m hfound
  unfold rb_predecessor_of_value private_rb_predecessor_of_value
  cases hl2 : predecessor_loop tree.comparison_func v tree.root NULL with
  | NULL => rw [hl2] at this; simp [node_value] at this
  | mk c2 l2 x2 r2 => rw [hl2] at this; simpa [node_value] using this

/-- C30, as stated, fails: after inserting 1 and 1 the search descent for 1 reaches
the root, whose right subtree is not empty and has the minimum 1, while
`rb_successor_of_value` returns `NULL` (no stored value is strictly after 1).  After
inserting 1, 1, 1 the root has a left subtree with maximum 1, and
`rb_predecessor_of_value` returns `NULL`. -/
theorem C30_counterexample :
    (insert_all (rb_new integer_comparison) [1, 1]).map rb_tree.root =
      some (mk BLACK NULL 1 (mk RED NULL 1 NULL)) ∧
    private_rb_find_in_tree integer_comparison 1 (mk BLACK NULL 1 (mk RED NULL 1 NULL)) [] =
      (mk BLACK NULL 1 (mk RED NULL 1 NULL), []) ∧
    (private_rb_find_successor (mk BLACK NULL (1 : Int) (mk RED NULL 1 NULL))).map
        (fun res => node_value res.1) = some (some 1) ∧
    rb_successor_of_value ⟨mk BLACK NULL 1 (mk RED NULL 1 NULL), integer_comparison⟩ 1 = none ∧
    (insert_all (rb_new integer_comparison) [1, 1, 1]).map rb_tree.root =
      some (mk BLACK (mk RED NULL 1 NULL) 1 (mk RED NULL 1 NULL)) ∧
    private_rb_find_in_tree integer_comparison 1
        (mk BLACK (mk RED NULL 1 NULL) 1 (mk RED NULL 1 NULL)) [] =
      (mk BLACK (mk RED NULL 1 NULL) 1 (mk RED NULL 1 NULL), []) ∧
    (private_rb_find_predecessor (mk BLACK (mk RED NULL (1 : Int) NULL) 1 (mk RED NULL 1 NULL))).map
        (fun res => node_value res.1) = some (some 1) ∧
    rb_predecessor_of_value
        ⟨mk BLACK (mk RED NULL 1 NULL) 1 (mk RED NULL 1 NULL), integer_comparison⟩ 1 = none := by
  decide

/-- C30, amended: for every tree built by inserts (duplicates allowed) and every value
`v` whose node, as located by the search descent, has a non-empty right subtree whose
minimum does not compare equal to `v`, `rb_successor_of_value` returns the minimum of
that right subtree; symmetrically `rb_predecessor_of_value` returns the maximum of the
node's left subtree when that is non-empty and its maximum does not compare equal to
`v`. -/
theorem C30_successor_is_minimum_of_right_subtree {V : Type} (cmp : V → V → Int)
    (hc : TotalOrder cmp) (vs : List V) (v : V) :
    ∃ t, insert_all (rb_new cmp) vs = some t ∧
      ∀ (c : Color) (l : Node V) (x : V) (r : Node V) (up : List (Frame V)),
        private_rb_find_in_tree cmp v t.root [] = (mk c l x r, up) →
        (∀ (yc : Color) (yl : Node V) (m : V) (yr : Node V) (yup : List (Frame V)),
          private_rb_find_successor (mk c l x r) = some (mk yc yl m yr, yup) →
          cmp v m ≠ 0 → rb_successor_of_value t v = some m) ∧
        (∀ (yc : Color) (yl : Node V) (m : V) (yr : Node V) (yup : List (Frame V)),
          private_rb_find_predecessor (mk c l x r) = some (mk yc yl m yr, yup) →
          cmp v m ≠ 0 → rb_predecessor_of_value t v = some m) := by
  obtain ⟨t, h1, h2, _, h4, _⟩ := insert_all_new_spec hc vs
  subst h2
  refine ⟨t, h1, ?_⟩
  intro c l x r up hfind
  exact ⟨fun yc yl m yr yup hmin hne =>
      rb_successor_of_value_right_subtree t hc h4 v hfind hmin hne,
    fun yc yl m yr yup hmax hne =>
      rb_predecessor_of_value_left_subtree t hc h4 v hfind hmax hne⟩

/-- Witness for the amended C30 on the tree of `test_rb_successor_of_value`
(hello = 2, world = 5, the = 4, earth = 1, says = 3), for the value 4 at the root. -/
theorem C30_successor_is_minimum_of_right_subtree_witness :
    ∃ t, insert_all (rb_new integer_comparison) [2, 5, 4, 1, 3] = some t ∧
      ∀ (c : Color) (l : Node Int) (x : Int) (r : Node Int) (up : List (Frame Int)),
        private_rb_find_in_tree integer_comparison 4 t.root [] = (mk c l x r, up) →
        (∀ (yc : Color) (yl : Node Int) (m : Int) (yr : Node Int) (yup : List (Frame Int)),
          private_rb_find_successor (mk c l x r) = some (mk yc yl m yr, yup) →
          integer_comparison 4 m ≠ 0 → rb_successor_of_value t 4 = some m) ∧
        (∀ (yc : Color) (yl : Node Int) (m : Int) (yr : Node Int) (yup : List (Frame Int)),
          private_rb_find_predecessor (mk c l x r) = some (mk yc yl m yr, yup) →
          integer_comparison 4 m ≠ 0 → rb_predecessor_of_value t 4 = some m) :=
  C30_successor_is_minimum_of_right_subtree integer_comparison integer_comparison_total
    [2, 5, 4, 1, 3] 4

theorem Rep_root_ptr {V : Type} {nodes : Nat → Option (Cell V)} {par p : Option Nat}
    {t : Node (Nat × V)} (h : Rep nodes par p t) : p = root_ptr t := by
  cases t with
  | NULL => simpa [Rep, root_ptr] using h
  | mk c l x r => simp only [Rep] at h; simpa [root_ptr] using h.1

/-- Holding a tree depends only on the nodes at the addresses of the tree. -/
theorem Rep_congr {V : Type} {nodes nodes2 : Nat → Option (Cell V)} {t : Node (Nat × V)}
    (hagree : ∀ a ∈ addrs t, nodes2 a = nodes a) {par p : Option Nat}
    (h : Rep nodes par p t) : Rep nodes2 par p t := by
  induction t generalizing par p with
  | NULL => simpa [Rep] using h
  | mk c l x r ihl ihr =>
    simp only [Rep] at h ⊢
    obtain ⟨hp, h⟩ := h
    refine ⟨hp, ?_⟩
    rw [hagree x.1 (by simp [addrs, values])]
    cases hx : nodes x.1 with
    | none => simp [hx] at h
    | some cell =>
      simp only [hx] at h ⊢
      obtain ⟨h1, h2, h3, h4, h5⟩ := h
      exact ⟨h1, h2, h3,
        ihl (fun a ha => hagree a (by simp only [addrs, values, List.map_append, List.mem_append] at ha ⊢; exact Or.inl ha)) h4,
        ihr (fun a ha => hagree a (by simp only [addrs, values, List.map_append, List.mem_append, List.map_cons, List.mem_cons] at ha ⊢; exact Or.inr (Or.inr ha))) h5⟩

theorem store_nodes_same {V : Type} (h : Heap V) (a : Nat) (cell : Cell V) :
    (h.store a cell).nodes a = some cell := by
  simp [Heap.store]

theorem store_nodes_ne {V : Type} (h : Heap V) {a b : Nat} (cell : Cell V) (hne : b ≠ a) :
    (h.store a cell).nodes b = h.nodes b := by
  simp [Heap.store, hne]

theorem store_root {V : Type} (h : Heap V) (a : Nat) (cell : Cell V) :
    (h.store a cell).root = h.root := rfl

theorem set_parent_if_present_spec {V : Type} (h : Heap V) (x : Option Nat) (n : Nat)
    (hx : ∀ b, x = some b → ∃ b0, h.nodes b = some b0) :
    ∃ h2, set_parent_if_present h x n = some h2 ∧ h2.root = h.root ∧
      (∀ a, some a ≠ x → h2.nodes a = h.nodes a) ∧
      (∀ b b0, x = some b → h.nodes b = some b0 →
        h2.nodes b = some { b0 with parent := some n }) := by
  rcases x with _ | b
  · exact ⟨h, rfl, rfl, fun _ _ => rfl, fun b b0 hb => by simp at hb⟩
  · obtain ⟨b0, hb0⟩ := hx b rfl
    refine ⟨h.store b { b0 with parent := some n }, by simp [set_parent_if_present, hb0],
      rfl, ?_, ?_⟩
    · intro a ha
      exact store_nodes_ne _ _ (fun e => ha (by rw [e]))
    · intro b2 b3 h1 h2
      simp only [Option.some.injEq] at h1
      subst h1
      rw [hb0] at h2
      simp only [Option.some.injEq] at h2
      subst h2
      exact store_nodes_same _ _ _

theorem replace_in_parent_spec {V : Type} (h : Heap V) (n child : Nat) (n0 : Cell V)
    (hn : h.nodes n = some n0) (hp : ∀ p, n0.parent = some p → ∃ p0, h.nodes p = some p0) :
    ∃ h2, replace_in_parent h n child = some h2 ∧
      (n0.parent = none → h2.root = some child) ∧
      (∀ a, some a ≠ n0.parent → h2.nodes a = h.nodes a) ∧
      (∀ p p0, n0.parent = some p → h.nodes p = some p0 →
        h2.root = h.root ∧
        h2.nodes p = some (if some n = p0.left then { p0 with left := some child }
          else { p0 with right := some child })) := by
  rcases hpar : n0.parent with _ | p
  · refine ⟨{ root := some child, nodes := h.nodes }, by simp [replace_in_parent, hn, hpar],
      fun _ => rfl, fun _ _ => rfl, fun p p0 h1 => by simp at h1⟩
  · obtain ⟨p0, hp0⟩ := hp p hpar
    by_cases hl : some n = p0.left
    · refine ⟨h.store p { p0 with left := some child },
        by simp [replace_in_parent, hn, hpar, hp0, hl], fun h1 => by simp at h1, ?_, ?_⟩
      · intro a ha
        exact store_nodes_ne _ _ (fun e => ha (by rw [e]))
      · intro p2 p3 h1 h2
        simp only [Option.some.injEq] at h1
        subst h1
        rw [hp0] at h2
        simp only [Option.some.injEq] at h2
        subst h2
        exact ⟨rfl, by rw [if_pos hl]; exact store_nodes_same _ _ _⟩
    · refine ⟨h.store p { p0 with right := some child },
        by simp [replace_in_parent, hn, hpar, hp0, hl], fun h1 => by simp at h1, ?_, ?_⟩
      · intro a ha
        exact store_nodes_ne _ _ (fun e => ha (by rw [e]))
      · intro p2 p3 h1 h2
        simp only [Option.some.injEq] at h1
        subst h1
        rw [hp0] at h2
        simp only [Option.some.injEq] at h2
        subst h2
        exact ⟨rfl, by rw [if_neg hl]; exact store_nodes_same _ _ _⟩

/-- What `rb_rotate_left(tree, n)` writes, field by field, when `n`, its right child, that
child's left child and the parent of `n` are distinct allocated nodes: it completes, and
only these four nodes and possibly `tree->root` change. -/
theorem rb_rotate_left_mem_spec {V : Type} (tree : Heap V) (n r : Nat) (n0 r0 : Cell V)
    (hn : tree.nodes n = some n0) (hnr : n0.right = some r) (hr : tree.nodes r = some r0)
    (hne : r ≠ n)
    (hb : ∀ b, r0.left = some b → b ≠ n ∧ b ≠ r ∧ ∃ b0, tree.nodes b = some b0)
    (hp : ∀ p, n0.parent = some p →
      p ≠ n ∧ p ≠ r ∧ r0.left ≠ some p ∧ ∃ p0, tree.nodes p = some p0) :
    ∃ t2, rb_rotate_left_mem tree n = some t2 ∧
      t2.nodes n = some { n0 with right := r0.left, parent := some r } ∧
      t2.nodes r = some { r0 with parent := n0.parent, left := some n } ∧
      (∀ b b0, r0.left = some b → tree.nodes b = some b0 →
        t2.nodes b = some { b0 with parent := some n }) ∧
      (n0.parent = none → t2.root = some r) ∧
      (∀ p p0, n0.parent = some p → tree.nodes p = some p0 →
        t2.root = tree.root ∧
        t2.nodes p = some (if some n = p0.left then { p0 with left := some r }
          else { p0 with right := some r })) ∧
      (∀ a, a ≠ n → a ≠ r → some a ≠ r0.left → some a ≠ n0.parent →
        t2.nodes a = tree.nodes a) := by
  have hne2 : n ≠ r := fun h => hne h.symm
  have hnb : some n ≠ r0.left := fun e => (hb n e.symm).1 rfl
  have hrb : some r ≠ r0.left := fun e => (hb r e.symm).2.1 rfl
  have hnp : some n ≠ n0.parent := fun e => (hp n e.symm).1 rfl
  have hrp : some r ≠ n0.parent := fun e => (hp r e.symm).2.1 rfl
  -- n->right = right_child->left;
  have e1n := store_nodes_same tree n { n0 with right := r0.left }
  have e1o : ∀ a, a ≠ n → (tree.store n { n0 with right := r0.left }).nodes a = tree.nodes a :=
    fun a ha => store_nodes_ne _ _ ha
  -- if (n->right != NULL) n->right->parent = n;
  obtain ⟨h2, e2, e2root, e2o, e2b⟩ := set_parent_if_present_spec
    (tree.store n { n0 with right := r0.left }) r0.left n
    (fun b hb0 => by rw [e1o b (hb b hb0).1]; exact (hb b hb0).2.2)
  have e2n := (e2o n hnb).trans e1n
  have e2r := (e2o r hrb).trans ((e1o r hne).trans hr)
  -- right_child->parent = n->parent;
  have e3r := store_nodes_same h2 r { r0 with parent := n0.parent }
  have e3o : ∀ a, a ≠ r → (h2.store r { r0 with parent := n0.parent }).nodes a = h2.nodes a :=
    fun a ha => store_nodes_ne _ _ ha
  have e3n := (e3o n hne2).trans e2n
  -- the slot of n
  obtain ⟨h4, e4, e4root, e4o, e4p⟩ := replace_in_parent_spec
    (h2.store r { r0 with parent := n0.parent }) n r { n0 with right := r0.left } e3n
    (fun p hp0 => by
      obtain ⟨p1, p2, p3, p0, hp4⟩ := hp p hp0
      rw [e3o p p2, e2o p (fun e => p3 e.symm), e1o p p1]
      exact ⟨p0, hp4⟩)
  have e4r := (e4o r hrp).trans e3r
  -- right_child->left = n;
  have e5r := store_nodes_same h4 r { r0 with parent := n0.parent, left := some n }
  have e5o : ∀ a, a ≠ r →
      (h4.store r { r0 with parent := n0.parent, left := some n }).nodes a = h4.nodes a :=
    fun a ha => store_nodes_ne _ _ ha
  have e5n := (e5o n hne2).trans ((e4o n hnp).trans e3n)
  refine ⟨(h4.store r { r0 with parent := n0.parent, left := some n }).store n
    { n0 with right := r0.left, parent := some r }, ?_, store_nodes_same _ _ _, ?_, ?_, ?_, ?_, ?_⟩
  · simp only [rb_rotate_left_mem, hn, hnr, hr, e1n, e2, e2n, e2r, e4, e4r, e5n,
      Option.bind_eq_bind, Option.some_bind]
  · rw [store_nodes_ne _ _ hne, e5r]
  · intro b b0 h1 h2b
    obtain ⟨b1, b2, -⟩ := hb b h1
    rw [store_nodes_ne _ _ b1, e5o b b2, e4o b (fun e => (hp b e.symm).2.2.1 h1), e3o b b2]
    exact e2b b b0 h1 (by rw [e1o b b1]; exact h2b)
  · intro h1
    rw [store_root, store_root]
    exact e4root h1
  · intro p p0 h1 h2p
    obtain ⟨p1, p2, p3, -⟩ := hp p h1
    have hp3 : (h2.store r { r0 with parent := n0.parent }).nodes p = some p0 := by
      rw [e3o p p2, e2o p (fun e => p3 e.symm), e1o p p1]; exact h2p
    obtain ⟨q1, q2⟩ := e4p p p0 h1 hp3
    refine ⟨?_, ?_⟩
    · rw [store_root, store_root, q1, store_root, e2root, store_root]
    · rw [store_nodes_ne _ _ p1, e5o p p2, q2]
  · intro a a1 a2 a3 a4
    rw [store_nodes_ne _ _ a1, e5o a a2, e4o a a4, e3o a a2, e2o a a3, e1o a a1]

theorem addrs_NULL {V : Type} : addrs (NULL : Node (Nat × V)) = [] := rfl

theorem addrs_mk {V : Type} (c : Color) (l : Node (Nat × V)) (x : Nat × V)
    (r : Node (Nat × V)) : addrs (mk c l x r) = addrs l ++ x.1 :: addrs r := by
  simp [addrs, values]

/-- A held subtree stays held when only the `parent` field of its root is rewritten. -/
theorem Rep_reparent {V : Type} {nodes nodes2 : Nat → Option (Cell V)} {t : Node (Nat × V)}
    {par par2 p : Option Nat} (h : Rep nodes par p t) (hnd : (addrs t).Nodup)
    (hroot : ∀ a cell, root_ptr t = some a → nodes a = some cell →
      nodes2 a = some { cell with parent := par2 })
    (hrest : ∀ a ∈ addrs t, some a ≠ root_ptr t → nodes2 a = nodes a) :
    Rep nodes2 par2 p t := by
  cases t with
  | NULL => simpa [Rep] using h
  | mk c l x r =>
    simp only [Rep] at h ⊢
    obtain ⟨hp, h⟩ := h
    refine ⟨hp, ?_⟩
    rw [addrs_mk, List.nodup_append] at hnd
    obtain ⟨_, hnd2, hdisj⟩ := hnd
    rw [List.nodup_cons] at hnd2
    cases hx : nodes x.1 with
    | none => simp [hx] at h
    | some cell =>
      simp only [hx] at h
      obtain ⟨h1, h2, _, h4, h5⟩ := h
      rw [hroot x.1 cell rfl hx]
      refine ⟨h1, h2, rfl, Rep_congr ?_ h4, Rep_congr ?_ h5⟩
      · intro a ha
        refine hrest a (by rw [addrs_mk]; simp [ha]) ?_
        intro e
        simp only [root_ptr, Option.some.injEq] at e
        subst e
        exact hdisj ha (List.mem_cons_self _ _)
      · intro a ha
        refine hrest a (by rw [addrs_mk]; simp [ha]) ?_
        intro e
        simp only [root_ptr, Option.some.injEq] at e
        subst e
        exact hnd2.1 ha

theorem root_ptr_mem_addrs {V : Type} {t : Node (Nat × V)} {a : Nat}
    (h : root_ptr t = some a) : a ∈ addrs t := by
  cases t with
  | NULL => simp [root_ptr] at h
  | mk c l x r =>
    simp only [root_ptr, Option.some.injEq] at h
    subst h
    rw [addrs_mk]
    simp

theorem Rep_root_allocated {V : Type} {nodes : Nat → Option (Cell V)} {par p : Option Nat}
    {t : Node (Nat × V)} (h : Rep nodes par p t) {a : Nat} (ha : root_ptr t = some a) :
    ∃ cell, nodes a = some cell ∧ cell.parent = par := by
  cases t with
  | NULL => simp [root_ptr] at ha
  | mk c l x r =>
    simp only [root_ptr, Option.some.injEq] at ha
    subst ha
    simp only [Rep] at h
    cases hx : nodes x.1 with
    | none => simp [hx] at h
    | some cell =>
      simp only [hx] at h
      exact ⟨cell, rfl, h.2.2.2.1⟩

/-- The left rotation seen at the rotated subtree: the memory that held the subtree
`mk c l n (mk rc rl r rr)` below the parent pointer `par` holds
`mk rc (mk c l n rl) r rr` afterwards. -/
theorem rb_rotate_left_mem_local {V : Type} (tree : Heap V) (par : Option Nat)
    (c : Color) (l : Node (Nat × V)) (n : Nat) (v : V)
    (rc : Color) (rl : Node (Nat × V)) (r : Nat) (rv : V) (rr : Node (Nat × V))
    (hrep : Rep tree.nodes par (some n) (mk c l (n, v) (mk rc rl (r, rv) rr)))
    (hnd : (addrs (mk c l (n, v) (mk rc rl (r, rv) rr))).Nodup)
    (hpar : ∀ p, par = some p →
      p ∉ addrs (mk c l (n, v) (mk rc rl (r, rv) rr)) ∧ ∃ p0, tree.nodes p = some p0) :
    ∃ t2, rb_rotate_left_mem tree n = some t2 ∧
      Rep t2.nodes par (some r) (mk rc (mk c l (n, v) rl) (r, rv) rr) ∧
      (par = none → t2.root = some r) ∧
      (∀ p p0, par = some p → tree.nodes p = some p0 →
        t2.root = tree.root ∧
        t2.nodes p = some (if some n = p0.left then { p0 with left := some r }
          else { p0 with right := some r })) ∧
      (∀ a, a ≠ n → a ≠ r → some a ≠ root_ptr rl → some a ≠ par →
        t2.nodes a = tree.nodes a) := by
  simp only [Rep, true_and] at hrep
  cases hn : tree.nodes n with
  | none => simp [hn] at hrep
  | some n0 =>
    simp only [hn] at hrep
    obtain ⟨nv, nc, np, nl, nr, hrep⟩ := hrep
    cases hr : tree.nodes r with
    | none => simp [hr] at hrep
    | some r0 =>
      simp only [hr] at hrep
      obtain ⟨rv0, rc0, rp, hrl, hrr⟩ := hrep
      have hb := Rep_root_ptr hrl
      simp only [addrs_mk, List.nodup_append, List.nodup_cons, List.mem_append,
        List.mem_cons, not_or] at hnd hpar
      obtain ⟨ndl, ⟨⟨nnr, nnrl, nnrr⟩, ndrl, ⟨nrrr, ndrr⟩, drl⟩, dl⟩ := hnd
      have hbr : ∀ b, r0.left = some b → b ∈ addrs rl := fun b e =>
        root_ptr_mem_addrs (hb ▸ e)
      obtain ⟨t2, e, en, er, eb, eroot, ep, eo⟩ := rb_rotate_left_mem_spec tree n r n0 r0 hn nr hr
        (fun e => nnrl e.symm)
        (fun b e => ⟨fun e2 => nnr (e2 ▸ hbr b e),
          fun e2 => drl (hbr b e) (e2 ▸ List.mem_cons_self _ _),
          (Rep_root_allocated hrl (hb ▸ e)).imp (fun _ h => h.1)⟩)
        (fun p e => ⟨(hpar p (np ▸ e)).1.2.1, (hpar p (np ▸ e)).1.2.2.2.1,
          fun e2 => (hpar p (np ▸ e)).1.2.2.1 (hbr p e2), (hpar p (np ▸ e)).2⟩)
      refine ⟨t2, e, ?_, fun h => eroot (np.trans h), fun p p0 h => ep p p0 (np.trans h),
        fun a a1 a2 a3 a4 => eo a a1 a2 (hb ▸ a3) (np ▸ a4)⟩
      have hout : ∀ a, a ≠ n → a ≠ r → a ∉ addrs rl → some a ≠ par → t2.nodes a = tree.nodes a :=
        fun a a1 a2 a3 a4 => eo a a1 a2 (fun e => a3 (hbr a e.symm)) (np ▸ a4)
      have hparl : ∀ a ∈ addrs l, some a ≠ par := fun a ha e => (hpar a e.symm).1.1 ha
      have hparrl : ∀ a ∈ addrs rl, some a ≠ par := fun a ha e => (hpar a e.symm).1.2.2.1 ha
      have hparrr : ∀ a ∈ addrs rr, some a ≠ par := fun a ha e => (hpar a e.symm).1.2.2.2.2 ha
      simp only [Rep, true_and, er, en]
      refine ⟨rv0, rc0, np, ⟨nv, nc, ?_, ?_⟩, ?_⟩
      · refine Rep_congr (fun a ha => hout a ?_ ?_ ?_ (hparl a ha)) nl
        · rintro rfl; exact dl ha (List.mem_cons_self _ _)
        · rintro rfl; exact dl ha (by simp)
        · intro h; exact dl ha (by simp [h])
      · refine Rep_reparent hrl ndrl ?_ ?_
        · intro a cell h1 h2
          exact eb a cell (hb.trans h1) h2
        · intro a ha hne
          refine eo a ?_ ?_ (hb ▸ hne) (np ▸ hparrl a ha)
          · rintro rfl; exact nnr ha
          · rintro rfl; exact drl ha (List.mem_cons_self _ _)
      · refine Rep_congr (fun a ha => hout a ?_ ?_ ?_ (hparrr a ha)) hrr
        · rintro rfl; exact nnrr ha
        · rintro rfl; exact nrrr ha
        · intro h; exact drl h (by simp [ha])

theorem addrs_attach {V : Type} (f : Frame (Nat × V)) (s : Node (Nat × V)) :
    addrs (attach f s) =
      match f.side with
      | L => addrs s ++ f.value.1 :: addrs f.sibling
      | R => addrs f.sibling ++ f.value.1 :: addrs s := by
  obtain ⟨side, c, x, sib⟩ := f
  cases side <;> simp [attach, addrs_mk]

theorem addrs_sublist_plug {V : Type} (s : Node (Nat × V)) (up : List (Frame (Nat × V))) :
    (addrs s).Sublist (addrs (plug s up)) := by
  induction up generalizing s with
  | nil => exact List.Sublist.refl _
  | cons f up ih =>
    refine List.Sublist.trans ?_ (ih (attach f s))
    rw [addrs_attach]
    obtain ⟨side, c, x, sib⟩ := f
    cases side
    · exact List.sublist_append_left _ _
    · exact (List.sublist_cons_self _ _).trans (List.sublist_append_right _ _)

theorem Rep_plug_sub {V : Type} {nodes : Nat → Option (Cell V)} (up : List (Frame (Nat × V))) :
    ∀ (s : Node (Nat × V)) (par0 p0 : Option Nat), Rep nodes par0 p0 (plug s up) →
      ∃ par p, Rep nodes par p s := by
  induction up with
  | nil => exact fun s par0 p0 h => ⟨par0, p0, h⟩
  | cons f up ih =>
    intro s par0 p0 h
    obtain ⟨par, p, h2⟩ := ih (attach f s) par0 p0 h
    obtain ⟨side, c, x, sib⟩ := f
    cases side
    · simp only [attach, Rep] at h2
      cases hx : nodes x.1 with
      | none => simp [hx] at h2
      | some cell =>
        simp only [hx] at h2
        exact ⟨_, _, h2.2.2.2.2.1⟩
    · simp only [attach, Rep] at h2
      cases hx : nodes x.1 with
      | none => simp [hx] at h2
      | some cell =>
        simp only [hx] at h2
        exact ⟨_, _, h2.2.2.2.2.2⟩

theorem Rep_attach_replace {V : Type} {nodes nodes2 : Nat → Option (Cell V)}
    (f : Frame (Nat × V)) (s s2 : Node (Nat × V)) (hnd : (addrs (attach f s)).Nodup)
    (hs : ∀ par p, Rep nodes par p s → Rep nodes2 par p s2)
    (hout : ∀ a, a ∉ addrs s → nodes2 a = nodes a) (par p : Option Nat)
    (h : Rep nodes par p (attach f s)) : Rep nodes2 par p (attach f s2) := by
  rw [addrs_attach] at hnd
  obtain ⟨side, c, x, sib⟩ := f
  cases side
  · simp only [List.nodup_append, List.nodup_cons] at hnd
    obtain ⟨_, ⟨hx1, _⟩, hd⟩ := hnd
    simp only [attach, Rep] at h ⊢
    refine ⟨h.1, ?_⟩
    rw [hout x.1 (fun hm => hd hm (List.mem_cons_self _ _))]
    cases hx : nodes x.1 with
    | none => simp [hx] at h
    | some cell =>
      simp only [hx] at h ⊢
      obtain ⟨_, h1, h2, h3, h4, h5⟩ := h
      exact ⟨h1, h2, h3, hs _ _ h4,
        Rep_congr (fun a ha => hout a (fun hm => hd hm (List.mem_cons_of_mem _ ha))) h5⟩
  · simp only [List.nodup_append, List.nodup_cons] at hnd
    obtain ⟨_, ⟨hx1, _⟩, hd⟩ := hnd
    simp only [attach, Rep] at h ⊢
    refine ⟨h.1, ?_⟩
    rw [hout x.1 hx1]
    cases hx : nodes x.1 with
    | none => simp [hx] at h
    | some cell =>
      simp only [hx] at h ⊢
      obtain ⟨_, h1, h2, h3, h4, h5⟩ := h
      exact ⟨h1, h2, h3,
        Rep_congr (fun a ha => hout a (fun hm => hd ha (List.mem_cons_of_mem _ hm))) h4,
        hs _ _ h5⟩

/-- Replacing a held subtree `s` by `s2` under the same parents: when the memory changes
only at addresses of `s` and holds `s2` wherever it held `s`, it holds the whole tree
with `s2` in place of `s`. -/
theorem Rep_plug_replace {V : Type} {nodes nodes2 : Nat → Option (Cell V)}
    (up : List (Frame (Nat × V))) :
    ∀ (s s2 : Node (Nat × V)) (par0 p0 : Option Nat), Rep nodes par0 p0 (plug s up) →
      (addrs (plug s up)).Nodup →
      (∀ par p, Rep nodes par p s → Rep nodes2 par p s2) →
      (∀ a, a ∉ addrs s → nodes2 a = nodes a) →
      Rep nodes2 par0 p0 (plug s2 up) := by
  induction up with
  | nil => exact fun s s2 par0 p0 h _ hs _ => hs _ _ h
  | cons f up ih =>
    intro s s2 par0 p0 h hnd hs hout
    refine ih (attach f s) (attach f s2) par0 p0 h hnd
      (Rep_attach_replace f s s2 ((addrs_sublist_plug _ up).nodup hnd) hs hout) ?_
    intro a ha
    refine hout a (fun hm => ha ?_)
    rw [addrs_attach]
    obtain ⟨side, c, x, sib⟩ := f
    cases side <;> simp [hm]

theorem Rep_mk {V : Type} (nodes : Nat → Option (Cell V)) (par p : Option Nat) (c : Color)
    (l : Node (Nat × V)) (x : Nat × V) (r : Node (Nat × V)) :
    Rep nodes par p (mk c l x r) ↔
      p = some x.1 ∧ ∃ cell, nodes x.1 = some cell ∧ cell.value = x.2 ∧ cell.color = c ∧
        cell.parent = par ∧ Rep nodes (some x.1) cell.left l ∧
        Rep nodes (some x.1) cell.right r := by
  rw [Rep]
  cases hx : nodes x.1 with
  | none => simp
  | some cell => simp

/-- The pointer code of `rb_rotate_left` implements the model on trees: when memory holds
the tree `plug t up` with the node `n` at the root of `t`, then after the call it holds
`plug t2 up` for the `t2` with `rb_rotate_left t = some t2`, and no node outside the tree
is written. -/
theorem rb_rotate_left_mem_refines {V : Type} (tree : Heap V)
    (c : Color) (l : Node (Nat × V)) (n : Nat) (v : V)
    (rc : Color) (rl : Node (Nat × V)) (r : Nat) (rv : V) (rr : Node (Nat × V))
    (up : List (Frame (Nat × V)))
    (hrep : Rep tree.nodes none tree.root (plug (mk c l (n, v) (mk rc rl (r, rv) rr)) up))
    (hnd : (addrs (plug (mk c l (n, v) (mk rc rl (r, rv) rr)) up)).Nodup) :
    ∃ t2, rb_rotate_left_mem tree n = some t2 ∧
      Rep t2.nodes none t2.root (plug (mk rc (mk c l (n, v) rl) (r, rv) rr) up) ∧
      ∀ a, a ∉ addrs (plug (mk c l (n, v) (mk rc rl (r, rv) rr)) up) →
        t2.nodes a = tree.nodes a := by
  have hsub := addrs_sublist_plug (mk c l (n, v) (mk rc rl (r, rv) rr)) up
  have hfine : ∀ (t2 : Heap V) (par : Option Nat),
      (∀ a, a ≠ n → a ≠ r → some a ≠ root_ptr rl → some a ≠ par →
        t2.nodes a = tree.nodes a) →
      ∀ a, a ∉ addrs (mk c l (n, v) (mk rc rl (r, rv) rr)) → some a ≠ par →
        t2.nodes a = tree.nodes a := by
    intro t2 par hout a ha2 hp
    simp only [addrs_mk, List.mem_append, List.mem_cons, not_or] at ha2
    exact hout a ha2.2.1 ha2.2.2.2.1 (fun e => ha2.2.2.1 (root_ptr_mem_addrs e.symm)) hp
  cases up with
  | nil =>
    simp only [plug] at hrep hnd ⊢
    have hroot : tree.root = some n := ((Rep_mk _ _ _ _ _ _ _).1 hrep).1
    rw [hroot] at hrep
    obtain ⟨t2, e, hr2, hroot2, _, hout⟩ :=
      rb_rotate_left_mem_local tree none c l n v rc rl r rv rr hrep hnd (fun p hp => by simp at hp)
    refine ⟨t2, e, ?_, ?_⟩
    · rw [hroot2 rfl]; exact hr2
    · intro a ha
      exact hfine t2 none hout a ha (by simp)
  | cons f up =>
    simp only [plug] at hrep hnd ⊢
    have hnd1 := (addrs_sublist_plug (attach f (mk c l (n, v) (mk rc rl (r, rv) rr))) up).nodup hnd
    obtain ⟨par, p, hat⟩ := Rep_plug_sub up _ _ _ hrep
    have hnd0 : (addrs (mk c l (n, v) (mk rc rl (r, rv) rr))).Nodup :=
      (addrs_sublist_plug _ [f]).nodup hnd1
    obtain ⟨side, fc, x, sib⟩ := f
    have key : ∃ p0, tree.nodes x.1 = some p0 ∧
        x.1 ∉ addrs (mk c l (n, v) (mk rc rl (r, rv) rr)) ∧
        (∀ a ∈ addrs sib, a ∉ addrs (mk c l (n, v) (mk rc rl (r, rv) rr)) ∧ a ≠ x.1) ∧
        Rep tree.nodes (some x.1) (some n) (mk c l (n, v) (mk rc rl (r, rv) rr)) ∧
        (match side with
          | L => p0.left = some n
          | R => p0.left ≠ some n ∧ p0.right = some n) := by
      rw [addrs_attach] at hnd1
      cases side
      · simp only [List.nodup_append, List.nodup_cons] at hnd1
        simp only [attach] at hat
        rw [Rep_mk] at hat
        obtain ⟨_, cell, hx, _, _, _, h4, _⟩ := hat
        have h6 : cell.left = some n := ((Rep_mk _ _ _ _ _ _ _).1 h4).1
        refine ⟨cell, hx, fun hm => hnd1.2.2 hm (List.mem_cons_self _ _), ?_, h6 ▸ h4, h6⟩
        intro a ha
        exact ⟨fun hm => hnd1.2.2 hm (List.mem_cons_of_mem _ ha),
          fun e => hnd1.2.1.1 (e ▸ ha)⟩
      · simp only [List.nodup_append, List.nodup_cons] at hnd1
        simp only [attach] at hat
        rw [Rep_mk] at hat
        obtain ⟨_, cell, hx, _, _, _, h4, h5⟩ := hat
        have h6 : cell.right = some n := ((Rep_mk _ _ _ _ _ _ _).1 h5).1
        have hdis : ∀ a ∈ addrs sib, a ∉ addrs (mk c l (n, v) (mk rc rl (r, rv) rr)) ∧ a ≠ x.1 :=
          fun a ha => ⟨fun hm => hnd1.2.2 ha (List.mem_cons_of_mem _ hm),
            fun e => hnd1.2.2 ha (e ▸ List.mem_cons_self _ _)⟩
        refine ⟨cell, hx, hnd1.2.1.1, hdis, h6 ▸ h5, ?_, h6⟩
        intro e
        have := root_ptr_mem_addrs ((Rep_root_ptr h4).symm.trans e)
        exact (hdis n this).1 (by simp [addrs_mk])
    obtain ⟨p0, hp0, hpn, hdis, hsubrep, hside⟩ := key
    obtain ⟨t2, e, hr2, _, hpar2, hout⟩ :=
      rb_rotate_left_mem_local tree (some x.1) c l n v rc rl r rv rr hsubrep hnd0
        (fun p hp => by
          simp only [Option.some.injEq] at hp
          subst hp
          exact ⟨hpn, p0, hp0⟩)
    obtain ⟨hroot2, hcell2⟩ := hpar2 _ p0 rfl hp0
    have hsib : ∀ par p, Rep tree.nodes par p sib → Rep t2.nodes par p sib := fun par p h =>
      Rep_congr (fun a ha => hfine t2 _ hout a (hdis a ha).1
        (fun e => (hdis a ha).2 (Option.some.inj e))) h
    have hout2 : ∀ a, a ∉ addrs (attach ⟨side, fc, x, sib⟩ (mk c l (n, v) (mk rc rl (r, rv) rr))) →
        t2.nodes a = tree.nodes a := by
      intro a ha
      rw [addrs_attach] at ha
      cases side <;> simp only [List.mem_append, List.mem_cons, not_or] at ha
      · exact hfine t2 _ hout a ha.1 (fun e => ha.2.1 (Option.some.inj e))
      · exact hfine t2 _ hout a ha.2.2 (fun e => ha.2.1 (Option.some.inj e))
    refine ⟨t2, e, ?_, fun a ha => hout2 a (fun hm => ha ((addrs_sublist_plug _ up).subset hm))⟩
    rw [hroot2]
    refine Rep_plug_replace up _ (attach ⟨side, fc, x, sib⟩ (mk rc (mk c l (n, v) rl) (r, rv) rr))
      _ _ hrep hnd ?_ hout2
    intro par2 p2 h2
    cases side
    · simp only at hside
      rw [if_pos hside.symm] at hcell2
      simp only [attach] at h2 ⊢
      rw [Rep_mk] at h2 ⊢
      obtain ⟨h3, cell, hx, h4, h5, h6, _, h8⟩ := h2
      rw [hp0] at hx
      simp only [Option.some.injEq] at hx
      subst hx
      exact ⟨h3, _, hcell2, h4, h5, h6, hr2, hsib _ _ h8⟩
    · simp only at hside
      rw [if_neg (fun e => hside.1 e.symm)] at hcell2
      simp only [attach] at h2 ⊢
      rw [Rep_mk] at h2 ⊢
      obtain ⟨h3, cell, hx, h4, h5, h6, h7, _⟩ := h2
      rw [hp0] at hx
      simp only [Option.some.injEq] at hx
      subst hx
      exact ⟨h3, _, hcell2, h4, h5, h6, hsib _ _ h7, hr2⟩

/-- What `rb_rotate_right(tree, n)` writes, field by field, when `n`, its left child, that
child's right child and the parent of `n` are distinct allocated nodes. -/
theorem rb_rotate_right_mem_spec {V : Type} (tree : Heap V) (n m : Nat) (n0 m0 : Cell V)
    (hn : tree.nodes n = some n0) (hnr : n0.left = some m) (hr : tree.nodes m = some m0)
    (hne : m ≠ n)
    (hb : ∀ b, m0.right = some b → b ≠ n ∧ b ≠ m ∧ ∃ b0, tree.nodes b = some b0)
    (hp : ∀ p, n0.parent = some p →
      p ≠ n ∧ p ≠ m ∧ m0.right ≠ some p ∧ ∃ p0, tree.nodes p = some p0) :
    ∃ t2, rb_rotate_right_mem tree n = some t2 ∧
      t2.nodes n = some { n0 with left := m0.right, parent := some m } ∧
      t2.nodes m = some { m0 with parent := n0.parent, right := some n } ∧
      (∀ b b0, m0.right = some b → tree.nodes b = some b0 →
        t2.nodes b = some { b0 with parent := some n }) ∧
      (n0.parent = none → t2.root = some m) ∧
      (∀ p p0, n0.parent = some p → tree.nodes p = some p0 →
        t2.root = tree.root ∧
        t2.nodes p = some (if some n = p0.left then { p0 with left := some m }
          else { p0 with right := some m })) ∧
      (∀ a, a ≠ n → a ≠ m → some a ≠ m0.right → some a ≠ n0.parent →
        t2.nodes a = tree.nodes a) := by
  have hne2 : n ≠ m := fun h => hne h.symm
  have hnb : some n ≠ m0.right := fun e => (hb n e.symm).1 rfl
  have hrb : some m ≠ m0.right := fun e => (hb m e.symm).2.1 rfl
  have hnp : some n ≠ n0.parent := fun e => (hp n e.symm).1 rfl
  have hrp : some m ≠ n0.parent := fun e => (hp m e.symm).2.1 rfl
  -- n->left = left_child->right;
  have e1n := store_nodes_same tree n { n0 with left := m0.right }
  have e1o : ∀ a, a ≠ n → (tree.store n { n0 with left := m0.right }).nodes a = tree.nodes a :=
    fun a ha => store_nodes_ne _ _ ha
  -- if (n->left != NULL) n->left->parent = n;
  obtain ⟨h2, e2, e2root, e2o, e2b⟩ := set_parent_if_present_spec
    (tree.store n { n0 with left := m0.right }) m0.right n
    (fun b hb0 => by rw [e1o b (hb b hb0).1]; exact (hb b hb0).2.2)
  have e2n := (e2o n hnb).trans e1n
  have e2r := (e2o m hrb).trans ((e1o m hne).trans hr)
  -- left_child->parent = n->parent;
  have e3r := store_nodes_same h2 m { m0 with parent := n0.parent }
  have e3o : ∀ a, a ≠ m → (h2.store m { m0 with parent := n0.parent }).nodes a = h2.nodes a :=
    fun a ha => store_nodes_ne _ _ ha
  have e3n := (e3o n hne2).trans e2n
  -- the slot of n
  obtain ⟨h4, e4, e4root, e4o, e4p⟩ := replace_in_parent_spec
    (h2.store m { m0 with parent := n0.parent }) n m { n0 with left := m0.right } e3n
    (fun p hp0 => by
      obtain ⟨p1, p2, p3, p0, hp4⟩ := hp p hp0
      rw [e3o p p2, e2o p (fun e => p3 e.symm), e1o p p1]
      exact ⟨p0, hp4⟩)
  have e4r := (e4o m hrp).trans e3r
  -- left_child->right = n;
  have e5r := store_nodes_same h4 m { m0 with parent := n0.parent, right := some n }
  have e5o : ∀ a, a ≠ m →
      (h4.store m { m0 with parent := n0.parent, right := some n }).nodes a = h4.nodes a :=
    fun a ha => store_nodes_ne _ _ ha
  have e5n := (e5o n hne2).trans ((e4o n hnp).trans e3n)
  refine ⟨(h4.store m { m0 with parent := n0.parent, right := some n }).store n
    { n0 with left := m0.right, parent := some m }, ?_, store_nodes_same _ _ _, ?_, ?_, ?_, ?_, ?_⟩
  · simp only [rb_rotate_right_mem, hn, hnr, hr, e1n, e2, e2n, e2r, e4, e4r, e5n,
      Option.bind_eq_bind, Option.some_bind]
  · rw [store_nodes_ne _ _ hne, e5r]
  · intro b b0 h1 h2b
    obtain ⟨b1, b2, -⟩ := hb b h1
    rw [store_nodes_ne _ _ b1, e5o b b2, e4o b (fun e => (hp b e.symm).2.2.1 h1), e3o b b2]
    exact e2b b b0 h1 (by rw [e1o b b1]; exact h2b)
  · intro h1
    rw [store_root, store_root]
    exact e4root h1
  · intro p p0 h1 h2p
    obtain ⟨p1, p2, p3, -⟩ := hp p h1
    have hp3 : (h2.store m { m0 with parent := n0.parent }).nodes p = some p0 := by
      rw [e3o p p2, e2o p (fun e => p3 e.symm), e1o p p1]; exact h2p
    obtain ⟨q1, q2⟩ := e4p p p0 h1 hp3
    refine ⟨?_, ?_⟩
    · rw [store_root, store_root, q1, store_root, e2root, store_root]
    · rw [store_nodes_ne _ _ p1, e5o p p2, q2]
  · intro a a1 a2 a3 a4
    rw [store_nodes_ne _ _ a1, e5o a a2, e4o a a4, e3o a a2, e2o a a3, e1o a a1]

/-- The right rotation seen at the rotated subtree. -/
theorem rb_rotate_right_mem_local {V : Type} (tree : Heap V) (par : Option Nat)
    (c : Color) (lc : Color) (ll : Node (Nat × V)) (m : Nat) (lv : V) (lr : Node (Nat × V))
    (n : Nat) (v : V) (r : Node (Nat × V))
    (hrep : Rep tree.nodes par (some n) (mk c (mk lc ll (m, lv) lr) (n, v) r))
    (hnd : (addrs (mk c (mk lc ll (m, lv) lr) (n, v) r)).Nodup)
    (hpar : ∀ p, par = some p →
      p ∉ addrs (mk c (mk lc ll (m, lv) lr) (n, v) r) ∧ ∃ p0, tree.nodes p = some p0) :
    ∃ t2, rb_rotate_right_mem tree n = some t2 ∧
      Rep t2.nodes par (some m) (mk lc ll (m, lv) (mk c lr (n, v) r)) ∧
      (par = none → t2.root = some m) ∧
      (∀ p p0, par = some p → tree.nodes p = some p0 →
        t2.root = tree.root ∧
        t2.nodes p = some (if some n = p0.left then { p0 with left := some m }
          else { p0 with right := some m })) ∧
      (∀ a, a ≠ n → a ≠ m → some a ≠ root_ptr lr → some a ≠ par →
        t2.nodes a = tree.nodes a) := by
  rw [Rep_mk] at hrep
  obtain ⟨-, n0, hn, nv, nc, np, hl, hr⟩ := hrep
  rw [Rep_mk] at hl
  obtain ⟨nl, m0, hm, mv, mc, mp, hll, hlr⟩ := hl
  simp only at hn nv hm mv hll hlr hr nl
  have hb := Rep_root_ptr hlr
  simp only [addrs_mk, List.nodup_append, List.nodup_cons, List.mem_append,
    List.mem_cons, not_or] at hnd hpar
  obtain ⟨⟨-, ⟨mlr, ndlr⟩, dll⟩, ⟨nr, -⟩, dn⟩ := hnd
  have hmn : m ≠ n := fun e => @dn m (by simp) (by simp [e])
  have hll1 : ∀ a ∈ addrs ll, a ≠ m ∧ a ≠ n ∧ a ∉ addrs lr :=
    fun a ha => ⟨fun e => @dll a ha (by simp [e]),
      fun e => @dn a (by simp [ha]) (by simp [e]),
      fun h => @dll a ha (by simp [h])⟩
  have hlr1 : ∀ a ∈ addrs lr, a ≠ m ∧ a ≠ n :=
    fun a ha => ⟨fun e => mlr (e ▸ ha),
      fun e => @dn a (by simp [ha]) (by simp [e])⟩
  have hr1 : ∀ a ∈ addrs r, a ≠ m ∧ a ≠ n ∧ a ∉ addrs lr :=
    fun a ha => ⟨fun e => @dn a (by simp [e]) (by simp [ha]),
      fun e => nr (e ▸ ha),
      fun h => @dn a (by simp [h]) (by simp [ha])⟩
  have hbr : ∀ b, m0.right = some b → b ∈ addrs lr := fun b e =>
    root_ptr_mem_addrs (hb ▸ e)
  obtain ⟨t2, e, en, er, eb, eroot, ep, eo⟩ := rb_rotate_right_mem_spec tree n m n0 m0 hn nl hm
    hmn
    (fun b e => ⟨(hlr1 b (hbr b e)).2, (hlr1 b (hbr b e)).1,
      (Rep_root_allocated hlr (hb ▸ e)).imp (fun _ h => h.1)⟩)
    (fun p e => ⟨(hpar p (np ▸ e)).1.2.1, (hpar p (np ▸ e)).1.1.2.1,
      fun e2 => (hpar p (np ▸ e)).1.1.2.2 (hbr p e2), (hpar p (np ▸ e)).2⟩)
  refine ⟨t2, e, ?_, fun h => eroot (np.trans h), fun p p0 h => ep p p0 (np.trans h),
    fun a a1 a2 a3 a4 => eo a a1 a2 (hb ▸ a3) (np ▸ a4)⟩
  have hout : ∀ a, a ≠ n → a ≠ m → a ∉ addrs lr → some a ≠ par → t2.nodes a = tree.nodes a :=
    fun a a1 a2 a3 a4 => eo a a1 a2 (fun e => a3 (hbr a e.symm)) (np ▸ a4)
  have hparll : ∀ a ∈ addrs ll, some a ≠ par := fun a ha e => (hpar a e.symm).1.1.1 ha
  have hparlr : ∀ a ∈ addrs lr, some a ≠ par := fun a ha e => (hpar a e.symm).1.1.2.2 ha
  have hparr : ∀ a ∈ addrs r, some a ≠ par := fun a ha e => (hpar a e.symm).1.2.2 ha
  rw [Rep_mk]
  refine ⟨rfl, _, er, mv, mc, np, ?_, ?_⟩
  · exact Rep_congr (fun a ha => hout a (hll1 a ha).2.1 (hll1 a ha).1 (hll1 a ha).2.2
      (hparll a ha)) hll
  · rw [Rep_mk]
    refine ⟨rfl, _, en, nv, nc, rfl, ?_, ?_⟩
    · refine Rep_reparent hlr ndlr ?_ ?_
      · intro a cell h1 h2
        exact eb a cell (hb.trans h1) h2
      · intro a ha hne
        exact eo a (hlr1 a ha).2 (hlr1 a ha).1 (hb ▸ hne) (np ▸ hparlr a ha)
    · exact Rep_congr (fun a ha => hout a (hr1 a ha).2.1 (hr1 a ha).1 (hr1 a ha).2.2
        (hparr a ha)) hr

/-- The pointer code of `rb_rotate_right` implements the model on trees. -/
theorem rb_rotate_right_mem_refines {V : Type} (tree : Heap V)
    (c : Color) (lc : Color) (ll : Node (Nat × V)) (m : Nat) (lv : V) (lr : Node (Nat × V))
    (n : Nat) (v : V) (r : Node (Nat × V))
    (up : List (Frame (Nat × V)))
    (hrep : Rep tree.nodes none tree.root (plug (mk c (mk lc ll (m, lv) lr) (n, v) r) up))
    (hnd : (addrs (plug (mk c (mk lc ll (m, lv) lr) (n, v) r) up)).Nodup) :
    ∃ t2, rb_rotate_right_mem tree n = some t2 ∧
      Rep t2.nodes none t2.root (plug (mk lc ll (m, lv) (mk c lr (n, v) r)) up) ∧
      ∀ a, a ∉ addrs (plug (mk c (mk lc ll (m, lv) lr) (n, v) r) up) →
        t2.nodes a = tree.nodes a := by
  have hsub := addrs_sublist_plug (mk c (mk lc ll (m, lv) lr) (n, v) r) up
  have hfine : ∀ (t2 : Heap V) (par : Option Nat),
      (∀ a, a ≠ n → a ≠ m → some a ≠ root_ptr lr → some a ≠ par →
        t2.nodes a = tree.nodes a) →
      ∀ a, a ∉ addrs (mk c (mk lc ll (m, lv) lr) (n, v) r) → some a ≠ par →
        t2.nodes a = tree.nodes a := by
    intro t2 par hout a ha2 hp
    simp only [addrs_mk, List.mem_append, List.mem_cons, not_or] at ha2
    exact hout a ha2.2.1 ha2.1.2.1 (fun e => ha2.1.2.2 (root_ptr_mem_addrs e.symm)) hp
  cases up with
  | nil =>
    simp only [plug] at hrep hnd ⊢
    have hroot : tree.root = some n := ((Rep_mk _ _ _ _ _ _ _).1 hrep).1
    rw [hroot] at hrep
    obtain ⟨t2, e, hr2, hroot2, _, hout⟩ :=
      rb_rotate_right_mem_local tree none c lc ll m lv lr n v r hrep hnd (fun p hp => by simp at hp)
    refine ⟨t2, e, ?_, ?_⟩
    · rw [hroot2 rfl]; exact hr2
    · intro a ha
      exact hfine t2 none hout a ha (by simp)
  | cons f up =>
    simp only [plug] at hrep hnd ⊢
    have hnd1 := (addrs_sublist_plug (attach f (mk c (mk lc ll (m, lv) lr) (n, v) r)) up).nodup hnd
    obtain ⟨par, p, hat⟩ := Rep_plug_sub up _ _ _ hrep
    have hnd0 : (addrs (mk c (mk lc ll (m, lv) lr) (n, v) r)).Nodup :=
      (addrs_sublist_plug _ [f]).nodup hnd1
    obtain ⟨side, fc, x, sib⟩ := f
    have key : ∃ p0, tree.nodes x.1 = some p0 ∧
        x.1 ∉ addrs (mk c (mk lc ll (m, lv) lr) (n, v) r) ∧
        (∀ a ∈ addrs sib, a ∉ addrs (mk c (mk lc ll (m, lv) lr) (n, v) r) ∧ a ≠ x.1) ∧
        Rep tree.nodes (some x.1) (some n) (mk c (mk lc ll (m, lv) lr) (n, v) r) ∧
        (match side with
          | L => p0.left = some n
          | R => p0.left ≠ some n ∧ p0.right = some n) := by
      rw [addrs_attach] at hnd1
      cases side
      · simp only [List.nodup_append, List.nodup_cons] at hnd1
        simp only [attach] at hat
        rw [Rep_mk] at hat
        obtain ⟨_, cell, hx, _, _, _, h4, _⟩ := hat
        have h6 : cell.left = some n := ((Rep_mk _ _ _ _ _ _ _).1 h4).1
        refine ⟨cell, hx, fun hm => hnd1.2.2 hm (List.mem_cons_self _ _), ?_, h6 ▸ h4, h6⟩
        intro a ha
        exact ⟨fun hm => hnd1.2.2 hm (List.mem_cons_of_mem _ ha),
          fun e => hnd1.2.1.1 (e ▸ ha)⟩
      · simp only [List.nodup_append, List.nodup_cons] at hnd1
        simp only [attach] at hat
        rw [Rep_mk] at hat
        obtain ⟨_, cell, hx, _, _, _, h4, h5⟩ := hat
        have h6 : cell.right = some n := ((Rep_mk _ _ _ _ _ _ _).1 h5).1
        have hdis : ∀ a ∈ addrs sib, a ∉ addrs (mk c (mk lc ll (m, lv) lr) (n, v) r) ∧ a ≠ x.1 :=
          fun a ha => ⟨fun hm => hnd1.2.2 ha (List.mem_cons_of_mem _ hm),
            fun e => hnd1.2.2 ha (e ▸ List.mem_cons_self _ _)⟩
        refine ⟨cell, hx, hnd1.2.1.1, hdis, h6 ▸ h5, ?_, h6⟩
        intro e
        have := root_ptr_mem_addrs ((Rep_root_ptr h4).symm.trans e)
        exact (hdis n this).1 (by simp [addrs_mk])
    obtain ⟨p0, hp0, hpn, hdis, hsubrep, hside⟩ := key
    obtain ⟨t2, e, hr2, _, hpar2, hout⟩ :=
      rb_rotate_right_mem_local tree (some x.1) c lc ll m lv lr n v r hsubrep hnd0
        (fun p hp => by
          simp only [Option.some.injEq] at hp
          subst hp
          exact ⟨hpn, p0, hp0⟩)
    obtain ⟨hroot2, hcell2⟩ := hpar2 _ p0 rfl hp0
    have hsib : ∀ par p, Rep tree.nodes par p sib → Rep t2.nodes par p sib := fun par p h =>
      Rep_congr (fun a ha => hfine t2 _ hout a (hdis a ha).1
        (fun e => (hdis a ha).2 (Option.some.inj e))) h
    have hout2 : ∀ a, a ∉ addrs (attach ⟨side, fc, x, sib⟩ (mk c (mk lc ll (m, lv) lr) (n, v) r)) →
        t2.nodes a = tree.nodes a := by
      intro a ha
      rw [addrs_attach] at ha
      cases side <;> simp only [List.mem_append, List.mem_cons, not_or] at ha
      · exact hfine t2 _ hout a ha.1 (fun e => ha.2.1 (Option.some.inj e))
      · exact hfine t2 _ hout a ha.2.2 (fun e => ha.2.1 (Option.some.inj e))
    refine ⟨t2, e, ?_, fun a ha => hout2 a (fun hm => ha ((addrs_sublist_plug _ up).subset hm))⟩
    rw [hroot2]
    refine Rep_plug_replace up _ (attach ⟨side, fc, x, sib⟩ (mk lc ll (m, lv) (mk c lr (n, v) r)))
      _ _ hrep hnd ?_ hout2
    intro par2 p2 h2
    cases side
    · simp only at hside
      rw [if_pos hside.symm] at hcell2
      simp only [attach] at h2 ⊢
      rw [Rep_mk] at h2 ⊢
      obtain ⟨h3, cell, hx, h4, h5, h6, _, h8⟩ := h2
      rw [hp0] at hx
      simp only [Option.some.injEq] at hx
      subst hx
      exact ⟨h3, _, hcell2, h4, h5, h6, hr2, hsib _ _ h8⟩
    · simp only at hside
      rw [if_neg (fun e => hside.1 e.symm)] at hcell2
      simp only [attach] at h2 ⊢
      rw [Rep_mk] at h2 ⊢
      obtain ⟨h3, cell, hx, h4, h5, h6, h7, _⟩ := h2
      rw [hp0] at hx
      simp only [Option.some.injEq] at hx
      subst hx
      exact ⟨h3, _, hcell2, h4, h5, h6, hsib _ _ h7, hr2⟩

theorem store_value_color {V : Type} (h : Heap V) (a : Nat) (c0 : Cell V)
    (par l r : Option Nat) (h0 : h.nodes a = some c0) (b : Nat) :
    ((h.store a { c0 with parent := par, left := l, right := r }).nodes b).map
        (fun x => (x.value, x.color)) =
      (h.nodes b).map (fun x => (x.value, x.color)) := by
  by_cases hb : b = a
  · subst hb
    rw [store_nodes_same, h0]
    rfl
  · rw [store_nodes_ne _ _ hb]

theorem set_parent_if_present_value_color {V : Type} (h h2 : Heap V) (x : Option Nat) (n : Nat)
    (e : set_parent_if_present h x n = some h2) (b : Nat) :
    (h2.nodes b).map (fun x => (x.value, x.color)) =
      (h.nodes b).map (fun x => (x.value, x.color)) := by
  rcases x with _ | a
  · simp only [set_parent_if_present, Option.some.injEq] at e
    subst e
    rfl
  · simp only [set_parent_if_present, Option.bind_eq_bind, Option.bind_eq_some,
      Option.some.injEq] at e
    obtain ⟨a0, ha0, rfl⟩ := e
    exact store_value_color h a a0 _ _ _ ha0 b

theorem replace_in_parent_value_color {V : Type} (h h2 : Heap V) (n child : Nat)
    (e : replace_in_parent h n child = some h2) (b : Nat) :
    (h2.nodes b).map (fun x => (x.value, x.color)) =
      (h.nodes b).map (fun x => (x.value, x.color)) := by
  simp only [replace_in_parent, Option.bind_eq_bind, Option.bind_eq_some] at e
  obtain ⟨n0, hn0, e⟩ := e
  rcases hp : n0.parent with _ | p
  · simp only [hp, Option.some.injEq] at e
    subst e
    rfl
  · simp only [hp, Option.bind_eq_bind, Option.bind_eq_some] at e
    obtain ⟨p0, hp0, e⟩ := e
    split at e
    · simp only [Option.some.injEq] at e
      subst e
      exact store_value_color h p p0 _ _ _ hp0 b
    · simp only [Option.some.injEq] at e
      subst e
      exact store_value_color h p p0 _ _ _ hp0 b

/-- The left rotation writes pointer fields only: value and colour at every address, and
the set of allocated addresses, stay as they were. -/
theorem rb_rotate_left_mem_value_color {V : Type} (tree t2 : Heap V) (n : Nat)
    (e : rb_rotate_left_mem tree n = some t2) (b : Nat) :
    (t2.nodes b).map (fun x => (x.value, x.color)) =
      (tree.nodes b).map (fun x => (x.value, x.color)) := by
  simp only [rb_rotate_left_mem, Option.bind_eq_bind, Option.bind_eq_some,
    Option.some.injEq] at e
  obtain ⟨n0, hn0, rc, -, r0, -, n1, -, h2, e2, n2, -, r2, hr2, h4, e4, r4, hr4, n5, hn5, rfl⟩ := e
  exact (store_value_color _ n n5 _ _ _ hn5 b).trans
    ((store_value_color _ rc r4 _ _ _ hr4 b).trans
      ((replace_in_parent_value_color _ _ _ _ e4 b).trans
        ((store_value_color _ rc r2 _ _ _ hr2 b).trans
          ((set_parent_if_present_value_color _ _ _ _ e2 b).trans
            (store_value_color _ n n0 _ _ _ hn0 b)))))

/-- The right rotation writes pointer fields only. -/
theorem rb_rotate_right_mem_value_color {V : Type} (tree t2 : Heap V) (n : Nat)
    (e : rb_rotate_right_mem tree n = some t2) (b : Nat) :
    (t2.nodes b).map (fun x => (x.value, x.color)) =
      (tree.nodes b).map (fun x => (x.value, x.color)) := by
  simp only [rb_rotate_right_mem, Option.bind_eq_bind, Option.bind_eq_some,
    Option.some.injEq] at e
  obtain ⟨n0, hn0, rc, -, r0, -, n1, -, h2, e2, n2, -, r2, hr2, h4, e4, r4, hr4, n5, hn5, rfl⟩ := e
  exact (store_value_color _ n n5 _ _ _ hn5 b).trans
    ((store_value_color _ rc r4 _ _ _ hr4 b).trans
      ((replace_in_parent_value_color _ _ _ _ e4 b).trans
        ((store_value_color _ rc r2 _ _ _ hr2 b).trans
          ((set_parent_if_present_value_color _ _ _ _ e2 b).trans
            (store_value_color _ n n0 _ _ _ hn0 b)))))

theorem mirror_mirror {V : Type} (t : Node V) : mirror (mirror t) = t := by
  induction t with
  | NULL => rfl
  | mk c l x r ihl ihr => simp [mirror, ihl, ihr]

theorem values_mirror {V : Type} (t : Node V) : values (mirror t) = (values t).reverse := by
  induction t with
  | NULL => rfl
  | mk c l x r ihl ihr => simp [mirror, values, ihl, ihr]

theorem mem_addrs_mirror {V : Type} (t : Node (Nat × V)) (a : Nat) :
    a ∈ addrs (mirror t) ↔ a ∈ addrs t := by
  simp [addrs, values_mirror]

theorem root_ptr_mirror {V : Type} (t : Node (Nat × V)) : root_ptr (mirror t) = root_ptr t := by
  cases t <;> rfl

theorem mirror_cell_mirror_cell {V : Type} (cell : Cell V) :
    mirror_cell (mirror_cell cell) = cell := rfl

theorem Rep_mirror {V : Type} {nodes : Nat → Option (Cell V)} {t : Node (Nat × V)}
    {par p : Option Nat} (h : Rep nodes par p t) :
    Rep (fun a => (nodes a).map mirror_cell) par p (mirror t) := by
  induction t generalizing par p with
  | NULL => simpa [Rep, mirror] using h
  | mk c l x r ihl ihr =>
    rw [Rep_mk] at h
    obtain ⟨h1, cell, hx, h2, h3, h4, h5, h6⟩ := h
    rw [mirror, Rep_mk]
    exact ⟨h1, mirror_cell cell, by simp [hx], h2, h3, h4, ihr h6, ihl h5⟩

/-- Two memories that hold the same tree agree at every address of the tree. -/
theorem Rep_unique {V : Type} {nodes nodes2 : Nat → Option (Cell V)} {t : Node (Nat × V)}
    {par p : Option Nat} (h : Rep nodes par p t) (h2 : Rep nodes2 par p t) :
    ∀ a ∈ addrs t, nodes a = nodes2 a := by
  induction t generalizing par p with
  | NULL => simp [addrs_NULL]
  | mk c l x r ihl ihr =>
    rw [Rep_mk] at h h2
    obtain ⟨-, c1, hx1, v1, k1, p1, l1, r1⟩ := h
    obtain ⟨-, c2, hx2, v2, k2, p2, l2, r2⟩ := h2
    have el : c1.left = c2.left := (Rep_root_ptr l1).trans (Rep_root_ptr l2).symm
    have er : c1.right = c2.right := (Rep_root_ptr r1).trans (Rep_root_ptr r2).symm
    have ec : c1 = c2 := by
      cases c1; cases c2
      simp only at v1 k1 p1 v2 k2 p2 el er
      simp [v1, v2, k1, k2, p1, p2, el, er]
    intro a ha
    rw [addrs_mk] at ha
    simp only [List.mem_append, List.mem_cons] at ha
    rcases ha with ha | rfl | ha
    · exact ihl l1 (el ▸ l2) a ha
    · rw [hx1, hx2, ec]
    · exact ihr r1 (er ▸ r2) a ha

/-- In memory, `rb_rotate_right` is `rb_rotate_left` between two exchanges of all child
pointers, for every tree held in memory and node with a left child. -/
theorem rb_rotate_right_mem_mirror {V : Type} (tree : Heap V)
    (c : Color) (lc : Color) (ll : Node (Nat × V)) (m : Nat) (lv : V) (lr : Node (Nat × V))
    (n : Nat) (v : V) (r : Node (Nat × V)) (up : List (Frame (Nat × V)))
    (hrep : Rep tree.nodes none tree.root (plug (mk c (mk lc ll (m, lv) lr) (n, v) r) up))
    (hnd : (addrs (plug (mk c (mk lc ll (m, lv) lr) (n, v) r) up)).Nodup) :
    ∃ t2, rb_rotate_right_mem tree n = some t2 ∧
      (rb_rotate_left_mem (mirror_mem tree) n).map mirror_mem = some t2 := by
  obtain ⟨t2, e2, hr2, ho2⟩ := rb_rotate_right_mem_refines tree c lc ll m lv lr n v r up hrep hnd
  have hrepm := Rep_mirror hrep
  rw [mirror_plug] at hrepm
  have hndm : (addrs (plug (mirror (mk c (mk lc ll (m, lv) lr) (n, v) r))
      (up.map mirror_frame))).Nodup := by
    rw [← mirror_plug, addrs, values_mirror, List.map_reverse, List.nodup_reverse]
    exact hnd
  simp only [mirror] at hrepm hndm
  obtain ⟨t3, e3, hr3, ho3⟩ := rb_rotate_left_mem_refines (mirror_mem tree) c (mirror r) n v lc
    (mirror lr) m lv (mirror ll) (up.map mirror_frame) hrepm hndm
  refine ⟨t2, e2, ?_⟩
  rw [e3, Option.map_some']
  have hT : plug (mk lc (mk c (mirror r) (n, v) (mirror lr)) (m, lv) (mirror ll))
      (up.map mirror_frame) = mirror (plug (mk lc ll (m, lv) (mk c lr (n, v) r)) up) := by
    rw [mirror_plug]; simp only [mirror]
  rw [hT] at hr3
  have hr4 := Rep_mirror hr3
  rw [mirror_mirror] at hr4
  have hroot : t2.root = t3.root :=
    (Rep_root_ptr hr2).trans ((Rep_root_ptr hr3).trans (root_ptr_mirror _)).symm
  have haddr : ∀ a, a ∈ addrs (plug (mk lc ll (m, lv) (mk c lr (n, v) r)) up) ↔
      a ∈ addrs (plug (mk c (mk lc ll (m, lv) lr) (n, v) r) up) := by
    intro a
    simp only [addrs, values_plug, values, List.append_assoc, List.cons_append]
  have hnodes : ∀ a, (mirror_mem t3).nodes a = t2.nodes a := by
    intro a
    by_cases ha : a ∈ addrs (plug (mk c (mk lc ll (m, lv) lr) (n, v) r) up)
    · exact Rep_unique hr4 (hroot ▸ hr2) a ((haddr a).2 ha)
    · rw [ho2 a ha]
      have ha3 : a ∉ addrs (plug (mk c (mirror r) (n, v) (mk lc (mirror lr) (m, lv) (mirror ll)))
          (up.map mirror_frame)) := by
        intro hm
        apply ha
        have := (mem_addrs_mirror (plug (mk c (mk lc ll (m, lv) lr) (n, v) r) up) a).1
        rw [mirror_plug] at this
        exact this hm
      show (t3.nodes a).map mirror_cell = tree.nodes a
      rw [ho3 a ha3]
      show ((tree.nodes a).map mirror_cell).map mirror_cell = tree.nodes a
      cases tree.nodes a <;> rfl
  congr 1
  obtain ⟨root2, nodes2⟩ := t2
  simp only [mirror_mem] at hnodes hroot ⊢
  rw [hroot]
  congr 1
  exact funext hnodes

theorem root_ptr_plug_cons {V : Type} (up : List (Frame (Nat × V))) :
    ∀ (f : Frame (Nat × V)) (s s2 : Node (Nat × V)),
      root_ptr (plug s (f :: up)) = root_ptr (plug s2 (f :: up)) := by
  induction up with
  | nil =>
    intro f s s2
    obtain ⟨side, c, x, sib⟩ := f
    cases side <;> rfl
  | cons g up ih =>
    intro f s s2
    exact ih g (attach f s) (attach f s2)

theorem Rep_plug_focus {V : Type} {nodes : Nat → Option (Cell V)}
    (up : List (Frame (Nat × V))) :
    ∀ (s : Node (Nat × V)) (p0 : Option Nat), Rep nodes none p0 (plug s up) →
      Rep nodes (parent_ptr up) (root_ptr s) s ∧
      match up with
      | [] => p0 = root_ptr s
      | f :: _ => ∃ p2, nodes f.value.1 = some p2 ∧
          match f.side with
          | L => p2.left = root_ptr s ∧ p2.right = root_ptr f.sibling
          | R => p2.right = root_ptr s ∧ p2.left = root_ptr f.sibling := by
  induction up with
  | nil =>
    intro s p0 h
    have := Rep_root_ptr h
    exact ⟨this ▸ h, this⟩
  | cons f up ih =>
    intro s p0 h
    obtain ⟨h2, -⟩ := ih (attach f s) p0 h
    obtain ⟨side, c, x, sib⟩ := f
    cases side
    · simp only [attach] at h2
      rw [Rep_mk] at h2
      obtain ⟨-, cell, hx, -, -, -, h5, h6⟩ := h2
      have e5 := Rep_root_ptr h5
      exact ⟨e5 ▸ h5, cell, hx, e5, Rep_root_ptr h6⟩
    · simp only [attach] at h2
      rw [Rep_mk] at h2
      obtain ⟨-, cell, hx, -, -, -, h5, h6⟩ := h2
      have e6 := Rep_root_ptr h6
      exact ⟨e6 ▸ h6, cell, hx, e6, Rep_root_ptr h5⟩

/-- C27: for every tree held in memory and node `n` with a right child `r`, after
`rb_rotate_left(tree, n)` the node `r` occupies the former position of `n` (the child
slot of the former parent of `n`, or `tree->root` when `n` had no parent), `n` is the
left child of `r`, the former left subtree of `r` is the right subtree of `n`, and the
left subtree of `n` and the right subtree of `r` are unchanged, node for node; the
memory then holds the tree that the model `rb_rotate_left` on trees gives. -/
theorem C27_rotate_left_relinks {V : Type} (tree : Heap V)
    (c : Color) (l : Node (Nat × V)) (n : Nat) (v : V)
    (rc : Color) (rl : Node (Nat × V)) (r : Nat) (rv : V) (rr : Node (Nat × V))
    (up : List (Frame (Nat × V)))
    (hrep : Rep tree.nodes none tree.root (plug (mk c l (n, v) (mk rc rl (r, rv) rr)) up))
    (hnd : (addrs (plug (mk c l (n, v) (mk rc rl (r, rv) rr)) up)).Nodup) :
    ∃ t2 n2 r2, rb_rotate_left_mem tree n = some t2 ∧
      t2.nodes n = some n2 ∧ t2.nodes r = some r2 ∧
      r2.parent = parent_ptr up ∧
      (match up with
        | [] => t2.root = some r
        | f :: _ => t2.root = tree.root ∧ ∃ p2, t2.nodes f.value.1 = some p2 ∧
            match f.side with
            | L => p2.left = some r ∧ p2.right = root_ptr f.sibling
            | R => p2.right = some r ∧ p2.left = root_ptr f.sibling) ∧
      r2.left = some n ∧ n2.parent = some r ∧
      n2.right = root_ptr rl ∧ Rep t2.nodes (some n) n2.right rl ∧
      n2.left = root_ptr l ∧ Rep t2.nodes (some n) n2.left l ∧
      r2.right = root_ptr rr ∧ Rep t2.nodes (some r) r2.right rr ∧
      (∀ a, a ∈ addrs l ∨ a ∈ addrs rr → t2.nodes a = tree.nodes a) ∧
      rb_rotate_left (mk c l (n, v) (mk rc rl (r, rv) rr)) =
        some (mk rc (mk c l (n, v) rl) (r, rv) rr) ∧
      Rep t2.nodes none t2.root (plug (mk rc (mk c l (n, v) rl) (r, rv) rr) up) := by
  obtain ⟨t2, e, hr2, -⟩ := rb_rotate_left_mem_refines tree c l n v rc rl r rv rr up hrep hnd
  obtain ⟨hf0, -⟩ := Rep_plug_focus up _ _ hrep
  obtain ⟨hf, hslot⟩ := Rep_plug_focus up _ _ hr2
  rw [Rep_mk] at hf0
  obtain ⟨-, n0, hn0, -, -, -, hl0, hr0⟩ := hf0
  rw [Rep_mk] at hr0
  obtain ⟨-, r0, hr0c, -, -, -, -, hrr0⟩ := hr0
  rw [Rep_mk] at hf
  obtain ⟨-, r2, hr2c, -, -, hrp, hrl, hrr⟩ := hf
  rw [Rep_mk] at hrl
  obtain ⟨hrl1, n2, hn2c, -, -, hnp, hnl, hnr⟩ := hrl
  simp only at hn0 hr0c hr2c hn2c hrl1 hnp hnl hnr hrr hl0 hrr0
  have enl := Rep_root_ptr hnl
  have err := Rep_root_ptr hrr
  refine ⟨t2, n2, r2, e, hn2c, hr2c, hrp, ?_, hrl1, hnp, Rep_root_ptr hnr, hnr,
    enl, hnl, err, hrr, ?_, rfl, hr2⟩
  · cases up with
    | nil => exact hslot
    | cons f up =>
      refine ⟨?_, hslot⟩
      rw [Rep_root_ptr hr2, Rep_root_ptr hrep]
      exact root_ptr_plug_cons up f _ _
  · rintro a (ha | ha)
    · exact (Rep_unique (((Rep_root_ptr hl0).trans enl.symm) ▸ hl0) hnl a ha).symm
    · exact (Rep_unique (((Rep_root_ptr hrr0).trans err.symm) ▸ hrr0) hrr a ha).symm

/-- Witness for C27 on `example_heap_left`: rotating left at the node 5 (address 1), whose
right child is 8 (address 3) and whose parent is the root (address 0). -/
theorem C27_rotate_left_relinks_witness :
    ∃ t2 n2 r2, rb_rotate_left_mem example_heap_left 1 = some t2 ∧
      t2.nodes 1 = some n2 ∧ t2.nodes 3 = some r2 ∧
      r2.parent = some 0 ∧
      (t2.root = example_heap_left.root ∧ ∃ p2, t2.nodes 0 = some p2 ∧
        p2.left = some 3 ∧ p2.right = none) ∧
      r2.left = some 1 ∧ n2.parent = some 3 ∧
      n2.right = some 4 ∧ Rep t2.nodes (some 1) n2.right (mk RED NULL (4, 6) NULL) ∧
      n2.left = some 2 ∧ Rep t2.nodes (some 1) n2.left (mk BLACK NULL (2, 3) NULL) ∧
      r2.right = some 5 ∧ Rep t2.nodes (some 3) r2.right (mk RED NULL (5, 9) NULL) ∧
      (∀ a, a ∈ addrs (mk BLACK NULL ((2 : Nat), (3 : Int)) NULL) ∨
          a ∈ addrs (mk RED NULL ((5 : Nat), (9 : Int)) NULL) →
        t2.nodes a = example_heap_left.nodes a) ∧
      rb_rotate_left (mk RED (mk BLACK NULL ((2 : Nat), (3 : Int)) NULL) (1, 5)
          (mk BLACK (mk RED NULL (4, 6) NULL) (3, 8) (mk RED NULL (5, 9) NULL))) =
        some (mk BLACK (mk RED (mk BLACK NULL (2, 3) NULL) (1, 5) (mk RED NULL (4, 6) NULL))
          (3, 8) (mk RED NULL (5, 9) NULL)) ∧
      Rep t2.nodes none t2.root
        (mk BLACK (mk BLACK (mk RED (mk BLACK NULL (2, 3) NULL) (1, 5) (mk RED NULL (4, 6) NULL))
          (3, 8) (mk RED NULL (5, 9) NULL)) (0, 10) NULL) :=
  C27_rotate_left_relinks example_heap_left RED (mk BLACK NULL (2, 3) NULL) 1 5 BLACK
    (mk RED NULL (4, 6) NULL) 3 8 (mk RED NULL (5, 9) NULL) [⟨L, BLACK, (0, 10), NULL⟩]
    (by simp [Rep, plug, attach, example_heap_left]) (by decide)

theorem Side.flip_flip (s : Side) : s.flip.flip = s := by
  cases s <;> rfl

theorem mirror_frame_mirror_frame {V : Type} (f : Frame V) :
    mirror_frame (mirror_frame f) = f := by
  obtain ⟨s, c, x, sib⟩ := f
  simp [mirror_frame, Side.flip_flip, mirror_mirror]

theorem map_mirror_frame_mirror_frame {V : Type} (up : List (Frame V)) :
    (up.map mirror_frame).map mirror_frame = up := by
  induction up with
  | nil => rfl
  | cons f up ih => simp only [List.map_cons, mirror_frame_mirror_frame, ih]

theorem rb_rotate_right_eq_mirror {V : Type} (t : Node V) (up : List (Frame V)) :
    (rb_rotate_right t).map (fun s => plug s up) =
      (rb_rotate_left (mirror t)).map (fun s => mirror (plug s (up.map mirror_frame))) := by
  rcases t with _ | ⟨c, l, x, r⟩
  · rfl
  · rcases l with _ | ⟨lc, ll, lv, lr⟩
    · rfl
    · simp only [rb_rotate_right, mirror, rb_rotate_left, Option.map_some', mirror_plug,
        mirror_mirror, map_mirror_frame_mirror_frame]

/-- C28: `rb_rotate_left` and `rb_rotate_right` leave the value and the colour stored at
every address as they were, and with them the set of allocated nodes; and for every tree
held in memory and node with the required child, the memory after the rotation holds
the tree given by the model on trees, whose inorder sequence of nodes (address and
value) is the one before the rotation, with the same number of nodes. -/
theorem C28_rotations_preserve_inorder_colour_count {V : Type} :
    (∀ (tree t2 : Heap V) (n : Nat),
      rb_rotate_left_mem tree n = some t2 ∨ rb_rotate_right_mem tree n = some t2 →
      ∀ a, (t2.nodes a).map (fun x => (x.value, x.color)) =
        (tree.nodes a).map (fun x => (x.value, x.color))) ∧
    (∀ (tree : Heap V) (c : Color) (l : Node (Nat × V)) (n : Nat) (v : V)
      (rc : Color) (rl : Node (Nat × V)) (r : Nat) (rv : V) (rr : Node (Nat × V))
      (up : List (Frame (Nat × V))),
      Rep tree.nodes none tree.root (plug (mk c l (n, v) (mk rc rl (r, rv) rr)) up) →
      (addrs (plug (mk c l (n, v) (mk rc rl (r, rv) rr)) up)).Nodup →
      ∃ t2 T2, rb_rotate_left_mem tree n = some t2 ∧
        (rb_rotate_left (mk c l (n, v) (mk rc rl (r, rv) rr))).map (fun s => plug s up) =
          some T2 ∧
        Rep t2.nodes none t2.root T2 ∧
        values T2 = values (plug (mk c l (n, v) (mk rc rl (r, rv) rr)) up) ∧
        (values T2).length =
          (values (plug (mk c l (n, v) (mk rc rl (r, rv) rr)) up)).length) ∧
    (∀ (tree : Heap V) (c : Color) (lc : Color) (ll : Node (Nat × V)) (m : Nat) (lv : V)
      (lr : Node (Nat × V)) (n : Nat) (v : V) (r : Node (Nat × V))
      (up : List (Frame (Nat × V))),
      Rep tree.nodes none tree.root (plug (mk c (mk lc ll (m, lv) lr) (n, v) r) up) →
      (addrs (plug (mk c (mk lc ll (m, lv) lr) (n, v) r) up)).Nodup →
      ∃ t2 T2, rb_rotate_right_mem tree n = some t2 ∧
        (rb_rotate_right (mk c (mk lc ll (m, lv) lr) (n, v) r)).map (fun s => plug s up) =
          some T2 ∧
        Rep t2.nodes none t2.root T2 ∧
        values T2 = values (plug (mk c (mk lc ll (m, lv) lr) (n, v) r) up) ∧
        (values T2).length =
          (values (plug (mk c (mk lc ll (m, lv) lr) (n, v) r) up)).length) := by
  refine ⟨?_, ?_, ?_⟩
  · rintro tree t2 n (e | e) a
    · exact rb_rotate_left_mem_value_color tree t2 n e a
    · exact rb_rotate_right_mem_value_color tree t2 n e a
  · intro tree c l n v rc rl r rv rr up hrep hnd
    obtain ⟨t2, e, hr2, -⟩ := rb_rotate_left_mem_refines tree c l n v rc rl r rv rr up hrep hnd
    have hv : values (plug (mk rc (mk c l (n, v) rl) (r, rv) rr) up) =
        values (plug (mk c l (n, v) (mk rc rl (r, rv) rr)) up) := by
      simp only [values_plug, values, List.append_assoc, List.cons_append]
    exact ⟨t2, _, e, rfl, hr2, hv, by rw [hv]⟩
  · intro tree c lc ll m lv lr n v r up hrep hnd
    obtain ⟨t2, e, hr2, -⟩ :=
      rb_rotate_right_mem_refines tree c lc ll m lv lr n v r up hrep hnd
    have hv : values (plug (mk lc ll (m, lv) (mk c lr (n, v) r)) up) =
        values (plug (mk c (mk lc ll (m, lv) lr) (n, v) r) up) := by
      simp only [values_plug, values, List.append_assoc, List.cons_append]
    exact ⟨t2, _, e, rfl, hr2, hv, by rw [hv]⟩

/-- Witness for C28: the left rotation at address 1 of `example_heap_left` and the right
rotation at address 3 of `example_heap_right`. -/
theorem C28_rotations_preserve_inorder_colour_count_witness :
    (∃ t2 T2, rb_rotate_left_mem example_heap_left 1 = some t2 ∧
      (rb_rotate_left (mk RED (mk BLACK NULL ((2 : Nat), (3 : Int)) NULL) (1, 5)
          (mk BLACK (mk RED NULL (4, 6) NULL) (3, 8) (mk RED NULL (5, 9) NULL)))).map
        (fun s => plug s [⟨L, BLACK, (0, 10), NULL⟩]) = some T2 ∧
      Rep t2.nodes none t2.root T2 ∧
      values T2 = [(2, 3), (1, 5), (4, 6), (3, 8), (5, 9), (0, 10)] ∧
      (values T2).length = 6 ∧
      ∀ a, (t2.nodes a).map (fun x => (x.value, x.color)) =
        (example_heap_left.nodes a).map (fun x => (x.value, x.color))) ∧
    (∃ t2 T2, rb_rotate_right_mem example_heap_right 3 = some t2 ∧
      (rb_rotate_right (mk BLACK (mk RED (mk BLACK NULL ((2 : Nat), (3 : Int)) NULL) (1, 5)
          (mk RED NULL (4, 6) NULL)) (3, 8) (mk RED NULL (5, 9) NULL))).map
        (fun s => plug s [⟨L, BLACK, (0, 10), NULL⟩]) = some T2 ∧
      Rep t2.nodes none t2.root T2 ∧
      values T2 = [(2, 3), (1, 5), (4, 6), (3, 8), (5, 9), (0, 10)] ∧
      (values T2).length = 6 ∧
      ∀ a, (t2.nodes a).map (fun x => (x.value, x.color)) =
        (example_heap_right.nodes a).map (fun x => (x.value, x.color))) := by
  obtain ⟨hcv, hleft, hright⟩ := @C28_rotations_preserve_inorder_colour_count Int
  obtain ⟨t2, T2, e, h1, h2, h3, h4⟩ := hleft example_heap_left RED (mk BLACK NULL (2, 3) NULL)
    1 5 BLACK (mk RED NULL (4, 6) NULL) 3 8 (mk RED NULL (5, 9) NULL)
    [⟨L, BLACK, (0, 10), NULL⟩] (by simp [Rep, plug, attach, example_heap_left]) (by decide)
  obtain ⟨t3, T3, e3, k1, k2, k3, k4⟩ := hright example_heap_right BLACK RED
    (mk BLACK NULL (2, 3) NULL) 1 5 (mk RED NULL (4, 6) NULL) 3 8 (mk RED NULL (5, 9) NULL)
    [⟨L, BLACK, (0, 10), NULL⟩] (by simp [Rep, plug, attach, example_heap_right]) (by decide)
  exact ⟨⟨t2, T2, e, h1, h2, h3, h4, hcv _ _ _ (Or.inl e)⟩,
    ⟨t3, T3, e3, k1, k2, k3, k4, hcv _ _ _ (Or.inr e3)⟩⟩

/-- C29: `rb_rotate_right` is the mirror image of `rb_rotate_left`.  On trees: rotating
right at a node below the parents `up` gives the mirror image of rotating left at the
same node in the mirrored tree (both fail when the required child is missing).  In
memory: for every tree held in memory and node `n` with a left child,
`rb_rotate_right(tree, n)` gives the memory obtained by exchanging the child pointers
of every node, running `rb_rotate_left(tree, n)` and exchanging them back. -/
theorem C29_rotate_right_is_mirror_of_rotate_left {V : Type} :
    (∀ (t : Node V) (up : List (Frame V)),
      (rb_rotate_right t).map (fun s => plug s up) =
        (rb_rotate_left (mirror t)).map (fun s => mirror (plug s (up.map mirror_frame)))) ∧
    (∀ (tree : Heap V) (c : Color) (lc : Color) (ll : Node (Nat × V)) (m : Nat) (lv : V)
      (lr : Node (Nat × V)) (n : Nat) (v : V) (r : Node (Nat × V))
      (up : List (Frame (Nat × V))),
      Rep tree.nodes none tree.root (plug (mk c (mk lc ll (m, lv) lr) (n, v) r) up) →
      (addrs (plug (mk c (mk lc ll (m, lv) lr) (n, v) r) up)).Nodup →
      ∃ t2, rb_rotate_right_mem tree n = some t2 ∧
        (rb_rotate_left_mem (mirror_mem tree) n).map mirror_mem = some t2) :=
  ⟨rb_rotate_right_eq_mirror, rb_rotate_right_mem_mirror⟩

/-- Witness for C29: the right rotation at address 3 of `example_heap_right`. -/
theorem C29_rotate_right_is_mirror_of_rotate_left_witness :
    ∃ t2, rb_rotate_right_mem example_heap_right 3 = some t2 ∧
      (rb_rotate_left_mem (mirror_mem example_heap_right) 3).map mirror_mem = some t2 :=
  (@C29_rotate_right_is_mirror_of_rotate_left Int).2 example_heap_right BLACK RED
    (mk BLACK NULL (2, 3) NULL) 1 5 (mk RED NULL (4, 6) NULL) 3 8 (mk RED NULL (5, 9) NULL)
    [⟨L, BLACK, (0, 10), NULL⟩] (by simp [Rep, plug, attach, example_heap_right]) (by decide)

/-- C31 fails on the code: on an empty tree each of the three walks passes the `NULL`
root to its private helper, which reads `root->left` (inorder, postorder) or
`root->value` (preorder) at once.  The specification's listing of an empty tree is the
empty list of visits. -/
theorem C31_walks_on_empty_tree_dereference_NULL {V : Type} (comparison_func : V → V → Int) :
    rb_tree_is_empty (rb_new comparison_func) = true ∧
    rb_map_inorder (rb_new comparison_func) = none ∧
    rb_map_preorder (rb_new comparison_func) = none ∧
    rb_map_postorder (rb_new comparison_func) = none ∧
    left_visit_right (rb_new comparison_func).root 0 = [] ∧
    visit_left_right (rb_new comparison_func).root 0 = [] ∧
    left_right_visit (rb_new comparison_func).root 0 = [] :=
  ⟨rfl, rfl, rfl, rfl, rfl, rfl, rfl⟩

/-- C32: both fixup loops terminate.  Insertion: the loop ends at its test (black
culprit, culprit at the root, black parent), or stops on a `NULL` read (no culprit, red
parent without a parent), or one iteration leaves the culprit two parents closer to
the root.  Deletion: an iteration that completes leaves a red culprit, which ends the
loop at the next test, or a culprit with fewer parents above it; so one unit of fuel
per parent and one more is never used up, and a red culprit or a culprit at the root
ends the loop. -/
theorem C32_fixup_loops_terminate {V : Type} :
    (∀ (up : List (Frame V)), fix_insertion_loop (NULL : Node V) up = none) ∧
    (∀ (l : Node V) (v : V) (r : Node V) (up : List (Frame V)),
      fix_insertion_loop (mk BLACK l v r) up = some (mk BLACK l v r, up)) ∧
    (∀ (l : Node V) (v : V) (r : Node V),
      fix_insertion_loop (mk RED l v r) [] = some (mk RED l v r, [])) ∧
    (∀ (l : Node V) (v : V) (r : Node V) (ps : Side) (pv : V) (psib : Node V)
      (up : List (Frame V)),
      fix_insertion_loop (mk RED l v r) (⟨ps, BLACK, pv, psib⟩ :: up) =
        some (mk RED l v r, ⟨ps, BLACK, pv, psib⟩ :: up)) ∧
    (∀ (l : Node V) (v : V) (r : Node V) (ps : Side) (pv : V) (psib : Node V),
      fix_insertion_loop (mk RED l v r) [⟨ps, RED, pv, psib⟩] = none) ∧
    (∀ (l : Node V) (v : V) (r : Node V) (ps : Side) (pv : V) (psib : Node V) (gs : Side)
      (gc : Color) (gv : V) (u : Node V) (up : List (Frame V)),
      fix_insertion_loop (mk RED l v r) (⟨ps, RED, pv, psib⟩ :: ⟨gs, gc, gv, u⟩ :: up) =
        fix_insertion_loop (insertion_case (mk RED l v r) ps pv psib gs gc gv u) up ∧
      up.length + 2 = (⟨ps, RED, pv, psib⟩ :: ⟨gs, gc, gv, u⟩ :: up).length) ∧
    (∀ (xl : Node V) (xv : V) (xr : Node V) (p : Frame V) (up : List (Frame V)) (c : Node V)
      (up2 : List (Frame V)), rb_delete_fixup_step xl xv xr p up = some (c, up2) →
      is_red c = true ∨ up2.length < (p :: up).length) ∧
    (∀ (fuel : Nat) (l : Node V) (v : V) (r : Node V) (up : List (Frame V)),
      rb_delete_fixup_loop fuel (mk RED l v r) up = some (mk RED l v r, up)) ∧
    (∀ (fuel : Nat) (c : Color) (l : Node V) (v : V) (r : Node V),
      rb_delete_fixup_loop fuel (mk c l v r) [] = some (mk c l v r, [])) ∧
    (∀ (fuel : Nat) (culprit : Node V) (up : List (Frame V)), up.length + 1 ≤ fuel →
      rb_delete_fixup_loop fuel culprit up =
        rb_delete_fixup_loop (up.length + 1) culprit up) := by
  refine ⟨?_, fix_insertion_loop_black, ?_, fix_insertion_loop_parent_black, ?_, ?_, ?_,
    rb_delete_fixup_loop_red, ?_, ?_⟩
  · intro up; simp [fix_insertion_loop]
  · intro l v r; exact fix_insertion_loop_root RED l v r
  · intro l v r ps pv psib; simp [fix_insertion_loop]
  · intro l v r ps pv psib gs gc gv u up
    exact ⟨fix_insertion_loop_step l v r ps pv psib gs gc gv u up, rfl⟩
  · intro xl xv xr p up c up2 h
    rcases rb_delete_fixup_step_progress h with h1 | h1
    · exact Or.inl h1
    · right; simp only [List.length_cons]; omega
  · intro fuel c l v r
    cases fuel <;> simp [rb_delete_fixup_loop]
  · intro fuel culprit up h
    exact rb_delete_fixup_loop_fuel fuel (up.length + 1) culprit up (Or.inr (by omega))
      (Or.inr (by omega))

/-- Witness for C32: one iteration of each loop, on the tree that arises when 1 is
inserted after 3, 2 (red parent 2, no uncle), and on the black leaf 1 below 2 with the
black sibling 4, whose children 3 and 5 are black. -/
theorem C32_fixup_loops_terminate_witness :
    (fix_insertion_loop (mk RED NULL (1 : Int) NULL) [⟨L, RED, 2, NULL⟩, ⟨L, BLACK, 3, NULL⟩] =
        fix_insertion_loop (insertion_case (mk RED NULL 1 NULL) L 2 NULL L BLACK 3 NULL) [] ∧
      ([] : List (Frame Int)).length + 2 =
        [(⟨L, RED, 2, NULL⟩ : Frame Int), ⟨L, BLACK, 3, NULL⟩].length) ∧
    (is_red (mk BLACK (mk BLACK NULL (1 : Int) NULL) 2
        (mk RED (mk BLACK NULL 3 NULL) 4 (mk BLACK NULL 5 NULL))) = true ∨
      [(⟨L, BLACK, 6, mk BLACK NULL 7 NULL⟩ : Frame Int)].length <
        [(⟨L, BLACK, 2, mk BLACK (mk BLACK NULL 3 NULL) 4 (mk BLACK NULL 5 NULL)⟩ : Frame Int),
          ⟨L, BLACK, 6, mk BLACK NULL 7 NULL⟩].length) :=
  ⟨(@C32_fixup_loops_terminate Int).2.2.2.2.2.1 NULL 1 NULL L 2 NULL L BLACK 3 NULL [],
    (@C32_fixup_loops_terminate Int).2.2.2.2.2.2.1 NULL 1 NULL
      ⟨L, BLACK, 2, mk BLACK (mk BLACK NULL 3 NULL) 4 (mk BLACK NULL 5 NULL)⟩
      [⟨L, BLACK, 6, mk BLACK NULL 7 NULL⟩] _ _ (by decide)⟩

theorem rb_delete_root_eq_unlink {V : Type} (cmp : V → V → Int) (value : V) (root : Node V) :
    rb_delete_root cmp value root =
      match rb_delete_unlink cmp value root with
      | none => some root
      | some (yc, x, up) => rb_delete_finish yc x up := by
  unfold rb_delete_root rb_delete_unlink
  rcases hf : private_rb_find_in_tree cmp value root [] with ⟨d, up⟩
  rcases d with _ | ⟨dc, _ | ⟨lc, ll, lv, lr⟩, dv, _ | ⟨rc, rl, rv, rr⟩⟩
  · rfl
  · rfl
  · rfl
  · rfl
  · simp only [private_rb_find_successor]
    obtain ⟨⟨y, yup⟩, hmin⟩ := private_subrb_tree_minimum_some rc rl rv rr []
    obtain ⟨⟨yc, yv, yr, rfl⟩, -, -⟩ := private_subrb_tree_minimum_spec _ _ hmin
    rw [hmin]
    simp only
    split
    · simp
    · rfl

/-- In a tree with equal black counts, a black node with a `NULL` child has as its other
child `NULL` or a red node. -/
theorem red_of_spliced_black {V : Type} {a : Node V} {yv : V} {b : Node V}
    {up : List (Frame V)} {n0 : Nat} (h3 : Bal (plug (mk BLACK a yv b) up) n0)
    {xc : Color} {xl : Node V} {xv : V} {xr : Node V}
    (hx : (a = NULL ∧ mk xc xl xv xr = b) ∨ (b = NULL ∧ mk xc xl xv xr = a)) : xc = RED := by
  obtain ⟨k, hk, _⟩ := Bal_of_plug h3
  cases k with
  | zero => simp [Bal] at hk
  | succ k =>
    simp only [Bal] at hk
    obtain ⟨hk1, hk2⟩ := hk
    rcases hx with ⟨rfl, rfl⟩ | ⟨rfl, rfl⟩
    · simp only [Bal] at hk1
      subst hk1
      cases xc
      · rfl
      · simp [Bal] at hk2
    · simp only [Bal] at hk2
      subst hk2
      cases xc
      · rfl
      · simp [Bal] at hk1

theorem rb_delete_unlink_red {V : Type} (cmp : V → V → Int) (value : V) {root : Node V}
    (h : rb_invariants root) {xc : Color} {xl : Node V} {xv : V} {xr : Node V}
    {up : List (Frame V)}
    (hu : rb_delete_unlink cmp value root = some (BLACK, mk xc xl xv xr, up)) : xc = RED := by
  obtain ⟨-, -, hbal⟩ := h
  rw [same_black_count_iff] at hbal
  obtain ⟨n0, hn0⟩ := hbal
  have hplug := private_rb_find_in_tree_plug cmp value root []
  unfold rb_delete_unlink at hu
  rcases hf : private_rb_find_in_tree cmp value root [] with ⟨d, dup⟩
  rw [hf] at hplug hu
  simp only [plug] at hplug
  rw [← hplug] at hn0
  rcases d with _ | ⟨dc, _ | ⟨lc, ll, lv, lr⟩, dv, _ | ⟨rc, rl, rv, rr⟩⟩
  · simp at hu
  · simp at hu
  · simp only [Option.some.injEq, Prod.mk.injEq] at hu
    obtain ⟨rfl, hx, rfl⟩ := hu
    exact red_of_spliced_black hn0 (Or.inl ⟨rfl, hx.symm⟩)
  · simp only [Option.some.injEq, Prod.mk.injEq] at hu
    obtain ⟨rfl, hx, rfl⟩ := hu
    exact red_of_spliced_black hn0 (Or.inr ⟨rfl, hx.symm⟩)
  · simp only [private_rb_find_successor] at hu
    obtain ⟨⟨y, yup⟩, hmin⟩ := private_subrb_tree_minimum_some rc rl rv rr []
    obtain ⟨⟨yc, yv, yr, rfl⟩, hy, -⟩ := private_subrb_tree_minimum_spec _ _ hmin
    rw [hmin] at hu
    simp only [Option.some.injEq, Prod.mk.injEq] at hu
    obtain ⟨rfl, hx, rfl⟩ := hu
    subst hx
    simp only [plug] at hy
    have e : plug (mk BLACK NULL yv (mk xc xl xv xr)) (yup ++ ⟨R, dc, yv, mk lc ll lv lr⟩ :: dup) =
        plug (mk dc (mk lc ll lv lr) yv (mk rc rl rv rr)) dup := by
      rw [plug_append, hy]; rfl
    have g3 : Bal (plug (mk BLACK NULL yv (mk xc xl xv xr))
        (yup ++ ⟨R, dc, yv, mk lc ll lv lr⟩ :: dup)) n0 := by
      rw [e]
      obtain ⟨k, q1, q2⟩ := Bal_of_plug hn0
      refine Bal_plug q2 ?_
      cases dc
      · simpa [Bal] using q1
      · cases k with
        | zero => simp [Bal] at q1
        | succ k => simpa [Bal] using q1
    exact red_of_spliced_black g3 (Or.inl ⟨rfl, rfl⟩)

/-- C33: for every tree satisfying the red-black invariants and every value, when
`rb_delete_value` removes a black node (`y_original_color == BLACK`) and the node
`subtree_of_deleted` passed to `rb_delete_fixup` is present, that node is red: the loop
of the fixup ends at its first test without running its body (no fuel is used), and
the fixup, and with it the whole delete, gives the tree in which that node is coloured
black and nothing else changes. -/
theorem C33_delete_fixup_gets_red_node {V : Type} (comparison_func : V → V → Int) (value : V)
    (root : Node V) (h : rb_invariants root)
    (xc : Color) (xl : Node V) (xv : V) (xr : Node V) (up : List (Frame V))
    (hu : rb_delete_unlink comparison_func value root = some (BLACK, mk xc xl xv xr, up)) :
    xc = RED ∧
    rb_delete_fixup_loop 0 (mk xc xl xv xr) up = some (mk xc xl xv xr, up) ∧
    rb_delete_fixup (mk xc xl xv xr) up = some (plug (mk BLACK xl xv xr) up) ∧
    rb_delete_root comparison_func value root = some (plug (mk BLACK xl xv xr) up) ∧
    rb_delete_root comparison_func value root =
      (match rb_delete_unlink comparison_func value root with
        | none => some root
        | some (yc, x, up) => rb_delete_finish yc x up) := by
  have hred := rb_delete_unlink_red comparison_func value h hu
  subst hred
  have hfix : rb_delete_fixup (mk RED xl xv xr) up = some (plug (mk BLACK xl xv xr) up) := by
    simp [rb_delete_fixup, rb_delete_fixup_loop_red, set_black]
  refine ⟨rfl, rb_delete_fixup_loop_red 0 xl xv xr up, hfix, ?_,
    rb_delete_root_eq_unlink comparison_func value root⟩
  rw [rb_delete_root_eq_unlink, hu]
  exact hfix

/-- Witness for C33: deleting 3 from the tree built by inserting 1, 2, 3, 4, where the
black node 3 has the single red child 4. -/
theorem C33_delete_fixup_gets_red_node_witness :
    RED = RED ∧
    rb_delete_fixup_loop 0 (mk RED NULL (4 : Int) NULL) [⟨R, BLACK, 2, mk BLACK NULL 1 NULL⟩] =
      some (mk RED NULL 4 NULL, [⟨R, BLACK, 2, mk BLACK NULL 1 NULL⟩]) ∧
    rb_delete_fixup (mk RED NULL (4 : Int) NULL) [⟨R, BLACK, 2, mk BLACK NULL 1 NULL⟩] =
      some (plug (mk BLACK NULL 4 NULL) [⟨R, BLACK, 2, mk BLACK NULL 1 NULL⟩]) ∧
    rb_delete_root integer_comparison 3
        (mk BLACK (mk BLACK NULL 1 NULL) 2 (mk BLACK NULL 3 (mk RED NULL 4 NULL))) =
      some (plug (mk BLACK NULL 4 NULL) [⟨R, BLACK, 2, mk BLACK NULL 1 NULL⟩]) ∧
    rb_delete_root integer_comparison 3
        (mk BLACK (mk BLACK NULL 1 NULL) 2 (mk BLACK NULL 3 (mk RED NULL 4 NULL))) =
      (match rb_delete_unlink integer_comparison 3
          (mk BLACK (mk BLACK NULL 1 NULL) 2 (mk BLACK NULL 3 (mk RED NULL 4 NULL))) with
        | none => some (mk BLACK (mk BLACK NULL 1 NULL) 2 (mk BLACK NULL 3 (mk RED NULL 4 NULL)))
        | some (yc, x, up) => rb_delete_finish yc x up) :=
  C33_delete_fixup_gets_red_node integer_comparison 3
    (mk BLACK (mk BLACK NULL 1 NULL) 2 (mk BLACK NULL 3 (mk RED NULL 4 NULL))) (by decide)
    RED NULL 4 NULL [⟨R, BLACK, 2, mk BLACK NULL 1 NULL⟩] (by decide)

theorem heap_eq_of_Rep {V : Type} {h1 h2 : Heap V} {T : Node (Nat × V)}
    (r1 : Rep h1.nodes none h1.root T) (r2 : Rep h2.nodes none h2.root T)
    (hout : ∀ a, a ∉ addrs T → h1.nodes a = h2.nodes a) : h1 = h2 := by
  have hroot : h1.root = h2.root := (Rep_root_ptr r1).trans (Rep_root_ptr r2).symm
  obtain ⟨root1, nodes1⟩ := h1
  obtain ⟨root2, nodes2⟩ := h2
  simp only at hroot r1 r2 hout
  subst hroot
  congr 1
  funext a
  by_cases ha : a ∈ addrs T
  · exact Rep_unique r1 r2 a ha
  · exact hout a ha

theorem addrs_plug_rotate {V : Type} (c : Color) (l : Node (Nat × V)) (x : Nat × V)
    (rc : Color) (rl : Node (Nat × V)) (y : Nat × V) (rr : Node (Nat × V))
    (up : List (Frame (Nat × V))) :
    addrs (plug (mk rc (mk c l x rl) y rr) up) = addrs (plug (mk c l x (mk rc rl y rr)) up) := by
  simp only [addrs, values_plug, values, List.append_assoc, List.cons_append]

/-- In memory, a right rotation at the promoted node undoes a left rotation. -/
theorem rb_rotate_left_right_mem {V : Type} (tree : Heap V)
    (c : Color) (l : Node (Nat × V)) (n : Nat) (v : V)
    (rc : Color) (rl : Node (Nat × V)) (r : Nat) (rv : V) (rr : Node (Nat × V))
    (up : List (Frame (Nat × V)))
    (hrep : Rep tree.nodes none tree.root (plug (mk c l (n, v) (mk rc rl (r, rv) rr)) up))
    (hnd : (addrs (plug (mk c l (n, v) (mk rc rl (r, rv) rr)) up)).Nodup) :
    ∃ t2, rb_rotate_left_mem tree n = some t2 ∧ rb_rotate_right_mem t2 r = some tree := by
  obtain ⟨t2, e2, hr2, ho2⟩ := rb_rotate_left_mem_refines tree c l n v rc rl r rv rr up hrep hnd
  have hnd2 : (addrs (plug (mk rc (mk c l (n, v) rl) (r, rv) rr) up)).Nodup := by
    rw [addrs_plug_rotate]; exact hnd
  obtain ⟨t3, e3, hr3, ho3⟩ := rb_rotate_right_mem_refines t2 rc c l n v rl r rv rr up hr2 hnd2
  refine ⟨t2, e2, ?_⟩
  rw [e3]
  congr 1
  refine heap_eq_of_Rep hr3 hrep ?_
  intro a ha
  rw [ho3 a (by rw [addrs_plug_rotate]; exact ha), ho2 a ha]

/-- In memory, a left rotation at the promoted node undoes a right rotation. -/
theorem rb_rotate_right_left_mem {V : Type} (tree : Heap V)
    (c : Color) (lc : Color) (ll : Node (Nat × V)) (m : Nat) (lv : V) (lr : Node (Nat × V))
    (n : Nat) (v : V) (r : Node (Nat × V)) (up : List (Frame (Nat × V)))
    (hrep : Rep tree.nodes none tree.root (plug (mk c (mk lc ll (m, lv) lr) (n, v) r) up))
    (hnd : (addrs (plug (mk c (mk lc ll (m, lv) lr) (n, v) r) up)).Nodup) :
    ∃ t2, rb_rotate_right_mem tree n = some t2 ∧ rb_rotate_left_mem t2 m = some tree := by
  obtain ⟨t2, e2, hr2, ho2⟩ := rb_rotate_right_mem_refines tree c lc ll m lv lr n v r up hrep hnd
  have hnd2 : (addrs (plug (mk lc ll (m, lv) (mk c lr (n, v) r)) up)).Nodup := by
    rw [← addrs_plug_rotate]; exact hnd
  obtain ⟨t3, e3, hr3, ho3⟩ := rb_rotate_left_mem_refines t2 lc ll m lv c lr n v r up hr2 hnd2
  refine ⟨t2, e2, ?_⟩
  rw [e3]
  congr 1
  refine heap_eq_of_Rep hr3 hrep ?_
  intro a ha
  rw [ho3 a (by rw [← addrs_plug_rotate]; exact ha), ho2 a ha]

/-- C35: `rb_rotate_right` undoes `rb_rotate_left`.  On trees: when rotating left at a
node gives `t2`, rotating right at the root of `t2` gives the original back, and the
other way round.  In memory: for every tree held in memory and node `n` with right
child `r`, `rb_rotate_left(tree, n)` followed by `rb_rotate_right(tree, r)` leaves
every field of every node and `tree->root` as they were (shape, colours, root and
parent links); symmetrically for `rb_rotate_right(tree, n)` followed by
`rb_rotate_left` at the promoted node. -/
theorem C35_rotate_right_undoes_rotate_left {V : Type} :
    (∀ t t2 : Node V, rb_rotate_left t = some t2 → rb_rotate_right t2 = some t) ∧
    (∀ t t2 : Node V, rb_rotate_right t = some t2 → rb_rotate_left t2 = some t) ∧
    (∀ (tree : Heap V) (c : Color) (l : Node (Nat × V)) (n : Nat) (v : V)
      (rc : Color) (rl : Node (Nat × V)) (r : Nat) (rv : V) (rr : Node (Nat × V))
      (up : List (Frame (Nat × V))),
      Rep tree.nodes none tree.root (plug (mk c l (n, v) (mk rc rl (r, rv) rr)) up) →
      (addrs (plug (mk c l (n, v) (mk rc rl (r, rv) rr)) up)).Nodup →
      ∃ t2, rb_rotate_left_mem tree n = some t2 ∧ rb_rotate_right_mem t2 r = some tree) ∧
    (∀ (tree : Heap V) (c : Color) (lc : Color) (ll : Node (Nat × V)) (m : Nat) (lv : V)
      (lr : Node (Nat × V)) (n : Nat) (v : V) (r : Node (Nat × V))
      (up : List (Frame (Nat × V))),
      Rep tree.nodes none tree.root (plug (mk c (mk lc ll (m, lv) lr) (n, v) r) up) →
      (addrs (plug (mk c (mk lc ll (m, lv) lr) (n, v) r) up)).Nodup →
      ∃ t2, rb_rotate_right_mem tree n = some t2 ∧ rb_rotate_left_mem t2 m = some tree) := by
  refine ⟨?_, ?_, rb_rotate_left_right_mem, rb_rotate_right_left_mem⟩
  · intro t t2 h
    rcases t with _ | ⟨c, l, x, _ | ⟨rc, rl, rv, rr⟩⟩ <;>
      simp only [rb_rotate_left, Option.some.injEq, reduceCtorEq] at h
    subst h
    rfl
  · intro t t2 h
    rcases t with _ | ⟨c, _ | ⟨lc, ll, lv, lr⟩, x, r⟩ <;>
      simp only [rb_rotate_right, Option.some.injEq, reduceCtorEq] at h
    subst h
    rfl

/-- Witness for C35: the left rotation at address 1 of `example_heap_left` followed by
the right rotation at address 3, and the right rotation at address 3 of
`example_heap_right` followed by the left rotation at address 1. -/
theorem C35_rotate_right_undoes_rotate_left_witness :
    rb_rotate_right (mk BLACK (mk RED NULL (1 : Int) NULL) 2 NULL) =
      some (mk RED NULL 1 (mk BLACK NULL 2 NULL)) ∧
    (∃ t2, rb_rotate_left_mem example_heap_left 1 = some t2 ∧
      rb_rotate_right_mem t2 3 = some example_heap_left) ∧
    (∃ t2, rb_rotate_right_mem example_heap_right 3 = some t2 ∧
      rb_rotate_left_mem t2 1 = some example_heap_right) :=
  ⟨(@C35_rotate_right_undoes_rotate_left Int).1 _ _ rfl,
    (@C35_rotate_right_undoes_rotate_left Int).2.2.1 example_heap_left RED
      (mk BLACK NULL (2, 3) NULL) 1 5 BLACK (mk RED NULL (4, 6) NULL) 3 8
      (mk RED NULL (5, 9) NULL) [⟨L, BLACK, (0, 10), NULL⟩]
      (by simp [Rep, plug, attach, example_heap_left]) (by decide),
    (@C35_rotate_right_undoes_rotate_left Int).2.2.2 example_heap_right BLACK RED
      (mk BLACK NULL (2, 3) NULL) 1 5 (mk RED NULL (4, 6) NULL) 3 8 (mk RED NULL (5, 9) NULL)
      [⟨L, BLACK, (0, 10), NULL⟩] (by simp [Rep, plug, attach, example_heap_right]) (by decide)⟩

theorem StateT_bind_eq_some {V α β : Type} (m : StateT (Heap V) Option α)
    (f : α → StateT (Heap V) Option β) (h : Heap V) (y : β) (h2 : Heap V) :
    (m >>= f) h = some (y, h2) ↔ ∃ x h1, m h = some (x, h1) ∧ f x h1 = some (y, h2) := by
  show (StateT.bind m f) h = some (y, h2) ↔ _
  simp only [StateT.bind, Option.bind_eq_bind, Option.bind_eq_some]
  constructor
  · rintro ⟨⟨x, h1⟩, e1, e2⟩
    exact ⟨x, h1, e1, e2⟩
  · rintro ⟨x, h1, e1, e2⟩
    exact ⟨(x, h1), e1, e2⟩

theorem Keeps_bind {V α β : Type} {m : StateT (Heap V) Option α}
    {f : α → StateT (Heap V) Option β} (hm : Keeps m) (hf : ∀ x, Keeps (f x)) :
    Keeps (m >>= f) := by
  intro h y h2 e hw
  obtain ⟨x, h1, e1, e2⟩ := (StateT_bind_eq_some m f h y h2).1 e
  exact hf x h1 y h2 e2 (hm h x h1 e1 hw)

theorem Keeps_pure {V α : Type} (x : α) : Keeps (pure x : StateT (Heap V) Option α) := by
  intro h y h2 e hw
  have : (some (x, h) : Option (α × Heap V)) = some (y, h2) := e
  simp only [Option.some.injEq, Prod.mk.injEq] at this
  exact this.2 ▸ hw

theorem Keeps_failure {V α : Type} : Keeps (failure : StateT (Heap V) Option α) := by
  intro h y h2 e hw
  have : (none : Option (α × Heap V)) = some (y, h2) := e
  simp at this

theorem Keeps_ite {V α : Type} (c : Prop) [Decidable c] {m1 m2 : StateT (Heap V) Option α}
    (h1 : Keeps m1) (h2 : Keeps m2) : Keeps (if c then m1 else m2) := by
  split
  · exact h1
  · exact h2

theorem Keeps_deref {V : Type} (p : Option Nat) : Keeps (deref p : StateT (Heap V) Option _) := by
  intro h x h2 e hw
  simp only [deref, Option.map_eq_some'] at e
  obtain ⟨cell, -, e2⟩ := e
  simp only [Prod.mk.injEq] at e2
  exact e2.2 ▸ hw

theorem Keeps_read_root {V : Type} : Keeps (read_root : StateT (Heap V) Option _) := by
  intro h x h2 e hw
  simp only [read_root, Option.some.injEq, Prod.mk.injEq] at e
  exact e.2 ▸ hw

theorem addrs_recolor {V : Type} (a : Nat) (c : Color) (t : Node (Nat × V)) :
    addrs (recolor a c t) = addrs t := by
  induction t with
  | NULL => rfl
  | mk c0 l x r ihl ihr => simp only [recolor, addrs_mk, ihl, ihr]

theorem Rep_recolor {V : Type} {nodes : Nat → Option (Cell V)} (a : Nat) (cell : Cell V)
    (c : Color) (ha : nodes a = some cell) {t : Node (Nat × V)} {par p : Option Nat}
    (h : Rep nodes par p t) :
    Rep (fun b => if b = a then some { cell with color := c } else nodes b) par p
      (recolor a c t) := by
  induction t generalizing par p with
  | NULL => simpa [Rep, recolor] using h
  | mk c0 l x r ihl ihr =>
    rw [Rep_mk] at h
    obtain ⟨h1, cell0, hx, h2, h3, h4, h5, h6⟩ := h
    rw [recolor, Rep_mk]
    by_cases e : x.1 = a
    · rw [e] at hx
      rw [ha] at hx
      simp only [Option.some.injEq] at hx
      subst hx
      exact ⟨h1, { cell with color := c }, by simp [e], h2, by simp [e], h4, ihl h5, ihr h6⟩
    · exact ⟨h1, cell0, by simp [e, hx], h2, by simp [e, h3], h4, ihl h5, ihr h6⟩

theorem Keeps_write_color {V : Type} (p : Option Nat) (c : Color) :
    Keeps (write_color p c : StateT (Heap V) Option _) := by
  intro h x h2 e hw
  rcases p with _ | a
  · simp [write_color] at e
  · simp only [write_color, Option.some_bind, Option.map_eq_some', Prod.mk.injEq, true_and] at e
    obtain ⟨cell, hc, rfl⟩ := e
    obtain ⟨T, hr, hnd, hall⟩ := hw
    refine ⟨recolor a c T, Rep_recolor a cell c hc hr, by rw [addrs_recolor]; exact hnd, ?_⟩
    intro b hb
    rw [addrs_recolor]
    apply hall
    by_cases e : b = a
    · rw [e, hc]; rfl
    · simpa [Heap.store, e] using hb

theorem Rep_allocated {V : Type} {nodes : Nat → Option (Cell V)} {t : Node (Nat × V)}
    {par p : Option Nat} (h : Rep nodes par p t) : ∀ a ∈ addrs t, (nodes a).isSome = true := by
  induction t generalizing par p with
  | NULL => simp [addrs_NULL]
  | mk c l x r ihl ihr =>
    rw [Rep_mk] at h
    obtain ⟨-, cell, hx, -, -, -, h5, h6⟩ := h
    intro a ha
    rw [addrs_mk] at ha
    simp only [List.mem_append, List.mem_cons] at ha
    rcases ha with ha | rfl | ha
    · exact ihl h5 a ha
    · rw [hx]; rfl
    · exact ihr h6 a ha

/-- Every node of a tree is the root of a subtree under some chain of parents. -/
theorem exists_plug_of_mem_addrs {V : Type} (t : Node (Nat × V)) (up : List (Frame (Nat × V)))
    (a : Nat) (ha : a ∈ addrs t) :
    ∃ c l v r up2, plug t up = plug (mk c l (a, v) r) up2 := by
  induction t generalizing up with
  | NULL => simp [addrs_NULL] at ha
  | mk c l x r ihl ihr =>
    rw [addrs_mk] at ha
    simp only [List.mem_append, List.mem_cons] at ha
    rcases ha with ha | rfl | ha
    · obtain ⟨c2, l2, v2, r2, up2, e⟩ := ihl (⟨L, c, x, r⟩ :: up) ha
      exact ⟨c2, l2, v2, r2, up2, e⟩
    · exact ⟨c, l, x.2, r, up, rfl⟩
    · obtain ⟨c2, l2, v2, r2, up2, e⟩ := ihr (⟨R, c, x, l⟩ :: up) ha
      exact ⟨c2, l2, v2, r2, up2, e⟩

theorem root_ptr_eq_some {V : Type} {t : Node (Nat × V)} {a : Nat} (h : root_ptr t = some a) :
    ∃ c l v r, t = mk c l (a, v) r := by
  cases t with
  | NULL => simp [root_ptr] at h
  | mk c l x r =>
    simp only [root_ptr, Option.some.injEq] at h
    subst h
    exact ⟨c, l, x.2, r, rfl⟩

theorem rb_rotate_left_mem_allocated {V : Type} {h h2 : Heap V} {n : Nat}
    (e : rb_rotate_left_mem h n = some h2) :
    ∃ n0 r, h.nodes n = some n0 ∧ n0.right = some r := by
  simp only [rb_rotate_left_mem, Option.bind_eq_bind, Option.bind_eq_some] at e
  obtain ⟨n0, hn0, r, hr, -⟩ := e
  exact ⟨n0, r, hn0, hr⟩

theorem rb_rotate_right_mem_allocated {V : Type} {h h2 : Heap V} {n : Nat}
    (e : rb_rotate_right_mem h n = some h2) :
    ∃ n0 l, h.nodes n = some n0 ∧ n0.left = some l := by
  simp only [rb_rotate_right_mem, Option.bind_eq_bind, Option.bind_eq_some] at e
  obtain ⟨n0, hn0, l, hl, -⟩ := e
  exact ⟨n0, l, hn0, hl⟩

theorem isSome_of_value_color {V : Type} {x y : Option (Cell V)}
    (h : x.map (fun c => (c.value, c.color)) = y.map (fun c => (c.value, c.color))) :
    x.isSome = y.isSome := by
  cases x <;> cases y <;> simp at h ⊢

/-- A left rotation that completes keeps `holds_tree`. -/
theorem holds_tree_rotate_left {V : Type} {h h2 : Heap V} {n : Nat}
    (e : rb_rotate_left_mem h n = some h2) (hw : holds_tree h) : holds_tree h2 := by
  obtain ⟨T, hr, hnd, hall⟩ := hw
  obtain ⟨n0, r, hn0, hnr⟩ := rb_rotate_left_mem_allocated e
  have hn : n ∈ addrs T := hall n (by rw [hn0]; rfl)
  obtain ⟨c, l, v, rt, up, eT⟩ := exists_plug_of_mem_addrs T [] n hn
  simp only [plug] at eT
  subst eT
  obtain ⟨hf, -⟩ := Rep_plug_focus up _ _ hr
  rw [Rep_mk] at hf
  obtain ⟨-, cell, hx, -, -, -, -, h6⟩ := hf
  simp only at hx h6
  rw [hn0] at hx
  simp only [Option.some.injEq] at hx
  subst hx
  obtain ⟨rc, rl, rv, rr, rfl⟩ := root_ptr_eq_some ((Rep_root_ptr h6).symm.trans hnr)
  obtain ⟨t2, e2, hr2, ho2⟩ := rb_rotate_left_mem_refines h c l n v rc rl r rv rr up hr hnd
  rw [e] at e2
  simp only [Option.some.injEq] at e2
  subst e2
  refine ⟨_, hr2, by rw [addrs_plug_rotate]; exact hnd, ?_⟩
  intro a ha
  rw [addrs_plug_rotate]
  apply hall
  rw [← ha]
  exact (isSome_of_value_color (rb_rotate_left_mem_value_color h h2 n e a)).symm

/-- A right rotation that completes keeps `holds_tree`. -/
theorem holds_tree_rotate_right {V : Type} {h h2 : Heap V} {n : Nat}
    (e : rb_rotate_right_mem h n = some h2) (hw : holds_tree h) : holds_tree h2 := by
  obtain ⟨T, hr, hnd, hall⟩ := hw
  obtain ⟨n0, m, hn0, hnl⟩ := rb_rotate_right_mem_allocated e
  have hn : n ∈ addrs T := hall n (by rw [hn0]; rfl)
  obtain ⟨c, lt, v, r, up, eT⟩ := exists_plug_of_mem_addrs T [] n hn
  simp only [plug] at eT
  subst eT
  obtain ⟨hf, -⟩ := Rep_plug_focus up _ _ hr
  rw [Rep_mk] at hf
  obtain ⟨-, cell, hx, -, -, -, h5, -⟩ := hf
  simp only at hx h5
  rw [hn0] at hx
  simp only [Option.some.injEq] at hx
  subst hx
  obtain ⟨lc, ll, lv, lr, rfl⟩ := root_ptr_eq_some ((Rep_root_ptr h5).symm.trans hnl)
  obtain ⟨t2, e2, hr2, ho2⟩ := rb_rotate_right_mem_refines h c lc ll m lv lr n v r up hr hnd
  rw [e] at e2
  simp only [Option.some.injEq] at e2
  subst e2
  refine ⟨_, hr2, by rw [← addrs_plug_rotate]; exact hnd, ?_⟩
  intro a ha
  rw [← addrs_plug_rotate]
  apply hall
  rw [← ha]
  exact (isSome_of_value_color (rb_rotate_right_mem_value_color h h2 n e a)).symm

theorem Keeps_call_rotate_left {V : Type} (n : Option Nat) :
    Keeps (call_rotate_left n : StateT (Heap V) Option _) := by
  intro h x h2 e hw
  rcases n with _ | a
  · simp [call_rotate_left] at e
  · simp only [call_rotate_left, Option.some_bind, Option.map_eq_some', Prod.mk.injEq,
      true_and] at e
    obtain ⟨h3, e3, rfl⟩ := e
    exact holds_tree_rotate_left e3 hw

theorem Keeps_call_rotate_right {V : Type} (n : Option Nat) :
    Keeps (call_rotate_right n : StateT (Heap V) Option _) := by
  intro h x h2 e hw
  rcases n with _ | a
  · simp [call_rotate_right] at e
  · simp only [call_rotate_right, Option.some_bind, Option.map_eq_some', Prod.mk.injEq,
      true_and] at e
    obtain ⟨h3, e3, rfl⟩ := e
    exact holds_tree_rotate_right e3 hw

theorem Keeps_uncle_is_red {V : Type} (uncle : Option Nat) :
    Keeps (uncle_is_red uncle : StateT (Heap V) Option _) := by
  unfold uncle_is_red
  exact Keeps_ite _ (Keeps_pure _) (Keeps_bind (Keeps_deref _) (fun _ => Keeps_pure _))

theorem Keeps_swap_colors {V : Type} (p g : Option Nat) :
    Keeps (swap_colors p g : StateT (Heap V) Option _) := by
  unfold swap_colors
  exact Keeps_bind (Keeps_deref _) (fun _ => Keeps_bind (Keeps_deref _)
    (fun _ => Keeps_bind (Keeps_write_color _ _) (fun _ => Keeps_write_color _ _)))

theorem Keeps_fix_insertion_loop_mem {V : Type} (fuel : Nat) :
    ∀ culprit, Keeps (fix_insertion_loop_mem fuel culprit : StateT (Heap V) Option _) := by
  induction fuel with
  | zero => intro culprit; exact Keeps_failure
  | succ fuel ih =>
    intro culprit
    unfold fix_insertion_loop_mem
    repeat' first
      | exact ih _
      | exact Keeps_pure _
      | exact Keeps_deref _
      | exact Keeps_read_root
      | exact Keeps_write_color _ _
      | exact Keeps_call_rotate_left _
      | exact Keeps_call_rotate_right _
      | exact Keeps_uncle_is_red _
      | exact Keeps_swap_colors _ _
      | apply Keeps_bind
      | apply Keeps_ite
      | intro _

theorem Keeps_both_black {V : Type} (a b : Option Nat) :
    Keeps (both_black a b : StateT (Heap V) Option _) := by
  unfold both_black
  exact Keeps_bind (Keeps_deref _) (fun _ => Keeps_ite _
    (Keeps_bind (Keeps_deref _) (fun _ => Keeps_pure _)) (Keeps_pure _))

theorem Keeps_red_sibling_left {V : Type} (culprit sibling : Option Nat) :
    Keeps (red_sibling_left culprit sibling : StateT (Heap V) Option _) := by
  unfold red_sibling_left
  repeat' first
    | exact Keeps_pure _
    | exact Keeps_deref _
    | exact Keeps_write_color _ _
    | exact Keeps_call_rotate_left _
    | apply Keeps_bind
    | intro _

theorem Keeps_red_sibling_right {V : Type} (culprit sibling : Option Nat) :
    Keeps (red_sibling_right culprit sibling : StateT (Heap V) Option _) := by
  unfold red_sibling_right
  repeat' first
    | exact Keeps_pure _
    | exact Keeps_deref _
    | exact Keeps_write_color _ _
    | exact Keeps_call_rotate_left _
    | apply Keeps_bind
    | intro _

theorem Keeps_far_nephew_left {V : Type} (culprit sibling : Option Nat) :
    Keeps (far_nephew_left culprit sibling : StateT (Heap V) Option _) := by
  unfold far_nephew_left
  repeat' first
    | exact Keeps_pure _
    | exact Keeps_deref _
    | exact Keeps_read_root
    | exact Keeps_write_color _ _
    | exact Keeps_call_rotate_left _
    | exact Keeps_call_rotate_right _
    | apply Keeps_bind
    | apply Keeps_ite
    | intro _

theorem Keeps_far_nephew_right {V : Type} (culprit sibling : Option Nat) :
    Keeps (far_nephew_right culprit sibling : StateT (Heap V) Option _) := by
  unfold far_nephew_right
  repeat' first
    | exact Keeps_pure _
    | exact Keeps_deref _
    | exact Keeps_read_root
    | exact Keeps_write_color _ _
    | exact Keeps_call_rotate_left _
    | exact Keeps_call_rotate_right _
    | apply Keeps_bind
    | apply Keeps_ite
    | intro _

theorem Keeps_delete_fixup_left_mem {V : Type} (culprit sibling : Option Nat) :
    Keeps (delete_fixup_left_mem culprit sibling : StateT (Heap V) Option _) := by
  unfold delete_fixup_left_mem
  repeat' first
    | exact Keeps_pure _
    | exact Keeps_deref _
    | exact Keeps_write_color _ _
    | exact Keeps_both_black _ _
    | exact Keeps_red_sibling_left _ _
    | exact Keeps_far_nephew_left _ _
    | apply Keeps_bind
    | apply Keeps_ite
    | intro _

theorem Keeps_delete_fixup_right_mem {V : Type} (culprit sibling : Option Nat) :
    Keeps (delete_fixup_right_mem culprit sibling : StateT (Heap V) Option _) := by
  unfold delete_fixup_right_mem
  repeat' first
    | exact Keeps_pure _
    | exact Keeps_deref _
    | exact Keeps_write_color _ _
    | exact Keeps_both_black _ _
    | exact Keeps_red_sibling_right _ _
    | exact Keeps_far_nephew_right _ _
    | apply Keeps_bind
    | apply Keeps_ite
    | intro _

theorem Keeps_rb_delete_fixup_loop_mem {V : Type} (fuel : Nat) :
    ∀ culprit, Keeps (rb_delete_fixup_loop_mem fuel culprit : StateT (Heap V) Option _) := by
  induction fuel with
  | zero => intro culprit; exact Keeps_failure
  | succ fuel ih =>
    intro culprit
    unfold rb_delete_fixup_loop_mem
    exact Keeps_bind Keeps_read_root (fun _ => Keeps_ite _ (Keeps_pure _)
      (Keeps_bind (Keeps_deref _) (fun _ => Keeps_ite _ (Keeps_pure _)
        (Keeps_bind (Keeps_deref _) (fun _ => Keeps_ite _
          (Keeps_bind (Keeps_delete_fixup_left_mem _ _) (fun _ => ih _))
          (Keeps_bind (Keeps_delete_fixup_right_mem _ _) (fun _ => ih _)))))))

theorem Keeps_rb_delete_fixup_mem {V : Type} (fuel : Nat) (culprit : Option Nat) :
    Keeps (rb_delete_fixup_mem fuel culprit : StateT (Heap V) Option _) := by
  unfold rb_delete_fixup_mem
  exact Keeps_ite _ (Keeps_pure _) (Keeps_bind (Keeps_rb_delete_fixup_loop_mem fuel _)
    (fun _ => Keeps_write_color _ _))

theorem Keeps_fix_insertion_violation_mem {V : Type} (fuel : Nat) (culprit : Option Nat) :
    Keeps (fix_insertion_violation_mem fuel culprit : StateT (Heap V) Option _) := by
  unfold fix_insertion_violation_mem
  exact Keeps_bind (Keeps_fix_insertion_loop_mem fuel _)
    (fun _ => Keeps_bind Keeps_read_root (fun _ => Keeps_write_color _ _))

theorem Keeps_private_rb_find_in_tree_loop_mem {V : Type} (cmp : V → V → Int) (value : V)
    (fuel : Nat) :
    ∀ curr, Keeps (private_rb_find_in_tree_loop_mem cmp value fuel curr) := by
  induction fuel with
  | zero => intro curr; exact Keeps_failure
  | succ fuel ih =>
    intro curr
    unfold private_rb_find_in_tree_loop_mem
    repeat' first
      | exact ih _
      | exact Keeps_pure _
      | exact Keeps_deref _
      | apply Keeps_bind
      | apply Keeps_ite
      | intro _

theorem deref_eq_some {V : Type} (p : Option Nat) (h : Heap V) (cell : Cell V) (h2 : Heap V) :
    deref p h = some (cell, h2) ↔ ∃ a, p = some a ∧ h.nodes a = some cell ∧ h2 = h := by
  rcases p with _ | a
  · simp [deref]
  · simp only [deref, Option.some_bind, Option.map_eq_some', Prod.mk.injEq]
    constructor
    · rintro ⟨c0, hc, rfl, rfl⟩; exact ⟨a, rfl, hc, rfl⟩
    · rintro ⟨a2, e, hc, rfl⟩
      cases e
      exact ⟨cell, hc, rfl, rfl⟩

theorem pure_eq_some {V α : Type} (x y : α) (h h2 : Heap V) :
    (pure x : StateT (Heap V) Option α) h = some (y, h2) ↔ y = x ∧ h2 = h := by
  show (some (x, h) : Option (α × Heap V)) = some (y, h2) ↔ _
  simp only [Option.some.injEq, Prod.mk.injEq]
  constructor
  · rintro ⟨rfl, rfl⟩; exact ⟨rfl, rfl⟩
  · rintro ⟨rfl, rfl⟩; exact ⟨rfl, rfl⟩

theorem write_left_eq_some {V : Type} (p q : Option Nat) (h : Heap V) (u : Unit) (h2 : Heap V) :
    write_left p q h = some (u, h2) ↔
      ∃ a cell, p = some a ∧ h.nodes a = some cell ∧ h2 = h.store a { cell with left := q } := by
  rcases p with _ | a
  · simp [write_left]
  · simp only [write_left, Option.some_bind, Option.map_eq_some', Prod.mk.injEq, true_and]
    constructor
    · rintro ⟨c0, hc, rfl⟩; exact ⟨a, c0, rfl, hc, rfl⟩
    · rintro ⟨a2, c0, e, hc, rfl⟩
      cases e
      exact ⟨c0, hc, rfl⟩

theorem write_right_eq_some {V : Type} (p q : Option Nat) (h : Heap V) (u : Unit) (h2 : Heap V) :
    write_right p q h = some (u, h2) ↔
      ∃ a cell, p = some a ∧ h.nodes a = some cell ∧ h2 = h.store a { cell with right := q } := by
  rcases p with _ | a
  · simp [write_right]
  · simp only [write_right, Option.some_bind, Option.map_eq_some', Prod.mk.injEq, true_and]
    constructor
    · rintro ⟨c0, hc, rfl⟩; exact ⟨a, c0, rfl, hc, rfl⟩
    · rintro ⟨a2, c0, e, hc, rfl⟩
      cases e
      exact ⟨c0, hc, rfl⟩

theorem write_parent_eq_some {V : Type} (p q : Option Nat) (h : Heap V) (u : Unit) (h2 : Heap V) :
    write_parent p q h = some (u, h2) ↔
      ∃ a cell, p = some a ∧ h.nodes a = some cell ∧ h2 = h.store a { cell with parent := q } := by
  rcases p with _ | a
  · simp [write_parent]
  · simp only [write_parent, Option.some_bind, Option.map_eq_some', Prod.mk.injEq, true_and]
    constructor
    · rintro ⟨c0, hc, rfl⟩; exact ⟨a, c0, rfl, hc, rfl⟩
    · rintro ⟨a2, c0, e, hc, rfl⟩
      cases e
      exact ⟨c0, hc, rfl⟩

theorem write_color_eq_some {V : Type} (p : Option Nat) (c : Color) (h : Heap V) (u : Unit)
    (h2 : Heap V) :
    write_color p c h = some (u, h2) ↔
      ∃ a cell, p = some a ∧ h.nodes a = some cell ∧ h2 = h.store a { cell with color := c } := by
  rcases p with _ | a
  · simp [write_color]
  · simp only [write_color, Option.some_bind, Option.map_eq_some', Prod.mk.injEq, true_and]
    constructor
    · rintro ⟨c0, hc, rfl⟩; exact ⟨a, c0, rfl, hc, rfl⟩
    · rintro ⟨a2, c0, e, hc, rfl⟩
      cases e
      exact ⟨c0, hc, rfl⟩

theorem failure_run {V α : Type} (h : Heap V) :
    (failure : StateT (Heap V) Option α) h = none := rfl

theorem Rep_NULL {V : Type} (nodes : Nat → Option (Cell V)) (par : Option Nat) :
    Rep nodes par none NULL := by
  simp [Rep]

theorem Rep_NULL_iff {V : Type} (nodes : Nat → Option (Cell V)) (par p : Option Nat) :
    Rep nodes par p NULL ↔ p = none := by
  simp [Rep]

/-- The recursive insertion on memory: from a memory that holds the subtree `t` at `root`
and the new node at the address `a` outside it, a run that completes leaves a memory
that holds a subtree with the nodes of `t` and the new node, and writes nowhere else. -/
theorem private_rb_insert_value_mem_spec {V : Type} (cmp : V → V → Int) (a : Nat) (value : V)
    (pa : Option Nat) (fuel : Nat) :
    ∀ (h : Heap V) (t : Node (Nat × V)) (par p res : Option Nat) (h2 : Heap V),
      Rep h.nodes par p t → (addrs t).Nodup → a ∉ addrs t →
      h.nodes a = some ⟨value, pa, none, none, RED⟩ →
      private_rb_insert_value_mem cmp (some a) fuel p h = some (res, h2) →
      ∃ t2, Rep h2.nodes (match t with | NULL => pa | mk _ _ _ _ => par) res t2 ∧
        h2.root = h.root ∧ (addrs t2).Nodup ∧ (∀ b, b ∈ addrs t2 ↔ b = a ∨ b ∈ addrs t) ∧
        (∀ b, b ∉ addrs t → b ≠ a → h2.nodes b = h.nodes b) := by
  induction fuel with
  | zero =>
    intro h t par p res h2 _ _ _ _ e
    simp [private_rb_insert_value_mem, failure_run] at e
  | succ fuel ih =>
    intro h t par p res h2 hrep hnd hat ha e
    rcases t with _ | ⟨c, l, ⟨rt, rv⟩, r⟩
    · rw [Rep_NULL_iff] at hrep
      subst hrep
      simp only [private_rb_insert_value_mem, if_true, pure_eq_some] at e
      obtain ⟨rfl, rfl⟩ := e
      refine ⟨mk RED NULL (a, value) NULL, ?_, rfl, by simp [addrs_mk, addrs_NULL],
        by simp [addrs_mk, addrs_NULL], fun _ _ _ => rfl⟩
      rw [Rep_mk]
      exact ⟨rfl, _, ha, rfl, rfl, rfl, Rep_NULL _ _, Rep_NULL _ _⟩
    · rw [Rep_mk] at hrep
      obtain ⟨hp, rt0, hrt, hv, hc, hpar, hl, hr⟩ := hrep
      simp only at hp hrt hv hl hr
      subst hp
      rw [addrs_mk] at hnd hat
      simp only [List.nodup_append, List.nodup_cons, List.mem_append, List.mem_cons,
        not_or] at hnd hat
      obtain ⟨ndl, ⟨hrtr, ndr⟩, hdis⟩ := hnd
      obtain ⟨hal, hart, har⟩ := hat
      have hrtl : rt ∉ addrs l := fun hm => hdis hm (List.mem_cons_self _ _)
      have hlr : ∀ b ∈ addrs l, b ∉ addrs r := fun b hb hm => hdis hb (List.mem_cons_of_mem _ hm)
      simp only [private_rb_insert_value_mem, reduceCtorEq, if_false, StateT_bind_eq_some,
        deref_eq_some] at e
      obtain ⟨nn, h0, ⟨a1, ea1, hnn, rfl⟩, rt1, h0b, ⟨rt2, ert2, hrt1, rfl⟩, e⟩ := e
      cases ea1
      cases ert2
      rw [ha] at hnn
      rw [hrt] at hrt1
      simp only [Option.some.injEq] at hnn hrt1
      subst hnn hrt1
      by_cases hcmp : cmp value rv < 0
      · simp only [hv, hcmp, if_true, StateT_bind_eq_some, deref_eq_some, write_left_eq_some,
          write_parent_eq_some, pure_eq_some] at e
        obtain ⟨res1, h1, erec, -, h1b, ⟨a2, cell2, ea2, hcell2, rfl⟩, rt3, h3,
          ⟨a3, ea3, hrt3, rfl⟩, -, h4, ⟨q, cq, hq, hcq, rfl⟩, rfl, rfl⟩ := e
        cases ea2
        cases ea3
        obtain ⟨t2l, hrl, hroot1, ndl2, hmem, hfr⟩ :=
          ih h0b l (some rt) rt0.left res1 h1 hl ndl hal ha erec
        have hrta : rt ≠ a := fun e => hart e.symm
        have h1rt : h1.nodes rt = some rt0 := (hfr rt hrtl hrta).trans hrt
        rw [h1rt] at hcell2
        simp only [Option.some.injEq] at hcell2
        subst hcell2
        rw [store_nodes_same] at hrt3
        simp only [Option.some.injEq] at hrt3
        subst hrt3
        simp only at hq
        have hqm : q ∈ addrs t2l := root_ptr_mem_addrs ((Rep_root_ptr hrl).symm.trans hq)
        have hrt2l : rt ∉ addrs t2l := fun hm => by
          rcases (hmem rt).1 hm with e | e
          · exact hrta e
          · exact hrtl e
        have hqrt : q ≠ rt := fun e => hrt2l (e ▸ hqm)
        rw [store_nodes_ne _ _ hqrt] at hcq
        have hq2 : q = a ∨ q ∈ addrs l := (hmem q).1 hqm
        refine ⟨mk c t2l (rt, rv) r, ?_, ?_, ?_, ?_, ?_⟩
        · rw [Rep_mk]
          refine ⟨rfl, { rt0 with left := res1 }, ?_, hv, hc, hpar, ?_, ?_⟩
          · show (Heap.store _ _ _).nodes rt = _
            rw [store_nodes_ne _ _ (Ne.symm hqrt), store_nodes_same]
          · refine Rep_reparent hrl ndl2 ?_ ?_
            · intro b cell hb hcell
              have : b = q := Option.some.inj (hb.symm.trans ((Rep_root_ptr hrl).symm.trans hq))
              subst this
              rw [hcq] at hcell
              simp only [Option.some.injEq] at hcell
              subst hcell
              exact store_nodes_same _ _ _
            · intro b hb hne
              have hbq : b ≠ q := fun e => hne (by rw [e, ← Rep_root_ptr hrl, hq])
              have hbrt : b ≠ rt := fun e => hrt2l (e ▸ hb)
              show (Heap.store _ _ _).nodes b = _
              rw [store_nodes_ne _ _ hbq, store_nodes_ne _ _ hbrt]
          · refine Rep_congr ?_ hr
            intro b hb
            have hbq : b ≠ q := by
              rintro rfl
              rcases hq2 with e | e
              · exact har (e ▸ hb)
              · exact hlr _ e hb
            have hbrt : b ≠ rt := fun e => hrtr (e ▸ hb)
            show (Heap.store _ _ _).nodes b = _
            rw [store_nodes_ne _ _ hbq, store_nodes_ne _ _ hbrt]
            exact hfr b (fun hm => hlr b hm hb) (fun e => har (e ▸ hb))
        · exact hroot1
        · rw [addrs_mk]
          simp only [List.nodup_append, List.nodup_cons]
          refine ⟨ndl2, ⟨hrtr, ndr⟩, ?_⟩
          intro b hb hb2
          rcases (hmem b).1 hb with e | e
          · subst e
            rcases List.mem_cons.1 hb2 with e2 | e2
            · exact hart e2
            · exact har e2
          · exact hdis e hb2
        · intro b
          simp only [addrs_mk, List.mem_append, List.mem_cons, hmem]
          tauto
        · intro b hb hba
          rw [addrs_mk] at hb
          simp only [List.mem_append, List.mem_cons, not_or] at hb
          have hbq : b ≠ q := by
            rintro rfl
            rcases hq2 with e | e
            · exact hba e
            · exact hb.1 e
          show (Heap.store _ _ _).nodes b = _
          rw [store_nodes_ne _ _ hbq, store_nodes_ne _ _ hb.2.1]
          exact hfr b hb.1 hba
      · simp only [hv, hcmp, if_false, StateT_bind_eq_some, deref_eq_some, write_right_eq_some,
          write_parent_eq_some, pure_eq_some] at e
        obtain ⟨res1, h1, erec, -, h1b, ⟨a2, cell2, ea2, hcell2, rfl⟩, rt3, h3,
          ⟨a3, ea3, hrt3, rfl⟩, -, h4, ⟨q, cq, hq, hcq, rfl⟩, rfl, rfl⟩ := e
        cases ea2
        cases ea3
        obtain ⟨t2r, hrl, hroot1, ndr2, hmem, hfr⟩ :=
          ih h0b r (some rt) rt0.right res1 h1 hr ndr har ha erec
        have hrta : rt ≠ a := fun e => hart e.symm
        have h1rt : h1.nodes rt = some rt0 := (hfr rt hrtr hrta).trans hrt
        rw [h1rt] at hcell2
        simp only [Option.some.injEq] at hcell2
        subst hcell2
        rw [store_nodes_same] at hrt3
        simp only [Option.some.injEq] at hrt3
        subst hrt3
        simp only at hq
        have hqm : q ∈ addrs t2r := root_ptr_mem_addrs ((Rep_root_ptr hrl).symm.trans hq)
        have hrt2r : rt ∉ addrs t2r := fun hm => by
          rcases (hmem rt).1 hm with e | e
          · exact hrta e
          · exact hrtr e
        have hqrt : q ≠ rt := fun e => hrt2r (e ▸ hqm)
        rw [store_nodes_ne _ _ hqrt] at hcq
        have hq2 : q = a ∨ q ∈ addrs r := (hmem q).1 hqm
        refine ⟨mk c l (rt, rv) t2r, ?_, ?_, ?_, ?_, ?_⟩
        · rw [Rep_mk]
          refine ⟨rfl, { rt0 with right := res1 }, ?_, hv, hc, hpar, ?_, ?_⟩
          · show (Heap.store _ _ _).nodes rt = _
            rw [store_nodes_ne _ _ (Ne.symm hqrt), store_nodes_same]
          · refine Rep_congr ?_ hl
            intro b hb
            have hbq : b ≠ q := by
              rintro rfl
              rcases hq2 with e | e
              · exact hal (e ▸ hb)
              · exact hlr _ hb e
            have hbrt : b ≠ rt := fun e => hrtl (e ▸ hb)
            show (Heap.store _ _ _).nodes b = _
            rw [store_nodes_ne _ _ hbq, store_nodes_ne _ _ hbrt]
            exact hfr b (hlr b hb) (fun e => hal (e ▸ hb))
          · refine Rep_reparent hrl ndr2 ?_ ?_
            · intro b cell hb hcell
              have : b = q := Option.some.inj (hb.symm.trans ((Rep_root_ptr hrl).symm.trans hq))
              subst this
              rw [hcq] at hcell
              simp only [Option.some.injEq] at hcell
              subst hcell
              exact store_nodes_same _ _ _
            · intro b hb hne
              have hbq : b ≠ q := fun e => hne (by rw [e, ← Rep_root_ptr hrl, hq])
              have hbrt : b ≠ rt := fun e => hrt2r (e ▸ hb)
              show (Heap.store _ _ _).nodes b = _
              rw [store_nodes_ne _ _ hbq, store_nodes_ne _ _ hbrt]
        · exact hroot1
        · rw [addrs_mk]
          simp only [List.nodup_append, List.nodup_cons]
          refine ⟨ndl, ⟨hrt2r, ndr2⟩, ?_⟩
          intro b hb hb2
          rcases List.mem_cons.1 hb2 with e2 | e2
          · exact hrtl (e2 ▸ hb)
          · rcases (hmem b).1 e2 with e | e
            · exact hal (e ▸ hb)
            · exact hlr b hb e
        · intro b
          simp only [addrs_mk, List.mem_append, List.mem_cons, hmem]
          tauto
        · intro b hb hba
          rw [addrs_mk] at hb
          simp only [List.mem_append, List.mem_cons, not_or] at hb
          have hbq : b ≠ q := by
            rintro rfl
            rcases hq2 with e | e
            · exact hba e
            · exact hb.2.2 e
          show (Heap.store _ _ _).nodes b = _
          rw [store_nodes_ne _ _ hbq, store_nodes_ne _ _ hb.2.1]
          exact hfr b hb.2.2 hba

theorem read_root_eq_some {V : Type} (h : Heap V) (x : Option Nat) (h2 : Heap V) :
    read_root h = some (x, h2) ↔ x = h.root ∧ h2 = h := by
  simp only [read_root, Option.some.injEq, Prod.mk.injEq]
  constructor
  · rintro ⟨rfl, rfl⟩; exact ⟨rfl, rfl⟩
  · rintro ⟨rfl, rfl⟩; exact ⟨rfl, rfl⟩

theorem write_root_eq_some {V : Type} (q : Option Nat) (h : Heap V) (u : Unit) (h2 : Heap V) :
    write_root q h = some (u, h2) ↔ h2 = { root := q, nodes := h.nodes } := by
  simp only [write_root, Option.some.injEq, Prod.mk.injEq, true_and]
  exact eq_comm

/-- The part of `rb_insert_value` before the fixup (allocation, recursive insertion,
assignment of `tree->root`) keeps `holds_tree`. -/
theorem holds_tree_insert_link {V : Type} (cmp : V → V → Int) (fuel : Nat) (new_node : Nat)
    (value : V) (h h2 : Heap V) (n : Option Nat)
    (e : (do
      let n ← rb_construct_node_mem new_node value
      let root ← read_root
      let res ← private_rb_insert_value_mem cmp n fuel root
      write_root res
      pure n : StateT (Heap V) Option (Option Nat)) h = some (n, h2))
    (hw : holds_tree h) : holds_tree h2 := by
  obtain ⟨T, hr, hnd, hall⟩ := hw
  simp only [StateT_bind_eq_some, read_root_eq_some, write_root_eq_some, pure_eq_some] at e
  obtain ⟨n1, h1, e1, root, h1b, ⟨rfl, rfl⟩, res, h3, e3, -, h4, rfl, rfl, rfl⟩ := e
  unfold rb_construct_node_mem at e1
  split at e1
  · simp at e1
  · rename_i hfree
    simp only [Option.some.injEq, Prod.mk.injEq] at e1
    obtain ⟨rfl, rfl⟩ := e1
    have hnew : new_node ∉ addrs T := fun hm => hfree (Rep_allocated hr new_node hm)
    have hr1 : Rep (h.store new_node ⟨value, none, none, none, RED⟩).nodes none h.root T :=
      Rep_congr (fun b hb => store_nodes_ne _ _ (fun (e : b = new_node) => hnew (e ▸ hb))) hr
    obtain ⟨t2, hr2, -, hnd2, hmem, hfr⟩ := private_rb_insert_value_mem_spec cmp new_node value
      none fuel _ T none h.root res h3 hr1 hnd hnew (store_nodes_same _ _ _) e3
    have hpar : (match T with | NULL => (none : Option Nat) | mk _ _ _ _ => none) = none := by
      cases T <;> rfl
    rw [hpar] at hr2
    refine ⟨t2, hr2, hnd2, ?_⟩
    intro b hb
    simp only at hb
    rw [hmem]
    by_cases hba : b = new_node
    · exact Or.inl hba
    · right
      by_cases hbT : b ∈ addrs T
      · exact hbT
      · rw [hfr b hbT hba, store_nodes_ne _ _ hba] at hb
        exact hall b hb

theorem Keeps_rb_insert_value_mem {V : Type} (cmp : V → V → Int) (fuel : Nat) (new_node : Nat)
    (value : V) : Keeps (rb_insert_value_mem cmp fuel new_node value) := by
  intro h x h2 e hw
  unfold rb_insert_value_mem at e
  simp only [StateT_bind_eq_some] at e
  obtain ⟨n, h1, e1, root, h1b, e2, res, h3, e3, u, h4, e4, e5⟩ := e
  refine Keeps_fix_insertion_violation_mem fuel n h4 x h2 e5 ?_
  refine holds_tree_insert_link cmp fuel new_node value h h4 n ?_ hw
  simp only [StateT_bind_eq_some, pure_eq_some]
  exact ⟨n, h1, e1, root, h1b, e2, res, h3, e3, u, h4, e4, rfl, rfl⟩

theorem transplant_place_spec {V : Type} (h : Heap V) (u : Nat) (v : Option Nat) (u0 : Cell V)
    (hu : h.nodes u = some u0)
    (hp : ∀ p, u0.parent = some p → ∃ p0, h.nodes p = some p0) :
    ∃ h1, transplant_place (some u) v h = some ((), h1) ∧
      (u0.parent = none → h1.root = v) ∧
      (∀ p p0, u0.parent = some p → h.nodes p = some p0 →
        h1.root = h.root ∧
        h1.nodes p = some (if some u = p0.left then { p0 with left := v }
          else { p0 with right := v })) ∧
      (∀ b, some b ≠ u0.parent → h1.nodes b = h.nodes b) := by
  unfold transplant_place
  simp only [StateT_bind_eq_some, deref_eq_some]
  rcases hpar : u0.parent with _ | p
  · refine ⟨{ root := v, nodes := h.nodes }, ⟨u0, h, ⟨u, rfl, hu, rfl⟩, ?_⟩, fun _ => rfl,
      fun p p0 e => by simp at e, fun _ _ => rfl⟩
    simp [hpar, write_root]
  · obtain ⟨p0, hp0⟩ := hp p hpar
    by_cases hl : some u = p0.left
    · refine ⟨h.store p { p0 with left := v }, ⟨u0, h, ⟨u, rfl, hu, rfl⟩, ?_⟩,
        fun e => by simp at e, ?_, ?_⟩
      · simp only [hpar, reduceCtorEq, if_false, StateT_bind_eq_some, deref_eq_some]
        refine ⟨p0, h, ⟨p, rfl, hp0, rfl⟩, ?_⟩
        rw [if_pos hl, write_left_eq_some]
        exact ⟨p, p0, rfl, hp0, rfl⟩
      · intro p2 p3 e1 e2
        cases e1
        rw [hp0] at e2
        cases e2
        exact ⟨rfl, by rw [if_pos hl]; exact store_nodes_same _ _ _⟩
      · intro b hb
        exact store_nodes_ne _ _ (fun e => hb (by rw [e]))
    · refine ⟨h.store p { p0 with right := v }, ⟨u0, h, ⟨u, rfl, hu, rfl⟩, ?_⟩,
        fun e => by simp at e, ?_, ?_⟩
      · simp only [hpar, reduceCtorEq, if_false, StateT_bind_eq_some, deref_eq_some]
        refine ⟨p0, h, ⟨p, rfl, hp0, rfl⟩, ?_⟩
        rw [if_neg hl, write_right_eq_some]
        exact ⟨p, p0, rfl, hp0, rfl⟩
      · intro p2 p3 e1 e2
        cases e1
        rw [hp0] at e2
        cases e2
        exact ⟨rfl, by rw [if_neg hl]; exact store_nodes_same _ _ _⟩
      · intro b hb
        exact store_nodes_ne _ _ (fun e => hb (by rw [e]))

/-- What `rb_transplant(tree, u, v)` writes when `u`, its parent and `v` are distinct
allocated nodes (the parent and `v` may be absent): it completes, the place of `u`
(`tree->root` or the child slot of the parent chosen by `u == u->parent->left`) holds
`v`, the `parent` field of `v` holds the parent of `u`, and nothing else changes. -/
theorem rb_transplant_mem_spec {V : Type} (h : Heap V) (u : Nat) (v : Option Nat) (u0 : Cell V)
    (hu : h.nodes u = some u0)
    (hp : ∀ p, u0.parent = some p → p ≠ u ∧ ∃ p0, h.nodes p = some p0)
    (hv : ∀ w, v = some w → some w ≠ u0.parent ∧ ∃ w0, h.nodes w = some w0) :
    ∃ h2, rb_transplant_mem (some u) v h = some ((), h2) ∧
      (u0.parent = none → h2.root = v) ∧
      (∀ p p0, u0.parent = some p → h.nodes p = some p0 →
        h2.root = h.root ∧
        h2.nodes p = some (if some u = p0.left then { p0 with left := v }
          else { p0 with right := v })) ∧
      (∀ w w0, v = some w → h.nodes w = some w0 →
        h2.nodes w = some { w0 with parent := u0.parent }) ∧
      (∀ b, some b ≠ u0.parent → some b ≠ v → h2.nodes b = h.nodes b) := by
  obtain ⟨h1, e1, r1, p1, o1⟩ := transplant_place_spec h u v u0 hu (fun p e => (hp p e).2)
  have hu1 : h1.nodes u = some u0 := by
    rw [o1 u (fun e => (hp u e.symm).1 rfl)]; exact hu
  unfold rb_transplant_mem
  simp only [StateT_bind_eq_some]
  rcases v with _ | w
  · refine ⟨h1, ⟨(), h1, e1, ?_⟩, r1, p1, fun w w0 e => by simp at e, fun b hb _ => o1 b hb⟩
    simp [transplant_parent, pure_eq_some]
  · obtain ⟨hwp, w0, hw0⟩ := hv w rfl
    have hw1 : h1.nodes w = some w0 := by rw [o1 w hwp]; exact hw0
    refine ⟨h1.store w { w0 with parent := u0.parent }, ⟨(), h1, e1, ?_⟩, ?_, ?_, ?_, ?_⟩
    · simp only [transplant_parent, reduceCtorEq, if_false, StateT_bind_eq_some, deref_eq_some,
        write_parent_eq_some]
      exact ⟨u0, h1, ⟨u, rfl, hu1, rfl⟩, w, w0, rfl, hw1, rfl⟩
    · intro e; exact r1 e
    · intro p p0 e1 e2
      obtain ⟨q1, q2⟩ := p1 p p0 e1 e2
      refine ⟨q1, ?_⟩
      rw [store_nodes_ne _ _ (fun e => hwp (by rw [e1, e])), q2]
    · intro w2 w3 e1 e2
      cases e1
      rw [hw0] at e2
      cases e2
      exact store_nodes_same _ _ _
    · intro b hb1 hb2
      rw [store_nodes_ne _ _ (fun e => hb2 (by rw [e])), o1 b hb1]

theorem addrs_plug {V : Type} (t : Node (Nat × V)) (up : List (Frame (Nat × V))) :
    addrs (plug t up) =
      (left_of up).map Prod.fst ++ (addrs t ++ (right_of up).map Prod.fst) := by
  simp only [addrs, values_plug, List.map_append]

theorem Rep_attach_replace_in {V : Type} {nodes nodes2 : Nat → Option (Cell V)}
    (f : Frame (Nat × V)) (s s2 : Node (Nat × V)) (hnd : (addrs (attach f s)).Nodup)
    (hs : ∀ par p, Rep nodes par p s → Rep nodes2 par p s2)
    (hout : ∀ a, a ∈ addrs (attach f s) → a ∉ addrs s → nodes2 a = nodes a) (par p : Option Nat)
    (h : Rep nodes par p (attach f s)) : Rep nodes2 par p (attach f s2) := by
  rw [addrs_attach] at hnd hout
  obtain ⟨side, c, x, sib⟩ := f
  cases side
  · simp only [List.nodup_append, List.nodup_cons] at hnd
    simp only [List.mem_append, List.mem_cons] at hout
    obtain ⟨_, ⟨hx1, _⟩, hd⟩ := hnd
    simp only [attach] at h ⊢
    rw [Rep_mk] at h ⊢
    obtain ⟨h0, cell, hx, h1, h2, h3, h4, h5⟩ := h
    refine ⟨h0, cell, ?_, h1, h2, h3, hs _ _ h4, ?_⟩
    · rw [hout x.1 (Or.inr (Or.inl rfl)) (fun hm => hd hm (List.mem_cons_self _ _))]
      exact hx
    · exact Rep_congr (fun a ha => hout a (Or.inr (Or.inr ha))
        (fun hm => hd hm (List.mem_cons_of_mem _ ha))) h5
  · simp only [List.nodup_append, List.nodup_cons] at hnd
    simp only [List.mem_append, List.mem_cons] at hout
    obtain ⟨_, ⟨hx1, _⟩, hd⟩ := hnd
    simp only [attach] at h ⊢
    rw [Rep_mk] at h ⊢
    obtain ⟨h0, cell, hx, h1, h2, h3, h4, h5⟩ := h
    refine ⟨h0, cell, ?_, h1, h2, h3, ?_, hs _ _ h5⟩
    · rw [hout x.1 (Or.inr (Or.inl rfl)) hx1]
      exact hx
    · exact Rep_congr (fun a ha => hout a (Or.inl ha)
        (fun hm => hd ha (List.mem_cons_of_mem _ hm))) h4

theorem mem_addrs_attach_of_mem {V : Type} (f : Frame (Nat × V)) (s : Node (Nat × V)) (a : Nat)
    (ha : a ∈ addrs s) : a ∈ addrs (attach f s) := by
  rw [addrs_attach]
  obtain ⟨side, c, x, sib⟩ := f
  cases side <;> simp [ha]

/-- Replacing a held subtree when the memory changes only at addresses of the replaced
subtree or outside the tree. -/
theorem Rep_plug_replace_in {V : Type} {nodes nodes2 : Nat → Option (Cell V)}
    (up : List (Frame (Nat × V))) :
    ∀ (s s2 : Node (Nat × V)) (par0 p0 : Option Nat), Rep nodes par0 p0 (plug s up) →
      (addrs (plug s up)).Nodup →
      (∀ par p, Rep nodes par p s → Rep nodes2 par p s2) →
      (∀ a, a ∈ addrs (plug s up) → a ∉ addrs s → nodes2 a = nodes a) →
      Rep nodes2 par0 p0 (plug s2 up) := by
  induction up with
  | nil => exact fun s s2 par0 p0 h _ hs _ => hs _ _ h
  | cons f up ih =>
    intro s s2 par0 p0 h hnd hs hout
    have hsub := addrs_sublist_plug (attach f s) up
    refine ih (attach f s) (attach f s2) par0 p0 h hnd
      (Rep_attach_replace_in f s s2 (hsub.nodup hnd) hs
        (fun a ha hn => hout a (hsub.subset ha) hn)) ?_
    intro a ha hn
    exact hout a ha (fun hm => hn (mem_addrs_attach_of_mem f s a hm))

/-- The child slot of the parent in which a held subtree hangs. -/
theorem parent_slot {V : Type} {h : Heap V} {s : Node (Nat × V)} {f : Frame (Nat × V)}
    {up : List (Frame (Nat × V))} {p0 : Option Nat} {u : Nat} {q : Option Nat}
    (hrep : Rep h.nodes none p0 (plug s (f :: up)))
    (hnd : (addrs (plug s (f :: up))).Nodup) (hu : root_ptr s = some u) :
    f.value.1 ∉ addrs s ∧ ∃ cell, h.nodes f.value.1 = some cell ∧
      (if some u = cell.left then ({ cell with left := q } : Cell V) else { cell with right := q }) =
        (match f.side with
          | L => { cell with left := q }
          | R => { cell with right := q }) := by
  obtain ⟨-, hslot⟩ := Rep_plug_focus (f :: up) s p0 hrep
  have hnd1 : (addrs (attach f s)).Nodup := (addrs_sublist_plug (attach f s) up).nodup hnd
  rw [addrs_attach] at hnd1
  obtain ⟨cell, hc, hside⟩ := hslot
  obtain ⟨side, c, x, sib⟩ := f
  cases side
  · simp only [List.nodup_append, List.nodup_cons] at hnd1
    simp only at hside hc ⊢
    refine ⟨fun hm => hnd1.2.2 hm (List.mem_cons_self _ _), cell, hc, ?_⟩
    rw [if_pos (by rw [hside.1, hu])]
  · simp only [List.nodup_append, List.nodup_cons] at hnd1
    simp only at hside hc ⊢
    refine ⟨hnd1.2.1.1, cell, hc, ?_⟩
    rw [if_neg]
    intro e
    have : u ∈ addrs sib := root_ptr_mem_addrs (hside.2.symm.trans e.symm)
    exact hnd1.2.2 this (List.mem_cons_of_mem _ (root_ptr_mem_addrs hu))

/-- Putting a subtree held at `q` into the place of a held subtree: when the parent's
slot (or `tree->root`) is set to `q` and the rest of the tree is not written, memory
holds the tree with the new subtree. -/
theorem Rep_plug_swap {V : Type} {h h2 : Heap V} {s s2 : Node (Nat × V)}
    {up : List (Frame (Nat × V))} {q : Option Nat}
    (hrep : Rep h.nodes none h.root (plug s up)) (hnd : (addrs (plug s up)).Nodup)
    (hs2 : Rep h2.nodes (parent_ptr up) q s2)
    (hout : ∀ b, b ∈ addrs (plug s up) → b ∉ addrs s → some b ≠ parent_ptr up →
      h2.nodes b = h.nodes b)
    (hroot : match up with
      | [] => h2.root = q
      | f :: _ => h2.root = h.root ∧ ∃ cell, h.nodes f.value.1 = some cell ∧
          h2.nodes f.value.1 = some (match f.side with
            | L => { cell with left := q }
            | R => { cell with right := q })) :
    Rep h2.nodes none h2.root (plug s2 up) := by
  cases up with
  | nil =>
    simp only at hroot
    rw [hroot]
    exact hs2
  | cons f up =>
    obtain ⟨hr, cell, hc, hc2⟩ := hroot
    rw [hr]
    simp only [plug] at hrep hnd hout ⊢
    have hsub := addrs_sublist_plug (attach f s) up
    have hnd1 := hsub.nodup hnd
    have hfa : ∀ b, b ∈ addrs (attach f s) → b ∉ addrs s → b ≠ f.value.1 → h2.nodes b = h.nodes b :=
      fun b hb hn hne => hout b (hsub.subset hb) hn (fun e => hne (Option.some.inj e))
    refine Rep_plug_replace_in up (attach f s) (attach f s2) none h.root hrep hnd ?_ ?_
    · intro par p hat
      rw [addrs_attach] at hnd1 hfa
      obtain ⟨side, c, x, sib⟩ := f
      simp only [parent_ptr] at hs2
      cases side
      · simp only [List.nodup_append, List.nodup_cons] at hnd1
        simp only [List.mem_append, List.mem_cons] at hfa
        simp only [attach] at hat ⊢
        rw [Rep_mk] at hat ⊢
        obtain ⟨h0, cell1, hx, h1, h2a, h3, h4, h5⟩ := hat
        rw [hc] at hx
        cases hx
        refine ⟨h0, _, hc2, h1, h2a, h3, hs2, ?_⟩
        exact Rep_congr (fun a ha => hfa a (Or.inr (Or.inr ha))
          (fun hm => hnd1.2.2 hm (List.mem_cons_of_mem _ ha))
          (fun e => hnd1.2.1.1 (e ▸ ha))) h5
      · simp only [List.nodup_append, List.nodup_cons] at hnd1
        simp only [List.mem_append, List.mem_cons] at hfa
        simp only [attach] at hat ⊢
        rw [Rep_mk] at hat ⊢
        obtain ⟨h0, cell1, hx, h1, h2a, h3, h4, h5⟩ := hat
        rw [hc] at hx
        cases hx
        refine ⟨h0, _, hc2, h1, h2a, h3, ?_, hs2⟩
        exact Rep_congr (fun a ha => hfa a (Or.inl ha)
          (fun hm => hnd1.2.2 ha (List.mem_cons_of_mem _ hm))
          (fun e => hnd1.2.2 ha (e ▸ List.mem_cons_self _ _))) h4
    · intro a ha hn
      have hn2 : a ∉ addrs s := fun hm => hn (mem_addrs_attach_of_mem f s a hm)
      have hn3 : a ≠ f.value.1 := by
        intro e
        apply hn
        rw [e, addrs_attach]
        obtain ⟨side, c, x, sib⟩ := f
        cases side <;> simp
      exact hout a ha hn2 (fun e => hn3 (Option.some.inj e))

theorem frame_mem_addrs_plug {V : Type} (s : Node (Nat × V)) (f : Frame (Nat × V))
    (up : List (Frame (Nat × V))) : f.value.1 ∈ addrs (plug s (f :: up)) := by
  refine (addrs_sublist_plug (attach f s) up).subset ?_
  rw [addrs_attach]
  obtain ⟨side, c, x, sib⟩ := f
  cases side <;> simp

/-- Taking a node with a `NULL` child out of a held tree by `rb_transplant(tree, d, x)`,
where `x` is its other child: the call completes, memory holds the tree with the
subtree of `x` in the place of `d`, the node `d` itself is not written, and nothing
outside the tree is written. -/
theorem rb_transplant_mem_child {V : Type} (h : Heap V) (dc : Color) (dl : Node (Nat × V))
    (d : Nat) (dv : V) (dr : Node (Nat × V)) (up : List (Frame (Nat × V)))
    (sx : Node (Nat × V))
    (hrep : Rep h.nodes none h.root (plug (mk dc dl (d, dv) dr) up))
    (hnd : (addrs (plug (mk dc dl (d, dv) dr) up)).Nodup)
    (hx : (dl = NULL ∧ sx = dr) ∨ (dr = NULL ∧ sx = dl)) :
    ∃ h2, rb_transplant_mem (some d) (root_ptr sx) h = some ((), h2) ∧
      Rep h2.nodes none h2.root (plug sx up) ∧
      (∀ b, b ∉ addrs (plug (mk dc dl (d, dv) dr) up) → h2.nodes b = h.nodes b) ∧
      h2.nodes d = h.nodes d ∧
      (∀ b, (h2.nodes b).isSome = (h.nodes b).isSome) := by
  obtain ⟨hf, hslot⟩ := Rep_plug_focus up _ _ hrep
  have hsub := addrs_sublist_plug (mk dc dl (d, dv) dr) up
  have hnds := hsub.nodup hnd
  rw [Rep_mk] at hf
  obtain ⟨-, d0, hd0, -, -, hpar, hl, hr⟩ := hf
  simp only at hd0 hl hr
  have hxrep : Rep h.nodes (some d) (root_ptr sx) sx := by
    rcases hx with ⟨-, rfl⟩ | ⟨-, rfl⟩
    · exact (Rep_root_ptr hr) ▸ hr
    · exact (Rep_root_ptr hl) ▸ hl
  have hxs : ∀ b ∈ addrs sx, b ∈ addrs (mk dc dl (d, dv) dr) ∧ b ≠ d := by
    intro b hb
    rw [addrs_mk] at hnds ⊢
    simp only [List.nodup_append, List.nodup_cons] at hnds
    rcases hx with ⟨-, rfl⟩ | ⟨-, rfl⟩
    · exact ⟨by simp [hb], fun e => hnds.2.1.1 (e ▸ hb)⟩
    · exact ⟨by simp [hb], fun e => hnds.2.2 hb (e ▸ List.mem_cons_self _ _)⟩
  have hndx : (addrs sx).Nodup := by
    rw [addrs_mk] at hnds
    simp only [List.nodup_append, List.nodup_cons] at hnds
    rcases hx with ⟨-, rfl⟩ | ⟨-, rfl⟩
    · exact hnds.2.1.2
    · exact hnds.1
  have hds : d ∈ addrs (mk dc dl (d, dv) dr) := by rw [addrs_mk]; simp
  -- the parent of `d`
  have hpfacts : ∀ p, d0.parent = some p →
      p ∉ addrs (mk dc dl (d, dv) dr) ∧ p ∈ addrs (plug (mk dc dl (d, dv) dr) up) ∧
        ∃ p0, h.nodes p = some p0 := by
    intro p e
    rw [hpar] at e
    cases up with
    | nil => simp [parent_ptr] at e
    | cons f up =>
      simp only [parent_ptr, Option.some.injEq] at e
      subst e
      obtain ⟨h1, cell, hc, -⟩ := parent_slot (q := none) hrep hnd (u := d) rfl
      exact ⟨h1, frame_mem_addrs_plug _ f up, cell, hc⟩
  obtain ⟨h2, e2, r2, p2, w2, o2⟩ := rb_transplant_mem_spec h d (root_ptr sx) d0 hd0
    (fun p e => ⟨fun e2 => (hpfacts p e).1 (e2 ▸ hds), (hpfacts p e).2.2⟩)
    (fun w e => ⟨fun e2 => (hpfacts w e2.symm).1 (hxs w (root_ptr_mem_addrs e)).1,
      (Rep_root_allocated hxrep e).imp (fun _ hh => hh.1)⟩)
  have hvs : ∀ b, some b = root_ptr sx → b ∈ addrs (mk dc dl (d, dv) dr) ∧ b ≠ d :=
    fun b e => hxs b (root_ptr_mem_addrs e.symm)
  refine ⟨h2, e2, ?_, ?_, ?_, ?_⟩
  · refine Rep_plug_swap hrep hnd (q := root_ptr sx) ?_ ?_ ?_
    · refine Rep_reparent hxrep hndx ?_ ?_
      · intro b cell hb hcell
        rw [w2 b cell hb hcell, hpar]
      · intro b hb hne
        exact o2 b (fun e => (hpfacts b e.symm).1 (hxs b hb).1) hne
    · intro b hb hn hp
      exact o2 b (hpar ▸ hp) (fun e => hn (hvs b e).1)
    · cases up with
      | nil =>
        simp only
        exact r2 (by rw [hpar]; rfl)
      | cons f up =>
        simp only
        obtain ⟨-, cell, hc, hconv⟩ := parent_slot (q := root_ptr sx) hrep hnd (u := d) rfl
        obtain ⟨q1, q2⟩ := p2 f.value.1 cell (by rw [hpar]; rfl) hc
        exact ⟨q1, cell, hc, by rw [q2, hconv]⟩
  · intro b hb
    refine o2 b (fun e => hb (hpfacts b e.symm).2.1) (fun e => hb (hsub.subset (hvs b e).1))
  · exact o2 d (fun e => (hpfacts d e.symm).1 hds) (fun e => (hvs d e).2 rfl)
  · intro b
    by_cases hb1 : some b = d0.parent
    · obtain ⟨-, -, p0, hp0⟩ := hpfacts b hb1.symm
      rw [(p2 b p0 hb1.symm hp0).2, hp0]
      rfl
    · by_cases hb2 : some b = root_ptr sx
      · obtain ⟨w0, hw0, -⟩ := Rep_root_allocated hxrep hb2.symm
        rw [w2 b w0 hb2.symm hw0, hw0]
        rfl
      · rw [o2 b hb1 hb2]

theorem root_ptr_ne_NULL {V : Type} {t : Node (Nat × V)} (h : t ≠ NULL) :
    ∃ a, root_ptr t = some a := by
  cases t with
  | NULL => exact absurd rfl h
  | mk c l x r => exact ⟨x.1, rfl⟩

/-- The statements that put `y` in the place of `delete_me`: when `delete_me` is the node
`d` of a held tree with a left subtree `dl`, and `y` is a node outside `dl` and the
surroundings of `d` that holds the subtree `R` on its right, memory afterwards holds the
tree with `y` in the place of `d`, with left subtree `dl`, right subtree `R` and the
colour of `d`. -/
theorem replace_deleted_spec {V : Type} (h0 hb : Heap V) (dc : Color) (dl : Node (Nat × V))
    (d : Nat) (dv : V) (dr0 : Node (Nat × V)) (up : List (Frame (Nat × V))) (y : Nat)
    (y1 : Cell V) (R : Node (Nat × V))
    (hrep : Rep h0.nodes none h0.root (plug (mk dc dl (d, dv) dr0) up))
    (hnd : (addrs (plug (mk dc dl (d, dv) dr0) up)).Nodup)
    (hdl : dl ≠ NULL) (hroot : hb.root = h0.root)
    (hsame : ∀ b, b ∈ addrs (plug (mk dc dl (d, dv) dr0) up) → b ∉ addrs dr0 → b ≠ y →
      hb.nodes b = h0.nodes b)
    (hy : hb.nodes y = some y1) (hyd : y ≠ d) (hydl : y ∉ addrs dl)
    (hyctx : ∀ b, b ∈ addrs (plug (mk dc dl (d, dv) dr0) up) →
      b ∉ addrs (mk dc dl (d, dv) dr0) → b ≠ y)
    (hR : Rep hb.nodes (some y) y1.right R)
    (hRd : ∀ b ∈ addrs R, b ∈ addrs dr0 ∧ b ≠ y) :
    ∃ hf, replace_deleted (some d) (some y) hb = some ((), hf) ∧
      Rep hf.nodes none hf.root (plug (mk dc dl (y, y1.value) R) up) ∧
      (∀ b, b ≠ y → some b ≠ parent_ptr up → some b ≠ root_ptr dl →
        hf.nodes b = hb.nodes b) ∧
      (∀ b, (hf.nodes b).isSome = (hb.nodes b).isSome) := by
  obtain ⟨hf0, -⟩ := Rep_plug_focus up _ _ hrep
  have hsub := addrs_sublist_plug (mk dc dl (d, dv) dr0) up
  have hnds := hsub.nodup hnd
  rw [Rep_mk] at hf0
  obtain ⟨-, d0, hd0, -, hdc, hpar, hl, -⟩ := hf0
  simp only at hd0 hl
  obtain ⟨lq, hlq⟩ := root_ptr_ne_NULL hdl
  have hdleft : d0.left = some lq := (Rep_root_ptr hl).trans hlq
  obtain ⟨lq0, hlq0, -⟩ := Rep_root_allocated hl hlq
  rw [addrs_mk] at hnds
  simp only [List.nodup_append, List.nodup_cons] at hnds
  obtain ⟨ndl, ⟨hddr, -⟩, hdis⟩ := hnds
  have hds : d ∈ addrs (mk dc dl (d, dv) dr0) := by rw [addrs_mk]; simp
  have hdls : ∀ b ∈ addrs dl, b ∈ addrs (mk dc dl (d, dv) dr0) ∧ b ∉ addrs dr0 ∧ b ≠ d ∧ b ≠ y :=
    fun b hb => ⟨by rw [addrs_mk]; simp [hb], fun hm => hdis hb (List.mem_cons_of_mem _ hm),
      fun e => hdis hb (e ▸ List.mem_cons_self _ _), fun e => hydl (e ▸ hb)⟩
  have hlqm : lq ∈ addrs dl := root_ptr_mem_addrs hlq
  -- the parent of `d`
  have hpfacts : ∀ p, d0.parent = some p →
      p ∉ addrs (mk dc dl (d, dv) dr0) ∧ p ∈ addrs (plug (mk dc dl (d, dv) dr0) up) ∧
        p ≠ y ∧ ∃ p0, h0.nodes p = some p0 ∧ hb.nodes p = some p0 := by
    intro p e
    rw [hpar] at e
    cases up with
    | nil => simp [parent_ptr] at e
    | cons f up =>
      simp only [parent_ptr, Option.some.injEq] at e
      subst e
      obtain ⟨h1, cell, hc, -⟩ := parent_slot (q := none) hrep hnd (u := d) rfl
      have h2 := frame_mem_addrs_plug (mk dc dl (d, dv) dr0) f up
      refine ⟨h1, h2, hyctx _ h2 h1, cell, hc, ?_⟩
      rw [hsame _ h2 (fun hm => h1 (by rw [addrs_mk]; simp [hm])) (hyctx _ h2 h1)]
      exact hc
  have hbd : hb.nodes d = some d0 := by
    rw [hsame d (hsub.subset hds) hddr (Ne.symm hyd)]; exact hd0
  have hblq : hb.nodes lq = some lq0 := by
    rw [hsame lq (hsub.subset (hdls lq hlqm).1) (hdls lq hlqm).2.1 (hdls lq hlqm).2.2.2]
    exact hlq0
  obtain ⟨hc, ec, rc, pc, wc, oc⟩ := rb_transplant_mem_spec hb d (some y) d0 hbd
    (fun p e => ⟨fun e2 => (hpfacts p e).1 (e2 ▸ hds), (hpfacts p e).2.2.2.imp (fun _ hh => hh.2)⟩)
    (fun w e => by
      cases e
      exact ⟨fun e2 => (hpfacts y e2.symm).2.2.1 rfl, y1, hy⟩)
  have hcy := wc y y1 rfl hy
  have hdp : some d ≠ d0.parent := fun e => (hpfacts d e.symm).1 hds
  have hlqp : some lq ≠ d0.parent := fun e => (hpfacts lq e.symm).1 (hdls lq hlqm).1
  have hcd : hc.nodes d = some d0 := by
    rw [oc d hdp (fun e => hyd (Option.some.inj e).symm)]; exact hbd
  have hclq : hc.nodes lq = some lq0 := by
    rw [oc lq hlqp (fun e => (hdls lq hlqm).2.2.2 (Option.some.inj e))]; exact hblq
  have hlqy : lq ≠ y := (hdls lq hlqm).2.2.2
  have hlqd : lq ≠ d := (hdls lq hlqm).2.2.1
  refine ⟨((hc.store y { y1 with parent := d0.parent, left := d0.left }).store lq
      { lq0 with parent := some y }).store y
        { y1 with parent := d0.parent, left := d0.left, color := d0.color }, ?_, ?_, ?_, ?_⟩
  · unfold replace_deleted
    simp only [StateT_bind_eq_some, deref_eq_some, write_left_eq_some, write_parent_eq_some,
      write_color_eq_some]
    refine ⟨(), hc, ec, d0, hc, ⟨d, rfl, hcd, rfl⟩, (), _, ⟨y, _, rfl, hcy, rfl⟩,
      { y1 with parent := d0.parent, left := d0.left }, _, ⟨y, rfl, store_nodes_same _ _ _, rfl⟩,
      (), _, ⟨lq, lq0, hdleft, ?_, rfl⟩, d0, _, ⟨d, rfl, ?_, rfl⟩, y,
      { y1 with parent := d0.parent, left := d0.left }, rfl, ?_, rfl⟩
    · rw [store_nodes_ne _ _ hlqy]; exact hclq
    · rw [store_nodes_ne _ _ (Ne.symm hlqd), store_nodes_ne _ _ (Ne.symm hyd)]; exact hcd
    · rw [store_nodes_ne _ _ (Ne.symm hlqy), store_nodes_same]
  · -- memory holds the new tree
    have hfy : ∀ b, b ≠ y → b ≠ lq → some b ≠ d0.parent →
        (((hc.store y { y1 with parent := d0.parent, left := d0.left }).store lq
          { lq0 with parent := some y }).store y
            { y1 with parent := d0.parent, left := d0.left, color := d0.color }).nodes b =
          hb.nodes b := by
      intro b b1 b2 b3
      rw [store_nodes_ne _ _ b1, store_nodes_ne _ _ b2, store_nodes_ne _ _ b1,
        oc b b3 (fun e => b1 (Option.some.inj e))]
    refine Rep_plug_swap hrep hnd (q := some y) ?_ ?_ ?_
    · rw [Rep_mk]
      refine ⟨rfl, _, store_nodes_same _ _ _, rfl, hdc, hpar, ?_, ?_⟩
      · refine Rep_reparent hl ndl ?_ ?_
        · intro b cell hb1 hcell
          have : b = lq := Option.some.inj (hb1.symm.trans hlq)
          subst this
          rw [hlq0] at hcell
          cases hcell
          show (Heap.store _ _ _).nodes b = _
          rw [store_nodes_ne _ _ hlqy, store_nodes_same]
        · intro b hb1 hne
          obtain ⟨m1, m2, m3, m4⟩ := hdls b hb1
          rw [← hsame b (hsub.subset m1) m2 m4]
          exact hfy b m4 (fun e => hne (by rw [e, hlq])) (fun e => (hpfacts b e.symm).1 m1)
      · refine Rep_congr ?_ hR
        intro b hb1
        obtain ⟨m1, m2⟩ := hRd b hb1
        have m3 : b ∈ addrs (mk dc dl (d, dv) dr0) := by rw [addrs_mk]; simp [m1]
        exact hfy b m2 (fun e => (hdls lq hlqm).2.1 (e ▸ m1)) (fun e => (hpfacts b e.symm).1 m3)
    · intro b b1 b2 b3
      have b4 : b ≠ y := hyctx b b1 b2
      have b5 : b ≠ lq := fun e => b2 (e ▸ (hdls lq hlqm).1)
      rw [← hsame b b1 (fun hm => b2 (by rw [addrs_mk]; simp [hm])) b4]
      exact hfy b b4 b5 (hpar ▸ b3)
    · cases up with
      | nil =>
        simp only
        exact rc (by rw [hpar]; rfl)
      | cons f up =>
        simp only
        obtain ⟨n1, cell, hc0, hconv⟩ := parent_slot (q := some y) hrep hnd (u := d) rfl
        have hpf : d0.parent = some f.value.1 := by rw [hpar]; rfl
        obtain ⟨m1, m2, m3, p0, m4, m5⟩ := hpfacts f.value.1 hpf
        rw [hc0] at m4
        cases m4
        obtain ⟨q1, q2⟩ := pc f.value.1 cell hpf m5
        refine ⟨?_, cell, hc0, ?_⟩
        · show hc.root = h0.root
          rw [q1, hroot]
        · show (Heap.store _ _ _).nodes f.value.1 = _
          rw [store_nodes_ne _ _ m3,
            store_nodes_ne _ _ (fun (e : f.value.1 = lq) => m1 (e ▸ (hdls lq hlqm).1)),
            store_nodes_ne _ _ m3, q2, hconv]
  · intro b b1 b2 b3
    have b4 : b ≠ lq := fun e => b3 (by rw [e, hlq])
    show (Heap.store _ _ _).nodes b = _
    rw [store_nodes_ne _ _ b1, store_nodes_ne _ _ b4, store_nodes_ne _ _ b1,
      oc b (hpar ▸ b2) (fun e => b1 (Option.some.inj e))]
  · intro b
    show ((Heap.store _ _ _).nodes b).isSome = _
    by_cases b1 : b = y
    · subst b1
      rw [store_nodes_same, hy]
      rfl
    · rw [store_nodes_ne _ _ b1]
      by_cases b2 : b = lq
      · subst b2
        rw [store_nodes_same, hblq]
        rfl
      · rw [store_nodes_ne _ _ b2, store_nodes_ne _ _ b1]
        by_cases b3 : some b = d0.parent
        · obtain ⟨-, -, -, p0, -, m5⟩ := hpfacts b b3.symm
          rw [(pc b p0 b3.symm m5).2, m5]
          rfl
        · rw [oc b b3 (fun e => b1 (Option.some.inj e))]

theorem count_addrs_plug {V : Type} (b : Nat) (t : Node (Nat × V))
    (up : List (Frame (Nat × V))) :
    (addrs (plug t up)).count b =
      ((left_of up).map Prod.fst).count b + (addrs t).count b +
        ((right_of up).map Prod.fst).count b := by
  rw [addrs_plug, List.count_append, List.count_append]
  omega

/-- Freeing the node that was taken out: when memory holds a tree whose nodes are those
of the former tree without `d`, and allocation is as before, then after `free(d)` memory
holds that tree and nothing else. -/
theorem holds_tree_free {V : Type} {h h2 : Heap V} {T T2 : Node (Nat × V)} {d : Nat}
    (hnd : (addrs T).Nodup) (hall : ∀ a, (h.nodes a).isSome = true → a ∈ addrs T)
    (hr2 : Rep h2.nodes none h2.root T2)
    (hcount : ∀ b, (addrs T2).count b + (if b = d then 1 else 0) = (addrs T).count b)
    (halloc : ∀ b, (h2.nodes b).isSome = (h.nodes b).isSome) :
    holds_tree { root := h2.root, nodes := fun b => if b = d then none else h2.nodes b } := by
  have hle : ∀ b, (addrs T).count b ≤ 1 := List.nodup_iff_count_le_one.1 hnd
  have hd2 : d ∉ addrs T2 := by
    intro hm
    have h1 := List.count_pos_iff.2 hm
    have h2 := hcount d
    have h3 := hle d
    simp only [if_true] at h2
    omega
  refine ⟨T2, Rep_congr ?_ hr2, ?_, ?_⟩
  · intro b hb
    have : b ≠ d := fun e => hd2 (e ▸ hb)
    simp [this]
  · rw [List.nodup_iff_count_le_one]
    intro b
    have h2 := hcount b
    have h3 := hle b
    omega
  · intro b hb
    simp only at hb
    by_cases hbd : b = d
    · simp [hbd] at hb
    · simp only [hbd, if_false] at hb
      rw [halloc] at hb
      have h1 := List.count_pos_iff.2 (hall b hb)
      have h2 := hcount b
      simp only [hbd, if_false] at h2
      exact List.count_pos_iff.1 (by omega)

theorem free_node_eq_some {V : Type} (d : Nat) (h : Heap V) (u : Unit) (h2 : Heap V) :
    free_node (some d) h = some (u, h2) ↔
      h2 = { root := h.root, nodes := fun b => if b = d then none else h.nodes b } := by
  simp only [free_node, Option.some.injEq, Prod.mk.injEq, true_and]
  exact eq_comm

/-- The walk to the minimum on memory reads only, and ends at a node of the subtree
that has no left child. -/
theorem private_subrb_tree_minimum_mem_spec {V : Type} (fuel : Nat) :
    ∀ (h h2 : Heap V) (t : Node (Nat × V)) (par p res : Option Nat),
      Rep h.nodes par p t → private_subrb_tree_minimum_mem fuel p h = some (res, h2) →
      h2 = h ∧ ∃ y y0, res = some y ∧ y ∈ addrs t ∧ h.nodes y = some y0 ∧ y0.left = none := by
  induction fuel with
  | zero =>
    intro h h2 t par p res _ e
    simp [private_subrb_tree_minimum_mem, failure_run] at e
  | succ fuel ih =>
    intro h h2 t par p res hrep e
    simp only [private_subrb_tree_minimum_mem, StateT_bind_eq_some, deref_eq_some] at e
    obtain ⟨c, h1, ⟨a, rfl, hc, rfl⟩, e⟩ := e
    obtain ⟨tc, tl, tv, tr, rfl⟩ := root_ptr_eq_some (Rep_root_ptr hrep).symm
    rw [Rep_mk] at hrep
    obtain ⟨-, cell, hx, -, -, -, hl, -⟩ := hrep
    simp only at hx hl
    rw [hc] at hx
    cases hx
    by_cases hleft : c.left = none
    · simp only [hleft, if_true, pure_eq_some] at e
      obtain ⟨rfl, rfl⟩ := e
      exact ⟨rfl, a, c, rfl, by rw [addrs_mk]; simp, hc, hleft⟩
    · simp only [hleft, if_false] at e
      obtain ⟨e1, y, y0, e2, e3, e4, e5⟩ := ih h1 h2 tl (some a) c.left res hl e
      exact ⟨e1, y, y0, e2, by rw [addrs_mk]; simp [e3], e4, e5⟩

theorem Cell_eta_parent {V : Type} (c : Cell V) (p : Option Nat) (h : c.parent = p) :
    ({ c with parent := p } : Cell V) = c := by
  cases c
  simp only at h
  subst h
  rfl

/-- The successor is the right child of `delete_me` and has a right child: after
`subtree_of_deleted->parent = y` and the statements that put `y` in the place of
`delete_me`, memory holds the tree with `y` in the place of `delete_me`. -/
theorem rb_delete_successor_is_child {V : Type} (h : Heap V) (dc : Color)
    (dl : Node (Nat × V)) (d : Nat) (dv : V) (yc : Color) (y : Nat) (yv : V)
    (yr : Node (Nat × V)) (up : List (Frame (Nat × V)))
    (hrep : Rep h.nodes none h.root (plug (mk dc dl (d, dv) (mk yc NULL (y, yv) yr)) up))
    (hnd : (addrs (plug (mk dc dl (d, dv) (mk yc NULL (y, yv) yr)) up)).Nodup)
    (hdl : dl ≠ NULL) (hyr : yr ≠ NULL) :
    ∃ hb hf, detach_successor (some d) (some y) (root_ptr yr) h = some ((), hb) ∧
      replace_deleted (some d) (some y) hb = some ((), hf) ∧
      Rep hf.nodes none hf.root (plug (mk dc dl (y, yv) yr) up) ∧
      (∀ b, (hf.nodes b).isSome = (h.nodes b).isSome) := by
  obtain ⟨hf0, -⟩ := Rep_plug_focus up _ _ hrep
  have hsub := addrs_sublist_plug (mk dc dl (d, dv) (mk yc NULL (y, yv) yr)) up
  have hnds := hsub.nodup hnd
  rw [Rep_mk] at hf0
  obtain ⟨-, d0, hd0, -, -, -, -, hr⟩ := hf0
  simp only at hd0 hr
  rw [Rep_mk] at hr
  obtain ⟨-, y0, hy0, hyv, -, hypar, -, hyr2⟩ := hr
  simp only at hy0 hyv hyr2
  obtain ⟨x, hx⟩ := root_ptr_ne_NULL hyr
  have hyright : y0.right = some x := (Rep_root_ptr hyr2).trans hx
  obtain ⟨x0, hx0, hxpar⟩ := Rep_root_allocated hyr2 hx
  simp only [addrs_mk, addrs_NULL, List.nil_append, List.nodup_append, List.nodup_cons,
    List.mem_cons, List.mem_append, not_or] at hnds
  obtain ⟨ndl, ⟨⟨hdy, hdyr⟩, hyyr, ndyr⟩, hdis⟩ := hnds
  have hxm : x ∈ addrs yr := root_ptr_mem_addrs hx
  have hxy : x ≠ y := fun e => hyyr (e ▸ hxm)
  have hsame : ∀ b, (h.store x { x0 with parent := some y }).nodes b = h.nodes b := by
    intro b
    by_cases e : b = x
    · rw [e, store_nodes_same, Cell_eta_parent x0 _ hxpar, hx0]
    · exact store_nodes_ne _ _ e
  obtain ⟨hf, ef, rf, -, af⟩ := replace_deleted_spec h (h.store x { x0 with parent := some y })
    dc dl d dv (mk yc NULL (y, yv) yr) up y y0 yr hrep hnd hdl rfl
    (fun b _ _ _ => hsame b) ((hsame y).trans hy0) (fun e => hdy e.symm)
    (fun hm => hdis hm (by simp))
    (fun b _ hn e => hn (by rw [e, addrs_mk, addrs_mk]; simp))
    (Rep_congr (fun b _ => hsame b) hyr2)
    (fun b hb => ⟨by rw [addrs_mk]; simp [hb], fun e => hyyr (e ▸ hb)⟩)
  refine ⟨_, hf, ?_, ef, hyv ▸ rf, ?_⟩
  · unfold detach_successor
    simp only [StateT_bind_eq_some, deref_eq_some]
    refine ⟨y0, h, ⟨y, rfl, hy0, rfl⟩, ?_⟩
    rw [if_pos ⟨hypar, by rw [hx]; simp⟩, write_parent_eq_some]
    exact ⟨x, x0, hx, hx0, rfl⟩
  · intro b
    rw [af b, hsame b]

theorem adopt_right_spec {V : Type} (ha : Heap V) (y : Nat) (y1 : Cell V)
    (hy : ha.nodes y = some y1)
    (hr : ∀ e, y1.right = some e → ∃ e0, ha.nodes e = some e0) :
    ∃ hb, adopt_right (some y) ha = some ((), hb) ∧ hb.root = ha.root ∧
      (∀ b, some b ≠ y1.right → hb.nodes b = ha.nodes b) ∧
      (∀ e e0, y1.right = some e → ha.nodes e = some e0 →
        hb.nodes e = some { e0 with parent := some y }) := by
  unfold adopt_right
  simp only [StateT_bind_eq_some, deref_eq_some]
  rcases hright : y1.right with _ | e
  · refine ⟨ha, ⟨y1, ha, ⟨y, rfl, hy, rfl⟩, ?_⟩, rfl, fun _ _ => rfl, ?_⟩
    · rw [if_pos hright]; rfl
    · intro e e0 he; cases he
  · obtain ⟨e0, he0⟩ := hr e hright
    refine ⟨ha.store e { e0 with parent := some y }, ⟨y1, ha, ⟨y, rfl, hy, rfl⟩, ?_⟩, rfl,
      fun b hb => store_nodes_ne _ _ (fun e2 => hb (by rw [e2])), ?_⟩
    · rw [if_neg (by rw [hright]; simp), write_parent_eq_some]
      exact ⟨e, e0, hright, he0, rfl⟩
    · intro e2 e3 he2 he3
      cases he2
      rw [he0] at he3
      cases he3
      exact store_nodes_same _ _ _

/-- The successor is not the right child of `delete_me`, or has no right child: after
`rb_transplant(tree, y, y->right)`, the statements that give `y` the right subtree of
`delete_me`, and the statements that put `y` in the place of `delete_me`, memory holds
the tree with `y` in the place of `delete_me`. -/
theorem rb_delete_successor_detached {V : Type} (h : Heap V) (dc : Color)
    (dl : Node (Nat × V)) (d : Nat) (dv : V) (yc : Color) (y : Nat) (yv : V)
    (yr : Node (Nat × V)) (yup up : List (Frame (Nat × V)))
    (hrep : Rep h.nodes none h.root
      (plug (mk dc dl (d, dv) (plug (mk yc NULL (y, yv) yr) yup)) up))
    (hnd : (addrs (plug (mk dc dl (d, dv) (plug (mk yc NULL (y, yv) yr) yup)) up)).Nodup)
    (hdl : dl ≠ NULL) (hcase : yup ≠ [] ∨ yr = NULL) :
    ∃ hb hf, detach_successor (some d) (some y) (root_ptr yr) h = some ((), hb) ∧
      replace_deleted (some d) (some y) hb = some ((), hf) ∧
      Rep hf.nodes none hf.root (plug (mk dc dl (y, yv) (plug yr yup)) up) ∧
      (∀ b, (hf.nodes b).isSome = (h.nodes b).isSome) := by
  have hE : ∀ s : Node (Nat × V), plug (mk dc dl (d, dv) (plug s yup)) up =
      plug s (yup ++ (⟨R, dc, (d, dv), dl⟩ : Frame (Nat × V)) :: up) := by
    intro s
    rw [plug_append]
    rfl
  have hrepY := hrep
  have hndY := hnd
  rw [hE] at hrepY hndY
  obtain ⟨h1, e1, r1, -, hy1, a1⟩ := rb_transplant_mem_child h yc NULL y yv yr _ yr hrepY hndY
    (Or.inl ⟨rfl, rfl⟩)
  have hc : ∀ b, (addrs (plug yr (yup ++ (⟨R, dc, (d, dv), dl⟩ : Frame (Nat × V)) :: up))).count b
      + (if b = y then 1 else 0)
      = (addrs (plug (mk yc NULL (y, yv) yr)
          (yup ++ (⟨R, dc, (d, dv), dl⟩ : Frame (Nat × V)) :: up))).count b := by
    intro b
    rw [count_addrs_plug, count_addrs_plug, addrs_mk, addrs_NULL, List.nil_append,
      List.count_cons]
    by_cases e : b = y
    · simp [e]; omega
    · have e2 : ¬ y = b := fun e3 => e e3.symm
      simp [e, e2]
  have hcY := List.nodup_iff_count_le_one.1 hndY
  have hnd1 : (addrs (plug yr (yup ++ (⟨R, dc, (d, dv), dl⟩ : Frame (Nat × V)) :: up))).Nodup := by
    rw [List.nodup_iff_count_le_one]
    intro b
    have := hc b
    have := hcY b
    omega
  have hyT1 : y ∉ addrs (plug yr (yup ++ (⟨R, dc, (d, dv), dl⟩ : Frame (Nat × V)) :: up)) := by
    rw [← List.count_eq_zero]
    have := hc y
    have := hcY y
    simp only [if_true] at this
    rw [if_pos rfl] at *
    omega
  rw [← hE] at r1 hnd1 hyT1
  -- the fields of `y` before the call
  obtain ⟨hfy, -⟩ := Rep_plug_focus _ _ _ hrepY
  rw [Rep_mk] at hfy
  obtain ⟨-, y0, hy0, hyv, -, hypar, -, hyr2⟩ := hfy
  simp only at hy0 hyv hyr2
  have hyright : y0.right = root_ptr yr := Rep_root_ptr hyr2
  -- the fields of `delete_me` after the transplant
  obtain ⟨hfd, -⟩ := Rep_plug_focus up _ _ r1
  have hsub1 := addrs_sublist_plug (mk dc dl (d, dv) (plug yr yup)) up
  have hnds1 := hsub1.nodup hnd1
  rw [Rep_mk] at hfd
  obtain ⟨-, d1, hd1, -, -, -, -, hr1⟩ := hfd
  simp only at hd1 hr1
  have hdT1 : d ∈ addrs (plug (mk dc dl (d, dv) (plug yr yup)) up) :=
    hsub1.subset (by rw [addrs_mk]; simp)
  have hdy : d ≠ y := fun e => hyT1 (e ▸ hdT1)
  rw [addrs_mk] at hnds1
  simp only [List.nodup_append, List.nodup_cons] at hnds1
  obtain ⟨-, ⟨-, nddr1⟩, -⟩ := hnds1
  have hdr1T : ∀ b, b ∈ addrs (plug yr yup) →
      b ∈ addrs (plug (mk dc dl (d, dv) (plug yr yup)) up) :=
    fun b hb => hsub1.subset (by rw [addrs_mk]; simp [hb])
  have hdlT : ∀ b, b ∈ addrs dl →
      b ∈ addrs (plug (mk dc dl (d, dv) (plug yr yup)) up) :=
    fun b hb => hsub1.subset (by rw [addrs_mk]; simp [hb])
  have hd1r : d1.right = root_ptr (plug yr yup) := Rep_root_ptr hr1
  -- `y->right = delete_me->right; if (y->right != NULL) y->right->parent = y;`
  have hay : (h1.store y { y0 with right := d1.right }).nodes y
      = some { y0 with right := d1.right } := store_nodes_same _ _ _
  obtain ⟨hb, eb, rootb, sameb, newb⟩ := adopt_right_spec
    (h1.store y { y0 with right := d1.right }) y { y0 with right := d1.right } hay (by
      intro e he
      simp only at he
      obtain ⟨e0, he0, -⟩ := Rep_root_allocated hr1 (hd1r ▸ he)
      have hey : e ≠ y := fun e2 => hyT1 (hdr1T _ (e2 ▸ root_ptr_mem_addrs (hd1r ▸ he)))
      exact ⟨e0, (store_nodes_ne _ _ hey).trans he0⟩)
  simp only at sameb newb
  have hb_out : ∀ b, b ≠ y → b ∉ addrs (plug yr yup) → hb.nodes b = h1.nodes b := by
    intro b hby hbn
    rw [sameb b (fun e => hbn (root_ptr_mem_addrs (hd1r ▸ e.symm))), store_nodes_ne _ _ hby]
  have hb_y : hb.nodes y = some { y0 with right := d1.right } := by
    rw [sameb y (fun e => hyT1 (hdr1T _ (root_ptr_mem_addrs (hd1r ▸ e.symm)))), hay]
  have hb_alloc : ∀ b, (hb.nodes b).isSome = (h1.nodes b).isSome := by
    intro b
    by_cases e : some b = d1.right
    · obtain ⟨e0, he0, -⟩ := Rep_root_allocated hr1 (hd1r ▸ e.symm)
      have hey : b ≠ y := fun e2 => hyT1 (hdr1T _ (e2 ▸ root_ptr_mem_addrs (hd1r ▸ e.symm)))
      rw [newb b e0 e.symm ((store_nodes_ne _ _ hey).trans he0), he0]
      rfl
    · rw [sameb b e]
      by_cases e2 : b = y
      · rw [e2, store_nodes_same, hy1, hy0]; rfl
      · rw [store_nodes_ne _ _ e2]
  have hRb : Rep hb.nodes (some y) d1.right (plug yr yup) := by
    refine Rep_reparent hr1 nddr1 ?_ ?_
    · intro a cell ha hcell
      have hay2 : a ≠ y := fun e2 => hyT1 (hdr1T _ (e2 ▸ root_ptr_mem_addrs ha))
      exact newb a cell (hd1r ▸ ha) ((store_nodes_ne _ _ hay2).trans hcell)
    · intro a ha hne
      have hay2 : a ≠ y := fun e2 => hyT1 (hdr1T _ (e2 ▸ ha))
      rw [sameb a (fun e => hne (hd1r ▸ e)), store_nodes_ne _ _ hay2]
  obtain ⟨hf, ef, rf, -, af⟩ := replace_deleted_spec h1 hb dc dl d dv (plug yr yup) up y
    { y0 with right := d1.right } (plug yr yup) r1 hnd1 hdl (rootb.trans rfl)
    (fun b _ hn hby => hb_out b hby hn) hb_y (fun e => hdy e.symm)
    (fun hm => hyT1 (hdlT _ hm))
    (fun b hb _ e => hyT1 (e ▸ hb))
    hRb
    (fun b hb => ⟨hb, fun e => hyT1 (hdr1T _ (e ▸ hb))⟩)
  refine ⟨hb, hf, ?_, ef, hyv ▸ rf, ?_⟩
  · unfold detach_successor
    simp only [StateT_bind_eq_some, deref_eq_some]
    refine ⟨y0, h, ⟨y, rfl, hy0, rfl⟩, ?_⟩
    have hcond : ¬ (y0.parent = some d ∧ root_ptr yr ≠ none) := by
      rintro ⟨hp, hn⟩
      rcases hcase with hne | hnull
      · cases yup with
        | nil => exact hne rfl
        | cons f yup2 =>
          rw [hypar] at hp
          simp only [List.cons_append, parent_ptr, Option.some.injEq] at hp
          have hm := frame_mem_addrs_plug (mk yc NULL (y, yv) yr) f yup2
          have hsub := addrs_sublist_plug
            (mk dc dl (d, dv) (plug (mk yc NULL (y, yv) yr) (f :: yup2))) up
          have hnds := hsub.nodup hnd
          rw [addrs_mk] at hnds
          simp only [List.nodup_append, List.nodup_cons] at hnds
          exact hnds.2.1.1 (hp ▸ hm)
      · exact hn (by rw [hnull]; rfl)
    rw [if_neg hcond]
    simp only [StateT_bind_eq_some, deref_eq_some, write_right_eq_some]
    refine ⟨(), h1, hyright ▸ e1, d1, h1, ⟨d, rfl, hd1, rfl⟩, (), _, ?_, eb⟩
    exact ⟨y, y0, rfl, hy1.trans hy0, rfl⟩
  · intro b
    rw [af b, hb_alloc b, a1 b]

theorem root_ptr_eq_none {V : Type} {t : Node (Nat × V)} (h : root_ptr t = none) :
    t = NULL := by
  cases t with
  | NULL => rfl
  | mk c l x r => simp [root_ptr] at h

theorem count_cons_eq (b a : Nat) (l : List Nat) :
    (a :: l).count b = l.count b + (if b = a then 1 else 0) := by
  rw [List.count_cons]
  by_cases e : b = a
  · simp [e]
  · have e2 : ¬ a = b := fun e3 => e e3.symm
    simp [e, e2]

/-- The `else` branch of `rb_delete_value` on memory: when the call completes, memory
holds a tree whose nodes are those of the tree before, `delete_me` apart. -/
theorem rb_delete_two_children_mem_spec {V : Type} (fuel : Nat) (h h2 : Heap V) (dc : Color)
    (dl : Node (Nat × V)) (d : Nat) (dv : V) (dr : Node (Nat × V))
    (up : List (Frame (Nat × V))) (res : Color × Option Nat)
    (hrep : Rep h.nodes none h.root (plug (mk dc dl (d, dv) dr) up))
    (hnd : (addrs (plug (mk dc dl (d, dv) dr) up)).Nodup) (hdl : dl ≠ NULL)
    (e : rb_delete_two_children_mem fuel (some d) h = some (res, h2)) :
    ∃ T2, Rep h2.nodes none h2.root T2 ∧
      (∀ b, (addrs T2).count b + (if b = d then 1 else 0)
        = (addrs (plug (mk dc dl (d, dv) dr) up)).count b) ∧
      (∀ b, (h2.nodes b).isSome = (h.nodes b).isSome) := by
  unfold rb_delete_two_children_mem at e
  simp only [StateT_bind_eq_some, deref_eq_some, pure_eq_some] at e
  obtain ⟨yp, h1, esucc, y0, h1b, ⟨y, rfl, hy0, rfl⟩, u1, hb, edet, u2, hf, erep, -, rfl⟩ := e
  unfold private_rb_find_successor_mem at esucc
  simp only [StateT_bind_eq_some, deref_eq_some] at esucc
  obtain ⟨c, h0, ⟨a, ha, hc, rfl⟩, emin⟩ := esucc
  cases ha
  obtain ⟨hfd, -⟩ := Rep_plug_focus up _ _ hrep
  rw [Rep_mk] at hfd
  obtain ⟨-, d0, hd0, -, -, -, -, hr⟩ := hfd
  simp only at hd0 hr
  rw [hd0] at hc
  cases hc
  obtain ⟨rfl, y2, y3, hy2, hym, -, -⟩ :=
    private_subrb_tree_minimum_mem_spec fuel _ _ dr (some d) _ _ hr emin
  cases hy2
  obtain ⟨yc, yl, yv, yr, yup, hplug⟩ := exists_plug_of_mem_addrs dr [] y hym
  change dr = _ at hplug
  subst hplug
  -- the successor has no left child
  have hE : plug (mk dc dl (d, dv) (plug (mk yc yl (y, yv) yr) yup)) up =
      plug (mk yc yl (y, yv) yr) (yup ++ (⟨R, dc, (d, dv), dl⟩ : Frame (Nat × V)) :: up) := by
    rw [plug_append]
    rfl
  have hrepY := hrep
  rw [hE] at hrepY
  obtain ⟨hfy, -⟩ := Rep_plug_focus _ _ _ hrepY
  rw [Rep_mk] at hfy
  obtain ⟨-, y4, hy4, -, -, -, hyl, hyr⟩ := hfy
  simp only at hy4 hyl hyr
  rw [hy0] at hy4
  cases hy4
  have hmin := private_subrb_tree_minimum_mem_spec fuel _ _ _ (some d) _ _ hr emin
  obtain ⟨-, y5, y6, hy5, -, hy6, hleft⟩ := hmin
  cases hy5
  rw [hy0] at hy6
  cases hy6
  have hylN : yl = NULL := root_ptr_eq_none ((Rep_root_ptr hyl).symm.trans hleft)
  subst hylN
  have hyright : y0.right = root_ptr yr := Rep_root_ptr hyr
  rw [hyright] at edet
  have hall : ∃ hb hf, detach_successor (some d) (some y) (root_ptr yr) h1b = some ((), hb) ∧
      replace_deleted (some d) (some y) hb = some ((), hf) ∧
      Rep hf.nodes none hf.root (plug (mk dc dl (y, yv) (plug yr yup)) up) ∧
      (∀ b, (hf.nodes b).isSome = (h1b.nodes b).isSome) := by
    by_cases hcase : yup = [] ∧ yr ≠ NULL
    · obtain ⟨rfl, hyrN⟩ := hcase
      exact rb_delete_successor_is_child h1b dc dl d dv yc y yv yr up hrep hnd hdl hyrN
    · refine rb_delete_successor_detached h1b dc dl d dv yc y yv yr yup up hrep hnd hdl ?_
      by_cases e : yup = []
      · exact Or.inr (by_contra fun hn => hcase ⟨e, hn⟩)
      · exact Or.inl e
  obtain ⟨hb2, hf2, ed2, er2, rf, af⟩ := hall
  rw [ed2] at edet
  cases edet
  rw [er2] at erep
  cases erep
  refine ⟨_, rf, ?_, af⟩
  intro b
  rw [count_addrs_plug, count_addrs_plug, addrs_mk, addrs_mk, List.count_append,
    List.count_append, count_cons_eq, count_cons_eq, count_addrs_plug, count_addrs_plug,
    addrs_mk, addrs_NULL, List.nil_append, count_cons_eq]
  simp only []
  split_ifs <;> omega

/-- The part of `rb_delete_value` that takes `delete_me` out and frees it keeps the
memory a tree. -/
theorem Keeps_rb_delete_unlink_mem {V : Type} (fuel : Nat) (delete_me : Option Nat) :
    Keeps (rb_delete_unlink_mem fuel delete_me : StateT (Heap V) Option _) := by
  intro h x h2 e hw
  obtain ⟨T, hrep, hnd, hall⟩ := hw
  unfold rb_delete_unlink_mem at e
  simp only [StateT_bind_eq_some, deref_eq_some, pure_eq_some] at e
  obtain ⟨d0, h0, ⟨d, hdm, hd0, hh0⟩, res, hs, es, u, hfr, efree, -, hh2⟩ := e
  subst hdm
  subst hh0
  subst hh2
  have hdT : d ∈ addrs T := hall d (by rw [hd0]; rfl)
  obtain ⟨dc, dl, dv, dr, up, hplug⟩ := exists_plug_of_mem_addrs T [] d hdT
  change T = _ at hplug
  subst hplug
  obtain ⟨hfd, -⟩ := Rep_plug_focus up _ _ hrep
  rw [Rep_mk] at hfd
  obtain ⟨-, d1, hd1, -, -, -, hl, hr⟩ := hfd
  simp only at hd1 hl hr
  rw [hd0] at hd1
  cases hd1
  have hleft : d0.left = root_ptr dl := Rep_root_ptr hl
  have hright : d0.right = root_ptr dr := Rep_root_ptr hr
  have hspl : ∃ T2, Rep hs.nodes none hs.root T2 ∧
      (∀ b, (addrs T2).count b + (if b = d then 1 else 0)
        = (addrs (plug (mk dc dl (d, dv) dr) up)).count b) ∧
      (∀ b, (hs.nodes b).isSome = (h0.nodes b).isSome) := by
    unfold rb_delete_splice_mem at es
    split_ifs at es with hA hB
    · simp only [StateT_bind_eq_some, pure_eq_some] at es
      obtain ⟨u1, h1, e1, -, hh1⟩ := es
      subst hh1
      have hdlN : dl = NULL := root_ptr_eq_none (hleft.symm.trans hA)
      obtain ⟨h3, e3, r3, -, -, a3⟩ := rb_transplant_mem_child h0 dc dl d dv dr up dr hrep hnd
        (Or.inl ⟨hdlN, rfl⟩)
      rw [hright, e3] at e1
      cases e1
      refine ⟨_, r3, ?_, a3⟩
      intro b
      rw [count_addrs_plug, count_addrs_plug, addrs_mk, hdlN, addrs_NULL, List.nil_append,
        count_cons_eq]
      simp only []
      omega
    · simp only [StateT_bind_eq_some, pure_eq_some] at es
      obtain ⟨u1, h1, e1, -, hh1⟩ := es
      subst hh1
      have hdrN : dr = NULL := root_ptr_eq_none (hright.symm.trans hB)
      obtain ⟨h3, e3, r3, -, -, a3⟩ := rb_transplant_mem_child h0 dc dl d dv dr up dl hrep hnd
        (Or.inr ⟨hdrN, rfl⟩)
      rw [hleft, e3] at e1
      cases e1
      refine ⟨_, r3, ?_, a3⟩
      intro b
      rw [count_addrs_plug, count_addrs_plug, addrs_mk, hdrN, addrs_NULL, List.count_append,
        count_cons_eq]
      simp only [List.count_nil]
      omega
    · have hdl : dl ≠ NULL := by
        intro e
        rw [e] at hleft
        exact hA hleft
      exact rb_delete_two_children_mem_spec fuel h0 hs dc dl d dv dr up res hrep hnd hdl es
  obtain ⟨T2, r2, hcount, halloc⟩ := hspl
  rw [free_node_eq_some] at efree
  subst efree
  exact holds_tree_free hnd hall r2 hcount halloc

/-- The end of `rb_delete_value` keeps the memory a tree. -/
theorem Keeps_rb_delete_finish_mem {V : Type} (fuel : Nat) (c : Color) (x : Option Nat) :
    Keeps (rb_delete_finish_mem fuel c x : StateT (Heap V) Option _) := by
  unfold rb_delete_finish_mem
  exact Keeps_ite _ (Keeps_rb_delete_fixup_mem fuel x) (Keeps_pure _)

/-- Every run of `rb_delete_value` on memory that completes from a memory that holds a
tree ends in a memory that holds a tree. -/
theorem Keeps_rb_delete_value_mem {V : Type} (cmp : V → V → Int) (fuel : Nat) (value : V) :
    Keeps (rb_delete_value_mem cmp fuel value) := by
  unfold rb_delete_value_mem
  exact Keeps_bind Keeps_read_root (fun root =>
    Keeps_bind (Keeps_private_rb_find_in_tree_loop_mem cmp value fuel root) (fun delete_me =>
      Keeps_ite _ (Keeps_pure _)
        (Keeps_bind (Keeps_rb_delete_unlink_mem fuel delete_me)
          (fun res => Keeps_rb_delete_finish_mem fuel res.1 res.2))))

/-- In a memory that holds a tree the parent links are consistent. -/
theorem parent_links_consistent_of_holds_tree {V : Type} {h : Heap V} (hw : holds_tree h) :
    parent_links_consistent h := by
  obtain ⟨T, hrep, hnd, hall⟩ := hw
  constructor
  · intro a cell hroot hcell
    obtain ⟨c, l, v, r, e⟩ := root_ptr_eq_some ((Rep_root_ptr hrep).symm.trans hroot)
    subst e
    rw [Rep_mk] at hrep
    obtain ⟨hp, cell2, hc2, -, -, hpar, -, -⟩ := hrep
    rw [hroot] at hp
    cases hp
    rw [hcell] at hc2
    cases hc2
    exact hpar
  · intro a cell b hcell hchild
    have haT : a ∈ addrs T := hall a (by rw [hcell]; rfl)
    obtain ⟨c, l, v, r, up, hplug⟩ := exists_plug_of_mem_addrs T [] a haT
    change T = _ at hplug
    subst hplug
    obtain ⟨hf, -⟩ := Rep_plug_focus up _ _ hrep
    rw [Rep_mk] at hf
    obtain ⟨-, cell2, hc2, -, -, -, hl, hr⟩ := hf
    simp only at hc2 hl hr
    rw [hcell] at hc2
    cases hc2
    rcases hchild with hb | hb
    · exact Rep_root_allocated hl ((Rep_root_ptr hl).symm.trans hb)
    · exact Rep_root_allocated hr ((Rep_root_ptr hr).symm.trans hb)

/-- C34: parent links stay consistent.  When memory holds a tree (`holds_tree`: the root
has no parent, the `parent` field of every child points to the node that holds it, and
the allocated nodes are the nodes of the tree), every call of `rb_insert_value` and every
call of `rb_delete_value` that completes leaves a memory that again holds such a tree, so
that in it the root has no parent and every child's `parent` field points to the node
that holds the child (`parent_links_consistent`). -/
theorem C34_parent_links_stay_consistent {V : Type} (comparison_func : V → V → Int)
    (fuel new_node : Nat) (value : V) (h : Heap V) (hw : holds_tree h) :
    (∀ h2, rb_insert_value_mem comparison_func fuel new_node value h = some ((), h2) →
      holds_tree h2 ∧ parent_links_consistent h2) ∧
    (∀ h2, rb_delete_value_mem comparison_func fuel value h = some ((), h2) →
      holds_tree h2 ∧ parent_links_consistent h2) := by
  constructor
  · intro h2 e
    have hw2 := Keeps_rb_insert_value_mem comparison_func fuel new_node value h () h2 e hw
    exact ⟨hw2, parent_links_consistent_of_holds_tree hw2⟩
  · intro h2 e
    have hw2 := Keeps_rb_delete_value_mem comparison_func fuel value h () h2 e hw
    exact ⟨hw2, parent_links_consistent_of_holds_tree hw2⟩

theorem holds_tree_example_heap_left : holds_tree example_heap_left := by
  refine ⟨mk BLACK (mk RED (mk BLACK NULL (2, 3) NULL) (1, 5)
    (mk BLACK (mk RED NULL (4, 6) NULL) (3, 8) (mk RED NULL (5, 9) NULL))) (0, 10) NULL,
    by simp [Rep, example_heap_left], by decide, ?_⟩
  intro a ha
  by_contra hn
  have h0 : a ≠ 0 := fun e => hn (by rw [e]; decide)
  have h1 : a ≠ 1 := fun e => hn (by rw [e]; decide)
  have h2 : a ≠ 2 := fun e => hn (by rw [e]; decide)
  have h3 : a ≠ 3 := fun e => hn (by rw [e]; decide)
  have h4 : a ≠ 4 := fun e => hn (by rw [e]; decide)
  have h5 : a ≠ 5 := fun e => hn (by rw [e]; decide)
  simp [example_heap_left, h0, h1, h2, h3, h4, h5] at ha

/-- Witness for C34 on `example_heap_left`: the insertion of 7 at the fresh address 6 and
the deletion of 5 (a node with two children) both complete, and leave consistent parent
links. -/
theorem C34_parent_links_stay_consistent_witness :
    holds_tree example_heap_left ∧
    (∃ h2, rb_insert_value_mem integer_comparison 10 6 7 example_heap_left = some ((), h2) ∧
      parent_links_consistent h2) ∧
    (∃ h2, rb_delete_value_mem integer_comparison 10 5 example_heap_left = some ((), h2) ∧
      parent_links_consistent h2) := by
  have hi : (rb_insert_value_mem integer_comparison 10 6 7 example_heap_left).isSome = true := by
    decide
  have hd : (rb_delete_value_mem integer_comparison 10 5 example_heap_left).isSome = true := by
    decide
  obtain ⟨⟨u1, h2⟩, e1⟩ := Option.isSome_iff_exists.1 hi
  obtain ⟨⟨u2, h3⟩, e2⟩ := Option.isSome_iff_exists.1 hd
  exact ⟨holds_tree_example_heap_left,
    ⟨h2, e1, ((C34_parent_links_stay_consistent integer_comparison 10 6 7 example_heap_left
      holds_tree_example_heap_left).1 h2 e1).2⟩,
    ⟨h3, e2, ((C34_parent_links_stay_consistent integer_comparison 10 5 5 example_heap_left
      holds_tree_example_heap_left).2 h3 e2).2⟩⟩

end RedBlack
